import Mathlib

/-!
# Octree construction and Laplace kernels of `fmm-bem-relaxed`

A shallow embedding of `include/Octree.hpp` (the box records, the Morton bounds of a
key, `construct_tree`, `body_begin` / `body_end`) and of
`include/SphericalLaplaceKernel.hpp` (the direct kernel `P2P`, the coordinates, the
harmonic evaluators, the coefficient tables and the kernels `P2M`, `M2L`, `M2P`).

Conventions of the embedding.

* `unsigned` keys and Morton codes are natural numbers, every shift that can leave the
  32-bit word is reduced modulo `2 ^ 32` (`code_type` is the 32-bit `unsigned` of the
  Morton coder, which resolves 10 levels, i.e. 30-bit codes).
* Body and box indices are natural numbers; they are counts of elements of the vectors
  and are not reduced.
* A `while` loop whose termination depends on the data takes a fuel argument and
  returns `none` when the fuel runs out.
* `std::sort` of the code-index pairs is the insertion sort for the order of the pairs;
  the pairs are pairwise distinct, so that the sorted sequence is the same for every
  sorting algorithm. `std::lower_bound` and `std::upper_bound` are their bisection loops.
* `real` is an arbitrary field together with the square root function that is used; the
  properties of the kernel are stated in the real numbers, in exact arithmetic.
-/

namespace Octree

/-! ## Box records -/

/-- The constant `box_data::leaf_bit = (1<<31)`. -/
def leaf_bit : Nat := 2 ^ 31

/-- The constant `box_data::max_marker_bit = (1<<30)`. -/
def max_marker_bit : Nat := 2 ^ 30

/-- Modelled from the spec: the width of `code_type`, which `MortonCoder.hpp` declares and
which is not among the sources. The coder resolves 10 levels, i.e. 30-bit codes, in the
32-bit `unsigned` that `key_` has as well; `word` is the size of that word. -/
def word : Nat := 2 ^ 32

/-- The record `Octree::box_data`. -/
structure box_data where
  key_ : Nat
  parent_ : Nat
  child_begin_ : Nat
  child_end_ : Nat
deriving DecidableEq, Repr

/-- The value read where the embedding indexes a vector of boxes; every access of the
code is inside the vector, so that it is never used. -/
instance box_data_inhabited : Inhabited box_data := ⟨⟨0, 0, 0, 0⟩⟩

/-- The member `box_data::num_children`; `child_begin_ ≤ child_end_` in every record that
the tree stores, so that the difference does not wrap. -/
def box_data.num_children (b : box_data) : Nat :=
  b.child_end_ - b.child_begin_

/-- The table `lookup` of `box_data::level`. -/
def lookup : List Nat :=
  [0, 3, 0, 3, 4, 7, 0, 9,
   3, 4, 5, 6, 7, 8, 1, 10,
   2, 4, 6, 9, 5, 5, 8, 2,
   6, 9, 7, 2, 8, 1, 1, 10]

/-- The five smearing steps `v |= v >> 1; ...; v |= v >> 16` of `box_data::level`. -/
def smear (v : Nat) : Nat :=
  let v1 := v ||| (v >>> 1)
  let v2 := v1 ||| (v1 >>> 2)
  let v3 := v2 ||| (v2 >>> 4)
  let v4 := v3 ||| (v3 >>> 8)
  v4 ||| (v4 >>> 16)

/-- The level of a key, `box_data::level` applied to a raw key:
`v = key_ & ~leaf_bit`, smearing, 32-bit multiplication by `0x07C4ACDD`, table lookup. -/
def key_level (key : Nat) : Nat :=
  let v := smear (key &&& (word - 1 - leaf_bit))
  lookup.getD (((v * 0x07C4ACDD) % word) >>> 27) 0

/-- The member `box_data::level`. -/
def box_data.level (b : box_data) : Nat := key_level b.key_

/-- The loop of `box_data::get_mc_lower_bound`: shift left by three bits until the marker
bit `1<<30` is set. -/
def lower_loop : Nat → Nat → Option Nat
  | 0, _ => none
  | fuel + 1, mc_mask =>
    if mc_mask &&& max_marker_bit ≠ 0 then some mc_mask
    else lower_loop fuel ((mc_mask <<< 3) % word)

/-- The loop of `box_data::get_mc_upper_bound`: shift left by three bits and fill with
ones until the marker bit `1<<30` is set. -/
def upper_loop : Nat → Nat → Option Nat
  | 0, _ => none
  | fuel + 1, mc_mask =>
    if mc_mask &&& max_marker_bit ≠ 0 then some mc_mask
    else upper_loop fuel (((mc_mask <<< 3) % word) ||| 7)

/-- The member `box_data::get_mc_lower_bound`. -/
def box_data.get_mc_lower_bound (fuel : Nat) (b : box_data) : Option Nat :=
  (lower_loop fuel b.key_).map (fun m => m &&& (word - 1 - max_marker_bit))

/-- The member `box_data::get_mc_upper_bound`. -/
def box_data.get_mc_upper_bound (fuel : Nat) (b : box_data) : Option Nat :=
  (upper_loop fuel b.key_).map (fun m => m &&& (word - 1 - max_marker_bit))

/-- The member `box_data::set_leaf`. -/
def box_data.set_leaf (b : box_data) (flag : Bool) : box_data :=
  if flag then { b with key_ := b.key_ ||| leaf_bit }
  else { b with key_ := b.key_ &&& (word - 1 - leaf_bit) }

/-- The member `box_data::is_leaf`. -/
def box_data.is_leaf (b : box_data) : Bool :=
  b.key_ &&& leaf_bit ≠ 0

/-! ## Ordered-range searches -/

/-- The loop of `std::lower_bound` on the range of `mc_` that starts at `first` and has
`len` elements; the first argument bounds the number of iterations, `len` being halved
by every iteration. -/
def lower_bound_loop (mc_ : List Nat) (val : Nat) : Nat → Nat → Nat → Nat
  | 0, first, _ => first
  | n + 1, first, len =>
    if len = 0 then first
    else
      let half := len / 2
      let middle := first + half
      if mc_.getD middle 0 < val then lower_bound_loop mc_ val n (middle + 1) (len - half - 1)
      else lower_bound_loop mc_ val n first half

/-- The call `std::lower_bound(mc_.begin() + first, mc_.begin() + last, val)`, as an index
into `mc_`. -/
def lower_bound (mc_ : List Nat) (first last val : Nat) : Nat :=
  lower_bound_loop mc_ val (last - first) first (last - first)

/-- The loop of `std::upper_bound`, see `lower_bound_loop`. -/
def upper_bound_loop (mc_ : List Nat) (val : Nat) : Nat → Nat → Nat → Nat
  | 0, first, _ => first
  | n + 1, first, len =>
    if len = 0 then first
    else
      let half := len / 2
      let middle := first + half
      if val < mc_.getD middle 0 then upper_bound_loop mc_ val n first half
      else upper_bound_loop mc_ val n (middle + 1) (len - half - 1)

/-- The call `std::upper_bound(mc_.begin() + first, mc_.begin() + last, val)`, as an index
into `mc_`. -/
def upper_bound (mc_ : List Nat) (first last val : Nat) : Nat :=
  upper_bound_loop mc_ val (last - first) first (last - first)

/-! ## Tree construction -/

/-- The critical occupancy `NCRIT = 1` of `construct_tree`. -/
def NCRIT : Nat := 1

/-- The order `operator<=` of `std::pair<code_type, unsigned>`, by which `std::sort`
arranges the code-index pairs. -/
def pair_le (a b : Nat × Nat) : Prop :=
  a.1 < b.1 ∨ (a.1 = b.1 ∧ a.2 ≤ b.2)

instance pair_le_decidable : DecidableRel pair_le :=
  fun a b => inferInstanceAs (Decidable (a.1 < b.1 ∨ (a.1 = b.1 ∧ a.2 ≤ b.2)))

instance pair_le_total : IsTotal (Nat × Nat) pair_le :=
  ⟨fun a b => by unfold pair_le; omega⟩

instance pair_le_trans : IsTrans (Nat × Nat) pair_le :=
  ⟨fun a b c => by unfold pair_le; omega⟩

/-- The first loop of `construct_tree`: every point is checked against the bounding box
(the `assert`), then copied to `points_tmp` and paired with its code. The error value is
the index of the point at which the assertion fails. -/
def collect {α : Type} (contains : α → Bool) (code : α → Nat) :
    List α → Nat → List α → List (Nat × Nat) → Except Nat (List α × List (Nat × Nat))
  | [], _, points_tmp, code_idx => .ok (points_tmp, code_idx)
  | p :: rest, idx, points_tmp, code_idx =>
    if contains p then
      collect contains code rest (idx + 1) (points_tmp ++ [p]) (code_idx ++ [(code p, idx)])
    else .error idx

/-- One pass of the octant loop of `construct_tree` for the box `k` with key `key_p` and
body range `[mc_begin, mc_end)`; the state is `(box_data_, level_offset_)`. -/
def add_octant (fuel : Nat) (mc_ : List Nat) (key_p k mc_begin mc_end : Nat)
    (st : List box_data × List Nat) (oct : Nat) : Option (List box_data × List Nat) :=
  let key_c := ((key_p <<< 3) % word) ||| oct
  let box_c : box_data := ⟨key_c, k, 0, 0⟩
  match box_c.get_mc_lower_bound fuel with
  | none => none
  | some lo =>
    let begin_c := lower_bound mc_ mc_begin mc_end lo
    match box_c.get_mc_upper_bound fuel with
    | none => none
    | some hi =>
      let end_c := upper_bound mc_ mc_begin mc_end hi
      if begin_c < end_c then
        let bk := st.1.getD k default
        let boxes := st.1.set k { bk with child_end_ := bk.child_end_ + 1 }
        let offsets :=
          if box_c.level > (boxes.getD (st.2.getLastD 0) default).level then
            st.2 ++ [boxes.length]
          else st.2
        some (boxes ++ [{ box_c with child_begin_ := begin_c, child_end_ := end_c }], offsets)
      else some st

/-- The body of the box loop of `construct_tree` for the box `k`. -/
def visit_box (fuel : Nat) (mc_ : List Nat) (k : Nat) (st : List box_data × List Nat) :
    Option (List box_data × List Nat) :=
  let bk := st.1.getD k default
  if bk.num_children ≤ NCRIT then
    some (st.1.set k (bk.set_leaf true), st.2)
  else
    let boxes := st.1.set k { bk with child_begin_ := st.1.length, child_end_ := st.1.length }
    (List.range 8).foldlM (add_octant fuel mc_ bk.key_ k bk.child_begin_ bk.child_end_)
      (boxes, st.2)

/-- The box loop `for (int k = 0; k != box_data_.size(); ++k)` of `construct_tree`; the
first argument is the fuel, the second the fuel handed to the bound loops. -/
def box_loop (mc_ : List Nat) : Nat → Nat → Nat → List box_data × List Nat →
    Option (List box_data × List Nat)
  | 0, _, _, _ => none
  | fuel + 1, inner, k, st =>
    if k = st.1.length then some st
    else
      match visit_box inner mc_ k st with
      | none => none
      | some st1 => box_loop mc_ fuel inner (k + 1) st1

end Octree

/-- The data members of the class `Octree<Point>`. -/
structure Octree (α : Type) where
  point_ : List α
  mc_ : List Nat
  permute_ : List Nat
  level_offset_ : List Nat
  box_data_ : List Octree.box_data
deriving Repr

namespace Octree

/-- The ways in which a member fails to return a value: the containment assertion of
`construct_tree` fails at the point of the given index, the fuel of a loop runs out, or
the vector of boxes is read at an index that it does not have. -/
inductive Failure where
  | assertion (idx : Nat)
  | fuel
  | range (idx : Nat)
deriving DecidableEq, Repr

/-- The member `Octree::construct_tree`, called on a freshly constructed tree (all
vectors empty) with the points `pts`. `contains` is the bounding box test and `code` the
Morton code of the coder. -/
def construct_tree {α : Type} [Inhabited α] (contains : α → Bool) (code : α → Nat)
    (pts : List α) (fuel : Nat) : Except Failure (Octree α) :=
  match collect contains code pts 0 [] [] with
  | .error idx => .error (.assertion idx)
  | .ok (points_tmp, code_idx) =>
    let sorted := List.insertionSort pair_le code_idx
    let mc_ := sorted.map Prod.fst
    let permute_ := sorted.map Prod.snd
    let point_ := permute_.map (fun i => points_tmp.getD i default)
    match box_loop mc_ fuel fuel 0 ([⟨1, 0, 0, point_.length⟩], [0]) with
    | none => .error .fuel
    | some (boxes, offsets) =>
      .ok ⟨point_, mc_, permute_, offsets ++ [boxes.length], boxes⟩

/-- The member `Octree::size`. -/
def size {α : Type} (t : Octree α) : Nat := t.point_.length

/-- The member `Octree::boxes`. -/
def boxes {α : Type} (t : Octree α) : Nat := t.box_data_.length

/-- The member `Octree::levels`. -/
def levels {α : Type} (t : Octree α) : Nat := t.level_offset_.length - 1

/-- The loop of `Box::body_begin`: descend to the first child until a leaf is reached,
and return the first body of that leaf. -/
def body_begin_loop (box_data_ : List box_data) : Nat → Nat → Except Failure Nat
  | 0, _ => .error .fuel
  | fuel + 1, body_begin_idx =>
    match box_data_[body_begin_idx]? with
    | none => .error (.range body_begin_idx)
    | some b =>
      if b.is_leaf then .ok b.child_begin_
      else body_begin_loop box_data_ fuel b.child_begin_

/-- The member `Box::body_begin` of the box of index `idx`, as a body index. -/
def body_begin {α : Type} (t : Octree α) (fuel idx : Nat) : Except Failure Nat :=
  match t.box_data_[idx]? with
  | none => .error (.range idx)
  | some b =>
    if b.is_leaf then .ok b.child_begin_
    else body_begin_loop t.box_data_ fuel b.child_begin_

/-- The loop of `Box::body_end`: descend to the last child until a leaf is reached, and
return the end of the body range of that leaf. -/
def body_end_loop (box_data_ : List box_data) : Nat → Nat → Except Failure Nat
  | 0, _ => .error .fuel
  | fuel + 1, body_end_idx =>
    match box_data_[body_end_idx]? with
    | none => .error (.range body_end_idx)
    | some b =>
      if b.is_leaf then .ok b.child_end_
      else body_end_loop box_data_ fuel ((b.child_end_ + word - 1) % word)

/-- The member `Box::body_end` of the box of index `idx`, as a body index. -/
def body_end {α : Type} (t : Octree α) (fuel idx : Nat) : Except Failure Nat :=
  match t.box_data_[idx]? with
  | none => .error (.range idx)
  | some b =>
    if b.is_leaf then .ok b.child_end_
    else body_end_loop t.box_data_ fuel ((b.child_end_ + word - 1) % word)

/-! ## Predicates of the specification -/

/-- A key of depth `L`: the root key `1` followed by `L` octants. -/
def valid_key (L key : Nat) : Prop :=
  L ≤ 10 ∧ 8 ^ L ≤ key ∧ key < 2 * 8 ^ L

/-- The least Morton code of the cell with key `key` of depth `L`. -/
def lo_of (L key : Nat) : Nat := key * 8 ^ (10 - L) - 2 ^ 30

/-- The greatest Morton code of the cell with key `key` of depth `L`. -/
def hi_of (L key : Nat) : Nat := (key + 1) * 8 ^ (10 - L) - 1 - 2 ^ 30

/-- The vector `mc_` is in non-decreasing order. -/
def sorted_mc (mc_ : List Nat) : Prop :=
  ∀ i j, i ≤ j → j < mc_.length → mc_.getD i 0 ≤ mc_.getD j 0

/-- The input order recovered from a tree: entry `j` is the permuted point at the position
at which `permute_` holds `j`, i.e. the inverse of `permute_` applied to `point_`. -/
def unpermute {α : Type} [Inhabited α] (t : Octree α) : List α :=
  (List.range t.permute_.length).map (fun j => t.point_.getD (t.permute_.indexOf j) default)

/-- The sorted code-index pairs that `construct_tree` computes from the points. -/
def sorted_codes {α : Type} (code : α → Nat) (pts : List α) : List (Nat × Nat) :=
  List.insertionSort pair_le ((pts.enumFrom 0).map (fun x => (code x.2, x.1)))

/-- The child that the octant `oct` adds to the box `k` of depth `L` with key `key_p` and
body range `[b, e)`, if the octant holds a body. -/
def child_box (mc_ : List Nat) (key_p L k b e oct : Nat) : Option box_data :=
  let begin_c := lower_bound mc_ b e (lo_of (L + 1) (key_p * 8 + oct))
  let end_c := upper_bound mc_ b e (hi_of (L + 1) (key_p * 8 + oct))
  if begin_c < end_c then some ⟨key_p * 8 + oct, k, begin_c, end_c⟩ else none

/-- The state of the octant loop of the box `k` of depth `L` once the children `acc` have
been added to the boxes `boxes0` and offsets `offs0` that the box loop had reached. -/
def split_state (boxes0 : List box_data) (offs0 : List Nat) (k L : Nat)
    (acc : List box_data) : List box_data × List Nat :=
  let bk0 := boxes0.getD k default
  (boxes0.set k ⟨bk0.key_, bk0.parent_, boxes0.length, boxes0.length + acc.length⟩ ++ acc,
   if acc.length = 0 then offs0
   else if L + 1 > (boxes0.getD (offs0.getLastD 0) default).level then
     offs0 ++ [boxes0.length]
   else offs0)

/-- The children that the octant loop adds to the box `k` of depth `L` with key `key_p` and
body range `[b, e)`. -/
def children (mc_ : List Nat) (key_p L k b e : Nat) : List box_data :=
  (List.range 8).filterMap (child_box mc_ key_p L k b e)

/-- The number of bodies that the boxes of a list hold between them. -/
def body_count (l : List box_data) : Nat :=
  (l.map box_data.num_children).sum

/-- The cut of the body range `[b, e)` of a box of depth `L` with key `key_p` before the
octant `j`: the first body whose code is not below the least code of that octant. -/
def cut (mc_ : List Nat) (key_p L b e j : Nat) : Nat :=
  lower_bound mc_ b e (lo_of (L + 1) (key_p * 8) + j * 8 ^ (9 - L))

/-- The vector `mc_` is in strictly increasing order: no two bodies share a code. -/
def strict_mc (mc_ : List Nat) : Prop :=
  ∀ i j, i < j → j < mc_.length → mc_.getD i 0 < mc_.getD j 0

/-- What the box loop relies on for a box `B` of index `j` that it has not visited yet:
its key is a key of its level, its body range lies in `[0, N)`, is not empty (the root of
an empty tree apart) and holds codes between the Morton bounds of the key. -/
def pending_ok (mc_ : List Nat) (N j : Nat) (B : box_data) : Prop :=
  valid_key B.level B.key_ ∧ B.child_end_ ≤ N ∧ B.child_begin_ ≤ B.child_end_ ∧
    ((0 < j ∨ 0 < N) → B.child_begin_ < B.child_end_) ∧
    ∀ i, B.child_begin_ ≤ i → i < B.child_end_ →
      lo_of B.level B.key_ ≤ mc_.getD i 0 ∧ mc_.getD i 0 ≤ hi_of B.level B.key_

/-- What holds of a box `B` of index `j` that the box loop has visited: a leaf holds at
most `NCRIT` bodies, and at least one (the root of an empty tree apart). -/
def done_ok (N j : Nat) (B : box_data) : Prop :=
  B.is_leaf = true →
    B.num_children ≤ NCRIT ∧ ((0 < j ∨ 0 < N) → B.child_begin_ < B.child_end_)

/-- The invariant of the box loop on the levels `lv` of the boxes and on `level_offset_`:
levels do not decrease along the vector, the last box is at most one level below the
box `k` about to be visited, and `level_offset_` holds, for every level reached, the index
of the first box of that level. -/
def levels_ok (k : Nat) (lv offs : List Nat) : Prop :=
  0 < lv.length ∧
  (∀ i j, i ≤ j → j < lv.length → lv.getD i 0 ≤ lv.getD j 0) ∧
  (k < lv.length → lv.getD (lv.length - 1) 0 ≤ lv.getD k 0 + 1) ∧
  offs.length = lv.getD (lv.length - 1) 0 + 1 ∧
  ∀ l, l < offs.length → offs.getD l 0 < lv.length ∧ lv.getD (offs.getD l 0) 0 = l ∧
    ∀ j, j < offs.getD l 0 → lv.getD j 0 < l

/-- The invariant of the box loop of `construct_tree` before the visit of the box `k`. -/
def loop_inv (mc_ : List Nat) (N k : Nat) (st : List box_data × List Nat) : Prop :=
  k ≤ st.1.length ∧
  (∀ j, k ≤ j → j < st.1.length → pending_ok mc_ N j (st.1.getD j default)) ∧
  (∀ j, j < k → j < st.1.length → done_ok N j (st.1.getD j default)) ∧
  levels_ok k (st.1.map box_data.level) st.2

/-- A bound on the number of visits that the box `b` and its descendants take. -/
def box_weight (b : box_data) : Nat := 1 + b.num_children * (10 - b.level)

/-- A bound on the number of visits that the box loop still makes from the box `k` on. -/
def potential (k : Nat) (boxes : List box_data) : Nat :=
  ((boxes.drop k).map box_weight).sum

/-- The level structure of a tree: `level_offset_` increases strictly from `0` to
`boxes()`, the boxes of index in `[level_offset_[L], level_offset_[L+1])` are the boxes of
level `L`, for every `L < levels()`, and the level does not decrease along the vector of
boxes. -/
def level_ordered {α : Type} (t : Octree α) : Prop :=
  t.level_offset_.getD 0 0 = 0 ∧
  t.level_offset_.getD (levels t) 0 = boxes t ∧
  (∀ l, l < levels t → t.level_offset_.getD l 0 < t.level_offset_.getD (l + 1) 0) ∧
  (∀ l j, l < levels t → j < boxes t →
    ((t.level_offset_.getD l 0 ≤ j ∧ j < t.level_offset_.getD (l + 1) 0) ↔
      (t.box_data_.getD j default).level = l)) ∧
  (∀ i j, i ≤ j → j < boxes t →
    (t.box_data_.getD i default).level ≤ (t.box_data_.getD j default).level)

/-- The number of bodies in the leaves of a tree, the sum of `child_end_ - child_begin_`
over the leaf boxes. -/
def leaf_bodies {α : Type} (t : Octree α) : Nat :=
  body_count (t.box_data_.filter box_data.is_leaf)

/-- The number of leaf boxes whose body range holds the body `i`. -/
def leaves_holding {α : Type} (t : Octree α) (i : Nat) : Nat :=
  (t.box_data_.filter
    (fun b => b.is_leaf && decide (b.child_begin_ ≤ i) && decide (i < b.child_end_))).length

/-- The tree that `construct_tree` builds on two points that share the Morton code `9`,
the coder being the identity of 30-bit codes. -/
def tree_9_9 : Octree Nat :=
  ⟨[9, 9], [9, 9], [0, 1], [0, 1, 2, 3, 4, 5, 6, 7, 8, 9, 10, 11],
    [⟨1, 0, 1, 2⟩, ⟨8, 0, 2, 3⟩, ⟨64, 1, 3, 4⟩, ⟨512, 2, 4, 5⟩, ⟨4096, 3, 5, 6⟩,
     ⟨32768, 4, 6, 7⟩, ⟨262144, 5, 7, 8⟩, ⟨2097152, 6, 8, 9⟩, ⟨16777216, 7, 9, 10⟩,
     ⟨134217729, 8, 10, 11⟩, ⟨1073741833, 9, 11, 11⟩]⟩

/-- The tree that `construct_tree` builds on two points with the Morton codes `0` and `1`,
the coder being the identity of 30-bit codes. -/
def tree_0_1 : Octree Nat :=
  ⟨[0, 1], [0, 1], [0, 1], [0, 1, 2, 3, 4, 5, 6, 7, 8, 9, 10, 12],
    [⟨1, 0, 1, 2⟩, ⟨8, 0, 2, 3⟩, ⟨64, 1, 3, 4⟩, ⟨512, 2, 4, 5⟩, ⟨4096, 3, 5, 6⟩,
     ⟨32768, 4, 6, 7⟩, ⟨262144, 5, 7, 8⟩, ⟨2097152, 6, 8, 9⟩, ⟨16777216, 7, 9, 10⟩,
     ⟨134217728, 8, 10, 12⟩, ⟨3221225472, 9, 0, 1⟩, ⟨3221225473, 9, 1, 2⟩]⟩

/-- The tree that `construct_tree` builds on three points with the Morton codes
`5 * 2 ^ 27`, `3 * 2 ^ 27` and `2 ^ 27`, the coder being the identity of 30-bit codes. -/
def tree_5_3_1 : Octree Nat :=
  ⟨[2 ^ 27, 3 * 2 ^ 27, 5 * 2 ^ 27], [2 ^ 27, 3 * 2 ^ 27, 5 * 2 ^ 27], [2, 1, 0], [0, 1, 4],
    [⟨1, 0, 1, 4⟩, ⟨2 ^ 31 + 9, 0, 0, 1⟩, ⟨2 ^ 31 + 11, 0, 1, 2⟩, ⟨2 ^ 31 + 13, 0, 2, 3⟩]⟩

/-- A 32-bit key `K` whose Morton bounds, as the bound loops compute them with `t` shifts,
are a cell of side `8 ^ t` that holds the code `c`. -/
def stuck_at (c K t : Nat) : Prop :=
  K < word ∧ t ≤ 10 ∧ (K * 8 ^ t) % word = 2 ^ 30 + (c / 8 ^ t) * 8 ^ t ∧
    ∀ s, s < t → (K * 8 ^ s) % word / 2 ^ 30 % 2 = 0

/-- The outcome of one pass of the octant loop, apart from the state: `none` when a bound
loop runs out of fuel, `some none` when the octant holds no body, `some (some c)` when the
child `c` is added. -/
def octant_child (fuel : Nat) (mc_ : List Nat) (key_p k mc_begin mc_end oct : Nat) :
    Option (Option box_data) :=
  let key_c := ((key_p <<< 3) % word) ||| oct
  let box_c : box_data := ⟨key_c, k, 0, 0⟩
  match box_c.get_mc_lower_bound fuel with
  | none => none
  | some lo =>
    match box_c.get_mc_upper_bound fuel with
    | none => none
    | some hi =>
      if lower_bound mc_ mc_begin mc_end lo < upper_bound mc_ mc_begin mc_end hi then
        some (some ⟨key_c, k, lower_bound mc_ mc_begin mc_end lo,
          upper_bound mc_ mc_begin mc_end hi⟩)
      else some none

/-- A box that the box loop cannot resolve: it holds at least two bodies, all of one code
`c`, its key is stuck at `c`, and so is the key of a child of the box of depth 10 that
holds `c`. -/
def bad_box (mc_ : List Nat) (B : box_data) : Prop :=
  1 < B.child_end_ - B.child_begin_ ∧ B.child_end_ ≤ mc_.length ∧
    ∃ c, c < 2 ^ 30 ∧
      (∀ i, B.child_begin_ ≤ i → i < B.child_end_ → mc_.getD i 0 = c) ∧
      (∃ t, stuck_at c B.key_ t) ∧
      ∃ o, o < 8 ∧ ∃ t, stuck_at c ((((2 ^ 30 + c) <<< 3) % word) ||| o) t

/-- A state of the box loop in which a box that is not visited yet cannot be resolved. -/
def doomed (mc_ : List Nat) (k : Nat) (boxes : List box_data) : Prop :=
  ∃ j, k ≤ j ∧ j < boxes.length ∧ bad_box mc_ (boxes.getD j default)

/-- The variables in scope in the first loop of `construct_tree`: the data members of the
tree and the locals `points_tmp`, `code_idx` and `idx`. -/
structure collect_state (α : Type) where
  tree : Octree α
  points_tmp : List α
  code_idx : List (Nat × Nat)
  idx : Nat

/-- One pass of the first loop of `construct_tree` on all the variables in scope: the
state after the pass, or the state in which the assertion fails. -/
def collect_pass {α : Type} (contains : α → Bool) (code : α → Nat) (s : collect_state α)
    (p : α) : Except (collect_state α) (collect_state α) :=
  if contains p then
    .ok { s with points_tmp := s.points_tmp ++ [p],
                 code_idx := s.code_idx ++ [(code p, s.idx)],
                 idx := s.idx + 1 }
  else .error s

/-- The first loop of `construct_tree`, called on the tree `t` with the points `pts`:
the variables after the loop, or at the failing assertion. -/
def collect_loop {α : Type} (contains : α → Bool) (code : α → Nat) (t : Octree α)
    (pts : List α) : Except (collect_state α) (collect_state α) :=
  pts.foldlM (collect_pass contains code) ⟨t, [], [], 0⟩

end Octree

/-! ## The direct kernel `SphericalLaplaceKernel::P2P`

`real` is a field `K`, the square root is a function `sqrt : K → K`; the globals `EPS2`
and `Xperiodic` are arguments. -/

namespace SphericalLaplaceKernel

/-- Modelled from the spec: the type `vect` of positions and distance vectors, a 3-vector
of `real`, which the type header declares and which is not among the sources. -/
structure vect (K : Type) where
  x : K
  y : K
  z : K

/-- Modelled from the spec: the type of the value `TRG` of a body, the potential `TRG[0]`
and the force `TRG[1..3]`, which the type header declares and which is not among the
sources. -/
structure vec4 (K : Type) where
  v0 : K
  v1 : K
  v2 : K
  v3 : K

/-- The difference `a - b` of two `vect`. -/
def vect.sub {K : Type} [Field K] (a b : vect K) : vect K :=
  ⟨a.x - b.x, a.y - b.y, a.z - b.z⟩

/-- The sum `a + b` of two `vect`. -/
def vect.add {K : Type} [Field K] (a b : vect K) : vect K :=
  ⟨a.x + b.x, a.y + b.y, a.z + b.z⟩

/-- The product `a *= c` of a `vect` with a scalar. -/
def vect.smul {K : Type} [Field K] (a : vect K) (c : K) : vect K :=
  ⟨a.x * c, a.y * c, a.z * c⟩

/-- Modelled from the spec: the function `norm` of the vector header, which is not among
the sources: the squared length `|dist|²` of `R² = |dist|² + EPS²`; the kernels take
`std::sqrt(norm(dist))` for a length. -/
def norm {K : Type} [Field K] (a : vect K) : K :=
  a.x * a.x + a.y * a.y + a.z * a.z

/-- Modelled from the spec: the fields of a body that `P2P` uses, position `X`, source
weight `SRC` and target value `TRG`; the type header that declares the bodies is not among
the sources. -/
structure Body (K : Type) where
  X : vect K
  SRC : K
  TRG : vec4 K

/-- The body of the loop over the source bodies of `P2P` for the target position `Xi` and
the source body `Bj`: the pair of `invR` and the scaled `dist` that are added to `P0` and
`F0`. -/
def P2P_pair {K : Type} [Field K] [DecidableEq K] (sqrt : K → K) (EPS2 : K)
    (Xperiodic : vect K) (Xi : vect K) (Bj : Body K) : K × vect K :=
  let dist := (Xi.sub Bj.X).sub Xperiodic
  let R2 := norm dist + EPS2
  let invR2 := 1 / R2
  let invR2 := if R2 = 0 then 0 else invR2
  let invR := Bj.SRC * sqrt invR2
  let dist := dist.smul (invR2 * invR)
  (invR, dist)

/-- The loop over the source bodies of `P2P` for one target: the pair of `P0` and `F0`. -/
def P2P_sums {K : Type} [Field K] [DecidableEq K] (sqrt : K → K) (EPS2 : K)
    (Xperiodic : vect K) (Xi : vect K) (Cj : List (Body K)) : K × vect K :=
  Cj.foldl (fun acc Bj =>
    (acc.1 + (P2P_pair sqrt EPS2 Xperiodic Xi Bj).1,
      acc.2.add (P2P_pair sqrt EPS2 Xperiodic Xi Bj).2)) (0, ⟨0, 0, 0⟩)

/-- The kernel `P2P(Ci, Cj)` on the bodies of the target cell `Ci` and of the source
cell `Cj`: the bodies of `Ci` after the call. -/
def P2P {K : Type} [Field K] [DecidableEq K] (sqrt : K → K) (EPS2 : K)
    (Xperiodic : vect K) (Ci Cj : List (Body K)) : List (Body K) :=
  Ci.map (fun Bi =>
    let s := P2P_sums sqrt EPS2 Xperiodic Bi.X Cj
    { Bi with TRG := ⟨Bi.TRG.v0 + s.1, Bi.TRG.v1 - s.2.x, Bi.TRG.v2 - s.2.y,
                      Bi.TRG.v3 - s.2.z⟩ })

/-- The distance vector `dist_j = X_target - X_source_j - Xperiodic` of the
specification. -/
def pair_dist {K : Type} [Field K] (Xperiodic Xi : vect K) (Bj : Body K) : vect K :=
  (Xi.sub Bj.X).sub Xperiodic

/-- The softened squared distance `R2_j = |dist_j|^2 + EPS2` of the specification. -/
def pair_R2 {K : Type} [Field K] (EPS2 : K) (Xperiodic Xi : vect K) (Bj : Body K) : K :=
  norm (pair_dist Xperiodic Xi Bj) + EPS2

/-- The potential of a pair in the words of the specification: `SRC_j / sqrt(R2_j)`, and
nothing when `R2_j == 0`. -/
def pair_potential {K : Type} [Field K] [DecidableEq K] (sqrt : K → K) (EPS2 : K)
    (Xperiodic Xi : vect K) (Bj : Body K) : K :=
  if pair_R2 EPS2 Xperiodic Xi Bj = 0 then 0
  else Bj.SRC / sqrt (pair_R2 EPS2 Xperiodic Xi Bj)

/-- The force of a pair in the words of the specification: `dist_j * SRC_j / R2_j^(3/2)`,
and nothing when `R2_j == 0`; `pow32` is the power `3/2`. -/
def pair_force {K : Type} [Field K] [DecidableEq K] (pow32 : K → K) (EPS2 : K)
    (Xperiodic Xi : vect K) (Bj : Body K) : vect K :=
  if pair_R2 EPS2 Xperiodic Xi Bj = 0 then ⟨0, 0, 0⟩
  else (pair_dist Xperiodic Xi Bj).smul (Bj.SRC / pow32 (pair_R2 EPS2 Xperiodic Xi Bj))

/-- The update of a target body in the words of the specification: the sum of the pair
potentials is added to `TRG[0]`, the sum of the pair forces is subtracted from
`TRG[1..3]`, position and source weight stay. -/
def P2P_spec {K : Type} [Field K] [DecidableEq K] (sqrt pow32 : K → K) (EPS2 : K)
    (Xperiodic : vect K) (Cj : List (Body K)) (Bi : Body K) : Body K :=
  ⟨Bi.X, Bi.SRC,
    ⟨Bi.TRG.v0 + (Cj.map (pair_potential sqrt EPS2 Xperiodic Bi.X)).sum,
     Bi.TRG.v1 - (Cj.map (fun Bj => (pair_force pow32 EPS2 Xperiodic Bi.X Bj).x)).sum,
     Bi.TRG.v2 - (Cj.map (fun Bj => (pair_force pow32 EPS2 Xperiodic Bi.X Bj).y)).sum,
     Bi.TRG.v3 - (Cj.map (fun Bj => (pair_force pow32 EPS2 Xperiodic Bi.X Bj).z)).sum⟩⟩

/-! ## The spherical-harmonic kernels of `SphericalLaplaceKernel`

The embedding of `cart2sph`, `sph2cart`, `evalMultipole`, `evalLocal`, `preCalculation`,
`P2M`, `M2L`, `M2P`, `multipole_size` and `local_size`.

* `real` is a linearly ordered field `K` and `complex` a field `C`; the functions of the
  standard library that the kernels call are the fields of a record `cmath K C`. The
  properties are stated for the real and the complex numbers with the exact functions
  (`cmath.exact`).
* An array is a function on the indices; an assignment to an element is
  `Function.update`.
* The expansion order `P` and the globals `EPS`, `Xperiodic` are arguments; `P` is a
  natural number, and the indices that are computed from it are not reduced.
* A division is the division of the field. It is the division of the code whenever the
  divisor is not zero; the functions with the suffix `_checked` stop with `none` at a
  division by zero.
-/

/-- The functions of `<cmath>` and `<complex>` that the kernels call: `ofReal` is the
conversion of a `real` to a `complex`, `real` is `std::real`, `pow` is `std::pow` of a
`complex` base and a `real` exponent, `I` is the value `complex(0., 1.)`. -/
structure cmath (K C : Type) where
  sqrt : K → K
  cos : K → K
  sin : K → K
  acos : K → K
  atan : K → K
  M_PI : K
  ofReal : K → C
  conj : C → C
  real : C → K
  exp : C → C
  pow : C → K → C
  I : C

/-- The macro `ODDEVEN(n)`, `((n & 1) == 1) ? -1 : 1`. -/
def ODDEVEN (n : Int) : Int := if n % 2 = 1 then -1 else 1

/-- A loop `for (i = lo; i != hi; ++i)` with `lo ≤ hi`, and a loop
`for (i = lo; i <= hi - 1; ++i)`: the body runs for `i = lo, ..., hi - 1`. -/
def for_range {σ : Type} (lo hi : Nat) (body : Nat → σ → σ) (s : σ) : σ :=
  (List.range' lo (hi - lo)).foldl (fun s i => body i s) s

/-- A loop `for (i = lo; i <= hi; ++i)` over `int`: the body runs for
`i = lo, ..., hi`. -/
def for_int {σ : Type} (lo hi : Int) (body : Int → σ → σ) (s : σ) : σ :=
  (List.range (hi + 1 - lo).toNat).foldl (fun s (t : Nat) => body (lo + (t : Int)) s) s

/-! ### Coordinates -/

/-- The function `cart2sph` in the arithmetic of the field `K`, without rounding: the
triple of `r`, `theta` and `phi`. The function in the arithmetic of a floating-point type
is `cart2sph_rounded`. -/
def cart2sph {K C : Type} [LinearOrderedField K] (F : cmath K C) (EPS : K)
    (dist : vect K) : K × K × K :=
  let r := F.sqrt (norm dist) + EPS
  let theta := F.acos (dist.z / r)
  let phi :=
    if |dist.x| + |dist.y| < EPS then 0
    else if |dist.x| < EPS then dist.y / |dist.y| * F.M_PI * (1 / 2)
    else if dist.x > 0 then F.atan (dist.y / dist.x)
    else F.atan (dist.y / dist.x) + F.M_PI
  (r, theta, phi)

/-- The function `sph2cart`: the value of `cartesian`. -/
def sph2cart {K C : Type} [LinearOrderedField K] (F : cmath K C) (r theta phi : K)
    (spherical : vect K) : vect K :=
  ⟨F.sin theta * F.cos phi * spherical.x
      + F.cos theta * F.cos phi / r * spherical.y
      - F.sin phi / r / F.sin theta * spherical.z,
   F.sin theta * F.sin phi * spherical.x
      + F.cos theta * F.sin phi / r * spherical.y
      + F.cos phi / r / F.sin theta * spherical.z,
   F.cos theta * spherical.x
      - F.sin theta / r * spherical.y⟩

/-! ### Harmonic evaluators -/

/-- The variables of the loop over `n` of the evaluators. -/
structure eval_n (K C : Type) where
  Ynm : Nat → C
  YnmTheta : Nat → C
  p : K
  p1 : K
  rhon : K

/-- The variables of the loop over `m` of the evaluators. -/
structure eval_m (K C : Type) where
  Ynm : Nat → C
  YnmTheta : Nat → C
  fact : K
  pn : K
  rhom : K

/-- The body of the loop over `n` of `evalMultipole`. -/
def evalMultipole_n {K C : Type} [LinearOrderedField K] [Field C] (F : cmath K C)
    (prefactor : Nat → K) (rho x y : K) (eim : C) (m n : Nat) (s : eval_n K C) :
    eval_n K C :=
  let npm := n * n + n + m
  let nmm := n * n + n - m
  let Ynm := Function.update s.Ynm npm (F.ofReal (s.rhon * s.p * prefactor npm) * eim)
  let Ynm := Function.update Ynm nmm (F.conj (Ynm npm))
  let p2 := s.p1
  let p1 := s.p
  let p := (x * (2 * (n : K) + 1) * p1 - ((n : K) + (m : K)) * p2) / ((n : K) - (m : K) + 1)
  let YnmTheta := Function.update s.YnmTheta npm
    (F.ofReal (s.rhon * (((n : K) - (m : K) + 1) * p - ((n : K) + 1) * x * p1) / y
      * prefactor npm) * eim)
  let rhon := s.rhon * rho
  ⟨Ynm, YnmTheta, p, p1, rhon⟩

/-- The body of the loop over `m` of `evalMultipole`. -/
def evalMultipole_m {K C : Type} [LinearOrderedField K] [Field C] (F : cmath K C)
    (prefactor : Nat → K) (P : Nat) (rho beta x y : K) (m : Nat) (s : eval_m K C) :
    eval_m K C :=
  let eim := F.exp (F.I * F.ofReal ((m : K) * beta))
  let p := s.pn
  let npn := m * m + 2 * m
  let nmn := m * m
  let Ynm := Function.update s.Ynm npn (F.ofReal (s.rhom * p * prefactor npn) * eim)
  let Ynm := Function.update Ynm nmn (F.conj (Ynm npn))
  let p1 := p
  let p := x * (2 * (m : K) + 1) * p1
  let YnmTheta := Function.update s.YnmTheta npn
    (F.ofReal (s.rhom * (p - ((m : K) + 1) * x * p1) / y * prefactor npn) * eim)
  let rhom := s.rhom * rho
  let rhon := rhom
  let t := for_range (m + 1) P (evalMultipole_n F prefactor rho x y eim m)
    ⟨Ynm, YnmTheta, p, p1, rhon⟩
  let pn := -s.pn * s.fact * y
  let fact := s.fact + 2
  ⟨t.Ynm, t.YnmTheta, fact, pn, rhom⟩

/-- The function `evalMultipole` on the arrays `Ynm` and `YnmTheta`: the two arrays after
the call. -/
def evalMultipole {K C : Type} [LinearOrderedField K] [Field C] (F : cmath K C)
    (prefactor : Nat → K) (P : Nat) (rho alpha beta : K) (Ynm YnmTheta : Nat → C) :
    (Nat → C) × (Nat → C) :=
  let x := F.cos alpha
  let y := F.sin alpha
  let s := for_range 0 P (evalMultipole_m F prefactor P rho beta x y)
    ⟨Ynm, YnmTheta, 1, 1, 1⟩
  (s.Ynm, s.YnmTheta)

/-- The body of the loop over `n` of `evalLocal`, with the bound `2 * P` of the loop. -/
def evalLocal_n {K C : Type} [LinearOrderedField K] [Field C] (F : cmath K C)
    (prefactor : Nat → K) (rho x y : K) (eim : C) (m n : Nat) (s : eval_n K C) :
    eval_n K C :=
  let npm := n * n + n + m
  let nmm := n * n + n - m
  let Ynm := Function.update s.Ynm npm (F.ofReal (s.rhon * s.p * prefactor npm) * eim)
  let Ynm := Function.update Ynm nmm (F.conj (Ynm npm))
  let p2 := s.p1
  let p1 := s.p
  let p := (x * (2 * (n : K) + 1) * p1 - ((n : K) + (m : K)) * p2) / ((n : K) - (m : K) + 1)
  let YnmTheta := Function.update s.YnmTheta npm
    (F.ofReal (s.rhon * (((n : K) - (m : K) + 1) * p - ((n : K) + 1) * x * p1) / y
      * prefactor npm) * eim)
  let rhon := s.rhon / rho
  ⟨Ynm, YnmTheta, p, p1, rhon⟩

/-- The body of the loop over `m` of `evalLocal`. -/
def evalLocal_m {K C : Type} [LinearOrderedField K] [Field C] (F : cmath K C)
    (prefactor : Nat → K) (P : Nat) (rho beta x y : K) (m : Nat) (s : eval_m K C) :
    eval_m K C :=
  let eim := F.exp (F.I * F.ofReal ((m : K) * beta))
  let p := s.pn
  let npn := m * m + 2 * m
  let nmn := m * m
  let Ynm := Function.update s.Ynm npn (F.ofReal (s.rhom * p * prefactor npn) * eim)
  let Ynm := Function.update Ynm nmn (F.conj (Ynm npn))
  let p1 := p
  let p := x * (2 * (m : K) + 1) * p1
  let YnmTheta := Function.update s.YnmTheta npn
    (F.ofReal (s.rhom * (p - ((m : K) + 1) * x * p1) / y * prefactor npn) * eim)
  let rhom := s.rhom / rho
  let rhon := rhom
  let t := for_range (m + 1) (2 * P) (evalLocal_n F prefactor rho x y eim m)
    ⟨Ynm, YnmTheta, p, p1, rhon⟩
  let pn := -s.pn * s.fact * y
  let fact := s.fact + 2
  ⟨t.Ynm, t.YnmTheta, fact, pn, rhom⟩

/-- The function `evalLocal` on the arrays `Ynm` and `YnmTheta`: the two arrays after the
call. -/
def evalLocal {K C : Type} [LinearOrderedField K] [Field C] (F : cmath K C)
    (prefactor : Nat → K) (P : Nat) (rho alpha beta : K) (Ynm YnmTheta : Nat → C) :
    (Nat → C) × (Nat → C) :=
  let x := F.cos alpha
  let y := F.sin alpha
  let s := for_range 0 (2 * P) (evalLocal_m F prefactor P rho beta x y)
    ⟨Ynm, YnmTheta, 1, 1, 1 / rho⟩
  (s.Ynm, s.YnmTheta)

/-! ### Coefficient tables -/

/-- The four arrays of `preCalculation`. -/
structure tables (K C : Type) where
  factorial : Nat → K
  prefactor : Nat → K
  Anm : Nat → K
  Cnm : Nat → C

/-- A loop `for (int i = 1; i <= hi; ++i) f *= i` of `preCalculation`, started at `f`. -/
def factorial_loop {K : Type} [LinearOrderedField K] (f : K) (hi : Int) : K :=
  for_int 1 hi (fun i f => f * (i : K)) f

/-- The body of the loop over `m` in the loop over `n` of `preCalculation` that fills
`prefactor` and `Anm`; the state is the pair of the two arrays. -/
def preCalculation_nm {K C : Type} [LinearOrderedField K] (F : cmath K C) (EPS : K)
    (n : Nat) (m : Int) (s : (Nat → K) × (Nat → K)) : (Nat → K) × (Nat → K) :=
  let nm := ((n : Int) * n + n + m).toNat
  let nabsm := |m|
  let fnmm := factorial_loop EPS (n - m)
  let fnpm := factorial_loop EPS (n + m)
  let fnma := factorial_loop 1 (n - nabsm)
  let fnpa := factorial_loop 1 (n + nabsm)
  (Function.update s.1 nm (F.sqrt (fnma / fnpa)),
   Function.update s.2 nm (((ODDEVEN n : Int) : K) / F.sqrt (fnmm * fnpm)))

/-- The variables of the loops over `n` and `m` that fill `Cnm`. -/
structure Cnm_nm (C : Type) where
  Cnm : Nat → C
  nm : Nat
  jknm : Nat

/-- The variables of the loops over `j` and `k` that fill `Cnm`. -/
structure Cnm_jk (C : Type) where
  Cnm : Nat → C
  jk : Nat
  jknm : Nat

/-- The body of the innermost loop of `preCalculation`, with the increments `++nm` and
`++jknm` of the loop. -/
def preCalculation_jknm {K C : Type} [LinearOrderedField K] [Field C] (F : cmath K C)
    (EPS : K) (Anm : Nat → K) (j : Nat) (k : Int) (jk : Nat) (n : Nat) (m : Int)
    (s : Cnm_nm C) : Cnm_nm C :=
  let jnkm := (((j : Int) + n) * (j + n) + j + n + m - k).toNat
  let c := F.pow F.I (((|k - m| - |k| - |m| : Int)) : K)
    * F.ofReal (((ODDEVEN j : Int) : K) * Anm s.nm * Anm jk / Anm jnkm) * F.ofReal EPS
  ⟨Function.update s.Cnm s.jknm c, s.nm + 1, s.jknm + 1⟩

/-- The body of the loop over `k` that fills `Cnm`, with the increment `++jk` of the
loop. -/
def preCalculation_jk {K C : Type} [LinearOrderedField K] [Field C] (F : cmath K C)
    (EPS : K) (P : Nat) (Anm : Nat → K) (j : Nat) (k : Int) (s : Cnm_jk C) : Cnm_jk C :=
  let t := for_range 0 P (fun n t =>
    for_int (-(n : Int)) n (preCalculation_jknm F EPS Anm j k s.jk n) t)
    ⟨s.Cnm, 0, s.jknm⟩
  ⟨t.Cnm, s.jk + 1, t.jknm⟩

/-- The function `preCalculation`, started on the arrays `raw` as they are allocated.
The loop `for (n = 1; n != P; ++n)` over the factorials does not come to an end for
`P = 0`: there is no result then. -/
def preCalculation {K C : Type} [LinearOrderedField K] [Field C] (F : cmath K C)
    (EPS : K) (P : Nat) (raw : tables K C) : Option (tables K C) :=
  if P = 0 then none
  else
    let factorial := Function.update raw.factorial 0 1
    let factorial := for_range 1 P
      (fun n f => Function.update f n (f (n - 1) * (n : K))) factorial
    let pa := for_range 0 (2 * P) (fun n s =>
      for_int (-(n : Int)) n (preCalculation_nm F EPS n) s) (raw.prefactor, raw.Anm)
    let c := for_range 0 P (fun j s =>
      for_int (-(j : Int)) j (preCalculation_jk F EPS P pa.2 j) s) ⟨raw.Cnm, 0, 0⟩
    some ⟨factorial, pa.1, pa.2, c.Cnm⟩

/-! ### Cells and the kernels on them -/

/-- Modelled from the spec: the fields of a cell that the kernels use, center `X`, radius
`R`, the radii `RMAX` and `RCRIT`, the multipole expansion `M` and the local expansion
`L`; the type header that declares the cells is not among the sources. The bodies of a
cell, `LEAF .. LEAF + NCLEAF` or `LEAF .. LEAF + NDLEAF`, are a list that is passed with
the cell. -/
structure Cell (K C : Type) where
  X : vect K
  R : K
  RMAX : K
  RCRIT : K
  M : Nat → C
  L : Nat → C

/-- The variables of the loop over the bodies of `P2M`. -/
structure P2M_state (K C : Type) where
  Rmax : K
  Ynm : Nat → C
  YnmTheta : Nat → C
  M : Nat → C

/-- The body of the loop over the bodies of `P2M`. -/
def P2M_body {K C : Type} [LinearOrderedField K] [Field C] (F : cmath K C) (EPS : K)
    (prefactor : Nat → K) (P : Nat) (Cj : Cell K C) (s : P2M_state K C) (B : Body K) :
    P2M_state K C :=
  let dist := B.X.sub Cj.X
  let R := F.sqrt (norm dist)
  let Rmax := if R > s.Rmax then R else s.Rmax
  let sph := cart2sph F EPS dist
  let Y := evalMultipole F prefactor P sph.1 sph.2.1 (-sph.2.2) s.Ynm s.YnmTheta
  let M := for_range 0 P (fun n M =>
    for_range 0 (n + 1) (fun m M =>
      let nm := n * n + n + m
      let nms := n * (n + 1) / 2 + m
      Function.update M nms (M nms + F.ofReal B.SRC * Y.1 nm)) M) s.M
  ⟨Rmax, Y.1, Y.2, M⟩

/-- The kernel `P2M(Cj)` on a cell and its bodies `LEAF .. LEAF + NCLEAF`: the cell after
the call. The local arrays `Ynm` and `YnmTheta` start with the value `complex()`. -/
def P2M {K C : Type} [LinearOrderedField K] [Field C] (F : cmath K C) (EPS : K)
    (prefactor : Nat → K) (P : Nat) (Cj : Cell K C) (bodies : List (Body K)) :
    Cell K C :=
  let s := bodies.foldl (P2M_body F EPS prefactor P Cj)
    ⟨0, fun _ => 0, fun _ => 0, Cj.M⟩
  { Cj with M := s.M, RMAX := s.Rmax, RCRIT := min Cj.R s.Rmax }

/-- The loops over `n` and `m` of `M2L` for the indices `j` and `k`: the value of the
variable `L`. -/
def M2L_jk {K C : Type} [LinearOrderedField K] [Field C] (F : cmath K C)
    (Cnm : Nat → C) (P : Nat) (M Ynm : Nat → C) (j k : Nat) : C :=
  let jk := j * j + j + k
  for_range 0 P (fun n L =>
    let L := for_int (-(n : Int)) (-1) (fun m L =>
      let nm := (n : Int) * n + n + m
      let nms := (n : Int) * (n + 1) / 2 - m
      let jknm := (jk : Int) * P * P + nm
      let jnkm := ((j : Int) + n) * (j + n) + j + n + m - k
      L + F.conj (M nms.toNat) * Cnm jknm.toNat * Ynm jnkm.toNat) L
    for_int 0 n (fun m L =>
      let nm := (n : Int) * n + n + m
      let nms := (n : Int) * (n + 1) / 2 + m
      let jknm := (jk : Int) * P * P + nm
      let jnkm := ((j : Int) + n) * (j + n) + j + n + m - k
      L + M nms.toNat * Cnm jknm.toNat * Ynm jnkm.toNat) L) 0

/-- The kernel `M2L(Ci, Cj)`: the cell `Ci` after the call. -/
def M2L {K C : Type} [LinearOrderedField K] [Field C] (F : cmath K C) (EPS : K)
    (Xperiodic : vect K) (T : tables K C) (P : Nat) (Ci Cj : Cell K C) : Cell K C :=
  let dist := (Ci.X.sub Cj.X).sub Xperiodic
  let sph := cart2sph F EPS dist
  let Y := evalLocal F T.prefactor P sph.1 sph.2.1 sph.2.2 (fun _ => 0) (fun _ => 0)
  let L := for_range 0 P (fun j L =>
    for_range 0 (j + 1) (fun k L =>
      let jks := j * (j + 1) / 2 + k
      Function.update L jks (L jks + M2L_jk F T.Cnm P Cj.M Y.1 j k)) L) Ci.L
  { Ci with L := L }

/-- The variables that the loops over `n` and `m` of `M2P` change: `B->TRG[0]` and
`spherical`. -/
structure M2P_acc (K : Type) where
  TRG0 : K
  spherical : vect K

/-- The body of the loop over `n` of `M2P`. -/
def M2P_n {K C : Type} [LinearOrderedField K] [Field C] (F : cmath K C)
    (M Ynm YnmTheta : Nat → C) (r : K) (n : Nat) (a : M2P_acc K) : M2P_acc K :=
  let nm := n * n + n
  let nms := n * (n + 1) / 2
  let a : M2P_acc K :=
    ⟨a.TRG0 + F.real (M nms * Ynm nm),
     ⟨a.spherical.x - F.real (M nms * Ynm nm) / r * ((n : K) + 1),
      a.spherical.y + F.real (M nms * YnmTheta nm),
      a.spherical.z⟩⟩
  for_range 1 (n + 1) (fun m (a : M2P_acc K) =>
    let nm := n * n + n + m
    let nms := n * (n + 1) / 2 + m
    (⟨a.TRG0 + 2 * F.real (M nms * Ynm nm),
     ⟨a.spherical.x - 2 * F.real (M nms * Ynm nm) / r * ((n : K) + 1),
      a.spherical.y + 2 * F.real (M nms * YnmTheta nm),
      a.spherical.z + 2 * F.real (M nms * Ynm nm * F.I) * (m : K)⟩⟩ : M2P_acc K)) a

/-- The body of the loop over the bodies of `M2P`: the arrays `Ynm`, `YnmTheta` and the
body after it. -/
def M2P_body {K C : Type} [LinearOrderedField K] [Field C] (F : cmath K C) (EPS : K)
    (Xperiodic : vect K) (prefactor : Nat → K) (P : Nat) (Cj : Cell K C)
    (Y : (Nat → C) × (Nat → C)) (B : Body K) : ((Nat → C) × (Nat → C)) × Body K :=
  let dist := (B.X.sub Cj.X).sub Xperiodic
  let sph := cart2sph F EPS dist
  let r := sph.1
  let theta := sph.2.1
  let phi := sph.2.2
  let Y := evalLocal F prefactor P r theta phi Y.1 Y.2
  let a := for_range 0 P (M2P_n F Cj.M Y.1 Y.2 r) ⟨B.TRG.v0, ⟨0, 0, 0⟩⟩
  let cartesian := sph2cart F r theta phi a.spherical
  (Y, { B with TRG := ⟨a.TRG0, B.TRG.v1 + cartesian.x, B.TRG.v2 + cartesian.y,
                        B.TRG.v3 + cartesian.z⟩ })

/-- The loop over the bodies of `M2P`. -/
def M2P_loop {K C : Type} [LinearOrderedField K] [Field C] (F : cmath K C) (EPS : K)
    (Xperiodic : vect K) (prefactor : Nat → K) (P : Nat) (Cj : Cell K C) :
    (Nat → C) × (Nat → C) → List (Body K) → List (Body K)
  | _, [] => []
  | Y, B :: rest =>
    (M2P_body F EPS Xperiodic prefactor P Cj Y B).2 ::
      M2P_loop F EPS Xperiodic prefactor P Cj
        (M2P_body F EPS Xperiodic prefactor P Cj Y B).1 rest

/-- The kernel `M2P(Ci, Cj)` on the bodies `LEAF .. LEAF + NDLEAF` of the target cell
`Ci` and the source cell `Cj`: the bodies after the call. -/
def M2P {K C : Type} [LinearOrderedField K] [Field C] (F : cmath K C) (EPS : K)
    (Xperiodic : vect K) (prefactor : Nat → K) (P : Nat) (Ci : List (Body K))
    (Cj : Cell K C) : List (Body K) :=
  M2P_loop F EPS Xperiodic prefactor P Cj (fun _ => 0, fun _ => 0) Ci

/-- The function `multipole_size`. -/
def multipole_size (P : Nat) (level : Int) : Int :=
  (P : Int) * ((P : Int) + 1) / 2 + level * 0

/-- The function `local_size`. -/
def local_size (P : Nat) (level : Int) : Int :=
  (P : Int) * ((P : Int) + 1) / 2 + (level * 0)

/-! ### The functions with checked divisions

The functions that divide by `rho`, by `sin(alpha)` or by a coordinate, with every
division replaced by `sdiv`: the result is `none` when a divisor is zero. -/

/-- A division that stops at the divisor zero. -/
def sdiv {K : Type} [LinearOrderedField K] (a b : K) : Option K :=
  if b = 0 then none else some (a / b)

/-- A loop `for (i = lo; i != hi; ++i)` with `lo ≤ hi` whose body can stop. -/
def for_range_checked {σ : Type} (lo hi : Nat) (body : Nat → σ → Option σ) (s : σ) :
    Option σ :=
  (List.range' lo (hi - lo)).foldlM (fun s i => body i s) s

/-- The function `cart2sph` with checked divisions. -/
def cart2sph_checked {K C : Type} [LinearOrderedField K] (F : cmath K C) (EPS : K)
    (dist : vect K) : Option (K × K × K) := do
  let r := F.sqrt (norm dist) + EPS
  let q ← sdiv dist.z r
  let theta := F.acos q
  if |dist.x| + |dist.y| < EPS then
    pure (r, theta, 0)
  else if |dist.x| < EPS then
    let s ← sdiv dist.y |dist.y|
    pure (r, theta, s * F.M_PI * (1 / 2))
  else if dist.x > 0 then
    let t ← sdiv dist.y dist.x
    pure (r, theta, F.atan t)
  else
    let t ← sdiv dist.y dist.x
    pure (r, theta, F.atan t + F.M_PI)

/-- The function `sph2cart` with checked divisions. -/
def sph2cart_checked {K C : Type} [LinearOrderedField K] (F : cmath K C)
    (r theta phi : K) (spherical : vect K) : Option (vect K) := do
  let a1 ← sdiv (F.cos theta * F.cos phi) r
  let a2 ← sdiv (F.sin phi) r
  let a3 ← sdiv a2 (F.sin theta)
  let b1 ← sdiv (F.cos theta * F.sin phi) r
  let b2 ← sdiv (F.cos phi) r
  let b3 ← sdiv b2 (F.sin theta)
  let c1 ← sdiv (F.sin theta) r
  pure ⟨F.sin theta * F.cos phi * spherical.x + a1 * spherical.y - a3 * spherical.z,
        F.sin theta * F.sin phi * spherical.x + b1 * spherical.y + b3 * spherical.z,
        F.cos theta * spherical.x - c1 * spherical.y⟩

/-- The body of the loop over `n` of `evalMultipole` with checked divisions. -/
def evalMultipole_n_checked {K C : Type} [LinearOrderedField K] [Field C] (F : cmath K C)
    (prefactor : Nat → K) (rho x y : K) (eim : C) (m n : Nat) (s : eval_n K C) :
    Option (eval_n K C) := do
  let npm := n * n + n + m
  let nmm := n * n + n - m
  let Ynm := Function.update s.Ynm npm (F.ofReal (s.rhon * s.p * prefactor npm) * eim)
  let Ynm := Function.update Ynm nmm (F.conj (Ynm npm))
  let p2 := s.p1
  let p1 := s.p
  let p ← sdiv (x * (2 * (n : K) + 1) * p1 - ((n : K) + (m : K)) * p2) ((n : K) - (m : K) + 1)
  let t ← sdiv (s.rhon * (((n : K) - (m : K) + 1) * p - ((n : K) + 1) * x * p1)) y
  let YnmTheta := Function.update s.YnmTheta npm (F.ofReal (t * prefactor npm) * eim)
  let rhon := s.rhon * rho
  pure ⟨Ynm, YnmTheta, p, p1, rhon⟩

/-- The body of the loop over `m` of `evalMultipole` with checked divisions. -/
def evalMultipole_m_checked {K C : Type} [LinearOrderedField K] [Field C] (F : cmath K C)
    (prefactor : Nat → K) (P : Nat) (rho beta x y : K) (m : Nat) (s : eval_m K C) :
    Option (eval_m K C) := do
  let eim := F.exp (F.I * F.ofReal ((m : K) * beta))
  let p := s.pn
  let npn := m * m + 2 * m
  let nmn := m * m
  let Ynm := Function.update s.Ynm npn (F.ofReal (s.rhom * p * prefactor npn) * eim)
  let Ynm := Function.update Ynm nmn (F.conj (Ynm npn))
  let p1 := p
  let p := x * (2 * (m : K) + 1) * p1
  let t ← sdiv (s.rhom * (p - ((m : K) + 1) * x * p1)) y
  let YnmTheta := Function.update s.YnmTheta npn (F.ofReal (t * prefactor npn) * eim)
  let rhom := s.rhom * rho
  let rhon := rhom
  let t ← for_range_checked (m + 1) P (evalMultipole_n_checked F prefactor rho x y eim m)
    ⟨Ynm, YnmTheta, p, p1, rhon⟩
  let pn := -s.pn * s.fact * y
  let fact := s.fact + 2
  pure ⟨t.Ynm, t.YnmTheta, fact, pn, rhom⟩

/-- The function `evalMultipole` with checked divisions. -/
def evalMultipole_checked {K C : Type} [LinearOrderedField K] [Field C] (F : cmath K C)
    (prefactor : Nat → K) (P : Nat) (rho alpha beta : K) (Ynm YnmTheta : Nat → C) :
    Option ((Nat → C) × (Nat → C)) := do
  let x := F.cos alpha
  let y := F.sin alpha
  let s ← for_range_checked 0 P (evalMultipole_m_checked F prefactor P rho beta x y)
    ⟨Ynm, YnmTheta, 1, 1, 1⟩
  pure (s.Ynm, s.YnmTheta)

/-- The body of the loop over `n` of `evalLocal` with checked divisions. -/
def evalLocal_n_checked {K C : Type} [LinearOrderedField K] [Field C] (F : cmath K C)
    (prefactor : Nat → K) (rho x y : K) (eim : C) (m n : Nat) (s : eval_n K C) :
    Option (eval_n K C) := do
  let npm := n * n + n + m
  let nmm := n * n + n - m
  let Ynm := Function.update s.Ynm npm (F.ofReal (s.rhon * s.p * prefactor npm) * eim)
  let Ynm := Function.update Ynm nmm (F.conj (Ynm npm))
  let p2 := s.p1
  let p1 := s.p
  let p ← sdiv (x * (2 * (n : K) + 1) * p1 - ((n : K) + (m : K)) * p2) ((n : K) - (m : K) + 1)
  let t ← sdiv (s.rhon * (((n : K) - (m : K) + 1) * p - ((n : K) + 1) * x * p1)) y
  let YnmTheta := Function.update s.YnmTheta npm (F.ofReal (t * prefactor npm) * eim)
  let rhon ← sdiv s.rhon rho
  pure ⟨Ynm, YnmTheta, p, p1, rhon⟩

/-- The body of the loop over `m` of `evalLocal` with checked divisions. -/
def evalLocal_m_checked {K C : Type} [LinearOrderedField K] [Field C] (F : cmath K C)
    (prefactor : Nat → K) (P : Nat) (rho beta x y : K) (m : Nat) (s : eval_m K C) :
    Option (eval_m K C) := do
  let eim := F.exp (F.I * F.ofReal ((m : K) * beta))
  let p := s.pn
  let npn := m * m + 2 * m
  let nmn := m * m
  let Ynm := Function.update s.Ynm npn (F.ofReal (s.rhom * p * prefactor npn) * eim)
  let Ynm := Function.update Ynm nmn (F.conj (Ynm npn))
  let p1 := p
  let p := x * (2 * (m : K) + 1) * p1
  let t ← sdiv (s.rhom * (p - ((m : K) + 1) * x * p1)) y
  let YnmTheta := Function.update s.YnmTheta npn (F.ofReal (t * prefactor npn) * eim)
  let rhom ← sdiv s.rhom rho
  let rhon := rhom
  let t ← for_range_checked (m + 1) (2 * P) (evalLocal_n_checked F prefactor rho x y eim m)
    ⟨Ynm, YnmTheta, p, p1, rhon⟩
  let pn := -s.pn * s.fact * y
  let fact := s.fact + 2
  pure ⟨t.Ynm, t.YnmTheta, fact, pn, rhom⟩

/-- The function `evalLocal` with checked divisions. -/
def evalLocal_checked {K C : Type} [LinearOrderedField K] [Field C] (F : cmath K C)
    (prefactor : Nat → K) (P : Nat) (rho alpha beta : K) (Ynm YnmTheta : Nat → C) :
    Option ((Nat → C) × (Nat → C)) := do
  let x := F.cos alpha
  let y := F.sin alpha
  let rhom ← sdiv 1 rho
  let s ← for_range_checked 0 (2 * P) (evalLocal_m_checked F prefactor P rho beta x y)
    ⟨Ynm, YnmTheta, 1, 1, rhom⟩
  pure (s.Ynm, s.YnmTheta)
/-! ### The two evaluators as one loop -/

/-- The body of the loop over `n` of both evaluators; `upd` is the update of the radial
factor, `rhon *= rho` or `rhon /= rho`. -/
def harmonics_n {K C : Type} [LinearOrderedField K] [Field C] (F : cmath K C)
    (prefactor : Nat → K) (upd : K → K) (x y : K) (eim : C) (m n : Nat)
    (s : eval_n K C) : eval_n K C :=
  let npm := n * n + n + m
  let nmm := n * n + n - m
  let Ynm := Function.update s.Ynm npm (F.ofReal (s.rhon * s.p * prefactor npm) * eim)
  let Ynm := Function.update Ynm nmm (F.conj (Ynm npm))
  let p2 := s.p1
  let p1 := s.p
  let p := (x * (2 * (n : K) + 1) * p1 - ((n : K) + (m : K)) * p2) / ((n : K) - (m : K) + 1)
  let YnmTheta := Function.update s.YnmTheta npm
    (F.ofReal (s.rhon * (((n : K) - (m : K) + 1) * p - ((n : K) + 1) * x * p1) / y
      * prefactor npm) * eim)
  ⟨Ynm, YnmTheta, p, p1, upd s.rhon⟩

/-- The body of the loop over `m` of both evaluators; `N` is the bound of the loops, `P`
or `2 * P`. -/
def harmonics_m {K C : Type} [LinearOrderedField K] [Field C] (F : cmath K C)
    (prefactor : Nat → K) (N : Nat) (upd : K → K) (beta x y : K) (m : Nat)
    (s : eval_m K C) : eval_m K C :=
  let eim := F.exp (F.I * F.ofReal ((m : K) * beta))
  let p := s.pn
  let npn := m * m + 2 * m
  let nmn := m * m
  let Ynm := Function.update s.Ynm npn (F.ofReal (s.rhom * p * prefactor npn) * eim)
  let Ynm := Function.update Ynm nmn (F.conj (Ynm npn))
  let p1 := p
  let p := x * (2 * (m : K) + 1) * p1
  let YnmTheta := Function.update s.YnmTheta npn
    (F.ofReal (s.rhom * (p - ((m : K) + 1) * x * p1) / y * prefactor npn) * eim)
  let rhom := upd s.rhom
  let t := for_range (m + 1) N (harmonics_n F prefactor upd x y eim m)
    ⟨Ynm, YnmTheta, p, p1, rhom⟩
  ⟨t.Ynm, t.YnmTheta, s.fact + 2, -s.pn * s.fact * y, rhom⟩

/-- Both evaluators: the loop over `m` up to `N`, started with the radial factor
`rho0`. -/
def harmonics {K C : Type} [LinearOrderedField K] [Field C] (F : cmath K C)
    (prefactor : Nat → K) (N : Nat) (upd : K → K) (rho0 alpha beta : K)
    (Ynm YnmTheta : Nat → C) : (Nat → C) × (Nat → C) :=
  let s := for_range 0 N (harmonics_m F prefactor N upd beta (F.cos alpha) (F.sin alpha))
    ⟨Ynm, YnmTheta, 1, 1, rho0⟩
  (s.Ynm, s.YnmTheta)

/-! ### The functions of the specification -/

/-- The functions of the standard library in exact arithmetic: the functions of the real
and of the complex numbers. -/
def cmath.exact (F : cmath ℝ ℂ) : Prop :=
  F.sqrt = Real.sqrt ∧ F.cos = Real.cos ∧ F.sin = Real.sin ∧ F.acos = Real.arccos ∧
  F.atan = Real.arctan ∧ F.M_PI = Real.pi ∧ F.ofReal = Complex.ofReal ∧
  F.conj = starRingEnd ℂ ∧ F.real = Complex.re ∧ F.exp = Complex.exp ∧
  F.pow = (fun (z : ℂ) (t : ℝ) => z ^ (t : ℂ)) ∧ F.I = Complex.I

/-- The associated Legendre function `P_{m+k}^m` of the specification as a function of
`x = cos α` and `y = sin α`: the seed `P_m^m = (-1)^m (2m-1)!! sin^m α`, the step
`P_{m+1}^m = (2m+1) cos α P_m^m` and the recurrence
`P_n^m = ((2n-1) cos α P_{n-1}^m - (n+m-1) P_{n-2}^m) / (n-m)` for `n = m + k + 2`. -/
def legendre {K : Type} [Field K] (x y : K) (m : Nat) : Nat → K
  | 0 => (-1) ^ m * ((2 * m - 1).doubleFactorial : K) * y ^ m
  | 1 => (2 * (m : K) + 1) * x * ((-1) ^ m * ((2 * m - 1).doubleFactorial : K) * y ^ m)
  | k + 2 =>
    ((2 * ((m + k + 2 : Nat) : K) - 1) * x * legendre x y m (k + 1)
      - (((m + k + 2 : Nat) : K) + (m : K) - 1) * legendre x y m k)
      / (((m + k + 2 : Nat) : K) - (m : K))

/-- The value that an evaluator stores in `Ynm[n*n+n+m]` for `0 ≤ m ≤ n`, with the radial
factor `R n`. -/
def inner_value {K C : Type} [LinearOrderedField K] [Field C] (F : cmath K C)
    (prefactor : Nat → K) (R : Nat → K) (x y beta : K) (m n : Nat) : C :=
  F.ofReal (R n * legendre x y m (n - m) * prefactor (n * n + n + m))
    * F.exp (F.I * F.ofReal ((m : K) * beta))

/-- The value that an evaluator stores in `YnmTheta[n*n+n+m]` for `0 ≤ m ≤ n`, with the
radial factor `R n`. -/
def theta_value {K C : Type} [LinearOrderedField K] [Field C] (F : cmath K C)
    (prefactor : Nat → K) (R : Nat → K) (x y beta : K) (m n : Nat) : C :=
  F.ofReal (R n * (((n : K) - (m : K) + 1) * legendre x y m (n - m + 1)
      - ((n : K) + 1) * x * legendre x y m (n - m)) / y * prefactor (n * n + n + m))
    * F.exp (F.I * F.ofReal ((m : K) * beta))

/-- The entries of the pair `(m, n)` hold the values of the evaluator. -/
def stored {K C : Type} [LinearOrderedField K] [Field C] (F : cmath K C)
    (prefactor : Nat → K) (R : Nat → K) (x y beta : K) (Ynm YnmTheta : Nat → C)
    (m n : Nat) : Prop :=
  Ynm (n * n + n + m) = inner_value F prefactor R x y beta m n ∧
  Ynm (n * n + n - m) = F.conj (inner_value F prefactor R x y beta m n) ∧
  YnmTheta (n * n + n + m) = theta_value F prefactor R x y beta m n

/-- The invariant of the loop over `n` of the evaluators at the head of the pass for
`n`, in the pass for `m` of the outer loop with the bound `N`. -/
def inv_n {K C : Type} [LinearOrderedField K] [Field C] (F : cmath K C)
    (prefactor : Nat → K) (R : Nat → K) (x y beta : K) (N m n : Nat)
    (s : eval_n K C) : Prop :=
  s.p = legendre x y m (n - m) ∧ s.p1 = legendre x y m (n - m - 1) ∧ s.rhon = R n ∧
  ∀ m' n', m' ≤ n' → ((m' < m ∧ n' < N) ∨ (m' = m ∧ n' < n)) →
    stored F prefactor R x y beta s.Ynm s.YnmTheta m' n'

/-- The invariant of the loop over `m` of the evaluators at the head of the pass for
`m`. -/
def inv_m {K C : Type} [LinearOrderedField K] [Field C] (F : cmath K C)
    (prefactor : Nat → K) (R : Nat → K) (x y beta : K) (N m : Nat)
    (s : eval_m K C) : Prop :=
  s.pn = legendre x y m 0 ∧ s.fact = 2 * (m : K) + 1 ∧ s.rhom = R m ∧
  ∀ m' n', m' ≤ n' → m' < m → n' < N →
    stored F prefactor R x y beta s.Ynm s.YnmTheta m' n'

/-- The index `n*n+n+m` of the pair `(n, m)`, `-n ≤ m ≤ n`, in the arrays `prefactor`,
`Anm`, `Ynm` and `YnmTheta`. -/
def nm_index (n : Nat) (m : Int) : Nat := ((n : Int) * n + n + m).toNat

/-- The coefficient `a(n, m) = (-1)^n / sqrt((n-m)! (n+m)!)` of the specification. -/
def a_nm {K : Type} [Field K] (sqrt : K → K) (n : Nat) (m : Int) : K :=
  (-1) ^ n / sqrt ((((n - m).toNat.factorial : Nat) : K) * (((n + m).toNat.factorial : Nat) : K))

/-- The value that `preCalculation` computes for `Cnm` in the pass for `(j, k, n, m)`,
with the indices `nm = n*n+n+m` and `jk = j*j+j+k` of the two running counters. -/
def Cnm_entry {K C : Type} [LinearOrderedField K] [Field C] (F : cmath K C) (EPS : K)
    (Anm : Nat → K) (j : Nat) (k : Int) (n : Nat) (m : Int) : C :=
  F.pow F.I (((|k - m| - |k| - |m| : Int)) : K)
    * F.ofReal (((ODDEVEN j : Int) : K) * Anm (nm_index n m) * Anm (nm_index j k)
        / Anm (nm_index (j + n) (m - k))) * F.ofReal EPS

/-- The two-sided multipole coefficient `Mt[n,m]` of the specification:
`M[n(n+1)/2+m]` for `m ≥ 0` and the conjugate of `M[n(n+1)/2-m]` for `m < 0`. -/
def M_two_sided {K C : Type} (F : cmath K C) (M : Nat → C) (n : Nat) (m : Int) : C :=
  if m < 0 then F.conj (M ((n : Int) * (n + 1) / 2 - m).toNat)
  else M ((n : Int) * (n + 1) / 2 + m).toNat

/-- The potential of the specification for `M2P`: the sum over `n < P` of
`Re(M[n,0] Y[n,0])` and of `2 Re(M[n,m] Y[n,m])` for `1 ≤ m ≤ n`. -/
def M2P_potential {K C : Type} [LinearOrderedField K] [Field C] (F : cmath K C)
    (M Ynm : Nat → C) (P : Nat) : K :=
  ∑ n ∈ Finset.range P,
    (F.real (M (n * (n + 1) / 2) * Ynm (n * n + n))
      + ∑ m ∈ Finset.Icc 1 n,
          2 * F.real (M (n * (n + 1) / 2 + m) * Ynm (n * n + n + m)))

/-- The spherical gradient of the specification for `M2P`: the sums over `n < P` and
`0 ≤ m ≤ n`, with the weight 1 for `m = 0` and 2 for `m > 0`, of the components
`-(n+1)/r Re(M Y)`, `Re(M Y_θ)` and `m Re(M Y i)`. -/
def M2P_spherical {K C : Type} [LinearOrderedField K] [Field C] (F : cmath K C)
    (M Ynm YnmTheta : Nat → C) (r : K) (P : Nat) : vect K :=
  ⟨∑ n ∈ Finset.range P,
    (-(F.real (M (n * (n + 1) / 2) * Ynm (n * n + n)) / r * ((n : K) + 1))
      + ∑ m ∈ Finset.Icc 1 n,
          -(2 * F.real (M (n * (n + 1) / 2 + m) * Ynm (n * n + n + m)) / r
              * ((n : K) + 1))),
   ∑ n ∈ Finset.range P,
    (F.real (M (n * (n + 1) / 2) * YnmTheta (n * n + n))
      + ∑ m ∈ Finset.Icc 1 n,
          2 * F.real (M (n * (n + 1) / 2 + m) * YnmTheta (n * n + n + m))),
   ∑ n ∈ Finset.range P, ∑ m ∈ Finset.Icc 1 n,
      2 * F.real (M (n * (n + 1) / 2 + m) * Ynm (n * n + n + m) * F.I) * (m : K)⟩

/-- The potential of the specification for `M2P` at the target body `B`, with the outer
harmonics of `evalLocal` at `cart2sph(B.X - Cj.X - Xperiodic)`. -/
def M2P_phi {K C : Type} [LinearOrderedField K] [Field C] (F : cmath K C) (EPS : K)
    (Xperiodic : vect K) (prefactor : Nat → K) (P : Nat) (Cj : Cell K C) (B : Body K) : K :=
  let sph := cart2sph F EPS ((B.X.sub Cj.X).sub Xperiodic)
  let Y := evalLocal F prefactor P sph.1 sph.2.1 sph.2.2 (fun _ => 0) (fun _ => 0)
  M2P_potential F Cj.M Y.1 P

/-- The output of `sph2cart` for the spherical gradient of the specification for `M2P`
at the target body `B`. -/
def M2P_cartesian {K C : Type} [LinearOrderedField K] [Field C] (F : cmath K C) (EPS : K)
    (Xperiodic : vect K) (prefactor : Nat → K) (P : Nat) (Cj : Cell K C) (B : Body K) :
    vect K :=
  let sph := cart2sph F EPS ((B.X.sub Cj.X).sub Xperiodic)
  let Y := evalLocal F prefactor P sph.1 sph.2.1 sph.2.2 (fun _ => 0) (fun _ => 0)
  sph2cart F sph.1 sph.2.1 sph.2.2 (M2P_spherical F Cj.M Y.1 Y.2 sph.1 P)

/-! ### The order of the expansion -/

/-- The outcomes of a call: the value that it returns, an error that it reports to the
caller, or no defined behaviour. -/
inductive Outcome (ε α : Type) where
  | value (a : α)
  | error (e : ε)
  | undefined

/-- Modelled from the spec: the error kind `InvalidOrder` of section 7, `P < 1` at kernel
construction; the sources declare no error kind. -/
inductive KernelError where
  | InvalidOrder
deriving DecidableEq, Repr

/-- The call of `preCalculation` for the order `P`. The function has no statement that
tests `P` and none that reports an error: its outcome is the tables that it builds, and
for `P = 0`, where the store `factorial[0] = 1` is outside the array `new real[P]` and the
loop `for (n = 1; n != P; ++n)` does not come to an end, there is no defined
behaviour. -/
def preCalculation_call {K C : Type} [LinearOrderedField K] [Field C] (F : cmath K C)
    (EPS : K) (P : Nat) (raw : tables K C) : Outcome KernelError (tables K C) :=
  match preCalculation F EPS P raw with
  | some T => .value T
  | none => .undefined

/-! ### The kernels `M2M` and `L2P` -/

/-- The loops over `n` and `m` of `M2M` for the indices `j` and `k`: the value of the
variable `M`. -/
def M2M_jk {K C : Type} [LinearOrderedField K] [Field C] (F : cmath K C)
    (Anm : Nat → K) (M Ynm : Nat → C) (j k : Nat) : C :=
  let jk := j * j + j + k
  for_range 0 (j + 1) (fun n acc =>
    let acc := for_int (-(n : Int)) (min ((k : Int) - 1) n) (fun m acc =>
      if (j : Int) - n ≥ k - m then
        let jnkm := ((j : Int) - n) * (j - n) + j - n + k - m
        let jnkms := ((j : Int) - n) * (j - n + 1) / 2 + k - m
        let nm := (n : Int) * n + n + m
        acc + M jnkms.toNat * F.pow F.I (((m - |m| : Int)) : K) * Ynm nm.toNat
          * F.ofReal (((ODDEVEN n : Int) : K) * Anm nm.toNat * Anm jnkm.toNat / Anm jk)
      else acc) acc
    for_int k n (fun m acc =>
      if (j : Int) - n ≥ m - k then
        let jnkm := ((j : Int) - n) * (j - n) + j - n + k - m
        let jnkms := ((j : Int) - n) * (j - n + 1) / 2 - k + m
        let nm := (n : Int) * n + n + m
        acc + F.conj (M jnkms.toNat) * Ynm nm.toNat
          * F.ofReal (((ODDEVEN ((k : Int) + n + m) : Int) : K) * Anm nm.toNat
              * Anm jnkm.toNat / Anm jk)
      else acc) acc) 0

/-- The variables of the loop over the child cells of `M2M`. -/
structure M2M_state (K C : Type) where
  Rmax : K
  Ynm : Nat → C
  YnmTheta : Nat → C
  M : Nat → C

/-- The body of the loop over the child cells of `M2M`. -/
def M2M_body {K C : Type} [LinearOrderedField K] [Field C] (F : cmath K C) (EPS : K)
    (T : tables K C) (P : Nat) (Ci : Cell K C) (s : M2M_state K C) (Cj : Cell K C) :
    M2M_state K C :=
  let dist := Ci.X.sub Cj.X
  let R := F.sqrt (norm dist) + Cj.RCRIT
  let Rmax := if R > s.Rmax then R else s.Rmax
  let sph := cart2sph F EPS dist
  let Y := evalMultipole F T.prefactor P sph.1 sph.2.1 (-sph.2.2) s.Ynm s.YnmTheta
  let M := for_range 0 P (fun j M =>
    for_range 0 (j + 1) (fun k M =>
      let jks := j * (j + 1) / 2 + k
      Function.update M jks (M jks + M2M_jk F T.Anm Cj.M Y.1 j k * F.ofReal EPS)) M) s.M
  ⟨Rmax, Y.1, Y.2, M⟩

/-- The kernel `M2M(Ci)` on a cell and its child cells `Cj0 + CHILD .. Cj0 + CHILD +
NCHILD`: the cell after the call. The local arrays `Ynm` and `YnmTheta` start with the
value `complex()`. -/
def M2M {K C : Type} [LinearOrderedField K] [Field C] (F : cmath K C) (EPS : K)
    (T : tables K C) (P : Nat) (Ci : Cell K C) (children : List (Cell K C)) : Cell K C :=
  let s := children.foldl (M2M_body F EPS T P Ci) ⟨Ci.RMAX, fun _ => 0, fun _ => 0, Ci.M⟩
  { Ci with M := s.M, RMAX := s.Rmax, RCRIT := min Ci.R s.Rmax }

/-- The body of the loop over `n` of `L2P`. -/
def L2P_n {K C : Type} [LinearOrderedField K] [Field C] (F : cmath K C)
    (L Ynm YnmTheta : Nat → C) (r : K) (n : Nat) (a : M2P_acc K) : M2P_acc K :=
  let nm := n * n + n
  let nms := n * (n + 1) / 2
  let a : M2P_acc K :=
    ⟨a.TRG0 + F.real (L nms * Ynm nm),
     ⟨a.spherical.x + F.real (L nms * Ynm nm) / r * (n : K),
      a.spherical.y + F.real (L nms * YnmTheta nm),
      a.spherical.z⟩⟩
  for_range 1 (n + 1) (fun m (a : M2P_acc K) =>
    let nm := n * n + n + m
    let nms := n * (n + 1) / 2 + m
    (⟨a.TRG0 + 2 * F.real (L nms * Ynm nm),
     ⟨a.spherical.x + 2 * F.real (L nms * Ynm nm) / r * (n : K),
      a.spherical.y + 2 * F.real (L nms * YnmTheta nm),
      a.spherical.z + 2 * F.real (L nms * Ynm nm * F.I) * (m : K)⟩⟩ : M2P_acc K)) a

/-- The body of the loop over the bodies of `L2P`: the arrays `Ynm`, `YnmTheta` and the
body after it. -/
def L2P_body {K C : Type} [LinearOrderedField K] [Field C] (F : cmath K C) (EPS : K)
    (prefactor : Nat → K) (P : Nat) (Ci : Cell K C)
    (Y : (Nat → C) × (Nat → C)) (B : Body K) : ((Nat → C) × (Nat → C)) × Body K :=
  let dist := B.X.sub Ci.X
  let sph := cart2sph F EPS dist
  let r := sph.1
  let theta := sph.2.1
  let phi := sph.2.2
  let Y := evalMultipole F prefactor P r theta phi Y.1 Y.2
  let a := for_range 0 P (L2P_n F Ci.L Y.1 Y.2 r) ⟨B.TRG.v0, ⟨0, 0, 0⟩⟩
  let cartesian := sph2cart F r theta phi a.spherical
  (Y, { B with TRG := ⟨a.TRG0, B.TRG.v1 + cartesian.x, B.TRG.v2 + cartesian.y,
                        B.TRG.v3 + cartesian.z⟩ })

/-- The loop over the bodies of `L2P`. -/
def L2P_loop {K C : Type} [LinearOrderedField K] [Field C] (F : cmath K C) (EPS : K)
    (prefactor : Nat → K) (P : Nat) (Ci : Cell K C) :
    (Nat → C) × (Nat → C) → List (Body K) → List (Body K)
  | _, [] => []
  | Y, B :: rest =>
    (L2P_body F EPS prefactor P Ci Y B).2 ::
      L2P_loop F EPS prefactor P Ci (L2P_body F EPS prefactor P Ci Y B).1 rest

/-- The kernel `L2P(Ci)` on a cell and its bodies `LEAF .. LEAF + NCLEAF`: the bodies
after the call. -/
def L2P {K C : Type} [LinearOrderedField K] [Field C] (F : cmath K C) (EPS : K)
    (prefactor : Nat → K) (P : Nat) (Ci : Cell K C) (bodies : List (Body K)) :
    List (Body K) :=
  L2P_loop F EPS prefactor P Ci (fun _ => 0, fun _ => 0) bodies

end SphericalLaplaceKernel

/-! ## The Stokes kernel `StokesSpherical` in Stokeslet mode

The class derives from `LaplaceSpherical`, which is not among the sources. The helpers
`cart2sph`, `sph2cart`, `evalMultipole` and `evalLocal` that it inherits are taken to be
those of `SphericalLaplaceKernel`, which section 4.4 of the specification describes once
for both; the constructor of the base class is an argument. A charge and a result are a
`vect`, an expansion is four arrays. -/

namespace StokesSpherical

open SphericalLaplaceKernel

/-- The constructor `StokesSpherical(int p) : LaplaceSpherical(p)`: it hands `p` to the
constructor `base` of the base class and has no statement of its own. -/
def construct {ε κ : Type} (base : Int → Outcome ε κ) (p : Int) : Outcome ε κ :=
  base p

/-- The body of the loop over the sources of `P2P` for the target `t` with the result
`r`, the source `s` and its charge `f`: the result after the pass. `normSq` is the
squared length of the vector header, the function `norm`; the literal `1e-8` is the
number `1 / 10^8`. -/
def P2P_pair {K : Type} [LinearOrderedField K] (sqrt : K → K) (t : vect K) (r : vect K)
    (sf : vect K × vect K) : vect K :=
  let dist := t.sub sf.1
  let r2 := norm dist
  let R1 := r2
  let R2 := R1
  let invR := 1 / R1
  let invR := if r2 < 1 / 100000000 then 0 else invR
  let H := sqrt invR * invR
  let f := sf.2
  let fdx := dist.x * f.x + dist.y * f.y + dist.z * f.z
  ⟨r.x + H * (f.x * R2 + fdx * dist.x),
   r.y + H * (f.y * R2 + fdx * dist.y),
   r.z + H * (f.z * R2 + fdx * dist.z)⟩

/-- The kernel `P2P`: the ranges of the sources and of the charges are traversed
together, a list of pairs, and so are the targets and the results; the value is the
list of the results after the call. -/
def P2P {K : Type} [LinearOrderedField K] (sqrt : K → K) (sources : List (vect K × vect K))
    (targets : List (vect K × vect K)) : List (vect K) :=
  targets.map (fun tr => sources.foldl (P2P_pair sqrt tr.1) tr.2)

/-- The kernel `P2M(source, charge, center, M)`: the four arrays of `M` after the call.
The local arrays `Ynm` and `YnmTheta` start with the value `complex()`. -/
def P2M {K C : Type} [LinearOrderedField K] [Field C] (F : cmath K C) (EPS : K)
    (prefactor : Nat → K) (P : Nat) (source charge center : vect K) (M : Nat → Nat → C) :
    Nat → Nat → C :=
  let dist := source.sub center
  let sph := cart2sph F EPS dist
  let Y := evalMultipole F prefactor P sph.1 sph.2.1 (-sph.2.2) (fun _ => 0) (fun _ => 0)
  let f0 := charge.x
  let f1 := charge.y
  let f2 := charge.z
  let fdotx := f0 * source.x + f1 * source.y + f2 * source.z
  for_range 0 P (fun n M =>
    for_range 0 (n + 1) (fun m M =>
      let nm := n * (n + 1) + m
      let nms := n * (n + 1) / 2 + m
      let M := Function.update M 0 (Function.update (M 0) nms (M 0 nms + F.ofReal f0 * Y.1 nm))
      let M := Function.update M 1 (Function.update (M 1) nms (M 1 nms + F.ofReal f1 * Y.1 nm))
      let M := Function.update M 2 (Function.update (M 2) nms (M 2 nms + F.ofReal f2 * Y.1 nm))
      Function.update M 3 (Function.update (M 3) nms (M 3 nms + F.ofReal fdotx * Y.1 nm))) M) M

/-- The variables that the loops of `M2P` change: `result` and the four elements of
`gradient`. -/
structure M2P_vars (K : Type) where
  result : vect K
  g0 : vect K
  g1 : vect K
  g2 : vect K
  g3 : vect K

/-- The body of the loop over `m` of `M2P`. -/
def M2P_m {K C : Type} [LinearOrderedField K] [Field C] (F : cmath K C)
    (M : Nat → Nat → C) (Ynm YnmTheta : Nat → C) (factor : K) (n m : Nat)
    (s : M2P_vars K) : M2P_vars K :=
  let nm := n * n + n + m
  let nms := n * (n + 1) / 2 + m
  ⟨⟨s.result.x + 2 / 6 * F.real (M 0 nms * Ynm nm),
    s.result.y + 2 / 6 * F.real (M 1 nms * Ynm nm),
    s.result.z + 2 / 6 * F.real (M 2 nms * Ynm nm)⟩,
   ⟨s.g0.x - 2 * F.real (M 0 nms * Ynm nm) * factor,
    s.g0.y + 2 * F.real (M 0 nms * YnmTheta nm),
    s.g0.z + 2 * F.real (M 0 nms * Ynm nm * F.I) * (m : K)⟩,
   ⟨s.g1.x - 2 * F.real (M 1 nms * Ynm nm) * factor,
    s.g1.y + 2 * F.real (M 1 nms * YnmTheta nm),
    s.g1.z + 2 * F.real (M 1 nms * Ynm nm * F.I) * (m : K)⟩,
   ⟨s.g2.x - 2 * F.real (M 2 nms * Ynm nm) * factor,
    s.g2.y + 2 * F.real (M 2 nms * YnmTheta nm),
    s.g2.z + 2 * F.real (M 2 nms * Ynm nm * F.I) * (m : K)⟩,
   ⟨s.g3.x - 2 * F.real (M 3 nms * Ynm nm) * factor,
    s.g3.y + 2 * F.real (M 3 nms * YnmTheta nm),
    s.g3.z + 2 * F.real (M 3 nms * Ynm nm * F.I) * (m : K)⟩⟩

/-- The body of the loop over `n` of `M2P`. -/
def M2P_n {K C : Type} [LinearOrderedField K] [Field C] (F : cmath K C)
    (M : Nat → Nat → C) (Ynm YnmTheta : Nat → C) (r : K) (n : Nat) (s : M2P_vars K) :
    M2P_vars K :=
  let nm := n * n + n
  let nms := n * (n + 1) / 2
  let factor := 1 / r * ((n : K) + 1)
  let s : M2P_vars K :=
    ⟨⟨s.result.x + 1 / 6 * F.real (M 0 nms * Ynm nm),
      s.result.y + 1 / 6 * F.real (M 1 nms * Ynm nm),
      s.result.z + 1 / 6 * F.real (M 2 nms * Ynm nm)⟩,
     ⟨s.g0.x - F.real (M 0 nms * Ynm nm) * factor,
      s.g0.y + F.real (M 0 nms * YnmTheta nm), s.g0.z⟩,
     ⟨s.g1.x - F.real (M 1 nms * Ynm nm) * factor,
      s.g1.y + F.real (M 1 nms * YnmTheta nm), s.g1.z⟩,
     ⟨s.g2.x - F.real (M 2 nms * Ynm nm) * factor,
      s.g2.y + F.real (M 2 nms * YnmTheta nm), s.g2.z⟩,
     ⟨s.g3.x - F.real (M 3 nms * Ynm nm) * factor,
      s.g3.y + F.real (M 3 nms * YnmTheta nm), s.g3.z⟩⟩
  for_range 1 (n + 1) (M2P_m F M Ynm YnmTheta factor n) s

/-- The kernel `M2P(M, center, target, result)`: the result after the call. The
constant `CI` is the imaginary unit. -/
def M2P {K C : Type} [LinearOrderedField K] [Field C] (F : cmath K C) (EPS : K)
    (prefactor : Nat → K) (P : Nat) (M : Nat → Nat → C) (center target result : vect K) :
    vect K :=
  let dist := target.sub center
  let sph := cart2sph F EPS dist
  let r := sph.1
  let theta := sph.2.1
  let phi := sph.2.2
  let Y := evalLocal F prefactor P r theta phi (fun _ => 0) (fun _ => 0)
  let s := for_range 0 P (M2P_n F M Y.1 Y.2 r)
    ⟨result, ⟨0, 0, 0⟩, ⟨0, 0, 0⟩, ⟨0, 0, 0⟩, ⟨0, 0, 0⟩⟩
  let g0 := (sph2cart F r theta phi s.g0).smul (-target.x)
  let g1 := (sph2cart F r theta phi s.g1).smul (-target.y)
  let g2 := (sph2cart F r theta phi s.g2).smul (-target.z)
  let g3 := sph2cart F r theta phi s.g3
  ⟨s.result.x + 1 / 6 * (g0.x + g1.x + g2.x + g3.x),
   s.result.y + 1 / 6 * (g0.y + g1.y + g2.y + g3.y),
   s.result.z + 1 / 6 * (g0.z + g1.z + g2.z + g3.z)⟩

/-- The Stokeslet of the specification for the charge `f` at the distance vector `dist`:
`f_i / R + dist_i (f . dist) / R^3` with `R = |dist|`, and nothing when
`|dist|^2 < 1e-8`. -/
def stokeslet {K : Type} [LinearOrderedField K] (sqrt : K → K) (dist f : vect K) : vect K :=
  if norm dist < 1 / 100000000 then ⟨0, 0, 0⟩
  else
    ⟨f.x / sqrt (norm dist)
        + dist.x * (f.x * dist.x + f.y * dist.y + f.z * dist.z) / sqrt (norm dist) ^ 3,
     f.y / sqrt (norm dist)
        + dist.y * (f.x * dist.x + f.y * dist.y + f.z * dist.z) / sqrt (norm dist) ^ 3,
     f.z / sqrt (norm dist)
        + dist.z * (f.x * dist.x + f.y * dist.y + f.z * dist.z) / sqrt (norm dist) ^ 3⟩

/-- The weight of the specification for the array `i` of the expansion in `P2M`: the
component `f_i` of the charge for `i = 0, 1, 2` and `f . x` for `i = 3`. -/
def P2M_weight {K : Type} [Field K] (charge source : vect K) (i : Nat) : K :=
  match i with
  | 0 => charge.x
  | 1 => charge.y
  | 2 => charge.z
  | _ => charge.x * source.x + charge.y * source.y + charge.z * source.z

/-- The amounts by which the kernel `M2P` of the Laplace kernel, with `Xperiodic = 0`,
changes the value `TRG` of the target body `B` for a source cell with the center
`center` and the multipole expansion `Mi`: the potential increment and the three
components of the gradient increment. -/
def M2P_increment {K C : Type} [LinearOrderedField K] [Field C] (F : cmath K C) (EPS : K)
    (prefactor : Nat → K) (P : Nat) (Mi : Nat → C) (center : vect K) (B : Body K) : vec4 K :=
  let out := ((SphericalLaplaceKernel.M2P F EPS ⟨0, 0, 0⟩ prefactor P [B]
    ⟨center, 0, 0, 0, Mi, fun _ => 0⟩).map Body.TRG).headD B.TRG
  ⟨out.v0 - B.TRG.v0, out.v1 - B.TRG.v1, out.v2 - B.TRG.v2, out.v3 - B.TRG.v3⟩

/-- The variables of the loops of the Stokes kernel `M2P` hold the sums that the loops
of the Laplace kernel `M2P` hold for the four arrays of the expansion. -/
def M2P_rel {K : Type} [LinearOrderedField K] (r0 : vect K) (c : K) (s : M2P_vars K)
    (a : M2P_acc K × M2P_acc K × M2P_acc K × M2P_acc K) : Prop :=
  s.result.x = r0.x + 1 / 6 * (a.1.TRG0 - c) ∧
  s.result.y = r0.y + 1 / 6 * (a.2.1.TRG0 - c) ∧
  s.result.z = r0.z + 1 / 6 * (a.2.2.1.TRG0 - c) ∧
  s.g0 = a.1.spherical ∧ s.g1 = a.2.1.spherical ∧ s.g2 = a.2.2.1.spherical ∧
  s.g3 = a.2.2.2.spherical

end StokesSpherical

namespace SphericalLaplaceKernel

/-- The inner harmonic of the specification at the radius 1, the polar angle `π/2` and
the azimuth 0: `P_n^{|m|}(0) sqrt((n-|m|)! / (n+|m|)!)`. -/
def equator_harmonic {K : Type} [Field K] (sqrt : K → K) (n : Nat) (m : Int) : K :=
  legendre 0 1 m.natAbs (n - m.natAbs)
    * sqrt ((((n - m.natAbs).factorial : Nat) : K) / (((n + m.natAbs).factorial : Nat) : K))

/-- The terms of degree `n` of the translation sum of `M2M` for the coefficient
`(j, k)`, with the harmonics `equator_harmonic` at the radius 1 and the coefficients
`a(n, m)` of the specification in the place of the array `Anm`. -/
def M2M_term {K C : Type} [LinearOrderedField K] [Field C] (F : cmath K C) (M : Nat → C)
    (j k n : Nat) : C :=
  (∑ m ∈ Finset.Icc (-(n : Int)) (min ((k : Int) - 1) n),
    if (j : Int) - n ≥ k - m then
      M ((((j : Int) - n) * (j - n + 1) / 2 + k - m).toNat)
        * F.pow F.I (((m - |m| : Int)) : K)
        * F.ofReal (equator_harmonic F.sqrt n m)
        * F.ofReal (((ODDEVEN n : Int) : K) * a_nm F.sqrt n m
            * a_nm F.sqrt (j - n) (k - m) / a_nm F.sqrt j k)
    else 0)
  + ∑ m ∈ Finset.Icc (k : Int) n,
    if (j : Int) - n ≥ m - k then
      F.conj (M ((((j : Int) - n) * (j - n + 1) / 2 - k + m).toNat))
        * F.ofReal (equator_harmonic F.sqrt n m)
        * F.ofReal (((ODDEVEN ((k : Int) + n + m) : Int) : K) * a_nm F.sqrt n m
            * a_nm F.sqrt (j - n) (k - m) / a_nm F.sqrt j k)
    else 0

/-- The product of the inner harmonic at the equator and the coefficient `a(n, m)` of
the specification, for `μ = |m| ≤ n`: `(-1)^n P_n^μ(0) / (n+μ)!`. -/
def coupling_A {K : Type} [Field K] (n μ : Nat) : K :=
  (-1) ^ n * legendre 0 1 μ (n - μ) / (((n + μ).factorial : Nat) : K)

/-- The quotient of the inner harmonic at the equator and the coefficient `a(n, m)` of
the specification, for `μ = |m| ≤ n`: `(-1)^n P_n^μ(0) (n-μ)!`. -/
def coupling_B {K : Type} [Field K] (n μ : Nat) : K :=
  (-1) ^ n * legendre 0 1 μ (n - μ) * (((n - μ).factorial : Nat) : K)

/-- The power `i^(|k-m|-|k|-|m|)` of the specification for `k ≥ 0`: 1 for `m < 0` and
`(-1)^min(k,m)` for `m ≥ 0`. -/
def coupling_sign {K : Type} [Field K] (k : Nat) (m : Int) : K :=
  if m < 0 then 1 else (-1) ^ (min k m.toNat)

/-- The factor without radii of the term `(n, m)` of the sum of `M2L` for the
coefficient `(j, k)`, times the harmonic `(j, k)` of `L2P`, when the source, the two
centers and the target lie on the x-axis in this order. -/
def coupling_q {K : Type} [Field K] (j k n : Nat) (m : Int) : K :=
  (-1) ^ m.natAbs * coupling_sign k m * (-1) ^ j * coupling_A n m.natAbs * coupling_A j k
    * coupling_B (j + n) (m - k).natAbs

/-- The sum of the factors `coupling_q` over the orders `m` of the source and the
orders `k` of the target, with the weight 1 for `k = 0` and 2 for `k > 0`. -/
def coupling_Q {K : Type} [Field K] (j n : Nat) : K :=
  ∑ m ∈ Finset.Icc (-(n : Int)) n, coupling_q j 0 n m
    + ∑ k ∈ Finset.Icc 1 j, 2 * ∑ m ∈ Finset.Icc (-(n : Int)) n, coupling_q j k n m

end SphericalLaplaceKernel

namespace Octree

/-- The sum of `f` over the frontier of the box loop before the visit of the box `k`:
the leaves among the boxes that are visited, and the boxes that are not visited yet. -/
def frontier_sum (f : box_data → Nat) (k : Nat) (boxes : List box_data) : Nat :=
  (((boxes.take k).filter box_data.is_leaf).map f).sum + ((boxes.drop k).map f).sum

/-- The number of cells of the finest level, the level 10, in the cell of a box. -/
def cell_volume (b : box_data) : Nat := 8 ^ (10 - b.level)

end Octree

namespace SphericalLaplaceKernel

/-- The potential of the specification in its two-sided form: the real part of the sum
over `n < P` and `-n ≤ m ≤ n` of `Mt[n,m] * Ynm[n^2+n+m]`, with the two-sided multipole
`Mt[n,-m] = conj(M[n,m])`. -/
def two_sided_potential {K C : Type} [LinearOrderedField K] [Field C] (F : cmath K C)
    (M Ynm : Nat → C) (P : Nat) : K :=
  F.real (∑ n ∈ Finset.range P, ∑ m ∈ Finset.Icc (-(n : Int)) n,
    M_two_sided F M n m * Ynm (nm_index n m))

end SphericalLaplaceKernel

namespace Dataset

open SphericalLaplaceKernel

/-- The function `Dataset::initTarget(bodies, IeqJ)` on the fields of a body that the
kernels use: `TRG` is cleared, and when `EPS2 != 0` the potential `TRG[0]` is set to
`-SRC / sqrt(EPS2) * IeqJ`, the flag counting as 1 or 0. The global `EPS2` is an
argument; the tags `IBODY` and `IPROC` are not part of the model of a body. -/
def initTarget {K : Type} [Field K] [DecidableEq K] (sqrt : K → K) (EPS2 : K)
    (bodies : List (Body K)) (IeqJ : Bool) : List (Body K) :=
  bodies.map (fun B =>
    let B : Body K := { B with TRG := ⟨0, 0, 0, 0⟩ }
    if EPS2 ≠ 0 then
      { B with TRG := { B.TRG with v0 := -B.SRC / sqrt EPS2 * (if IeqJ then 1 else 0) } }
    else B)

end Dataset

namespace SphericalLaplaceKernel

/-! ### The kernel `L2L` -/

/-- The loops over `n` and `m` of `L2L` for the indices `j` and `k`: the value of the
variable `L`. -/
def L2L_jk {K C : Type} [LinearOrderedField K] [Field C] (F : cmath K C)
    (Anm : Nat → K) (P : Nat) (L Ynm : Nat → C) (j k : Nat) : C :=
  let jk := j * j + j + k
  for_range j P (fun n acc =>
    let acc := for_int ((j : Int) + k - n) (-1) (fun m acc =>
      let jnkm := ((n : Int) - j) * (n - j) + n - j + m - k
      let nm := (n : Int) * n + n - m
      let nms := (n : Int) * (n + 1) / 2 - m
      acc + F.conj (L nms.toNat) * Ynm jnkm.toNat
        * F.ofReal (((ODDEVEN k : Int) : K) * Anm jnkm.toNat * Anm jk / Anm nm.toNat)) acc
    for_int 0 n (fun m acc =>
      if (n : Int) - j ≥ |m - k| then
        let jnkm := ((n : Int) - j) * (n - j) + n - j + m - k
        let nm := (n : Int) * n + n + m
        let nms := (n : Int) * (n + 1) / 2 + m
        acc + L nms.toNat * F.pow F.I (((m - k - |m - k| : Int)) : K) * Ynm jnkm.toNat
          * F.ofReal (Anm jnkm.toNat) * F.ofReal (Anm jk) / F.ofReal (Anm nm.toNat)
      else acc) acc) 0

/-- The kernel `L2L(Ci)` on a cell `Ci` and its parent cell `Cj = Ci0 + Ci->PARENT`: the
cell `Ci` after the call. The local arrays `Ynm` and `YnmTheta` start with the value
`complex()`. -/
def L2L {K C : Type} [LinearOrderedField K] [Field C] (F : cmath K C) (EPS : K)
    (T : tables K C) (P : Nat) (Ci Cj : Cell K C) : Cell K C :=
  let dist := Ci.X.sub Cj.X
  let sph := cart2sph F EPS dist
  let Y := evalMultipole F T.prefactor P sph.1 sph.2.1 sph.2.2 (fun _ => 0) (fun _ => 0)
  let L := for_range 0 P (fun j L =>
    for_range 0 (j + 1) (fun k L =>
      let jks := j * (j + 1) / 2 + k
      Function.update L jks (L jks + L2L_jk F T.Anm P Cj.L Y.1 j k * F.ofReal EPS)) L) Ci.L
  { Ci with L := L }

/-! ### The upward pass -/

/-- Modelled from the spec: the boxes that the upward pass visits, as a list of boxes
(`siblings` is the rest of the list). A leaf box has a center, a radius, the radii `RMAX`
and `RCRIT` before the pass and its bodies; a box with children has the list of its
child boxes in the place of the bodies. The traversal driver and the type of the cells
are not among the sources. -/
inductive Boxes (K : Type) where
  | nil : Boxes K
  | leaf (X : vect K) (R RMAX RCRIT : K) (bodies : List (Body K)) (siblings : Boxes K) :
      Boxes K
  | node (X : vect K) (R RMAX RCRIT : K) (children : Boxes K) (siblings : Boxes K) :
      Boxes K

/-- Modelled from the spec: the upward pass of section 5 on a list of boxes, started
from zero expansions: a leaf box gets `P2M` of its bodies, and a box with children gets
`M2M` of its child cells after the pass has completed all of them. The first component
is the list of the cells of the boxes of the list, the second one the list of the cells
of all boxes, every box before its descendants. The traversal driver is not among the
sources; `P2M` and `M2M` are the kernels of the sources. -/
def upward {K C : Type} [LinearOrderedField K] [Field C] (F : cmath K C) (EPS : K)
    (T : tables K C) (P : Nat) : Boxes K → List (Cell K C) × List (Cell K C)
  | .nil => ([], [])
  | .leaf X R RMAX RCRIT bodies siblings =>
    let c := P2M F EPS T.prefactor P ⟨X, R, RMAX, RCRIT, fun _ => 0, fun _ => 0⟩ bodies
    let r := upward F EPS T P siblings
    (c :: r.1, c :: r.2)
  | .node X R RMAX RCRIT children siblings =>
    let rc := upward F EPS T P children
    let c := M2M F EPS T P ⟨X, R, RMAX, RCRIT, fun _ => 0, fun _ => 0⟩ rc.1
    let r := upward F EPS T P siblings
    (c :: r.1, c :: (rc.2 ++ r.2))

/-- The total weight of the bodies in the subtree of a box: the first component is the
list of the totals of the boxes of the list, the second one the list of the totals of
all boxes, in the order of `upward`. -/
def subtree_weight {K : Type} [Field K] : Boxes K → List K × List K
  | .nil => ([], [])
  | .leaf _ _ _ _ bodies siblings =>
    let w := (bodies.map (fun B => B.SRC)).sum
    let r := subtree_weight siblings
    (w :: r.1, w :: r.2)
  | .node _ _ _ _ children siblings =>
    let rc := subtree_weight children
    let w := rc.1.sum
    let r := subtree_weight siblings
    (w :: r.1, w :: (rc.2 ++ r.2))

/-! ### The array accesses of the kernels

For every function the list of the accesses `array[index]` that a call makes, with the
index expressions and the loops of the function; an access that a pass of a loop repeats
is listed once for the pass. The indices are of the type `int` of the code and are not
reduced. The values that are stored do not enter. -/

/-- The arrays of the kernels: the four tables of `preCalculation`, the local arrays
`Ynm` and `YnmTheta` of the kernels, and the coefficients `M` and `L` of a cell. -/
inductive array_name where
  | factorial
  | prefactor
  | Anm
  | Cnm
  | Ynm
  | YnmTheta
  | M
  | L
deriving DecidableEq

/-- The number of elements of an array: `new real[P]`, `new real[4*P*P]`,
`new complex[P*P*P*P]`, `complex Ynm[4*P*P], YnmTheta[4*P*P]`, and `multipole_size` and
`local_size` for the coefficients of a cell. -/
def array_size (P : Nat) : array_name → Int
  | .factorial => P
  | .prefactor => 4 * P * P
  | .Anm => 4 * P * P
  | .Cnm => (P : Int) * P * P * P
  | .Ynm => 4 * P * P
  | .YnmTheta => 4 * P * P
  | .M => multipole_size P 0
  | .L => local_size P 0

/-- An access `array[index]` is inside the array. -/
def in_bounds (P : Nat) (a : array_name × Int) : Prop :=
  0 ≤ a.2 ∧ a.2 < array_size P a.1

instance in_bounds_decidable (P : Nat) (a : array_name × Int) : Decidable (in_bounds P a) :=
  inferInstanceAs (Decidable (0 ≤ a.2 ∧ a.2 < array_size P a.1))

/-- The accesses of `evalMultipole`. -/
def evalMultipole_accesses (P : Nat) : List (array_name × Int) :=
  for_range 0 P (fun m tr =>
    let npn : Int := m * m + 2 * m
    let nmn : Int := m * m
    let tr := tr ++ [(.Ynm, npn), (.prefactor, npn), (.Ynm, nmn), (.YnmTheta, npn)]
    for_range (m + 1) P (fun n tr =>
      let npm : Int := n * n + n + m
      let nmm : Int := n * n + n - m
      tr ++ [(.Ynm, npm), (.prefactor, npm), (.Ynm, nmm), (.YnmTheta, npm)]) tr) []

/-- The accesses of `evalLocal`. -/
def evalLocal_accesses (P : Nat) : List (array_name × Int) :=
  for_range 0 (2 * P) (fun m tr =>
    let npn : Int := m * m + 2 * m
    let nmn : Int := m * m
    let tr := tr ++ [(.Ynm, npn), (.prefactor, npn), (.Ynm, nmn), (.YnmTheta, npn)]
    for_range (m + 1) (2 * P) (fun n tr =>
      let npm : Int := n * n + n + m
      let nmm : Int := n * n + n - m
      tr ++ [(.Ynm, npm), (.prefactor, npm), (.Ynm, nmm), (.YnmTheta, npm)]) tr) []

/-- The variables of the loops over `n` and `m` that fill `Cnm`, with the accesses. -/
structure Cnm_nm_accesses where
  tr : List (array_name × Int)
  nm : Int
  jknm : Int

/-- The variables of the loops over `j` and `k` that fill `Cnm`, with the accesses. -/
structure Cnm_jk_accesses where
  tr : List (array_name × Int)
  jk : Int
  jknm : Int

/-- The accesses of `preCalculation`, with the counters `jk`, `nm` and `jknm` of the
loops that fill `Cnm`. -/
def preCalculation_accesses (P : Nat) : List (array_name × Int) :=
  let tr : List (array_name × Int) := [(.factorial, 0)]
  let tr := for_range 1 P (fun n tr => tr ++ [(.factorial, (n : Int)), (.factorial, n - 1)]) tr
  let tr := for_range 0 (2 * P) (fun n tr =>
    for_int (-(n : Int)) n (fun m tr =>
      let nm : Int := n * n + n + m
      tr ++ [(.prefactor, nm), (.Anm, nm)]) tr) tr
  let s := for_range 0 P (fun j (s : Cnm_jk_accesses) =>
    for_int (-(j : Int)) j (fun k (s : Cnm_jk_accesses) =>
      let t := for_range 0 P (fun n (t : Cnm_nm_accesses) =>
        for_int (-(n : Int)) n (fun m (t : Cnm_nm_accesses) =>
          let jnkm : Int := ((j : Int) + n) * (j + n) + j + n + m - k
          (⟨t.tr ++ [(.Cnm, t.jknm), (.Anm, t.nm), (.Anm, s.jk), (.Anm, jnkm)],
            t.nm + 1, t.jknm + 1⟩ : Cnm_nm_accesses)) t) ⟨s.tr, 0, s.jknm⟩
      (⟨t.tr, s.jk + 1, t.jknm⟩ : Cnm_jk_accesses)) s) ⟨tr, 0, 0⟩
  s.tr

/-- The accesses of `M2M` on a cell with `NCHILD` child cells. -/
def M2M_accesses (P NCHILD : Nat) : List (array_name × Int) :=
  for_range 0 NCHILD (fun _ tr =>
    let tr := tr ++ evalMultipole_accesses P
    for_range 0 P (fun j tr =>
      for_range 0 (j + 1) (fun k tr =>
        let jk : Int := j * j + j + k
        let jks : Int := j * (j + 1) / 2 + k
        let tr := for_range 0 (j + 1) (fun n tr =>
          let tr := for_int (-(n : Int)) (min ((k : Int) - 1) n) (fun m tr =>
            if (j : Int) - n ≥ k - m then
              let jnkm : Int := (j - n) * (j - n) + j - n + k - m
              let jnkms : Int := (j - n) * (j - n + 1) / 2 + k - m
              let nm : Int := n * n + n + m
              tr ++ [(.M, jnkms), (.Ynm, nm), (.Anm, nm), (.Anm, jnkm), (.Anm, jk)]
            else tr) tr
          for_int k n (fun m tr =>
            if (j : Int) - n ≥ m - k then
              let jnkm : Int := (j - n) * (j - n) + j - n + k - m
              let jnkms : Int := (j - n) * (j - n + 1) / 2 - k + m
              let nm : Int := n * n + n + m
              tr ++ [(.M, jnkms), (.Ynm, nm), (.Anm, nm), (.Anm, jnkm), (.Anm, jk)]
            else tr) tr) tr
        tr ++ [(.M, jks)]) tr) tr) []

/-- The accesses of `M2L`. -/
def M2L_accesses (P : Nat) : List (array_name × Int) :=
  let tr := evalLocal_accesses P
  for_range 0 P (fun j tr =>
    for_range 0 (j + 1) (fun k tr =>
      let jk : Int := j * j + j + k
      let jks : Int := j * (j + 1) / 2 + k
      let tr := for_range 0 P (fun n tr =>
        let tr := for_int (-(n : Int)) (-1) (fun m tr =>
          let nm : Int := n * n + n + m
          let nms : Int := n * (n + 1) / 2 - m
          let jknm : Int := jk * P * P + nm
          let jnkm : Int := (j + n) * (j + n) + j + n + m - k
          tr ++ [(.M, nms), (.Cnm, jknm), (.Ynm, jnkm)]) tr
        for_int 0 n (fun m tr =>
          let nm : Int := n * n + n + m
          let nms : Int := n * (n + 1) / 2 + m
          let jknm : Int := jk * P * P + nm
          let jnkm : Int := (j + n) * (j + n) + j + n + m - k
          tr ++ [(.M, nms), (.Cnm, jknm), (.Ynm, jnkm)]) tr) tr
      tr ++ [(.L, jks)]) tr) tr

/-- The accesses of `L2L`. -/
def L2L_accesses (P : Nat) : List (array_name × Int) :=
  let tr := evalMultipole_accesses P
  for_range 0 P (fun j tr =>
    for_range 0 (j + 1) (fun k tr =>
      let jk : Int := j * j + j + k
      let jks : Int := j * (j + 1) / 2 + k
      let tr := for_range j P (fun n tr =>
        let tr := for_int ((j : Int) + k - n) (-1) (fun m tr =>
          let jnkm : Int := (n - j) * (n - j) + n - j + m - k
          let nm : Int := n * n + n - m
          let nms : Int := n * (n + 1) / 2 - m
          tr ++ [(.L, nms), (.Ynm, jnkm), (.Anm, jnkm), (.Anm, jk), (.Anm, nm)]) tr
        for_int 0 n (fun m tr =>
          if (n : Int) - j ≥ |m - k| then
            let jnkm : Int := (n - j) * (n - j) + n - j + m - k
            let nm : Int := n * n + n + m
            let nms : Int := n * (n + 1) / 2 + m
            tr ++ [(.L, nms), (.Ynm, jnkm), (.Anm, jnkm), (.Anm, jk), (.Anm, nm)]
          else tr) tr) tr
      tr ++ [(.L, jks)]) tr) tr

/-! ### The arithmetic of the type `real`

The kernels compute in a binary floating-point type `real`. `cart2sph_rounded` is
`cart2sph` with the rounding of that type as an argument `fl`: every operation and every
call of a library function returns the rounding of its exact result. -/

/-- The rounding to nearest of a binary floating-point format with a significand of `p`
bits, the arithmetic of the language for a type `real` of that format; `p = 53` is the
double precision that the specification names for `real`, whose header is not among the
sources. `round_to p x` is the number nearest to `x` among the multiples of
`2 ^ (e - (p - 1))`, where `2 ^ e ≤ |x| < 2 ^ (e + 1)`; a tie goes to the larger number,
and the range of the exponent is not limited. -/
def round_to {K : Type} [LinearOrderedField K] [FloorRing K] (p : Nat) (x : K) : K :=
  if x = 0 then 0
  else
    (round (x / (2 : K) ^ (Int.log 2 |x| - ((p : Int) - 1))) : K)
      * (2 : K) ^ (Int.log 2 |x| - ((p : Int) - 1))

/-- Modelled from the spec: the function `norm` of the vector header in the arithmetic of
`real`, the three squares added from left to right. -/
def norm_rounded {K : Type} [Field K] (fl : K → K) (a : vect K) : K :=
  fl (fl (fl (a.x * a.x) + fl (a.y * a.y)) + fl (a.z * a.z))

/-- The function `cart2sph` in the arithmetic of `real`, with the rounding `fl`: the
triple of `r`, `theta` and `phi`. -/
def cart2sph_rounded {K C : Type} [LinearOrderedField K] (F : cmath K C) (fl : K → K)
    (EPS : K) (dist : vect K) : K × K × K :=
  let r := fl (fl (F.sqrt (norm_rounded fl dist)) + EPS)
  let theta := fl (F.acos (fl (dist.z / r)))
  let phi :=
    if fl (|dist.x| + |dist.y|) < EPS then 0
    else if |dist.x| < EPS then fl (fl (fl (dist.y / |dist.y|) * fl F.M_PI) * (1 / 2))
    else if dist.x > 0 then fl (F.atan (fl (dist.y / dist.x)))
    else fl (fl (F.atan (fl (dist.y / dist.x))) + fl F.M_PI)
  (r, theta, phi)

end SphericalLaplaceKernel

/-! # Properties -/

namespace Octree

/-! ## Bit arithmetic of keys -/

theorem smear_stage (v a n : Nat)
    (h : ∀ i, a.testBit i = true ↔ ∃ j, j < n ∧ v.testBit (i + j) = true) (i : Nat) :
    (a ||| (a >>> n)).testBit i = true ↔ ∃ j, j < n + n ∧ v.testBit (i + j) = true := by
  rw [Nat.testBit_or, Nat.testBit_shiftRight, Bool.or_eq_true, h, h]
  constructor
  · rintro (⟨j, hj, hb⟩ | ⟨j, hj, hb⟩)
    · exact ⟨j, by omega, hb⟩
    · exact ⟨n + j, by omega, by rwa [show i + (n + j) = n + i + j by omega]⟩
  · rintro ⟨j, hj, hb⟩
    by_cases hjn : j < n
    · exact Or.inl ⟨j, hjn, hb⟩
    · exact Or.inr ⟨j - n, by omega, by rwa [show n + i + (j - n) = i + j by omega]⟩

theorem testBit_smear (v i : Nat) :
    (smear v).testBit i = true ↔ ∃ j, j < 32 ∧ v.testBit (i + j) = true := by
  have h0 : ∀ i, v.testBit i = true ↔ ∃ j, j < 1 ∧ v.testBit (i + j) = true := by
    intro i
    constructor
    · intro h
      exact ⟨0, by omega, h⟩
    · rintro ⟨j, hj, hb⟩
      have : j = 0 := by omega
      subst this
      exact hb
  have h1 := smear_stage v _ 1 h0
  have h2 := smear_stage v _ 2 h1
  have h3 := smear_stage v _ 4 h2
  have h4 := smear_stage v _ 8 h3
  exact smear_stage v _ 16 h4 i

/-- Smearing a word whose highest set bit is bit `k` sets all the bits up to `k`. -/
theorem smear_eq (v k : Nat) (hk : k < 32) (h1 : 2 ^ k ≤ v) (h2 : v < 2 ^ (k + 1)) :
    smear v = 2 ^ (k + 1) - 1 := by
  apply Nat.eq_of_testBit_eq
  intro i
  rw [Nat.testBit_two_pow_sub_one]
  have htop : v.testBit k = true := by
    rw [Nat.testBit_to_div_mod]
    have hd : v / 2 ^ k = 1 := by
      apply Nat.div_eq_of_lt_le
      · simpa using h1
      · simpa [Nat.pow_succ, Nat.mul_comm] using h2
    simp [hd]
  by_cases hi : i < k + 1
  · have : (smear v).testBit i = true := by
      rw [testBit_smear]
      exact ⟨k - i, by omega, by rwa [show i + (k - i) = k by omega]⟩
    simp [this, hi]
  · have : ¬ (smear v).testBit i = true := by
      rw [testBit_smear]
      rintro ⟨j, _, hb⟩
      have hlt : v < 2 ^ (i + j) :=
        lt_of_lt_of_le h2 (Nat.pow_le_pow_right (by omega) (by omega))
      rw [Nat.testBit_lt_two_pow hlt] at hb
      exact Bool.false_ne_true hb
    simp only [Bool.not_eq_true] at this
    simp [this, hi]

/-- The table lookup of `level` on the smeared words of the eleven levels. -/
theorem lookup_smeared (L : Nat) (hL : L ≤ 10) :
    lookup.getD ((((2 ^ (3 * L + 1) - 1) * 0x07C4ACDD) % word) >>> 27) 0 = L := by
  interval_cases L <;> decide

/-- The level of a key `8 ^ L + path` without leaf bit. -/
theorem key_level_eq (L path : Nat) (hL : L ≤ 10) (hp : path < 8 ^ L) :
    key_level (8 ^ L + path) = L := by
  have h8 : (8 : Nat) ^ L = 2 ^ (3 * L) := by
    rw [show (8 : Nat) = 2 ^ 3 by norm_num, ← pow_mul]
  have hle : (2 : Nat) ^ (3 * L + 1) ≤ 2 ^ 31 := Nat.pow_le_pow_right (by omega) (by omega)
  have hv2 : 8 ^ L + path < 2 ^ (3 * L + 1) := by
    rw [pow_succ]
    omega
  have hmask : (8 ^ L + path) &&& (word - 1 - leaf_bit) = 8 ^ L + path := by
    have : word - 1 - leaf_bit = 2 ^ 31 - 1 := by decide
    rw [this, Nat.and_pow_two_sub_one_eq_mod]
    exact Nat.mod_eq_of_lt (by omega)
  unfold key_level
  simp only [hmask]
  rw [smear_eq (8 ^ L + path) (3 * L) (by omega) (by omega) hv2]
  exact lookup_smeared L hL

/-- Setting the leaf bit does not change the level of a key. -/
theorem key_level_leaf (key : Nat) (hk : key < 2 ^ 31) :
    key_level (key ||| leaf_bit) = key_level key := by
  have hc : word - 1 - leaf_bit = 2 ^ 31 - 1 := by decide
  have h1 : (key ||| leaf_bit) &&& (word - 1 - leaf_bit) = key &&& (word - 1 - leaf_bit) := by
    rw [hc, Nat.and_pow_two_sub_one_eq_mod, Nat.and_pow_two_sub_one_eq_mod]
    have : key ||| leaf_bit = 2 ^ 31 + key := by
      have h := Nat.mul_add_lt_is_or hk 1
      rw [Nat.mul_one] at h
      rw [h, Nat.or_comm, leaf_bit]
    rw [this, Nat.add_mod_left]
  unfold key_level
  rw [h1]

/-- C8: for every key `8 ^ L + path` with `L ≤ 10` and `path < 8 ^ L`, with the leaf bit
set or clear, `box_data::level` returns `L`, which is `floor(log2(key) / 3)`. -/
theorem level_of_octant_path (L path : Nat) (hL : L ≤ 10) (hp : path < 8 ^ L) (leaf : Bool)
    (parent cb ce : Nat) :
    ((⟨8 ^ L + path, parent, cb, ce⟩ : box_data).set_leaf leaf).level = L ∧
      Nat.log 2 (8 ^ L + path) / 3 = L := by
  have h8 : (8 : Nat) ^ L = 2 ^ (3 * L) := by
    rw [show (8 : Nat) = 2 ^ 3 by norm_num, ← pow_mul]
  have hle : (2 : Nat) ^ (3 * L + 1) ≤ 2 ^ 31 := Nat.pow_le_pow_right (by omega) (by omega)
  have hv2 : 8 ^ L + path < 2 ^ (3 * L + 1) := by
    rw [pow_succ]
    omega
  constructor
  · cases leaf
    · have hmask : (8 ^ L + path) &&& (word - 1 - leaf_bit) = 8 ^ L + path := by
        have : word - 1 - leaf_bit = 2 ^ 31 - 1 := by decide
        rw [this, Nat.and_pow_two_sub_one_eq_mod]
        exact Nat.mod_eq_of_lt (by omega)
      simp only [box_data.set_leaf, box_data.level, Bool.false_eq_true, if_false, hmask]
      exact key_level_eq L path hL hp
    · simp only [box_data.set_leaf, box_data.level, if_true]
      rw [key_level_leaf _ (by omega)]
      exact key_level_eq L path hL hp
  · have hlog : Nat.log 2 (8 ^ L + path) = 3 * L := by
      apply Nat.log_eq_of_pow_le_of_lt_pow
      · omega
      · exact hv2
    rw [hlog]
    omega

theorem level_of_octant_path_witness :
    ((⟨8 ^ 2 + 5, 0, 0, 0⟩ : box_data).set_leaf true).level = 2 ∧
      Nat.log 2 (8 ^ 2 + 5) / 3 = 2 :=
  level_of_octant_path 2 5 (by decide) (by decide) true 0 0 0

/-! ## The Morton bounds of a key -/

theorem marker_test (x : Nat) : x &&& max_marker_bit ≠ 0 ↔ x / 2 ^ 30 % 2 = 1 := by
  have hb : (x &&& max_marker_bit).testBit 30 = x.testBit 30 := by
    rw [Nat.testBit_and, max_marker_bit, Nat.testBit_two_pow_self, Bool.and_true]
  constructor
  · intro h
    by_contra hc
    apply h
    apply Nat.eq_of_testBit_eq
    intro i
    rw [Nat.zero_testBit, Nat.testBit_and, max_marker_bit, Nat.testBit_two_pow]
    by_cases hi : 30 = i
    · subst hi
      have : Nat.testBit x 30 = false := by
        rw [Nat.testBit_to_div_mod]
        simpa using hc
      simp [this]
    · simp [hi]
  · intro h h0
    rw [h0, Nat.zero_testBit, Nat.testBit_to_div_mod] at hb
    simp at hb
    omega

theorem marker_set (x : Nat) (h1 : 2 ^ 30 ≤ x) (h2 : x < 2 ^ 31) :
    x &&& max_marker_bit ≠ 0 := by
  rw [marker_test]
  omega

theorem marker_clear (x : Nat) (h : x < 2 ^ 30) : ¬ (x &&& max_marker_bit ≠ 0) := by
  rw [marker_test]
  omega

theorem testBit_marker_mask (i : Nat) :
    (word - 1 - max_marker_bit).testBit i = decide (i < 32 ∧ i ≠ 30) := by
  by_cases hi : i < 32
  · interval_cases i <;> decide
  · have hlt : word - 1 - max_marker_bit < 2 ^ i :=
      lt_of_lt_of_le (by decide : word - 1 - max_marker_bit < 2 ^ 32)
        (Nat.pow_le_pow_right (by omega) (by omega))
    rw [Nat.testBit_lt_two_pow hlt]
    simp [hi]

/-- Clearing the marker bit of a word with bit 30 set and bit 31 clear. -/
theorem clear_marker (m : Nat) (h1 : 2 ^ 30 ≤ m) (h2 : m < 2 ^ 31) :
    m &&& (word - 1 - max_marker_bit) = m - 2 ^ 30 := by
  have hm : m - 2 ^ 30 = m % 2 ^ 30 := by omega
  rw [hm]
  apply Nat.eq_of_testBit_eq
  intro i
  rw [Nat.testBit_and, testBit_marker_mask, Nat.testBit_mod_two_pow]
  by_cases hi : i < 30
  · have : i < 32 ∧ i ≠ 30 := by omega
    simp [hi, this]
  · have hlt : m.testBit i = false ∨ i = 30 := by
      by_cases h30 : i = 30
      · exact Or.inr h30
      · left
        apply Nat.testBit_lt_two_pow
        exact lt_of_lt_of_le h2 (Nat.pow_le_pow_right (by omega) (by omega))
    rcases hlt with h | h
    · simp [h, hi]
    · subst h
      simp

theorem shift3 (key : Nat) (h : key < 2 ^ 29) : (key <<< 3) % word = key * 8 := by
  rw [Nat.shiftLeft_eq]
  exact Nat.mod_eq_of_lt (by simp only [word]; omega)

theorem or_octant (key oct : Nat) (h : oct < 8) : key * 8 ||| oct = key * 8 + oct := by
  have := Nat.mul_add_lt_is_or (show oct < 2 ^ 3 by omega) key
  rw [show (2 : Nat) ^ 3 = 8 by norm_num, Nat.mul_comm] at this
  exact this.symm

theorem valid_key_lt (L key : Nat) (h : valid_key L key) : key < 2 ^ 31 := by
  obtain ⟨hL, _, h2⟩ := h
  have : (8 : Nat) ^ L ≤ 8 ^ 10 := Nat.pow_le_pow_right (by omega) hL
  have h10 : (8 : Nat) ^ 10 = 2 ^ 30 := by norm_num
  omega

theorem valid_key_child (L key oct : Nat) (h : valid_key L key) (hL : L < 10) (ho : oct < 8) :
    valid_key (L + 1) (key * 8 + oct) := by
  obtain ⟨_, h1, h2⟩ := h
  refine ⟨by omega, ?_, ?_⟩ <;> rw [pow_succ] <;> omega

theorem valid_key_small (L key : Nat) (h : valid_key L key) (hL : L < 10) : key < 2 ^ 28 := by
  obtain ⟨_, _, h2⟩ := h
  have : (8 : Nat) ^ L ≤ 8 ^ 9 := Nat.pow_le_pow_right (by omega) (by omega)
  have h9 : (8 : Nat) ^ 9 = 2 ^ 27 := by norm_num
  omega

theorem lower_loop_valid (d : Nat) : ∀ (L key fuel : Nat), L + d = 10 → valid_key L key →
    d < fuel → lower_loop fuel key = some (key * 8 ^ d) := by
  induction d with
  | zero =>
    intro L key fuel hd hv hf
    obtain ⟨_, h1, h2⟩ := hv
    have hL : L = 10 := by omega
    subst hL
    obtain ⟨f, rfl⟩ : ∃ f, fuel = f + 1 := ⟨fuel - 1, by omega⟩
    have h10 : (8 : Nat) ^ 10 = 2 ^ 30 := by norm_num
    rw [lower_loop, if_pos (marker_set key (by omega) (by omega))]
    simp
  | succ d ih =>
    intro L key fuel hd hv hf
    obtain ⟨f, rfl⟩ : ∃ f, fuel = f + 1 := ⟨fuel - 1, by omega⟩
    have hs := valid_key_small L key hv (by omega)
    rw [lower_loop, if_neg (marker_clear key (by omega)), shift3 key (by omega)]
    have hc := valid_key_child L key 0 hv (by omega) (by omega)
    rw [Nat.add_zero] at hc
    rw [ih (L + 1) (key * 8) f (by omega) hc (by omega), pow_succ]
    congr 1
    ring

theorem upper_loop_valid (d : Nat) : ∀ (L key fuel : Nat), L + d = 10 → valid_key L key →
    d < fuel → upper_loop fuel key = some ((key + 1) * 8 ^ d - 1) := by
  induction d with
  | zero =>
    intro L key fuel hd hv hf
    obtain ⟨_, h1, h2⟩ := hv
    have hL : L = 10 := by omega
    subst hL
    obtain ⟨f, rfl⟩ : ∃ f, fuel = f + 1 := ⟨fuel - 1, by omega⟩
    have h10 : (8 : Nat) ^ 10 = 2 ^ 30 := by norm_num
    rw [upper_loop, if_pos (marker_set key (by omega) (by omega))]
    simp
  | succ d ih =>
    intro L key fuel hd hv hf
    obtain ⟨f, rfl⟩ : ∃ f, fuel = f + 1 := ⟨fuel - 1, by omega⟩
    have hs := valid_key_small L key hv (by omega)
    rw [upper_loop, if_neg (marker_clear key (by omega)), shift3 key (by omega),
      or_octant key 7 (by omega)]
    have hc := valid_key_child L key 7 hv (by omega) (by omega)
    rw [ih (L + 1) (key * 8 + 7) f (by omega) hc (by omega), pow_succ]
    congr 2
    ring

theorem valid_key_scaled (L key : Nat) (h : valid_key L key) :
    2 ^ 30 ≤ key * 8 ^ (10 - L) ∧ (key + 1) * 8 ^ (10 - L) ≤ 2 ^ 31 := by
  obtain ⟨hL, h1, h2⟩ := h
  have hp : (8 : Nat) ^ L * 8 ^ (10 - L) = 2 ^ 30 := by
    rw [← pow_add, show L + (10 - L) = 10 by omega]
    norm_num
  constructor
  · calc 2 ^ 30 = 8 ^ L * 8 ^ (10 - L) := hp.symm
      _ ≤ key * 8 ^ (10 - L) := Nat.mul_le_mul_right _ h1
  · calc (key + 1) * 8 ^ (10 - L) ≤ (2 * 8 ^ L) * 8 ^ (10 - L) :=
          Nat.mul_le_mul_right _ (by omega)
      _ = 2 * (8 ^ L * 8 ^ (10 - L)) := by ring
      _ = 2 ^ 31 := by rw [hp]; norm_num

/-- On a key of depth `L` without leaf bit both bound loops return, and the bounds are
`lo_of` and `hi_of`. -/
theorem bounds_valid (L key fuel p cb ce : Nat) (h : valid_key L key) (hf : 10 < fuel) :
    (⟨key, p, cb, ce⟩ : box_data).get_mc_lower_bound fuel = some (lo_of L key) ∧
      (⟨key, p, cb, ce⟩ : box_data).get_mc_upper_bound fuel = some (hi_of L key) := by
  have hL := h.1
  obtain ⟨s1, s2⟩ := valid_key_scaled L key h
  have hpos : 0 < 8 ^ (10 - L) := Nat.pow_pos (by omega)
  have hlt : key * 8 ^ (10 - L) < (key + 1) * 8 ^ (10 - L) :=
    Nat.mul_lt_mul_of_pos_right (by omega) hpos
  constructor
  · simp only [box_data.get_mc_lower_bound]
    rw [lower_loop_valid (10 - L) L key fuel (by omega) h (by omega)]
    simp only [Option.map_some', lo_of]
    rw [clear_marker _ s1 (by omega)]
  · simp only [box_data.get_mc_upper_bound]
    rw [upper_loop_valid (10 - L) L key fuel (by omega) h (by omega)]
    simp only [Option.map_some', hi_of]
    rw [clear_marker _ (by omega) (by omega)]

/-! ## The ordered-range searches on a sorted vector -/

theorem lower_bound_loop_spec (mc_ : List Nat) (val : Nat) (hs : sorted_mc mc_) (n : Nat) :
    ∀ first len, len ≤ n → first + len ≤ mc_.length →
      first ≤ lower_bound_loop mc_ val n first len ∧
      lower_bound_loop mc_ val n first len ≤ first + len ∧
      (∀ i, first ≤ i → i < lower_bound_loop mc_ val n first len → mc_.getD i 0 < val) ∧
      (∀ i, lower_bound_loop mc_ val n first len ≤ i → i < first + len →
        val ≤ mc_.getD i 0) := by
  induction n with
  | zero =>
    intro first len hl _
    have : len = 0 := by omega
    subst this
    simp only [lower_bound_loop]
    exact ⟨le_rfl, by omega, fun i h1 h2 => by omega, fun i h1 h2 => by omega⟩
  | succ n ih =>
    intro first len hl hb
    by_cases h0 : len = 0
    · subst h0
      simp only [lower_bound_loop, if_true]
      exact ⟨le_rfl, by omega, fun i h1 h2 => by omega, fun i h1 h2 => by omega⟩
    · have hh : len / 2 < len := Nat.div_lt_self (by omega) (by omega)
      by_cases hm : mc_.getD (first + len / 2) 0 < val
      · have e : lower_bound_loop mc_ val (n + 1) first len =
            lower_bound_loop mc_ val n (first + len / 2 + 1) (len - len / 2 - 1) := by
          simp only [lower_bound_loop, if_neg h0, if_pos hm]
        rw [e]
        obtain ⟨a1, a2, a3, a4⟩ :=
          ih (first + len / 2 + 1) (len - len / 2 - 1) (by omega) (by omega)
        refine ⟨by omega, by omega, ?_, ?_⟩
        · intro i h1 h2
          by_cases hi : first + len / 2 + 1 ≤ i
          · exact a3 i hi h2
          · exact lt_of_le_of_lt (hs i (first + len / 2) (by omega) (by omega)) hm
        · intro i h1 h2
          exact a4 i h1 (by omega)
      · have e : lower_bound_loop mc_ val (n + 1) first len =
            lower_bound_loop mc_ val n first (len / 2) := by
          simp only [lower_bound_loop, if_neg h0, if_neg hm]
        rw [e]
        obtain ⟨a1, a2, a3, a4⟩ := ih first (len / 2) (by omega) (by omega)
        refine ⟨a1, by omega, a3, ?_⟩
        intro i h1 h2
        by_cases hi : i < first + len / 2
        · exact a4 i h1 hi
        · exact le_trans (not_lt.mp hm) (hs (first + len / 2) i (by omega) (by omega))

theorem upper_bound_loop_spec (mc_ : List Nat) (val : Nat) (hs : sorted_mc mc_) (n : Nat) :
    ∀ first len, len ≤ n → first + len ≤ mc_.length →
      first ≤ upper_bound_loop mc_ val n first len ∧
      upper_bound_loop mc_ val n first len ≤ first + len ∧
      (∀ i, first ≤ i → i < upper_bound_loop mc_ val n first len → mc_.getD i 0 ≤ val) ∧
      (∀ i, upper_bound_loop mc_ val n first len ≤ i → i < first + len →
        val < mc_.getD i 0) := by
  induction n with
  | zero =>
    intro first len hl _
    have : len = 0 := by omega
    subst this
    simp only [upper_bound_loop]
    exact ⟨le_rfl, by omega, fun i h1 h2 => by omega, fun i h1 h2 => by omega⟩
  | succ n ih =>
    intro first len hl hb
    by_cases h0 : len = 0
    · subst h0
      simp only [upper_bound_loop, if_true]
      exact ⟨le_rfl, by omega, fun i h1 h2 => by omega, fun i h1 h2 => by omega⟩
    · have hh : len / 2 < len := Nat.div_lt_self (by omega) (by omega)
      by_cases hm : val < mc_.getD (first + len / 2) 0
      · have e : upper_bound_loop mc_ val (n + 1) first len =
            upper_bound_loop mc_ val n first (len / 2) := by
          simp only [upper_bound_loop, if_neg h0, if_pos hm]
        rw [e]
        obtain ⟨a1, a2, a3, a4⟩ := ih first (len / 2) (by omega) (by omega)
        refine ⟨a1, by omega, a3, ?_⟩
        intro i h1 h2
        by_cases hi : i < first + len / 2
        · exact a4 i h1 hi
        · exact lt_of_lt_of_le hm (hs (first + len / 2) i (by omega) (by omega))
      · have e : upper_bound_loop mc_ val (n + 1) first len =
            upper_bound_loop mc_ val n (first + len / 2 + 1) (len - len / 2 - 1) := by
          simp only [upper_bound_loop, if_neg h0, if_neg hm]
        rw [e]
        obtain ⟨a1, a2, a3, a4⟩ :=
          ih (first + len / 2 + 1) (len - len / 2 - 1) (by omega) (by omega)
        refine ⟨by omega, by omega, ?_, ?_⟩
        · intro i h1 h2
          by_cases hi : first + len / 2 + 1 ≤ i
          · exact a3 i hi h2
          · exact le_trans (hs i (first + len / 2) (by omega) (by omega)) (not_lt.mp hm)
        · intro i h1 h2
          exact a4 i h1 (by omega)

/-- The result of `lower_bound` is the partition point of the range for `< val`. -/
theorem lower_bound_spec (mc_ : List Nat) (hs : sorted_mc mc_) (first last val : Nat)
    (h1 : first ≤ last) (h2 : last ≤ mc_.length) :
    first ≤ lower_bound mc_ first last val ∧ lower_bound mc_ first last val ≤ last ∧
      (∀ i, first ≤ i → i < lower_bound mc_ first last val → mc_.getD i 0 < val) ∧
      (∀ i, lower_bound mc_ first last val ≤ i → i < last → val ≤ mc_.getD i 0) := by
  have h := lower_bound_loop_spec mc_ val hs (last - first) first (last - first) le_rfl
    (by omega)
  rw [show first + (last - first) = last by omega] at h
  exact h

/-- The result of `upper_bound` is the partition point of the range for `≤ val`. -/
theorem upper_bound_spec (mc_ : List Nat) (hs : sorted_mc mc_) (first last val : Nat)
    (h1 : first ≤ last) (h2 : last ≤ mc_.length) :
    first ≤ upper_bound mc_ first last val ∧ upper_bound mc_ first last val ≤ last ∧
      (∀ i, first ≤ i → i < upper_bound mc_ first last val → mc_.getD i 0 ≤ val) ∧
      (∀ i, upper_bound mc_ first last val ≤ i → i < last → val < mc_.getD i 0) := by
  have h := upper_bound_loop_spec mc_ val hs (last - first) first (last - first) le_rfl
    (by omega)
  rw [show first + (last - first) = last by omega] at h
  exact h

/-- On a sorted vector `upper_bound` of `val` is `lower_bound` of `val + 1`. -/
theorem upper_bound_eq_lower_bound (mc_ : List Nat) (hs : sorted_mc mc_)
    (first last val : Nat) (h1 : first ≤ last) (h2 : last ≤ mc_.length) :
    upper_bound mc_ first last val = lower_bound mc_ first last (val + 1) := by
  obtain ⟨u1, u2, u3, u4⟩ := upper_bound_spec mc_ hs first last val h1 h2
  obtain ⟨l1, l2, l3, l4⟩ := lower_bound_spec mc_ hs first last (val + 1) h1 h2
  rcases Nat.lt_trichotomy (upper_bound mc_ first last val)
    (lower_bound mc_ first last (val + 1)) with h | h | h
  · have a := u4 _ le_rfl (by omega)
    have b := l3 _ u1 h
    omega
  · exact h
  · have a := l4 _ le_rfl (by omega)
    have b := u3 _ l1 h
    omega

/-! ## The sorting phase of `construct_tree` -/

theorem collect_ok {α : Type} (contains : α → Bool) (code : α → Nat) :
    ∀ (pts : List α) (idx : Nat) (points_tmp : List α) (code_idx : List (Nat × Nat))
      (r : List α × List (Nat × Nat)),
      collect contains code pts idx points_tmp code_idx = .ok r →
      r = (points_tmp ++ pts,
        code_idx ++ (pts.enumFrom idx).map (fun x => (code x.2, x.1))) := by
  intro pts
  induction pts with
  | nil =>
    intro idx points_tmp code_idx r h
    simp only [collect, Except.ok.injEq] at h
    simp [← h]
  | cons p rest ih =>
    intro idx points_tmp code_idx r h
    by_cases hc : contains p = true
    · simp only [collect, if_pos hc] at h
      rw [ih _ _ _ _ h]
      simp
    · simp only [collect, if_neg hc] at h
      cases h

theorem enum_codes_snd {α : Type} (code : α → Nat) (pts : List α) :
    ((pts.enumFrom 0).map (fun x => (code x.2, x.1))).map Prod.snd =
      List.range pts.length := by
  rw [List.map_map]
  have : (Prod.snd ∘ fun x : Nat × α => (code x.2, x.1)) = Prod.fst := by
    funext x
    rfl
  rw [this, List.enumFrom_map_fst, List.range_eq_range']

theorem enum_codes_mem_from {α : Type} [Inhabited α] (code : α → Nat) :
    ∀ (pts : List α) (idx : Nat) (x : Nat × Nat),
      x ∈ (pts.enumFrom idx).map (fun x => (code x.2, x.1)) →
      idx ≤ x.2 ∧ x.2 < idx + pts.length ∧ x.1 = code (pts.getD (x.2 - idx) default) := by
  intro pts
  induction pts with
  | nil =>
    intro idx x hx
    simp at hx
  | cons p rest ih =>
    intro idx x hx
    simp only [List.enumFrom_cons, List.map_cons, List.mem_cons] at hx
    rcases hx with hx | hx
    · subst hx
      simp
    · obtain ⟨h1, h2, h3⟩ := ih (idx + 1) x hx
      refine ⟨by omega, by simp only [List.length_cons]; omega, ?_⟩
      rw [h3, show x.2 - idx = (x.2 - (idx + 1)) + 1 by omega, List.getD_cons_succ]

theorem enum_codes_mem {α : Type} [Inhabited α] (code : α → Nat) (pts : List α)
    (x : Nat × Nat) (hx : x ∈ (pts.enumFrom 0).map (fun x => (code x.2, x.1))) :
    x.2 < pts.length ∧ x.1 = code (pts.getD x.2 default) := by
  obtain ⟨_, h2, h3⟩ := enum_codes_mem_from code pts 0 x hx
  exact ⟨by omega, by simpa using h3⟩

/-- The shape of a tree that `construct_tree` returns. -/
theorem construct_tree_ok {α : Type} [Inhabited α] (contains : α → Bool) (code : α → Nat)
    (pts : List α) (fuel : Nat) (t : Octree α)
    (h : construct_tree contains code pts fuel = .ok t) :
    t.mc_ = (sorted_codes code pts).map Prod.fst ∧
    t.permute_ = (sorted_codes code pts).map Prod.snd ∧
    t.point_ = ((sorted_codes code pts).map Prod.snd).map (fun i => pts.getD i default) ∧
    ∃ offsets, box_loop t.mc_ fuel fuel 0 ([⟨1, 0, 0, pts.length⟩], [0]) =
        some (t.box_data_, offsets) ∧
      t.level_offset_ = offsets ++ [t.box_data_.length] := by
  unfold construct_tree at h
  cases hc : collect contains code pts 0 [] [] with
  | error e =>
    rw [hc] at h
    cases h
  | ok r =>
    have hr := collect_ok contains code pts 0 [] [] r hc
    simp only [List.nil_append] at hr
    subst hr
    rw [hc] at h
    simp only at h
    have hlen : (List.map (fun i => pts.getD i default)
        (List.map Prod.snd (List.insertionSort pair_le
          ((pts.enumFrom 0).map (fun x => (code x.2, x.1)))))).length = pts.length := by
      simp [List.length_insertionSort]
    rw [hlen] at h
    split at h
    · cases h
    · rename_i boxes offsets hb
      simp only [Except.ok.injEq] at h
      subst h
      exact ⟨rfl, rfl, rfl, offsets, hb, rfl⟩

theorem sorted_codes_perm {α : Type} (code : α → Nat) (pts : List α) :
    ((sorted_codes code pts).map Prod.snd).Perm (List.range pts.length) := by
  rw [← enum_codes_snd code pts]
  exact (List.perm_insertionSort pair_le _).map _

theorem sorted_codes_length {α : Type} (code : α → Nat) (pts : List α) :
    (sorted_codes code pts).length = pts.length := by
  simp [sorted_codes, List.length_insertionSort]

theorem sorted_codes_mem {α : Type} [Inhabited α] (code : α → Nat) (pts : List α)
    (x : Nat × Nat) (hx : x ∈ sorted_codes code pts) :
    x.2 < pts.length ∧ x.1 = code (pts.getD x.2 default) :=
  enum_codes_mem code pts x ((List.perm_insertionSort pair_le _).mem_iff.mp hx)

theorem sorted_codes_le {α : Type} (code : α → Nat) (pts : List α) (i j : Nat)
    (hij : i < j) (hj : j < pts.length) :
    pair_le ((sorted_codes code pts).getD i (0, 0)) ((sorted_codes code pts).getD j (0, 0)) := by
  have hs : List.Sorted pair_le (sorted_codes code pts) := List.sorted_insertionSort pair_le _
  have hl := sorted_codes_length code pts
  rw [List.getD_eq_getElem _ _ (by omega), List.getD_eq_getElem _ _ (by omega)]
  exact (List.pairwise_iff_getElem.mp hs) i j (by omega) (by omega) hij

theorem sorted_codes_index {α : Type} [Inhabited α] (code : α → Nat) (pts : List α) (i : Nat)
    (hi : i < pts.length) :
    ((sorted_codes code pts).map Prod.snd).getD i 0 = ((sorted_codes code pts).getD i (0, 0)).2 ∧
    ((sorted_codes code pts).map Prod.fst).getD i 0 = ((sorted_codes code pts).getD i (0, 0)).1 ∧
    (((sorted_codes code pts).map Prod.snd).map (fun i => pts.getD i default)).getD i default =
      pts.getD ((sorted_codes code pts).getD i (0, 0)).2 default ∧
    (sorted_codes code pts).getD i (0, 0) ∈ sorted_codes code pts := by
  have hl := sorted_codes_length code pts
  have hi2 : i < (sorted_codes code pts).length := by omega
  refine ⟨?_, ?_, ?_, ?_⟩
  · rw [List.getD_eq_getElem _ _ (by simpa using hi2), List.getD_eq_getElem _ _ hi2,
      List.getElem_map]
  · rw [List.getD_eq_getElem _ _ (by simpa using hi2), List.getD_eq_getElem _ _ hi2,
      List.getElem_map]
  · rw [List.getD_eq_getElem _ _ (by simpa using hi2), List.getD_eq_getElem _ _ hi2,
      List.getElem_map, List.getElem_map]
  · rw [List.getD_eq_getElem _ _ hi2]
    exact List.getElem_mem _

theorem sorted_codes_sorted {α : Type} (code : α → Nat) (pts : List α) :
    sorted_mc ((sorted_codes code pts).map Prod.fst) := by
  intro i j hij hj
  rw [List.length_map, sorted_codes_length] at hj
  rcases Nat.eq_or_lt_of_le hij with h | h
  · subst h
    exact le_rfl
  · have hl := sorted_codes_length code pts
    have := sorted_codes_le code pts i j h hj
    rw [List.getD_eq_getElem _ _ (by simp; omega), List.getD_eq_getElem _ _ (by simp; omega),
      List.getElem_map, List.getElem_map]
    rw [List.getD_eq_getElem _ _ (by omega), List.getD_eq_getElem _ _ (by omega)] at this
    unfold pair_le at this
    omega

/-- The sorted vectors of a tree that `construct_tree` returns. -/
theorem construct_tree_sorts {α : Type} [Inhabited α] (contains : α → Bool)
    (code : α → Nat) (pts : List α) (fuel : Nat) (t : Octree α)
    (h : construct_tree contains code pts fuel = .ok t) :
    t.permute_.Perm (List.range pts.length) ∧
    t.point_.length = pts.length ∧ t.mc_.length = pts.length ∧
    (∀ i, i < pts.length →
      t.point_.getD i default = pts.getD (t.permute_.getD i 0) default ∧
      t.mc_.getD i 0 = code (t.point_.getD i default)) ∧
    sorted_mc t.mc_ ∧
    (∀ i j, i < j → j < pts.length → t.mc_.getD i 0 = t.mc_.getD j 0 →
      t.permute_.getD i 0 < t.permute_.getD j 0) ∧
    unpermute t = pts := by
  obtain ⟨hmc, hperm, hpoint, -⟩ := construct_tree_ok contains code pts fuel t h
  have hl := sorted_codes_length code pts
  have hP := sorted_codes_perm code pts
  have hnd : ((sorted_codes code pts).map Prod.snd).Nodup :=
    (List.Perm.nodup_iff hP).mpr (List.nodup_range _)
  have hidx : ∀ i, i < pts.length →
      t.point_.getD i default = pts.getD (t.permute_.getD i 0) default ∧
      t.mc_.getD i 0 = code (t.point_.getD i default) := by
    intro i hi
    obtain ⟨a1, a2, a3, a4⟩ := sorted_codes_index code pts i hi
    have hm := sorted_codes_mem code pts _ a4
    rw [hmc, hperm, hpoint, a1, a2, a3]
    exact ⟨rfl, hm.2⟩
  refine ⟨?_, ?_, ?_, hidx, ?_, ?_, ?_⟩
  · rw [hperm]
    exact hP
  · rw [hpoint]
    simp [hl]
  · rw [hmc]
    simp [hl]
  · rw [hmc]
    exact sorted_codes_sorted code pts
  · intro i j hij hj heq
    obtain ⟨a1, a2, -, -⟩ := sorted_codes_index code pts i (by omega)
    obtain ⟨b1, b2, -, -⟩ := sorted_codes_index code pts j hj
    have hle := sorted_codes_le code pts i j hij hj
    rw [hmc, a2, b2] at heq
    rw [hperm, a1, b1]
    have hne : ((sorted_codes code pts).map Prod.snd).getD i 0 ≠
        ((sorted_codes code pts).map Prod.snd).getD j 0 := by
      have hlm : ((sorted_codes code pts).map Prod.snd).length = pts.length := by
        rw [List.length_map, hl]
      have hi' : i < ((sorted_codes code pts).map Prod.snd).length := by omega
      have hj' : j < ((sorted_codes code pts).map Prod.snd).length := by omega
      rw [List.getD_eq_getElem _ _ hi', List.getD_eq_getElem _ _ hj']
      intro hc
      have := (List.Nodup.getElem_inj_iff hnd).mp hc
      omega
    rw [a1, b1] at hne
    unfold pair_le at hle
    omega
  · unfold unpermute
    have hpl : t.permute_.length = pts.length := by
      rw [hperm]
      simp [hl]
    apply List.ext_getElem
    · simp [hpl]
    · intro j h1 h2
      rw [List.getElem_map, List.getElem_range]
      have hj : j < pts.length := h2
      have hmem : j ∈ t.permute_ := by
        rw [hperm]
        exact hP.mem_iff.mpr (List.mem_range.mpr hj)
      have hi : List.indexOf j t.permute_ < t.permute_.length := List.indexOf_lt_length.mpr hmem
      obtain ⟨c1, -⟩ := hidx (List.indexOf j t.permute_) (by omega)
      rw [c1, List.getD_eq_getElem _ _ hi, List.getElem_indexOf hi,
        List.getD_eq_getElem _ _ hj]

/-! ## One pass of the box loop -/

theorem getD_set_self {α : Type} (l : List α) (k : Nat) (a d : α) (h : k < l.length) :
    (l.set k a).getD k d = a := by
  rw [List.getD_eq_getElem _ _ (by simpa using h), List.getElem_set_self]

theorem getD_set_ne {α : Type} (l : List α) (k j : Nat) (a d : α) (h : k ≠ j) :
    (l.set k a).getD j d = l.getD j d := by
  simp only [List.getD_eq_getElem?_getD, List.getElem?_set_ne h]

theorem child_box_key (mc_ : List Nat) (key_p L k b e oct : Nat) (c : box_data)
    (h : child_box mc_ key_p L k b e oct = some c) :
    c.key_ = key_p * 8 + oct ∧ c.parent_ = k ∧ c.child_begin_ < c.child_end_ ∧
      c.child_begin_ = lower_bound mc_ b e (lo_of (L + 1) (key_p * 8 + oct)) ∧
      c.child_end_ = upper_bound mc_ b e (hi_of (L + 1) (key_p * 8 + oct)) := by
  unfold child_box at h
  simp only at h
  split at h
  · rename_i hlt
    simp only [Option.some.injEq] at h
    subst h
    exact ⟨rfl, rfl, hlt, rfl, rfl⟩
  · cases h

theorem valid_key_level (L key : Nat) (h : valid_key L key) : key_level key = L := by
  obtain ⟨hL, h1, h2⟩ := h
  have := key_level_eq L (key - 8 ^ L) hL (by omega)
  rwa [show 8 ^ L + (key - 8 ^ L) = key by omega] at this

/-- One octant of a box with a key of depth at most 9. -/
theorem add_octant_valid (fuel : Nat) (mc_ : List Nat) (boxes0 : List box_data)
    (offs0 : List Nat) (k L b e : Nat) (acc : List box_data) (oct : Nat) (bk0 : box_data)
    (hbk : boxes0.getD k default = bk0)
    (hk : k < boxes0.length) (hv : valid_key L bk0.key_)
    (hL : L < 10) (hf : 10 < fuel) (ho : oct < 8)
    (hoff : offs0.getLastD 0 < boxes0.length)
    (hacc : ∀ c ∈ acc, c.level = L + 1) :
    add_octant fuel mc_ bk0.key_ k b e (split_state boxes0 offs0 k L acc) oct =
      some (split_state boxes0 offs0 k L
        (acc ++ (child_box mc_ bk0.key_ L k b e oct).toList)) := by
  have hsm := valid_key_small L _ hv hL
  have hvc := valid_key_child L _ oct hv hL ho
  obtain ⟨hlo, hhi⟩ := bounds_valid (L + 1) _ fuel k 0 0 hvc hf
  unfold add_octant
  simp only [shift3 _ (show bk0.key_ < 2 ^ 29 by omega), or_octant _ oct ho, hlo, hhi]
  by_cases hlt : lower_bound mc_ b e (lo_of (L + 1) (bk0.key_ * 8 + oct))
      < upper_bound mc_ b e (hi_of (L + 1) (bk0.key_ * 8 + oct))
  · have hcb : child_box mc_ bk0.key_ L k b e oct =
        some ⟨bk0.key_ * 8 + oct, k,
          lower_bound mc_ b e (lo_of (L + 1) (bk0.key_ * 8 + oct)),
          upper_bound mc_ b e (hi_of (L + 1) (bk0.key_ * 8 + oct))⟩ := by
      simp only [child_box, if_pos hlt]
    rw [if_pos hlt, hcb]
    simp only [Option.toList_some]
    have hget : (split_state boxes0 offs0 k L acc).1.getD k default =
        ⟨bk0.key_, bk0.parent_, boxes0.length, boxes0.length + acc.length⟩ := by
      simp only [split_state]
      rw [List.getD_append _ _ _ _ (by simpa using hk), getD_set_self _ _ _ _ hk, hbk]
    have hset : (split_state boxes0 offs0 k L acc).1.set k
        ⟨bk0.key_, bk0.parent_, boxes0.length, boxes0.length + acc.length + 1⟩ =
        boxes0.set k ⟨bk0.key_, bk0.parent_, boxes0.length, boxes0.length + (acc.length + 1)⟩
          ++ acc := by
      simp only [split_state]
      rw [List.set_append_left _ _ (by simpa using hk), List.set_set]
      rfl
    simp only [hget, hset]
    have hlevc : (⟨bk0.key_ * 8 + oct, k, 0, 0⟩ : box_data).level = L + 1 :=
      valid_key_level _ _ hvc
    rw [hlevc]
    -- the level of the box at the last offset
    have hold : ((boxes0.set k
          ⟨bk0.key_, bk0.parent_, boxes0.length, boxes0.length + (acc.length + 1)⟩ ++ acc).getD
          (offs0.getLastD 0) default).level =
        (boxes0.getD (offs0.getLastD 0) default).level := by
      rw [List.getD_append _ _ _ _ (by simpa using hoff)]
      by_cases hkk : k = offs0.getLastD 0
      · rw [← hkk, getD_set_self _ _ _ _ hk, hbk]
        rfl
      · rw [getD_set_ne _ _ _ _ _ hkk]
    have hlast : ((boxes0.set k
          ⟨bk0.key_, bk0.parent_, boxes0.length, boxes0.length + (acc.length + 1)⟩ ++ acc).getD
          ((split_state boxes0 offs0 k L acc).2.getLastD 0) default).level =
        if acc.length = 0 then (boxes0.getD (offs0.getLastD 0) default).level
        else if L + 1 > (boxes0.getD (offs0.getLastD 0) default).level then L + 1
        else (boxes0.getD (offs0.getLastD 0) default).level := by
      simp only [split_state]
      by_cases ha : acc.length = 0
      · simp only [ha, if_true]
        rw [← hold]
        simp [ha]
      · simp only [if_neg ha]
        by_cases hgt : L + 1 > (boxes0.getD (offs0.getLastD 0) default).level
        · simp only [if_pos hgt, List.getLastD_concat]
          rw [List.getD_append_right _ _ _ _ (by simp)]
          simp only [List.length_set, Nat.sub_self]
          obtain ⟨c, rest, rfl⟩ : ∃ c rest, acc = c :: rest := by
            cases acc with
            | nil => simp at ha
            | cons c rest => exact ⟨c, rest, rfl⟩
          simp only [List.getD_cons_zero]
          exact hacc c (List.mem_cons_self _ _)
        · simp only [if_neg hgt]
          exact hold
    rw [hlast]
    simp only [split_state, List.length_append, List.length_set, List.length_singleton, hbk]
    congr 1
    rw [List.append_assoc]
    congr 1
    have hne : ¬ (acc.length + 1 = 0) := by omega
    generalize (boxes0.getD (offs0.getLastD 0) default).level = lev
    by_cases ha : acc.length = 0
    · simp only [ha, if_true, Nat.add_zero]
      rw [if_neg (by omega : ¬ (0 + 1 = 0))]
    · simp only [if_neg ha, if_neg hne]
      by_cases hgt : L + 1 > lev
      · simp only [if_pos hgt, gt_iff_lt, lt_self_iff_false, if_false]
      · simp only [if_neg hgt]
  · have hcb : child_box mc_ bk0.key_ L k b e oct = none := by
      simp only [child_box, if_neg hlt]
    rw [if_neg hlt, hcb]
    simp

theorem child_box_level (mc_ : List Nat) (key_p L k b e oct : Nat) (c : box_data)
    (hv : valid_key L key_p) (hL : L < 10) (ho : oct < 8)
    (h : child_box mc_ key_p L k b e oct = some c) : c.level = L + 1 := by
  obtain ⟨hkey, -⟩ := child_box_key mc_ key_p L k b e oct c h
  unfold box_data.level
  rw [hkey]
  exact valid_key_level _ _ (valid_key_child L key_p oct hv hL ho)

theorem octant_fold_valid (fuel : Nat) (mc_ : List Nat) (boxes0 : List box_data)
    (offs0 : List Nat) (k L b e : Nat) (bk0 : box_data)
    (hbk : boxes0.getD k default = bk0)
    (hk : k < boxes0.length) (hv : valid_key L bk0.key_)
    (hL : L < 10) (hf : 10 < fuel) (hoff : offs0.getLastD 0 < boxes0.length) :
    ∀ (octs : List Nat) (acc : List box_data), (∀ o ∈ octs, o < 8) →
      (∀ c ∈ acc, c.level = L + 1) →
      List.foldlM (add_octant fuel mc_ bk0.key_ k b e) (split_state boxes0 offs0 k L acc) octs =
        some (split_state boxes0 offs0 k L
          (acc ++ octs.filterMap (child_box mc_ bk0.key_ L k b e))) := by
  intro octs
  induction octs with
  | nil =>
    intro acc _ _
    simp
  | cons o rest ih =>
    intro acc ho hacc
    have ho8 : o < 8 := ho o (List.mem_cons_self _ _)
    rw [List.foldlM_cons,
      add_octant_valid fuel mc_ boxes0 offs0 k L b e acc o bk0 hbk hk hv hL hf ho8 hoff hacc]
    simp only [Option.bind_eq_bind, Option.some_bind]
    rw [ih _ (fun o' h' => ho o' (List.mem_cons_of_mem _ h'))]
    · rw [List.append_assoc]
      congr 3
      rw [List.filterMap_cons]
      cases hc : child_box mc_ bk0.key_ L k b e o <;> simp
    · intro c hc
      rw [List.mem_append] at hc
      rcases hc with hc | hc
      · exact hacc c hc
      · cases hcb : child_box mc_ bk0.key_ L k b e o with
        | none => simp [hcb] at hc
        | some c' =>
          simp only [hcb, Option.toList_some, List.mem_singleton] at hc
          subst hc
          exact child_box_level mc_ _ L k b e o _ hv hL ho8 hcb

/-- A box with more than `NCRIT` bodies and a key of depth at most 9 is split into the
children of its non-empty octants. -/
theorem visit_box_split (fuel : Nat) (mc_ : List Nat) (boxes0 : List box_data)
    (offs0 : List Nat) (k L : Nat) (bk0 : box_data)
    (hbk : boxes0.getD k default = bk0)
    (hk : k < boxes0.length) (hv : valid_key L bk0.key_)
    (hL : L < 10) (hf : 10 < fuel) (hoff : offs0.getLastD 0 < boxes0.length)
    (hn : 1 < bk0.child_end_ - bk0.child_begin_) :
    visit_box fuel mc_ k (boxes0, offs0) =
      some (split_state boxes0 offs0 k L
        (children mc_ bk0.key_ L k bk0.child_begin_ bk0.child_end_)) := by
  unfold visit_box
  simp only [hbk]
  have hnc : ¬ bk0.num_children ≤ NCRIT := by
    simp only [box_data.num_children, NCRIT]
    omega
  rw [if_neg hnc]
  have h0 : ((boxes0.set k ⟨bk0.key_, bk0.parent_, boxes0.length, boxes0.length⟩, offs0) :
      List box_data × List Nat) = split_state boxes0 offs0 k L [] := by
    simp only [split_state, hbk, List.length_nil, Nat.add_zero, List.append_nil, if_true]
  rw [h0, octant_fold_valid fuel mc_ boxes0 offs0 k L _ _ bk0 hbk hk hv hL hf hoff
    (List.range 8) [] (fun o h => List.mem_range.mp h) (fun c h => by simp at h)]
  simp [children]

/-- A box with at most `NCRIT` bodies becomes a leaf. -/
theorem visit_box_leaf (fuel : Nat) (mc_ : List Nat) (boxes0 : List box_data)
    (offs0 : List Nat) (k : Nat) (bk0 : box_data)
    (hbk : boxes0.getD k default = bk0)
    (hn : bk0.child_end_ - bk0.child_begin_ ≤ 1) :
    visit_box fuel mc_ k (boxes0, offs0) =
      some (boxes0.set k ⟨bk0.key_ ||| leaf_bit, bk0.parent_, bk0.child_begin_, bk0.child_end_⟩,
        offs0) := by
  unfold visit_box
  simp only [hbk]
  have hnc : bk0.num_children ≤ NCRIT := by
    simp only [box_data.num_children, NCRIT]
    omega
  rw [if_pos hnc]
  simp [box_data.set_leaf]

/-! ## The children of a box -/

theorem lower_bound_mono (mc_ : List Nat) (hs : sorted_mc mc_) (first last v w : Nat)
    (h1 : first ≤ last) (h2 : last ≤ mc_.length) (hvw : v ≤ w) :
    lower_bound mc_ first last v ≤ lower_bound mc_ first last w := by
  obtain ⟨a1, a2, a3, a4⟩ := lower_bound_spec mc_ hs first last v h1 h2
  obtain ⟨b1, b2, b3, b4⟩ := lower_bound_spec mc_ hs first last w h1 h2
  by_contra hc
  have hlt : lower_bound mc_ first last w < lower_bound mc_ first last v := by omega
  have x := a3 _ b1 hlt
  have y := b4 _ le_rfl (by omega)
  omega

theorem lo_of_child (L key oct : Nat) (hv : valid_key L key) (hL : L < 10) :
    lo_of (L + 1) (key * 8 + oct) = lo_of (L + 1) (key * 8) + oct * 8 ^ (9 - L) := by
  have hc := valid_key_child L key 0 hv hL (by omega)
  rw [Nat.add_zero] at hc
  obtain ⟨s1, -⟩ := valid_key_scaled (L + 1) (key * 8) hc
  simp only [lo_of]
  rw [show 10 - (L + 1) = 9 - L by omega] at *
  generalize 8 ^ (9 - L) = P at *
  have e1 : (key * 8 + oct) * P = key * 8 * P + oct * P := by ring
  rw [e1]
  omega

theorem hi_of_child (L key oct : Nat) (hv : valid_key L key) (hL : L < 10) :
    hi_of (L + 1) (key * 8 + oct) + 1 =
      lo_of (L + 1) (key * 8) + (oct + 1) * 8 ^ (9 - L) := by
  have hc := valid_key_child L key 0 hv hL (by omega)
  rw [Nat.add_zero] at hc
  obtain ⟨s1, -⟩ := valid_key_scaled (L + 1) (key * 8) hc
  have hpos : 0 < 8 ^ (9 - L) := Nat.pow_pos (by omega)
  simp only [lo_of, hi_of]
  rw [show 10 - (L + 1) = 9 - L by omega] at *
  generalize 8 ^ (9 - L) = P at *
  have e1 : (key * 8 + oct + 1) * P = key * 8 * P + oct * P + P := by ring
  have e2 : (oct + 1) * P = oct * P + P := by ring
  rw [e1, e2]
  omega

/-- The child of an octant holds the bodies between two consecutive cuts. -/
theorem child_box_cut (mc_ : List Nat) (hs : sorted_mc mc_) (key_p L k b e oct : Nat)
    (hv : valid_key L key_p) (hL : L < 10) (hbe : b ≤ e)
    (he : e ≤ mc_.length) :
    child_box mc_ key_p L k b e oct =
      if cut mc_ key_p L b e oct < cut mc_ key_p L b e (oct + 1) then
        some ⟨key_p * 8 + oct, k, cut mc_ key_p L b e oct, cut mc_ key_p L b e (oct + 1)⟩
      else none := by
  unfold child_box cut
  simp only
  rw [upper_bound_eq_lower_bound mc_ hs b e _ hbe he, hi_of_child L key_p oct hv hL,
    lo_of_child L key_p oct hv hL]

theorem cut_mono (mc_ : List Nat) (hs : sorted_mc mc_) (key_p L b e j : Nat) (hbe : b ≤ e)
    (he : e ≤ mc_.length) :
    cut mc_ key_p L b e j ≤ cut mc_ key_p L b e (j + 1) := by
  unfold cut
  apply lower_bound_mono mc_ hs b e _ _ hbe he
  apply Nat.add_le_add_left
  exact Nat.mul_le_mul_right _ (by omega)

theorem cut_range (mc_ : List Nat) (hs : sorted_mc mc_) (key_p L b e j : Nat) (hbe : b ≤ e)
    (he : e ≤ mc_.length) :
    b ≤ cut mc_ key_p L b e j ∧ cut mc_ key_p L b e j ≤ e := by
  obtain ⟨a1, a2, -, -⟩ := lower_bound_spec mc_ hs b e
    (lo_of (L + 1) (key_p * 8) + j * 8 ^ (9 - L)) hbe he
  exact ⟨a1, a2⟩

theorem body_count_append (l1 l2 : List box_data) :
    body_count (l1 ++ l2) = body_count l1 + body_count l2 := by
  simp [body_count]

/-- The children of the first `m` octants hold the bodies between the first cut and the
`m`-th cut. -/
theorem body_count_octants (mc_ : List Nat) (hs : sorted_mc mc_) (key_p L k b e : Nat)
    (hv : valid_key L key_p) (hL : L < 10) (hbe : b ≤ e) (he : e ≤ mc_.length) (m : Nat)
    (hm : m ≤ 8) :
    body_count ((List.range m).filterMap (child_box mc_ key_p L k b e)) +
      cut mc_ key_p L b e 0 = cut mc_ key_p L b e m := by
  induction m with
  | zero => simp [body_count]
  | succ m ih =>
    rw [List.range_succ, List.filterMap_append, body_count_append]
    have hmono := cut_mono mc_ hs key_p L b e m hbe he
    have ih' := ih (by omega)
    rw [List.filterMap_cons, child_box_cut mc_ hs key_p L k b e m hv hL hbe he]
    by_cases hlt : cut mc_ key_p L b e m < cut mc_ key_p L b e (m + 1)
    · simp only [if_pos hlt, List.filterMap_nil, body_count, List.map_cons, List.map_nil,
        List.sum_cons, List.sum_nil, box_data.num_children] at *
      omega
    · simp only [if_neg hlt, List.filterMap_nil, body_count, List.map_nil, List.sum_nil] at *
      omega

/-- The facts of a child that the box loop relies on. -/
theorem children_mem (mc_ : List Nat) (hs : sorted_mc mc_) (key_p L k b e : Nat)
    (hv : valid_key L key_p) (hL : L < 10) (hbe : b ≤ e) (he : e ≤ mc_.length)
    (c : box_data) (hc : c ∈ children mc_ key_p L k b e) :
    (∃ oct, oct < 8 ∧ c.key_ = key_p * 8 + oct) ∧ valid_key (L + 1) c.key_ ∧
      c.parent_ = k ∧ c.child_begin_ < c.child_end_ ∧ b ≤ c.child_begin_ ∧
      c.child_end_ ≤ e ∧
      ∀ i, c.child_begin_ ≤ i → i < c.child_end_ →
        lo_of (L + 1) c.key_ ≤ mc_.getD i 0 ∧ mc_.getD i 0 ≤ hi_of (L + 1) c.key_ := by
  unfold children at hc
  rw [List.mem_filterMap] at hc
  obtain ⟨oct, ho, hcb⟩ := hc
  have ho8 : oct < 8 := List.mem_range.mp ho
  obtain ⟨h1, h2, h3, h4, h5⟩ := child_box_key mc_ key_p L k b e oct c hcb
  obtain ⟨a1, a2, a3, a4⟩ := lower_bound_spec mc_ hs b e (lo_of (L + 1) (key_p * 8 + oct)) hbe he
  obtain ⟨b1, b2, b3, b4⟩ := upper_bound_spec mc_ hs b e (hi_of (L + 1) (key_p * 8 + oct)) hbe he
  refine ⟨⟨oct, ho8, h1⟩, ?_, h2, h3, ?_, ?_, ?_⟩
  · rw [h1]
    exact valid_key_child L key_p oct hv hL ho8
  · rw [h4]
    exact a1
  · rw [h5]
    exact b2
  · intro i hi1 hi2
    rw [h1]
    rw [h4] at hi1
    rw [h5] at hi2
    exact ⟨a4 i hi1 (by omega), b3 i (by omega) hi2⟩

/-- The children of a box hold at most the bodies of the box. -/
theorem children_body_count (mc_ : List Nat) (hs : sorted_mc mc_) (key_p L k b e : Nat)
    (hv : valid_key L key_p) (hL : L < 10) (hbe : b ≤ e) (he : e ≤ mc_.length) :
    body_count (children mc_ key_p L k b e) ≤ e - b := by
  have h := body_count_octants mc_ hs key_p L k b e hv hL hbe he 8 le_rfl
  have h0 := cut_range mc_ hs key_p L b e 0 hbe he
  have h8 := cut_range mc_ hs key_p L b e 8 hbe he
  unfold children
  omega

/-! ## The levels of the boxes and `level_offset_` -/

theorem getD_append_replicate (lv : List Nat) (m x j : Nat) :
    (lv ++ List.replicate m x).getD j 0 =
      if j < lv.length then lv.getD j 0 else if j < lv.length + m then x else 0 := by
  by_cases h1 : j < lv.length
  · rw [if_pos h1, List.getD_append _ _ _ _ h1]
  · rw [if_neg h1, List.getD_append_right _ _ _ _ (by omega)]
    by_cases h2 : j < lv.length + m
    · rw [if_pos h2, List.getD_eq_getElem _ _ (by simp; omega)]
      simp
    · rw [if_neg h2, List.getD_eq_default _ _ (by simp; omega)]

theorem getLastD_eq_getD (offs : List Nat) :
    offs.getLastD 0 = offs.getD (offs.length - 1) 0 := by
  rw [List.getLastD_eq_getLast?, List.getLast?_eq_getElem?, List.getD_eq_getElem?_getD]

theorem getD_concat (offs : List Nat) (x l : Nat) :
    (offs ++ [x]).getD l 0 =
      if l < offs.length then offs.getD l 0 else if l = offs.length then x else 0 := by
  have := getD_append_replicate offs 1 x l
  simp only [List.replicate_one] at this
  rw [this]
  by_cases h1 : l < offs.length
  · simp [h1]
  · simp only [if_neg h1]
    by_cases h2 : l = offs.length
    · simp [h2]
    · rw [if_neg h2, if_neg (by omega)]

/-- The visit of a box that gets no child keeps the invariant of the levels. -/
theorem levels_ok_next (k : Nat) (lv offs : List Nat) (h : levels_ok k lv offs)
    (hk : k < lv.length) : levels_ok (k + 1) lv offs := by
  obtain ⟨h0, h1, h2, h3, h4⟩ := h
  refine ⟨h0, h1, ?_, h3, h4⟩
  intro hk1
  have := h2 hk
  have := h1 k (k + 1) (by omega) hk1
  omega

/-- The visit of a box that gets `m` children, `m > 0`, keeps the invariant of the
levels. -/
theorem levels_ok_split (k m : Nat) (lv offs : List Nat) (h : levels_ok k lv offs)
    (hk : k < lv.length) (hm : 0 < m) :
    levels_ok (k + 1) (lv ++ List.replicate m (lv.getD k 0 + 1))
      (if lv.getD k 0 + 1 > lv.getD (offs.getLastD 0) 0 then offs ++ [lv.length]
       else offs) := by
  obtain ⟨h0, h1, h2, h3, h4⟩ := h
  have hlast := h2 hk
  have hklast := h1 k (lv.length - 1) (by omega) (by omega)
  have hoffs : 0 < offs.length := by omega
  have hgl : offs.getLastD 0 = offs.getD (offs.length - 1) 0 := getLastD_eq_getD offs
  obtain ⟨g1, g2, g3⟩ := h4 (offs.length - 1) (by omega)
  have hlen : (lv ++ List.replicate m (lv.getD k 0 + 1)).length = lv.length + m := by simp
  have hnewlast : (lv ++ List.replicate m (lv.getD k 0 + 1)).getD (lv.length + m - 1) 0 =
      lv.getD k 0 + 1 := by
    rw [getD_append_replicate, if_neg (by omega), if_pos (by omega)]
  have hmono : ∀ i j, i ≤ j → j < lv.length + m →
      (lv ++ List.replicate m (lv.getD k 0 + 1)).getD i 0 ≤
        (lv ++ List.replicate m (lv.getD k 0 + 1)).getD j 0 := by
    intro i j hij hj
    rw [getD_append_replicate, getD_append_replicate]
    by_cases hi1 : i < lv.length
    · by_cases hj1 : j < lv.length
      · rw [if_pos hi1, if_pos hj1]
        exact h1 i j hij hj1
      · rw [if_pos hi1, if_neg hj1, if_pos hj]
        have := h1 i (lv.length - 1) (by omega) (by omega)
        omega
    · have hj1 : ¬ j < lv.length := by omega
      have hi2 : i < lv.length + m := by omega
      simp only [if_neg hi1, if_neg hj1, if_pos hi2, if_pos hj]
      exact le_rfl
  refine ⟨by omega, ?_, ?_, ?_, ?_⟩
  · rw [hlen]
    exact hmono
  · rw [hlen]
    intro hk1
    rw [hnewlast, getD_append_replicate]
    by_cases hk2 : k + 1 < lv.length
    · rw [if_pos hk2]
      have := h1 k (k + 1) (by omega) hk2
      omega
    · rw [if_neg hk2, if_pos hk1]
      omega
  · rw [hlen, hnewlast, hgl, g2]
    by_cases hgt : lv.getD k 0 + 1 > offs.length - 1
    · rw [if_pos hgt]
      simp only [List.length_append, List.length_singleton]
      omega
    · rw [if_neg hgt]
      omega
  · rw [hgl, g2]
    intro l hl
    by_cases hgt : lv.getD k 0 + 1 > offs.length - 1
    · rw [if_pos hgt] at hl ⊢
      simp only [List.length_append, List.length_singleton] at hl
      rw [getD_concat]
      by_cases hl1 : l < offs.length
      · rw [if_pos hl1]
        obtain ⟨a1, a2, a3⟩ := h4 l hl1
        refine ⟨by rw [hlen]; omega, ?_, ?_⟩
        · rw [getD_append_replicate, if_pos a1]
          exact a2
        · intro j hj
          rw [getD_append_replicate, if_pos (by omega)]
          exact a3 j hj
      · have hl2 : l = offs.length := by omega
        rw [if_neg hl1, if_pos hl2]
        refine ⟨by rw [hlen]; omega, ?_, ?_⟩
        · rw [getD_append_replicate, if_neg (by omega), if_pos (by omega)]
          omega
        · intro j hj
          rw [getD_append_replicate, if_pos hj]
          have := h1 j (lv.length - 1) (by omega) (by omega)
          omega
    · rw [if_neg hgt] at hl ⊢
      obtain ⟨a1, a2, a3⟩ := h4 l hl
      refine ⟨by rw [hlen]; omega, ?_, ?_⟩
      · rw [getD_append_replicate, if_pos a1]
        exact a2
      · intro j hj
        rw [getD_append_replicate, if_pos (by omega)]
        exact a3 j hj

/-! ## The invariant of the box loop -/

theorem leaf_test (x : Nat) : x &&& leaf_bit ≠ 0 ↔ x / 2 ^ 31 % 2 = 1 := by
  have hb : (x &&& leaf_bit).testBit 31 = x.testBit 31 := by
    rw [Nat.testBit_and, leaf_bit, Nat.testBit_two_pow_self, Bool.and_true]
  constructor
  · intro h
    by_contra hc
    apply h
    apply Nat.eq_of_testBit_eq
    intro i
    rw [Nat.zero_testBit, Nat.testBit_and, leaf_bit, Nat.testBit_two_pow]
    by_cases hi : 31 = i
    · subst hi
      have : Nat.testBit x 31 = false := by
        rw [Nat.testBit_to_div_mod]
        simpa using hc
      simp [this]
    · simp [hi]
  · intro h h0
    rw [h0, Nat.zero_testBit, Nat.testBit_to_div_mod] at hb
    simp at hb
    omega

theorem is_leaf_false (key p cb ce : Nat) (h : key < 2 ^ 31) :
    (⟨key, p, cb, ce⟩ : box_data).is_leaf = false := by
  have : ¬ (key &&& leaf_bit ≠ 0) := by
    rw [leaf_test]
    omega
  simp only [box_data.is_leaf]
  simpa using this

theorem map_level_set (boxes : List box_data) (k : Nat) (B : box_data)
    (h : B.level = (boxes.getD k default).level) :
    (boxes.set k B).map box_data.level = boxes.map box_data.level := by
  apply List.ext_getElem
  · simp
  · intro i h1 h2
    rw [List.getElem_map, List.getElem_map, List.getElem_set]
    by_cases hki : k = i
    · subst hki
      rw [if_pos rfl, h, List.getD_eq_getElem _ _ (by simpa using h2)]
    · rw [if_neg hki]

theorem map_level_getD (boxes : List box_data) (j : Nat) (hj : j < boxes.length) :
    (boxes.map box_data.level).getD j 0 = (boxes.getD j default).level := by
  rw [List.getD_eq_getElem _ _ (by simpa using hj), List.getD_eq_getElem _ _ hj,
    List.getElem_map]

theorem potential_step (k : Nat) (boxes : List box_data) (hk : k < boxes.length) :
    potential k boxes = box_weight (boxes.getD k default) + potential (k + 1) boxes := by
  unfold potential
  rw [List.drop_eq_getElem_cons hk, List.map_cons, List.sum_cons,
    List.getD_eq_getElem _ _ hk]

theorem potential_set (k : Nat) (boxes : List box_data) (B : box_data) :
    potential (k + 1) (boxes.set k B) = potential (k + 1) boxes := by
  unfold potential
  rw [List.drop_set_of_lt _ _ (by omega)]

theorem potential_append (k : Nat) (boxes chs : List box_data) (hk : k ≤ boxes.length) :
    potential k (boxes ++ chs) = potential k boxes + (chs.map box_weight).sum := by
  unfold potential
  rw [List.drop_append_of_le_length hk, List.map_append, List.sum_append]

theorem weight_children (L : Nat) (hL : L < 10) (chs : List box_data)
    (h : ∀ c ∈ chs, c.level = L + 1 ∧ c.child_begin_ < c.child_end_) :
    (chs.map box_weight).sum ≤ body_count chs * (10 - L) := by
  induction chs with
  | nil => simp [body_count]
  | cons c rest ih =>
    have hc := h c (List.mem_cons_self _ _)
    have ih' := ih (fun c' hc' => h c' (List.mem_cons_of_mem _ hc'))
    simp only [List.map_cons, List.sum_cons, body_count] at *
    rw [Nat.add_mul]
    have hw : box_weight c ≤ c.num_children * (10 - L) := by
      unfold box_weight
      rw [hc.1]
      have hn : 1 ≤ c.num_children := by
        unfold box_data.num_children
        omega
      rw [show 10 - L = (10 - (L + 1)) + 1 by omega, Nat.mul_add, Nat.mul_one]
      omega
    omega

/-- The visit of a box with at most `NCRIT` bodies keeps the invariant and lowers the
potential. -/
theorem visit_leaf_inv (mc_ : List Nat) (N fuel k : Nat) (boxes : List box_data)
    (offs : List Nat) (hinv : loop_inv mc_ N k (boxes, offs)) (hk : k < boxes.length)
    (hn : (boxes.getD k default).num_children ≤ 1) :
    ∃ st1, visit_box fuel mc_ k (boxes, offs) = some st1 ∧ loop_inv mc_ N (k + 1) st1 ∧
      potential (k + 1) st1.1 < potential k boxes := by
  obtain ⟨-, hP, hD, hLv⟩ := hinv
  simp only at hP hD hLv
  obtain ⟨p1, p2, p3, p4, p5⟩ := hP k le_rfl hk
  have hkey := valid_key_lt _ _ p1
  refine ⟨_, visit_box_leaf fuel mc_ boxes offs k _ rfl
    (by simpa [box_data.num_children] using hn), ?_, ?_⟩
  · refine ⟨by simp; omega, ?_, ?_, ?_⟩
    · intro j hj1 hj2
      simp only [List.length_set] at hj2
      simp only
      rw [getD_set_ne _ _ _ _ _ (by omega)]
      exact hP j (by omega) hj2
    · intro j hj1 hj2
      simp only [List.length_set] at hj2
      simp only
      by_cases hjk : j = k
      · subst hjk
        rw [getD_set_self _ _ _ _ hk]
        intro _
        exact ⟨by simpa [box_data.num_children, NCRIT] using hn, p4⟩
      · rw [getD_set_ne _ _ _ _ _ (by omega)]
        exact hD j (by omega) hj2
    · simp only
      rw [map_level_set]
      · exact levels_ok_next k _ _ hLv (by simpa using hk)
      · exact key_level_leaf _ hkey
  · simp only
    rw [potential_set, potential_step k boxes hk]
    unfold box_weight
    omega

/-- The visit of a box with more than `NCRIT` bodies and a key of depth at most 9 keeps
the invariant and lowers the potential. -/
theorem visit_split_inv (mc_ : List Nat) (hs : sorted_mc mc_) (N fuel k : Nat)
    (hN : N ≤ mc_.length) (hf : 10 < fuel) (boxes : List box_data)
    (offs : List Nat) (hinv : loop_inv mc_ N k (boxes, offs)) (hk : k < boxes.length)
    (hn : 1 < (boxes.getD k default).num_children)
    (hL : (boxes.getD k default).level < 10) :
    ∃ st1, visit_box fuel mc_ k (boxes, offs) = some st1 ∧ loop_inv mc_ N (k + 1) st1 ∧
      potential (k + 1) st1.1 < potential k boxes := by
  obtain ⟨-, hP, hD, hLv⟩ := hinv
  simp only at hP hD hLv
  obtain ⟨p1, p2, p3, p4, p5⟩ := hP k le_rfl hk
  have hkey := valid_key_lt _ _ p1
  have hoff : offs.getLastD 0 < boxes.length := by
    obtain ⟨_, _, _, h3, h4⟩ := hLv
    rw [getLastD_eq_getD offs]
    have := (h4 (offs.length - 1) (by omega)).1
    simpa using this
  have hnum : 1 < (boxes.getD k default).child_end_ - (boxes.getD k default).child_begin_ := by
    simpa [box_data.num_children] using hn
  have hvis := visit_box_split fuel mc_ boxes offs k _ _ rfl hk p1 hL hf hoff hnum
  have hmem := children_mem mc_ hs (boxes.getD k default).key_ (boxes.getD k default).level k
    (boxes.getD k default).child_begin_ (boxes.getD k default).child_end_ p1 hL p3
    (by omega)
  have hcnt := children_body_count mc_ hs (boxes.getD k default).key_
    (boxes.getD k default).level k
    (boxes.getD k default).child_begin_ (boxes.getD k default).child_end_ p1 hL p3 (by omega)
  generalize children mc_ (boxes.getD k default).key_ (boxes.getD k default).level k
    (boxes.getD k default).child_begin_ (boxes.getD k default).child_end_ = chs at *
  have hlev : ∀ c ∈ chs, c.level = (boxes.getD k default).level + 1 := by
    intro c hc
    exact valid_key_level _ _ (hmem c hc).2.1
  refine ⟨_, hvis, ?_, ?_⟩
  · refine ⟨by simp [split_state]; omega, ?_, ?_, ?_⟩
    · intro j hj1 hj2
      simp only [split_state, List.length_append, List.length_set] at hj2 ⊢
      by_cases hjn : j < boxes.length
      · rw [List.getD_append _ _ _ _ (by simpa using hjn), getD_set_ne _ _ _ _ _ (by omega)]
        exact hP j (by omega) hjn
      · rw [List.getD_append_right _ _ _ _ (by simp; omega)]
        simp only [List.length_set]
        have hc : chs.getD (j - boxes.length) default ∈ chs := by
          rw [List.getD_eq_getElem _ _ (by omega)]
          exact List.getElem_mem _
        obtain ⟨-, c2, -, c4, c5, c6, c7⟩ := hmem _ hc
        have hl := hlev _ hc
        refine ⟨by rw [hl]; exact c2, by omega, by omega, fun _ => c4, ?_⟩
        rw [hl]
        exact c7
    · intro j hj1 hj2
      simp only [split_state, List.length_append, List.length_set] at hj2 ⊢
      by_cases hjk : j = k
      · subst hjk
        rw [List.getD_append _ _ _ _ (by simpa using hk), getD_set_self _ _ _ _ hk]
        intro hleaf
        rw [is_leaf_false _ _ _ _ hkey] at hleaf
        cases hleaf
      · rw [List.getD_append _ _ _ _ (by simp; omega), getD_set_ne _ _ _ _ _ (by omega)]
        exact hD j (by omega) (by omega)
    · have hmap : (split_state boxes offs k (boxes.getD k default).level chs).1.map
          box_data.level = boxes.map box_data.level ++
            List.replicate chs.length ((boxes.getD k default).level + 1) := by
        simp only [split_state, List.map_append]
        rw [map_level_set boxes k ⟨(boxes.getD k default).key_,
          (boxes.getD k default).parent_, boxes.length, boxes.length + chs.length⟩ rfl]
        congr 1
        rw [List.eq_replicate_iff]
        refine ⟨by simp, ?_⟩
        intro b hb
        rw [List.mem_map] at hb
        obtain ⟨c, hc, rfl⟩ := hb
        exact hlev c hc
      rw [hmap]
      by_cases hm : chs.length = 0
      · have : chs = [] := List.length_eq_zero.mp hm
        subst this
        simp only [split_state, List.length_nil, if_true, List.replicate_zero,
          List.append_nil]
        exact levels_ok_next k _ _ hLv (by simpa using hk)
      · have h := levels_ok_split k chs.length _ _ hLv (by simpa using hk) (by omega)
        rw [map_level_getD boxes k hk, map_level_getD boxes _ hoff, List.length_map] at h
        simp only [split_state, if_neg hm]
        exact h
  · simp only [split_state]
    rw [potential_append _ _ _ (by simp; omega), potential_set, potential_step k boxes hk]
    have hw := weight_children (boxes.getD k default).level hL chs
      (fun c hc => ⟨hlev c hc, (hmem c hc).2.2.2.1⟩)
    have hmul : body_count chs * (10 - (boxes.getD k default).level) ≤
        ((boxes.getD k default).child_end_ - (boxes.getD k default).child_begin_) *
          (10 - (boxes.getD k default).level) := Nat.mul_le_mul_right _ hcnt
    have hwk : box_weight (boxes.getD k default) =
        1 + ((boxes.getD k default).child_end_ - (boxes.getD k default).child_begin_) *
          (10 - (boxes.getD k default).level) := rfl
    rw [hwk]
    omega

/-- With pairwise distinct codes a box of depth 10 holds at most one body, so that a box
that is split has depth at most 9. -/
theorem split_level_lt (mc_ : List Nat) (hd : strict_mc mc_) (N j : Nat)
    (hN : N ≤ mc_.length) (B : box_data) (hB : pending_ok mc_ N j B)
    (hn : 1 < B.num_children) : B.level < 10 := by
  obtain ⟨p1, p2, p3, p4, p5⟩ := hB
  have hl := p1.1
  by_contra hc
  have h10 : B.level = 10 := by omega
  unfold box_data.num_children at hn
  obtain ⟨a1, a2⟩ := p5 B.child_begin_ le_rfl (by omega)
  obtain ⟨b1, b2⟩ := p5 (B.child_begin_ + 1) (by omega) (by omega)
  have hlt := hd B.child_begin_ (B.child_begin_ + 1) (by omega) (by omega)
  rw [h10] at a1 a2 b1 b2
  simp only [lo_of, hi_of, Nat.sub_self, pow_zero, Nat.mul_one] at a1 a2 b1 b2
  omega

/-- With pairwise distinct codes the box loop returns, and the invariant holds of the
state that it returns. -/
theorem box_loop_total (mc_ : List Nat) (hs : sorted_mc mc_) (hd : strict_mc mc_) (N : Nat)
    (hN : N ≤ mc_.length) (inner : Nat) (hf : 10 < inner) :
    ∀ (fuel k : Nat) (st : List box_data × List Nat), loop_inv mc_ N k st →
      potential k st.1 < fuel →
      ∃ st1, box_loop mc_ fuel inner k st = some st1 ∧ loop_inv mc_ N st1.1.length st1 := by
  intro fuel
  induction fuel with
  | zero =>
    intro k st _ hp
    omega
  | succ fuel ih =>
    intro k st hinv hp
    obtain ⟨boxes, offs⟩ := st
    by_cases hk : k = boxes.length
    · refine ⟨(boxes, offs), ?_, ?_⟩
      · simp only [box_loop, if_pos hk]
      · rw [← hk]
        exact hinv
    · have hlt : k < boxes.length := by
        have := hinv.1
        simp only at this
        omega
      have hstep : ∃ st1, visit_box inner mc_ k (boxes, offs) = some st1 ∧
          loop_inv mc_ N (k + 1) st1 ∧ potential (k + 1) st1.1 < potential k boxes := by
        by_cases hn : (boxes.getD k default).num_children ≤ 1
        · exact visit_leaf_inv mc_ N inner k boxes offs hinv hlt hn
        · have hn1 : 1 < (boxes.getD k default).num_children := by omega
          have hB := hinv.2.1 k le_rfl hlt
          exact visit_split_inv mc_ hs N inner k hN hf boxes offs hinv hlt hn1
            (split_level_lt mc_ hd N k hN _ hB hn1)
      obtain ⟨st1, h1, h2, h3⟩ := hstep
      obtain ⟨st2, h4, h5⟩ := ih (k + 1) st1 h2 (by simp only at hp; omega)
      refine ⟨st2, ?_, h5⟩
      simp only [box_loop, if_neg hk, h1]
      exact h4

/-- The invariant holds of the state in which the box loop starts. -/
theorem loop_inv_init (mc_ : List Nat) (N : Nat)
    (h30 : ∀ i, i < N → mc_.getD i 0 < 2 ^ 30) :
    loop_inv mc_ N 0 ([⟨1, 0, 0, N⟩], [0]) := by
  have hlev : (⟨1, 0, 0, N⟩ : box_data).level = 0 := by
    show key_level 1 = 0
    decide
  refine ⟨by simp, ?_, ?_, ?_⟩
  · intro j _ hj
    simp only [List.length_singleton] at hj
    have : j = 0 := by omega
    subst this
    simp only [List.getD_cons_zero]
    refine ⟨?_, le_rfl, by simp, ?_, ?_⟩
    · rw [hlev]
      exact ⟨by omega, by norm_num, by norm_num⟩
    · intro h
      simpa using h
    · intro i _ hi
      rw [hlev]
      have := h30 i hi
      have e1 : lo_of 0 1 = 0 := by decide
      have e2 : hi_of 0 1 = 2 ^ 30 - 1 := by decide
      rw [e1, e2]
      omega
  · intro j hj
    omega
  · simp only [List.map_cons, List.map_nil, hlev]
    refine ⟨by simp, ?_, ?_, by simp, ?_⟩
    · intro i j hij hj
      simp only [List.length_singleton] at hj
      have hj0 : j = 0 := by omega
      have hi0 : i = 0 := by omega
      subst hj0 hi0
      exact le_rfl
    · intro _
      simp
    · intro l hl
      simp only [List.length_singleton] at hl
      have : l = 0 := by omega
      subst this
      simp

/-! ## More fuel does not change a result -/

theorem lower_loop_mono (d : Nat) : ∀ (fuel key v : Nat), lower_loop fuel key = some v →
    lower_loop (fuel + d) key = some v := by
  intro fuel
  induction fuel with
  | zero =>
    intro key v h
    simp [lower_loop] at h
  | succ fuel ih =>
    intro key v h
    rw [show fuel + 1 + d = (fuel + d) + 1 by omega]
    by_cases hm : key &&& max_marker_bit ≠ 0
    · simp only [lower_loop, if_pos hm] at h ⊢
      exact h
    · simp only [lower_loop, if_neg hm] at h ⊢
      exact ih _ _ h

theorem upper_loop_mono (d : Nat) : ∀ (fuel key v : Nat), upper_loop fuel key = some v →
    upper_loop (fuel + d) key = some v := by
  intro fuel
  induction fuel with
  | zero =>
    intro key v h
    simp [upper_loop] at h
  | succ fuel ih =>
    intro key v h
    rw [show fuel + 1 + d = (fuel + d) + 1 by omega]
    by_cases hm : key &&& max_marker_bit ≠ 0
    · simp only [upper_loop, if_pos hm] at h ⊢
      exact h
    · simp only [upper_loop, if_neg hm] at h ⊢
      exact ih _ _ h

theorem get_mc_lower_bound_mono (d fuel : Nat) (b : box_data) (v : Nat)
    (h : b.get_mc_lower_bound fuel = some v) : b.get_mc_lower_bound (fuel + d) = some v := by
  unfold box_data.get_mc_lower_bound at h ⊢
  cases hl : lower_loop fuel b.key_ with
  | none => simp [hl] at h
  | some m =>
    rw [hl] at h
    rw [lower_loop_mono d fuel _ m hl]
    exact h

theorem get_mc_upper_bound_mono (d fuel : Nat) (b : box_data) (v : Nat)
    (h : b.get_mc_upper_bound fuel = some v) : b.get_mc_upper_bound (fuel + d) = some v := by
  unfold box_data.get_mc_upper_bound at h ⊢
  cases hl : upper_loop fuel b.key_ with
  | none => simp [hl] at h
  | some m =>
    rw [hl] at h
    rw [upper_loop_mono d fuel _ m hl]
    exact h

theorem add_octant_mono (d fuel : Nat) (mc_ : List Nat) (key_p k b e : Nat)
    (st st1 : List box_data × List Nat) (oct : Nat)
    (h : add_octant fuel mc_ key_p k b e st oct = some st1) :
    add_octant (fuel + d) mc_ key_p k b e st oct = some st1 := by
  unfold add_octant at h ⊢
  simp only at h ⊢
  cases hl : (⟨(key_p <<< 3) % word ||| oct, k, 0, 0⟩ : box_data).get_mc_lower_bound fuel with
  | none => simp [hl] at h
  | some lo =>
    cases hu : (⟨(key_p <<< 3) % word ||| oct, k, 0, 0⟩ : box_data).get_mc_upper_bound fuel with
    | none => simp [hl, hu] at h
    | some hi =>
      rw [get_mc_lower_bound_mono d fuel _ lo hl, get_mc_upper_bound_mono d fuel _ hi hu]
      simp only [hl, hu] at h
      exact h

theorem foldlM_mono {σ : Type} (f g : σ → Nat → Option σ)
    (hfg : ∀ st o st1, f st o = some st1 → g st o = some st1) :
    ∀ (l : List Nat) (st st1 : σ), List.foldlM f st l = some st1 →
      List.foldlM g st l = some st1 := by
  intro l
  induction l with
  | nil =>
    intro st st1 h
    simpa using h
  | cons o rest ih =>
    intro st st1 h
    rw [List.foldlM_cons] at h ⊢
    cases hf : f st o with
    | none => simp [hf] at h
    | some st2 =>
      rw [hf] at h
      rw [hfg st o st2 hf]
      simp only [Option.bind_eq_bind, Option.some_bind] at h ⊢
      exact ih st2 st1 h

theorem visit_box_mono (d fuel : Nat) (mc_ : List Nat) (k : Nat)
    (st st1 : List box_data × List Nat) (h : visit_box fuel mc_ k st = some st1) :
    visit_box (fuel + d) mc_ k st = some st1 := by
  unfold visit_box at h ⊢
  simp only at h ⊢
  by_cases hn : (st.1.getD k default).num_children ≤ NCRIT
  · simp only [if_pos hn] at h ⊢
    exact h
  · simp only [if_neg hn] at h ⊢
    exact foldlM_mono _ _ (fun s o s1 hs => add_octant_mono d fuel mc_ _ _ _ _ s s1 o hs) _ _ _ h

theorem box_loop_mono (mc_ : List Nat) (d e inner : Nat) :
    ∀ (fuel k : Nat) (st st1 : List box_data × List Nat),
      box_loop mc_ fuel inner k st = some st1 →
      box_loop mc_ (fuel + d) (inner + e) k st = some st1 := by
  intro fuel
  induction fuel with
  | zero =>
    intro k st st1 h
    simp [box_loop] at h
  | succ fuel ih =>
    intro k st st1 h
    rw [show fuel + 1 + d = (fuel + d) + 1 by omega]
    by_cases hk : k = st.1.length
    · simp only [box_loop, if_pos hk] at h ⊢
      exact h
    · simp only [box_loop, if_neg hk] at h ⊢
      cases hv : visit_box inner mc_ k st with
      | none => simp [hv] at h
      | some st2 =>
        rw [hv] at h
        rw [visit_box_mono e inner mc_ k st st2 hv]
        exact ih _ _ _ h

/-- A tree that `construct_tree` returns with some fuel is returned with any larger
fuel. -/
theorem construct_tree_mono {α : Type} [Inhabited α] (contains : α → Bool) (code : α → Nat)
    (pts : List α) (fuel d : Nat) (t : Octree α)
    (h : construct_tree contains code pts fuel = .ok t) :
    construct_tree contains code pts (fuel + d) = .ok t := by
  unfold construct_tree at h ⊢
  cases hc : collect contains code pts 0 [] [] with
  | error e =>
    rw [hc] at h
    cases h
  | ok r =>
    obtain ⟨points_tmp, code_idx⟩ := r
    rw [hc] at h
    simp only at h ⊢
    split at h
    · cases h
    · rename_i boxes offsets hb
      rw [box_loop_mono _ d d fuel fuel 0 _ _ hb]
      exact h

/-! ## `construct_tree` on points with pairwise distinct codes -/

theorem collect_contained {α : Type} (contains : α → Bool) (code : α → Nat) :
    ∀ (pts : List α) (idx : Nat) (points_tmp : List α) (code_idx : List (Nat × Nat)),
      (∀ p ∈ pts, contains p = true) →
      collect contains code pts idx points_tmp code_idx =
        .ok (points_tmp ++ pts,
          code_idx ++ (pts.enumFrom idx).map (fun x => (code x.2, x.1))) := by
  intro pts
  induction pts with
  | nil =>
    intro idx points_tmp code_idx _
    simp [collect]
  | cons p rest ih =>
    intro idx points_tmp code_idx h
    have hp : contains p = true := h p (List.mem_cons_self _ _)
    simp only [collect, if_pos hp]
    rw [ih _ _ _ (fun q hq => h q (List.mem_cons_of_mem _ hq))]
    simp

theorem sorted_codes_fst_perm {α : Type} (code : α → Nat) (pts : List α) :
    ((sorted_codes code pts).map Prod.fst).Perm (pts.map code) := by
  have h1 : ((pts.enumFrom 0).map (fun x => (code x.2, x.1))).map Prod.fst = pts.map code := by
    rw [List.map_map]
    have : (Prod.fst ∘ fun x : Nat × α => (code x.2, x.1)) = code ∘ Prod.snd := by
      funext x
      rfl
    rw [this, ← List.map_map, List.enumFrom_map_snd]
  rw [← h1]
  exact (List.perm_insertionSort pair_le _).map _

theorem sorted_codes_strict {α : Type} (code : α → Nat) (pts : List α)
    (hd : (pts.map code).Nodup) : strict_mc ((sorted_codes code pts).map Prod.fst) := by
  have hnd : ((sorted_codes code pts).map Prod.fst).Nodup :=
    (List.Perm.nodup_iff (sorted_codes_fst_perm code pts)).mpr hd
  intro i j hij hj
  have hle := sorted_codes_sorted code pts i j (by omega) hj
  have hne : ((sorted_codes code pts).map Prod.fst).getD i 0 ≠
      ((sorted_codes code pts).map Prod.fst).getD j 0 := by
    have hi' : i < ((sorted_codes code pts).map Prod.fst).length := by omega
    rw [List.getD_eq_getElem _ _ hi', List.getD_eq_getElem _ _ hj]
    intro hc
    have := (List.Nodup.getElem_inj_iff hnd).mp hc
    omega
  omega

theorem sorted_codes_lt {α : Type} (code : α → Nat) (pts : List α)
    (h30 : ∀ p ∈ pts, code p < 2 ^ 30) (i : Nat) (hi : i < pts.length) :
    ((sorted_codes code pts).map Prod.fst).getD i 0 < 2 ^ 30 := by
  have hl : ((sorted_codes code pts).map Prod.fst).length = pts.length := by
    rw [List.length_map, sorted_codes_length]
  have hmem : ((sorted_codes code pts).map Prod.fst).getD i 0 ∈
      (sorted_codes code pts).map Prod.fst := by
    rw [List.getD_eq_getElem _ _ (by omega)]
    exact List.getElem_mem _
  have := (sorted_codes_fst_perm code pts).mem_iff.mp hmem
  rw [List.mem_map] at this
  obtain ⟨p, hp, he⟩ := this
  rw [← he]
  exact h30 p hp

/-- On points inside the bounding box, with 30-bit codes that are pairwise distinct,
`construct_tree` returns for every fuel from `10 * N + 11` on, and the invariant of the
box loop holds of the tree. -/
theorem construct_tree_total {α : Type} [Inhabited α] (contains : α → Bool) (code : α → Nat)
    (pts : List α) (hc : ∀ p ∈ pts, contains p = true)
    (h30 : ∀ p ∈ pts, code p < 2 ^ 30) (hd : (pts.map code).Nodup) (fuel : Nat)
    (hfuel : 10 * pts.length + 11 ≤ fuel) :
    ∃ t offsets, construct_tree contains code pts fuel = .ok t ∧
      t.level_offset_ = offsets ++ [t.box_data_.length] ∧
      loop_inv t.mc_ pts.length t.box_data_.length (t.box_data_, offsets) := by
  have hlen : ((sorted_codes code pts).map Prod.fst).length = pts.length := by
    rw [List.length_map, sorted_codes_length]
  have hinit := loop_inv_init ((sorted_codes code pts).map Prod.fst) pts.length
    (sorted_codes_lt code pts h30)
  have hpot : potential 0 ([⟨1, 0, 0, pts.length⟩] : List box_data) < fuel := by
    have hlev : (⟨1, 0, 0, pts.length⟩ : box_data).level = 0 := by
      show key_level 1 = 0
      decide
    simp only [potential, List.drop_zero, List.map_cons, List.map_nil, List.sum_cons,
      List.sum_nil, box_weight, hlev, box_data.num_children]
    omega
  obtain ⟨st1, hloop, hinv⟩ := box_loop_total _ (sorted_codes_sorted code pts)
    (sorted_codes_strict code pts hd) pts.length (by omega) fuel (by omega) fuel 0 _ hinit hpot
  obtain ⟨boxes, offsets⟩ := st1
  refine ⟨⟨((sorted_codes code pts).map Prod.snd).map (fun i => pts.getD i default),
    (sorted_codes code pts).map Prod.fst, (sorted_codes code pts).map Prod.snd,
    offsets ++ [boxes.length], boxes⟩, offsets, ?_, rfl, hinv⟩
  unfold construct_tree
  rw [collect_contained contains code pts 0 [] [] hc]
  simp only [List.nil_append]
  have hpl : (List.map (fun i => pts.getD i default)
      (List.map Prod.snd (List.insertionSort pair_le
        ((pts.enumFrom 0).map (fun x => (code x.2, x.1)))))).length = pts.length := by
    simp [List.length_insertionSort]
  rw [hpl]
  unfold sorted_codes at hloop
  rw [hloop]
  rfl

/-- The invariant of the box loop holds of every tree that `construct_tree` returns on
points with pairwise distinct codes. -/
theorem construct_tree_inv {α : Type} [Inhabited α] (contains : α → Bool) (code : α → Nat)
    (pts : List α) (hc : ∀ p ∈ pts, contains p = true)
    (h30 : ∀ p ∈ pts, code p < 2 ^ 30) (hd : (pts.map code).Nodup) (fuel : Nat)
    (t : Octree α) (h : construct_tree contains code pts fuel = .ok t) :
    ∃ offsets, t.level_offset_ = offsets ++ [t.box_data_.length] ∧
      loop_inv t.mc_ pts.length t.box_data_.length (t.box_data_, offsets) := by
  obtain ⟨t1, offsets, h1, h2, h3⟩ := construct_tree_total contains code pts hc h30 hd
    (fuel + (10 * pts.length + 11)) (by omega)
  rw [construct_tree_mono contains code pts fuel _ t h] at h1
  simp only [Except.ok.injEq] at h1
  subst h1
  exact ⟨offsets, h2, h3⟩

/-- C7: with `NCRIT = 1`, on a non-empty input whose points have pairwise distinct Morton
codes, `construct_tree` returns and every leaf box of the tree holds exactly one body. -/
theorem leaves_hold_one_body {α : Type} [Inhabited α] (contains : α → Bool) (code : α → Nat)
    (pts : List α) (hne : pts ≠ []) (hc : ∀ p ∈ pts, contains p = true)
    (h30 : ∀ p ∈ pts, code p < 2 ^ 30) (hd : (pts.map code).Nodup) :
    (∀ fuel, 10 * pts.length + 11 ≤ fuel →
      ∃ t, construct_tree contains code pts fuel = .ok t) ∧
    ∀ fuel t, construct_tree contains code pts fuel = .ok t →
      ∀ b ∈ t.box_data_, b.is_leaf = true → b.child_end_ - b.child_begin_ = 1 := by
  constructor
  · intro fuel hf
    obtain ⟨t, _, h, _⟩ := construct_tree_total contains code pts hc h30 hd fuel hf
    exact ⟨t, h⟩
  · intro fuel t h b hb hleaf
    obtain ⟨offsets, -, -, -, hD, -⟩ := construct_tree_inv contains code pts hc h30 hd fuel t h
    obtain ⟨j, hj, rfl⟩ := List.getElem_of_mem hb
    have hN : 0 < pts.length := List.length_pos.mpr hne
    have := hD j hj hj
    simp only at this
    rw [List.getD_eq_getElem _ _ hj] at this
    obtain ⟨d1, d2⟩ := this hleaf
    have d3 := d2 (Or.inr hN)
    simp only [box_data.num_children, NCRIT] at d1
    omega

/-! ## Keys beyond the depth of the codes -/

theorem lower_loop_zero (fuel : Nat) : lower_loop fuel 0 = none := by
  induction fuel with
  | zero => rfl
  | succ fuel ih =>
    have h : ¬ ((0 : Nat) &&& max_marker_bit ≠ 0) := by decide
    rw [lower_loop, if_neg h]
    exact ih

theorem shift_mod (x : Nat) : (x <<< 3) % word = (x * 8) % word := by
  rw [Nat.shiftLeft_eq]

theorem mul8_mod (y : Nat) : (y * 8) % word = (y % 2 ^ 29) * 8 := by
  have : word = 2 ^ 29 * 8 := by decide
  rw [this, Nat.mul_mod_mul_right]

theorem or_seven (y : Nat) : ((y * 8) % word) ||| 7 = (y * 8) % word + 7 := by
  rw [mul8_mod, or_octant _ 7 (by omega)]

theorem pow8_dvd_word (s : Nat) (hs : s ≤ 10) : 8 ^ s ∣ word := by
  have h8 : (8 : Nat) ^ s = 2 ^ (3 * s) := by
    rw [show (8 : Nat) = 2 ^ 3 by norm_num, ← pow_mul]
  rw [h8, word]
  exact Nat.pow_dvd_pow 2 (by omega)

theorem pow8_le (s : Nat) (hs : s ≤ 10) : 8 ^ s ≤ 2 ^ 30 := by
  have h8 : (8 : Nat) ^ s = 2 ^ (3 * s) := by
    rw [show (8 : Nat) = 2 ^ 3 by norm_num, ← pow_mul]
  rw [h8]
  exact Nat.pow_le_pow_right (by omega) (by omega)

/-- Filling the low `3 s` bits of a multiple of `8 ^ s` leaves the bits from 30 on. -/
theorem div_fill (x s r : Nat) (hs : s ≤ 10) (hx : x % 8 ^ s = 0) (hr : r < 8 ^ s) :
    (x + r) / 2 ^ 30 = x / 2 ^ 30 := by
  have hsplit : (2 : Nat) ^ 30 = 8 ^ s * 8 ^ (10 - s) := by
    rw [← pow_add, show s + (10 - s) = 10 by omega]
    norm_num
  have hpos : 0 < 8 ^ s := Nat.pow_pos (by omega)
  obtain ⟨q, rfl⟩ : ∃ q, x = 8 ^ s * q := ⟨x / 8 ^ s, by
    have := Nat.div_add_mod x (8 ^ s)
    omega⟩
  rw [hsplit, ← Nat.div_div_eq_div_mul, ← Nat.div_div_eq_div_mul, Nat.mul_add_div hpos,
    Nat.div_eq_of_lt hr, Nat.add_zero, Nat.mul_div_cancel_left _ hpos]

/-- Adding less than `P` to a multiple of `P` commutes with the reduction modulo a
multiple of `P`. -/
theorem mod_fill (a r P W : Nat) (hP : P ∣ W) (hW : 0 < W) (ha : a % P = 0) (hr : r < P) :
    (a + r) % W = a % W + r := by
  have h1 : a % W % P = 0 := by rw [Nat.mod_mod_of_dvd _ hP, ha]
  have hlt : a % W < W := Nat.mod_lt _ hW
  obtain ⟨v, rfl⟩ := hP
  have hPpos : 0 < P := by
    rcases Nat.eq_zero_or_pos P with h | h
    · subst h
      simp at hW
    · exact h
  obtain ⟨u, hu⟩ : ∃ u, a % (P * v) = P * u := ⟨a % (P * v) / P, by
    have := Nat.div_add_mod (a % (P * v)) P
    omega⟩
  have huv : u < v := by
    rw [hu] at hlt
    exact Nat.lt_of_mul_lt_mul_left hlt
  have hle : P * u + P ≤ P * v := by
    have : P * (u + 1) ≤ P * v := Nat.mul_le_mul_left _ (by omega)
    rw [Nat.mul_add, Nat.mul_one] at this
    exact this
  rw [Nat.add_mod, Nat.mod_eq_of_lt (show r < P * v by omega : r < P * v),
    Nat.mod_eq_of_lt (by omega)]

/-- The two bound loops run in step: from a word `x` whose low `3 s` bits are clear and
from the same word with these bits set they stop after the same number `d` of shifts. -/
theorem loops_lockstep : ∀ (fuel x s : Nat), s ≤ 10 → x < word → x % 8 ^ s = 0 →
    ∀ m, lower_loop fuel x = some m →
      ∃ d, s + d ≤ 10 ∧ m = (x * 8 ^ d) % word ∧ m / 2 ^ 30 % 2 = 1 ∧
        (∀ i, i < d → (x * 8 ^ i) % word / 2 ^ 30 % 2 = 0) ∧
        upper_loop fuel (x + (8 ^ s - 1)) = some (m + (8 ^ (s + d) - 1)) := by
  intro fuel
  induction fuel with
  | zero =>
    intro x s _ _ _ m h
    simp [lower_loop] at h
  | succ fuel ih =>
    intro x s hs hx hmod m h
    have hpos : 0 < 8 ^ s := Nat.pow_pos (by omega)
    have hfill : (x + (8 ^ s - 1)) / 2 ^ 30 = x / 2 ^ 30 :=
      div_fill x s (8 ^ s - 1) hs hmod (by omega)
    by_cases hm : x &&& max_marker_bit ≠ 0
    · rw [lower_loop, if_pos hm] at h
      simp only [Option.some.injEq] at h
      subst h
      have hmx := (marker_test x).mp hm
      have hmu : (x + (8 ^ s - 1)) &&& max_marker_bit ≠ 0 := by
        rw [marker_test, hfill]
        exact hmx
      refine ⟨0, by omega, ?_, hmx, fun i hi => by omega, ?_⟩
      · rw [pow_zero, Nat.mul_one, Nat.mod_eq_of_lt hx]
      · rw [upper_loop, if_pos hmu, Nat.add_zero]
    · rw [lower_loop, if_neg hm, shift_mod] at h
      have hx0 : x / 2 ^ 30 % 2 = 0 := by
        have := (marker_test x).not.mp hm
        omega
      have hmu : ¬ ((x + (8 ^ s - 1)) &&& max_marker_bit ≠ 0) := by
        rw [marker_test, hfill]
        omega
      by_cases hs10 : s = 10
      · subst hs10
        have h0 : (x * 8) % word = 0 := by
          have : (8 : Nat) ^ 10 = 1073741824 := by norm_num
          rw [this] at hmod
          simp only [word] at hx ⊢
          omega
        rw [h0, lower_loop_zero] at h
        cases h
      · have hs9 : s + 1 ≤ 10 := by omega
        have hmod1 : (x * 8) % word % 8 ^ (s + 1) = 0 := by
          rw [Nat.mod_mod_of_dvd _ (pow8_dvd_word (s + 1) hs9), pow_succ,
            Nat.mul_mod_mul_right, hmod, Nat.zero_mul]
        have hraw : (x * 8) % 8 ^ (s + 1) = 0 := by
          rw [pow_succ, Nat.mul_mod_mul_right, hmod, Nat.zero_mul]
        obtain ⟨d, hd1, hd2, hd3, hd4, hd5⟩ :=
          ih ((x * 8) % word) (s + 1) hs9 (Nat.mod_lt _ (by decide)) hmod1 m h
        refine ⟨d + 1, by omega, ?_, hd3, ?_, ?_⟩
        · rw [hd2, Nat.mod_mul_mod, pow_succ]
          congr 1
          ring
        · intro i hi
          cases i with
          | zero =>
            rw [pow_zero, Nat.mul_one, Nat.mod_eq_of_lt hx]
            exact hx0
          | succ i =>
            have := hd4 i (by omega)
            rw [Nat.mod_mul_mod] at this
            rw [pow_succ, show x * (8 ^ i * 8) = x * 8 * 8 ^ i by ring]
            exact this
        · rw [upper_loop, if_neg hmu, shift_mod]
          have e1 : (x + (8 ^ s - 1)) * 8 = x * 8 + (8 ^ (s + 1) - 8) := by
            rw [pow_succ]
            omega
          have e2 : (x * 8 + (8 ^ (s + 1) - 8)) % word = (x * 8) % word + (8 ^ (s + 1) - 8) := by
            apply mod_fill _ _ (8 ^ (s + 1)) word (pow8_dvd_word (s + 1) hs9) (by decide) hraw
            have : 0 < 8 ^ (s + 1) := Nat.pow_pos (by omega)
            omega
          have e3 : ((x + (8 ^ s - 1)) * 8) % word ||| 7 =
              (x * 8) % word + (8 ^ (s + 1) - 1) := by
            rw [or_seven, e1, e2]
            have : 8 ≤ 8 ^ (s + 1) := by
              rw [pow_succ]
              omega
            omega
          rw [e3, hd5, show s + 1 + d = s + (d + 1) by omega]

theorem lower_loop_steps (t : Nat) : ∀ (K fuel : Nat), K < word → t < fuel →
    (∀ s, s < t → (K * 8 ^ s) % word / 2 ^ 30 % 2 = 0) →
    (K * 8 ^ t) % word / 2 ^ 30 % 2 = 1 →
    lower_loop fuel K = some ((K * 8 ^ t) % word) := by
  induction t with
  | zero =>
    intro K fuel hK hf _ hset
    obtain ⟨f, rfl⟩ : ∃ f, fuel = f + 1 := ⟨fuel - 1, by omega⟩
    rw [pow_zero, Nat.mul_one, Nat.mod_eq_of_lt hK] at hset ⊢
    rw [lower_loop, if_pos ((marker_test K).mpr hset)]
  | succ t ih =>
    intro K fuel hK hf hclear hset
    obtain ⟨f, rfl⟩ : ∃ f, fuel = f + 1 := ⟨fuel - 1, by omega⟩
    have h0 := hclear 0 (by omega)
    rw [pow_zero, Nat.mul_one, Nat.mod_eq_of_lt hK] at h0
    have hm : ¬ (K &&& max_marker_bit ≠ 0) := by
      rw [marker_test]
      omega
    rw [lower_loop, if_neg hm, shift_mod]
    have e : ∀ s, ((K * 8) % word * 8 ^ s) % word = (K * 8 ^ (s + 1)) % word := by
      intro s
      rw [Nat.mod_mul_mod, pow_succ]
      congr 1
      ring
    rw [ih ((K * 8) % word) f (Nat.mod_lt _ (by decide)) (by omega)
      (fun s hs => by rw [e]; exact hclear (s + 1) (by omega)) (by rw [e]; exact hset), e]

theorem mul_pow8_mod (K t : Nat) (ht : t ≤ 10) : (K * 8 ^ t) % word % 8 ^ t = 0 := by
  rw [Nat.mod_mod_of_dvd _ (pow8_dvd_word t ht), Nat.mul_mod_left]

/-- A multiple of `P` below a multiple of `P` is below it by at least `P`. -/
theorem multiple_gap (m P B : Nat) (hm : m % P = 0) (hB : B % P = 0) (hlt : m < B) :
    m + P ≤ B := by
  rcases Nat.eq_zero_or_pos P with h | hPpos
  · subst h
    omega
  obtain ⟨u, hu⟩ : ∃ u, m = P * u := ⟨m / P, by
    have := Nat.div_add_mod m P
    omega⟩
  obtain ⟨v, hv⟩ : ∃ v, B = P * v := ⟨B / P, by
    have := Nat.div_add_mod B P
    omega⟩
  subst hu hv
  have huv : u < v := Nat.lt_of_mul_lt_mul_left hlt
  have : P * (u + 1) ≤ P * v := Nat.mul_le_mul_left _ (by omega)
  rw [Nat.mul_add, Nat.mul_one] at this
  exact this

theorem two_pow_mod_pow8 (t n : Nat) (ht : 3 * t ≤ n) : 2 ^ n % 8 ^ t = 0 := by
  have h8 : (8 : Nat) ^ t = 2 ^ (3 * t) := by
    rw [show (8 : Nat) = 2 ^ 3 by norm_num, ← pow_mul]
  rw [h8]
  exact Nat.mod_eq_zero_of_dvd (Nat.pow_dvd_pow 2 ht)

/-- The Morton bounds of a key that is stuck at the code `c`. -/
theorem stuck_at_bounds (c K t fuel p cb ce : Nat) (h : stuck_at c K t) (hc : c < 2 ^ 30)
    (hf : 10 < fuel) :
    (⟨K, p, cb, ce⟩ : box_data).get_mc_lower_bound fuel = some ((c / 8 ^ t) * 8 ^ t) ∧
      (⟨K, p, cb, ce⟩ : box_data).get_mc_upper_bound fuel =
        some ((c / 8 ^ t) * 8 ^ t + (8 ^ t - 1)) := by
  obtain ⟨hK, ht, hval, hclear⟩ := h
  have hpos : 0 < 8 ^ t := Nat.pow_pos (by omega)
  have hle : (c / 8 ^ t) * 8 ^ t ≤ c := Nat.div_mul_le_self c (8 ^ t)
  have hset : (K * 8 ^ t) % word / 2 ^ 30 % 2 = 1 := by
    rw [hval]
    omega
  have hlow := lower_loop_steps t K fuel hK (by omega) hclear hset
  obtain ⟨d, hd1, hd2, hd3, hd4, hd5⟩ :=
    loops_lockstep fuel K 0 (by omega) hK (by rw [pow_zero]; exact Nat.mod_one K) _ hlow
  have hdt : d = t := by
    rcases Nat.lt_trichotomy d t with hlt | heq | hgt
    · have := hclear d hlt
      rw [← hd2] at this
      omega
    · exact heq
    · have := hd4 t hgt
      omega
  subst hdt
  simp only [pow_zero, Nat.sub_self, Nat.add_zero, Nat.zero_add] at hd5
  have hmul : ((c / 8 ^ d) * 8 ^ d) % 8 ^ d = 0 := Nat.mul_mod_left _ _
  have hgap : 2 ^ 30 + (c / 8 ^ d) * 8 ^ d + 8 ^ d ≤ 2 ^ 31 := by
    apply multiple_gap _ (8 ^ d) (2 ^ 31)
    · rw [Nat.add_mod, two_pow_mod_pow8 d 30 (by omega), hmul]
      simp
    · exact two_pow_mod_pow8 d 31 (by omega)
    · omega
  have hlt31 : 2 ^ 30 + (c / 8 ^ d) * 8 ^ d < 2 ^ 31 := by omega
  have hge30 : 2 ^ 30 ≤ 2 ^ 30 + (c / 8 ^ d) * 8 ^ d := Nat.le_add_right _ _
  have hlt31' : 2 ^ 30 + (c / 8 ^ d) * 8 ^ d + (8 ^ d - 1) < 2 ^ 31 := by omega
  have hge30' : 2 ^ 30 ≤ 2 ^ 30 + (c / 8 ^ d) * 8 ^ d + (8 ^ d - 1) := by omega
  constructor
  · unfold box_data.get_mc_lower_bound
    rw [hlow, hval, Option.map_some', clear_marker _ hge30 hlt31, Nat.add_sub_cancel_left]
  · unfold box_data.get_mc_upper_bound
    have e : 2 ^ 30 + (c / 8 ^ d) * 8 ^ d + (8 ^ d - 1) - 2 ^ 30 =
        (c / 8 ^ d) * 8 ^ d + (8 ^ d - 1) := by omega
    rw [hd5, hval, Option.map_some', clear_marker _ hge30' hlt31', e]

theorem mask_high (m : Nat) (h : 2 ^ 31 ≤ m) (h2 : m < word) :
    2 ^ 31 ≤ m &&& (word - 1 - max_marker_bit) := by
  apply Nat.testBit_implies_ge
  rw [Nat.testBit_and, testBit_marker_mask, Nat.testBit_to_div_mod]
  simp only [word] at h2
  have : m / 2147483648 % 2 = 1 := by omega
  simp [this]

/-- A key whose Morton bounds, as the loops compute them, hold the code `c` is stuck at
`c`. -/
theorem stuck_at_of_bounds (c K fuel p cb ce lo hi : Nat) (hK : K < word) (hc : c < 2 ^ 30)
    (hlo : (⟨K, p, cb, ce⟩ : box_data).get_mc_lower_bound fuel = some lo)
    (hhi : (⟨K, p, cb, ce⟩ : box_data).get_mc_upper_bound fuel = some hi)
    (h1 : lo ≤ c) (h2 : c ≤ hi) : ∃ t, stuck_at c K t := by
  simp only [box_data.get_mc_lower_bound, Option.map_eq_some'] at hlo
  obtain ⟨m, hm, hmlo⟩ := hlo
  obtain ⟨d, hd1, hd2, hd3, hd4, hd5⟩ :=
    loops_lockstep fuel K 0 (by omega) hK (by rw [pow_zero]; exact Nat.mod_one K) m hm
  simp only [pow_zero, Nat.sub_self, Nat.add_zero, Nat.zero_add] at hd5
  simp only [box_data.get_mc_upper_bound, hd5, Option.map_some', Option.some.injEq] at hhi
  have hpos : 0 < 8 ^ d := Nat.pow_pos (by omega)
  have hmW : m < word := by
    rw [hd2]
    exact Nat.mod_lt _ (by decide)
  have hm31 : m < 2 ^ 31 := by
    by_contra hcon
    have := mask_high m (by omega) hmW
    omega
  have hm30 : 2 ^ 30 ≤ m := by omega
  have hmmod : m % 8 ^ d = 0 := by
    rw [hd2]
    exact mul_pow8_mod K d (by omega)
  have hgap : m + 8 ^ d ≤ 2 ^ 31 :=
    multiple_gap m (8 ^ d) (2 ^ 31) hmmod (two_pow_mod_pow8 d 31 (by omega)) hm31
  rw [clear_marker m hm30 hm31] at hmlo
  rw [clear_marker _ (by omega) (by omega)] at hhi
  have hlomod : lo % 8 ^ d = 0 := by
    have h30 := two_pow_mod_pow8 d 30 (by omega)
    have hsum : m = lo + 2 ^ 30 := by omega
    have := hmmod
    rw [hsum, Nat.add_mod, h30, Nat.add_zero, Nat.mod_mod] at this
    exact this
  have hdiv : (c / 8 ^ d) * 8 ^ d = lo := by
    obtain ⟨u, hu⟩ : ∃ u, lo = 8 ^ d * u := ⟨lo / 8 ^ d, by
      have := Nat.div_add_mod lo (8 ^ d)
      omega⟩
    have hcr : c = 8 ^ d * u + (c - lo) := by omega
    have : c / 8 ^ d = u := by
      rw [hcr, Nat.mul_add_div hpos, Nat.div_eq_of_lt (by omega), Nat.add_zero]
    rw [this, hu, Nat.mul_comm]
  refine ⟨d, hK, by omega, ?_, hd4⟩
  rw [← hd2, hdiv]
  omega

theorem child_key_eq (K o : Nat) (ho : o < 8) :
    ((K <<< 3) % word) ||| o = (K * 8 + o) % word := by
  rw [shift_mod, mul8_mod, or_octant _ o ho]
  have h1 : (K * 8 + o) % word = (K * 8) % word + o :=
    mod_fill (K * 8) o 8 word (by decide) (by decide) (Nat.mul_mod_left _ _) ho
  rw [h1, mul8_mod]

/-- The child key of the octant that holds `c` is stuck at `c` again, one shift
earlier. -/
theorem stuck_at_child (c K t : Nat) (h : stuck_at c K (t + 1)) :
    stuck_at c (((K <<< 3) % word) ||| (c / 8 ^ t % 8)) t := by
  obtain ⟨hK, ht, hval, hclear⟩ := h
  have ho : c / 8 ^ t % 8 < 8 := Nat.mod_lt _ (by omega)
  rw [child_key_eq K _ ho]
  have hsplit : ∀ s, (K * 8 + c / 8 ^ t % 8) * 8 ^ s =
      K * 8 ^ (s + 1) + c / 8 ^ t % 8 * 8 ^ s := by
    intro s
    rw [pow_succ]
    ring
  have hfill : ∀ s, s ≤ t →
      ((K * 8 + c / 8 ^ t % 8) % word * 8 ^ s) % word =
        (K * 8 ^ (s + 1)) % word + c / 8 ^ t % 8 * 8 ^ s := by
    intro s hs
    rw [Nat.mod_mul_mod, hsplit]
    apply mod_fill _ _ (8 ^ (s + 1)) word (pow8_dvd_word (s + 1) (by omega)) (by decide)
    · exact Nat.mul_mod_left _ _
    · rw [pow_succ, Nat.mul_comm (8 ^ s) 8]
      exact Nat.mul_lt_mul_of_pos_right ho (Nat.pow_pos (by omega))
  refine ⟨Nat.mod_lt _ (by decide), by omega, ?_, ?_⟩
  · rw [hfill t le_rfl, hval]
    have hdd : c / 8 ^ (t + 1) = c / 8 ^ t / 8 := by
      rw [pow_succ, Nat.div_div_eq_div_mul]
    have hdm := Nat.div_add_mod (c / 8 ^ t) 8
    rw [hdd, show (8 : Nat) ^ (t + 1) = 8 ^ t * 8 from pow_succ 8 t]
    generalize c / 8 ^ t = q at *
    generalize 8 ^ t = P at *
    have e1 : q / 8 * (P * 8) = (8 * (q / 8)) * P := by ring
    have e2 : q * P = (8 * (q / 8) + q % 8) * P := by rw [hdm]
    rw [e1, e2, Nat.add_mul]
    omega
  · intro s hs
    rw [hfill s (by omega)]
    have hr : c / 8 ^ t % 8 * 8 ^ s < 8 ^ (s + 1) := by
      rw [pow_succ, Nat.mul_comm (8 ^ s) 8]
      exact Nat.mul_lt_mul_of_pos_right ho (Nat.pow_pos (by omega))
    rw [div_fill _ (s + 1) _ (by omega) (mul_pow8_mod K (s + 1) (by omega)) hr]
    exact hclear (s + 1) (by omega)

/-! ## The box loop on bodies that share a code -/

theorem add_octant_cases (fuel : Nat) (mc_ : List Nat) (key_p k b e : Nat)
    (st st1 : List box_data × List Nat) (oct : Nat)
    (h : add_octant fuel mc_ key_p k b e st oct = some st1) :
    (octant_child fuel mc_ key_p k b e oct = some none ∧ st1 = st) ∨
    ∃ c B, octant_child fuel mc_ key_p k b e oct = some (some c) ∧
      st1.1 = st.1.set k B ++ [c] := by
  unfold add_octant at h
  unfold octant_child
  simp only at h ⊢
  cases hl : (⟨(key_p <<< 3) % word ||| oct, k, 0, 0⟩ : box_data).get_mc_lower_bound fuel with
  | none => simp [hl] at h
  | some lo =>
    cases hu : (⟨(key_p <<< 3) % word ||| oct, k, 0, 0⟩ : box_data).get_mc_upper_bound fuel with
    | none => simp [hl, hu] at h
    | some hi =>
      simp only [hl, hu] at h ⊢
      by_cases hlt : lower_bound mc_ b e lo < upper_bound mc_ b e hi
      · right
        simp only [if_pos hlt, Option.some.injEq] at h ⊢
        subst h
        exact ⟨_, _, rfl, rfl⟩
      · left
        simp only [if_neg hlt, Option.some.injEq] at h ⊢
        exact ⟨trivial, h.symm⟩

/-- The octant loop only changes the box `k` and appends the children of the octants that
hold a body. -/
theorem octant_fold_frame (fuel : Nat) (mc_ : List Nat) (key_p k b e : Nat) :
    ∀ (octs : List Nat) (st st1 : List box_data × List Nat), k < st.1.length →
      List.foldlM (add_octant fuel mc_ key_p k b e) st octs = some st1 →
      st.1.length ≤ st1.1.length ∧
      (∀ j, j < st.1.length → j ≠ k → st1.1.getD j default = st.1.getD j default) ∧
      (∀ o ∈ octs, ∀ c, octant_child fuel mc_ key_p k b e o = some (some c) →
        ∃ j, st.1.length ≤ j ∧ j < st1.1.length ∧ st1.1.getD j default = c) ∧
      ((∀ o ∈ octs, octant_child fuel mc_ key_p k b e o = some none) → st1 = st) ∧
      (∀ o ∈ octs, octant_child fuel mc_ key_p k b e o ≠ none) := by
  intro octs
  induction octs with
  | nil =>
    intro st st1 _ h
    simp only [List.foldlM_nil, Option.pure_def, Option.some.injEq] at h
    subst h
    refine ⟨le_rfl, fun _ _ _ => rfl, ?_, fun _ => rfl, ?_⟩
    · intro o ho
      simp at ho
    · intro o ho
      simp at ho
  | cons o rest ih =>
    intro st st1 hk h
    rw [List.foldlM_cons] at h
    cases hf : add_octant fuel mc_ key_p k b e st o with
    | none => simp [hf] at h
    | some st2 =>
      rw [hf] at h
      simp only [Option.bind_eq_bind, Option.some_bind] at h
      rcases add_octant_cases fuel mc_ key_p k b e st st2 o hf with ⟨hnone, hst⟩ | ⟨c, B, hc, hst⟩
      · subst hst
        obtain ⟨a1, a2, a3, a4, a5⟩ := ih st2 st1 hk h
        refine ⟨a1, a2, ?_, ?_, ?_⟩
        · intro o' ho' c' hc'
          rcases List.mem_cons.mp ho' with rfl | hr
          · rw [hnone] at hc'
            cases hc'
          · exact a3 o' hr c' hc'
        · intro hall
          exact a4 (fun o' ho' => hall o' (List.mem_cons_of_mem _ ho'))
        · intro o' ho'
          rcases List.mem_cons.mp ho' with rfl | hr
          · rw [hnone]
            simp
          · exact a5 o' hr
      · have hlen2 : st2.1.length = st.1.length + 1 := by
          rw [hst]
          simp
        obtain ⟨a1, a2, a3, a4, a5⟩ := ih st2 st1 (by omega) h
        have hget2 : ∀ j, j < st.1.length → j ≠ k →
            st2.1.getD j default = st.1.getD j default := by
          intro j hj hjk
          rw [hst, List.getD_append _ _ _ _ (by simpa using hj),
            getD_set_ne _ _ _ _ _ (Ne.symm hjk)]
        have hnew : st2.1.getD st.1.length default = c := by
          rw [hst, List.getD_append_right _ _ _ _ (by simp)]
          simp
        refine ⟨by omega, ?_, ?_, ?_, ?_⟩
        · intro j hj hjk
          rw [a2 j (by omega) hjk, hget2 j hj hjk]
        · intro o' ho' c' hc'
          rcases List.mem_cons.mp ho' with rfl | hr
          · rw [hc] at hc'
            simp only [Option.some.injEq] at hc'
            subst hc'
            refine ⟨st.1.length, le_rfl, by omega, ?_⟩
            rw [a2 _ (by omega) (by omega), hnew]
          · obtain ⟨j, j1, j2, j3⟩ := a3 o' hr c' hc'
            exact ⟨j, by omega, j2, j3⟩
        · intro hall
          have := hall o (List.mem_cons_self _ _)
          rw [hc] at this
          cases this
        · intro o' ho'
          rcases List.mem_cons.mp ho' with rfl | hr
          · rw [hc]
            simp
          · exact a5 o' hr

/-- The searches on a range of bodies that all have the code `c`. -/
theorem equal_range_search (mc_ : List Nat) (hs : sorted_mc mc_) (b e c : Nat) (hbe : b < e)
    (he : e ≤ mc_.length) (hall : ∀ i, b ≤ i → i < e → mc_.getD i 0 = c) (lo hi : Nat) :
    (lo ≤ c → lower_bound mc_ b e lo = b) ∧ (c < lo → lower_bound mc_ b e lo = e) ∧
    (c ≤ hi → upper_bound mc_ b e hi = e) ∧ (hi < c → upper_bound mc_ b e hi = b) := by
  obtain ⟨a1, a2, a3, a4⟩ := lower_bound_spec mc_ hs b e lo (by omega) he
  obtain ⟨b1, b2, b3, b4⟩ := upper_bound_spec mc_ hs b e hi (by omega) he
  refine ⟨?_, ?_, ?_, ?_⟩
  · intro h
    by_contra hne
    have := a3 b le_rfl (by omega)
    rw [hall b le_rfl hbe] at this
    omega
  · intro h
    by_contra hne
    have := a4 (e - 1) (by omega) (by omega)
    rw [hall (e - 1) (by omega) (by omega)] at this
    omega
  · intro h
    by_contra hne
    have := b4 (e - 1) (by omega) (by omega)
    rw [hall (e - 1) (by omega) (by omega)] at this
    omega
  · intro h
    by_contra hne
    have := b3 b le_rfl (by omega)
    rw [hall b le_rfl hbe] at this
    omega

/-- An octant whose key is stuck at the code of all the bodies gets a child with all the
bodies. -/
theorem stuck_octant (fuel : Nat) (mc_ : List Nat) (hs : sorted_mc mc_) (key_p k b e c o t : Nat)
    (hf : 10 < fuel) (hbe : b < e) (he : e ≤ mc_.length) (hc : c < 2 ^ 30)
    (hall : ∀ i, b ≤ i → i < e → mc_.getD i 0 = c)
    (hst : stuck_at c (((key_p <<< 3) % word) ||| o) t) :
    octant_child fuel mc_ key_p k b e o =
      some (some ⟨((key_p <<< 3) % word) ||| o, k, b, e⟩) := by
  obtain ⟨hlo, hhi⟩ := stuck_at_bounds c _ t fuel k 0 0 hst hc hf
  have hle : (c / 8 ^ t) * 8 ^ t ≤ c := Nat.div_mul_le_self c (8 ^ t)
  have hpos : 0 < 8 ^ t := Nat.pow_pos (by omega)
  have hge : c ≤ (c / 8 ^ t) * 8 ^ t + (8 ^ t - 1) := by
    have h1 := Nat.div_add_mod c (8 ^ t)
    have h2 := Nat.mod_lt c hpos
    rw [Nat.mul_comm] at h1
    omega
  obtain ⟨e1, -, e3, -⟩ := equal_range_search mc_ hs b e c hbe he hall
    ((c / 8 ^ t) * 8 ^ t) ((c / 8 ^ t) * 8 ^ t + (8 ^ t - 1))
  unfold octant_child
  simp only [hlo, hhi, e1 hle, e3 hge, if_pos hbe]

/-- An octant that gets a child out of bodies that all have the code `c` has a key that is
stuck at `c`, and the child holds all the bodies. -/
theorem octant_child_stuck (fuel : Nat) (mc_ : List Nat) (hs : sorted_mc mc_)
    (key_p k b e c o : Nat) (ho : o < 8) (hbe : b < e) (he : e ≤ mc_.length) (hc : c < 2 ^ 30)
    (hall : ∀ i, b ≤ i → i < e → mc_.getD i 0 = c) (ch : box_data)
    (h : octant_child fuel mc_ key_p k b e o = some (some ch)) :
    (∃ t, stuck_at c (((key_p <<< 3) % word) ||| o) t) ∧
      ch = ⟨((key_p <<< 3) % word) ||| o, k, b, e⟩ := by
  unfold octant_child at h
  simp only at h
  cases hl : (⟨(key_p <<< 3) % word ||| o, k, 0, 0⟩ : box_data).get_mc_lower_bound fuel with
  | none => simp [hl] at h
  | some lo =>
    cases hu : (⟨(key_p <<< 3) % word ||| o, k, 0, 0⟩ : box_data).get_mc_upper_bound fuel with
    | none => simp [hl, hu] at h
    | some hi =>
      simp only [hl, hu] at h
      obtain ⟨e1, e2, e3, e4⟩ := equal_range_search mc_ hs b e c hbe he hall lo hi
      by_cases hlt : lower_bound mc_ b e lo < upper_bound mc_ b e hi
      · simp only [if_pos hlt, Option.some.injEq] at h
        have hloc : lo ≤ c := by
          by_contra hcon
          rw [e2 (by omega)] at hlt
          obtain ⟨-, b2, -, -⟩ := upper_bound_spec mc_ hs b e hi (by omega) he
          omega
        have hhic : c ≤ hi := by
          by_contra hcon
          rw [e4 (by omega)] at hlt
          obtain ⟨a1, -, -, -⟩ := lower_bound_spec mc_ hs b e lo (by omega) he
          omega
        have hKc : (key_p <<< 3) % word ||| o < word := by
          rw [child_key_eq _ _ ho]
          exact Nat.mod_lt _ (by decide)
        refine ⟨stuck_at_of_bounds c _ fuel k 0 0 lo hi hKc hc hl hu hloc hhic, ?_⟩
        rw [← h, e1 hloc, e3 hhic]
      · simp [if_neg hlt] at h

/-- The visit of a box only changes that box and appends boxes. -/
theorem visit_box_frame (fuel : Nat) (mc_ : List Nat) (k : Nat)
    (st st1 : List box_data × List Nat) (hk : k < st.1.length)
    (h : visit_box fuel mc_ k st = some st1) :
    st.1.length ≤ st1.1.length ∧
      ∀ j, j < st.1.length → j ≠ k → st1.1.getD j default = st.1.getD j default := by
  unfold visit_box at h
  simp only at h
  by_cases hn : (st.1.getD k default).num_children ≤ NCRIT
  · simp only [if_pos hn, Option.some.injEq] at h
    subst h
    refine ⟨by simp, ?_⟩
    intro j _ hjk
    simp only
    rw [getD_set_ne _ _ _ _ _ (Ne.symm hjk)]
  · simp only [if_neg hn] at h
    obtain ⟨a1, a2, -, -, -⟩ := octant_fold_frame fuel mc_ _ k _ _ (List.range 8) _ st1
      (by simpa using hk) h
    simp only [List.length_set] at a1 a2
    refine ⟨a1, ?_⟩
    intro j hj hjk
    rw [a2 j hj hjk, getD_set_ne _ _ _ _ _ (Ne.symm hjk)]

/-- The visit of a box in a doomed state leaves a doomed state. -/
theorem doomed_step (inner : Nat) (mc_ : List Nat) (hs : sorted_mc mc_) (hf : 10 < inner)
    (k : Nat) (st st1 : List box_data × List Nat) (hd : doomed mc_ k st.1)
    (h : visit_box inner mc_ k st = some st1) : doomed mc_ (k + 1) st1.1 := by
  obtain ⟨j, hj1, hj2, hbad⟩ := hd
  have hk : k < st.1.length := by omega
  by_cases hjk : j = k
  · subst hjk
    obtain ⟨h1, h2, c, hc, hall, ⟨t, hst⟩, o0, ho0, t0, hst0⟩ := hbad
    unfold visit_box at h
    simp only at h
    have hn : ¬ (st.1.getD j default).num_children ≤ NCRIT := by
      simp only [box_data.num_children, NCRIT]
      omega
    simp only [if_neg hn] at h
    obtain ⟨a1, -, a3, -, -⟩ := octant_fold_frame inner mc_ _ j _ _ (List.range 8) _ st1
      (by simpa using hk) h
    simp only [List.length_set] at a1 a3
    -- the octant whose child key is stuck again
    have hoct : ∃ o, o < 8 ∧ ∃ t1, stuck_at c ((((st.1.getD j default).key_ <<< 3) % word) ||| o) t1 := by
      cases t with
      | zero =>
        obtain ⟨hK, -, hval, -⟩ := hst
        simp only [pow_zero, Nat.mul_one, Nat.div_one] at hval
        rw [Nat.mod_eq_of_lt hK] at hval
        rw [hval]
        exact ⟨o0, ho0, t0, hst0⟩
      | succ t =>
        exact ⟨c / 8 ^ t % 8, Nat.mod_lt _ (by omega), t, stuck_at_child c _ t hst⟩
    obtain ⟨o, ho, t1, hst1⟩ := hoct
    have hch := stuck_octant inner mc_ hs (st.1.getD j default).key_ j
      (st.1.getD j default).child_begin_ (st.1.getD j default).child_end_ c o t1 hf
      (by omega) h2 hc hall hst1
    obtain ⟨i, i1, i2, i3⟩ := a3 o (List.mem_range.mpr ho) _ hch
    refine ⟨i, by omega, i2, ?_⟩
    rw [i3]
    exact ⟨h1, h2, c, hc, hall, ⟨t1, hst1⟩, o0, ho0, t0, hst0⟩
  · obtain ⟨f1, f2⟩ := visit_box_frame inner mc_ k st st1 hk h
    refine ⟨j, by omega, by omega, ?_⟩
    rw [f2 j hj2 hjk]
    exact hbad

/-- The box loop does not return from a doomed state. -/
theorem doomed_diverges (inner : Nat) (mc_ : List Nat) (hs : sorted_mc mc_) (hf : 10 < inner) :
    ∀ (fuel k : Nat) (st : List box_data × List Nat), doomed mc_ k st.1 →
      box_loop mc_ fuel inner k st = none := by
  intro fuel
  induction fuel with
  | zero =>
    intro k st _
    rfl
  | succ fuel ih =>
    intro k st hd
    have hk : k ≠ st.1.length := by
      obtain ⟨j, hj1, hj2, -⟩ := hd
      omega
    simp only [box_loop, if_neg hk]
    cases hv : visit_box inner mc_ k st with
    | none => rfl
    | some st1 =>
      simp only
      exact ih (k + 1) st1 (doomed_step inner mc_ hs hf k st st1 hd hv)

/-- The visit of a box of depth 10 with more than `NCRIT` bodies either adds no child and
keeps the invariant, or leaves a doomed state. -/
theorem visit_deep_inv (mc_ : List Nat) (hs : sorted_mc mc_) (N inner k : Nat)
    (hN : N ≤ mc_.length) (boxes : List box_data) (offs : List Nat)
    (hinv : loop_inv mc_ N k (boxes, offs)) (hk : k < boxes.length)
    (hn : 1 < (boxes.getD k default).num_children)
    (hL : ¬ (boxes.getD k default).level < 10) (st1 : List box_data × List Nat)
    (h : visit_box inner mc_ k (boxes, offs) = some st1) :
    loop_inv mc_ N (k + 1) st1 ∨ doomed mc_ (k + 1) st1.1 := by
  obtain ⟨-, hP, hD, hLv⟩ := hinv
  simp only at hP hD hLv
  obtain ⟨p1, p2, p3, p4, p5⟩ := hP k le_rfl hk
  have hkey := valid_key_lt _ _ p1
  have hl10 : (boxes.getD k default).level = 10 := by
    have := p1.1
    omega
  rw [hl10] at p1 p5
  obtain ⟨-, v1, v2⟩ := p1
  have h10 : (8 : Nat) ^ 10 = 2 ^ 30 := by norm_num
  have hnum : 1 < (boxes.getD k default).child_end_ - (boxes.getD k default).child_begin_ := by
    simpa [box_data.num_children] using hn
  have hall : ∀ i, (boxes.getD k default).child_begin_ ≤ i →
      i < (boxes.getD k default).child_end_ →
      mc_.getD i 0 = (boxes.getD k default).key_ - 2 ^ 30 := by
    intro i hi1 hi2
    obtain ⟨a, b⟩ := p5 i hi1 hi2
    simp only [lo_of, hi_of, Nat.sub_self, pow_zero, Nat.mul_one] at a b
    omega
  have hKc : (boxes.getD k default).key_ = 2 ^ 30 + ((boxes.getD k default).key_ - 2 ^ 30) := by
    omega
  unfold visit_box at h
  simp only at h
  have hnc : ¬ (boxes.getD k default).num_children ≤ NCRIT := by
    simp only [NCRIT]
    omega
  simp only [if_neg hnc] at h
  obtain ⟨a1, -, a3, a4, a5⟩ := octant_fold_frame inner mc_ _ k _ _ (List.range 8) _ st1
    (by simpa using hk) h
  simp only [List.length_set] at a1 a3
  by_cases hnone : ∀ o ∈ List.range 8, octant_child inner mc_ (boxes.getD k default).key_ k
      (boxes.getD k default).child_begin_ (boxes.getD k default).child_end_ o = some none
  · left
    rw [a4 hnone]
    refine ⟨by simp; omega, ?_, ?_, ?_⟩
    · intro j hj1 hj2
      simp only [List.length_set] at hj2
      simp only
      rw [getD_set_ne _ _ _ _ _ (by omega)]
      exact hP j (by omega) hj2
    · intro j hj1 hj2
      simp only [List.length_set] at hj2
      simp only
      by_cases hjk : j = k
      · subst hjk
        rw [getD_set_self _ _ _ _ hk]
        intro hleaf
        rw [is_leaf_false _ _ _ _ hkey] at hleaf
        cases hleaf
      · rw [getD_set_ne _ _ _ _ _ (by omega)]
        exact hD j (by omega) hj2
    · simp only
      rw [map_level_set boxes k ⟨(boxes.getD k default).key_,
        (boxes.getD k default).parent_, boxes.length, boxes.length⟩ rfl]
      exact levels_ok_next k _ _ hLv (by simpa using hk)
  · right
    simp only [not_forall] at hnone
    obtain ⟨o, ho, hne⟩ := hnone
    have ho8 : o < 8 := List.mem_range.mp ho
    have hsome := a5 o ho
    obtain ⟨ch, hch⟩ : ∃ ch, octant_child inner mc_ (boxes.getD k default).key_ k
        (boxes.getD k default).child_begin_ (boxes.getD k default).child_end_ o =
          some (some ch) := by
      cases hoc : octant_child inner mc_ (boxes.getD k default).key_ k
        (boxes.getD k default).child_begin_ (boxes.getD k default).child_end_ o with
      | none => exact absurd hoc hsome
      | some r =>
        cases r with
        | none => exact absurd hoc hne
        | some ch => exact ⟨ch, rfl⟩
    obtain ⟨⟨t, hst⟩, hce⟩ := octant_child_stuck inner mc_ hs _ k _ _
      ((boxes.getD k default).key_ - 2 ^ 30) o ho8 (by omega) (by omega) (by omega) hall ch hch
    obtain ⟨i, i1, i2, i3⟩ := a3 o ho ch hch
    refine ⟨i, by omega, i2, ?_⟩
    rw [i3, hce]
    refine ⟨hnum, by simp only; omega, (boxes.getD k default).key_ - 2 ^ 30, by omega,
      hall, ⟨t, hst⟩, o, ho8, t, ?_⟩
    rw [← hKc]
    exact hst

/-- The invariant holds of every state that the box loop returns. -/
theorem box_loop_inv (mc_ : List Nat) (hs : sorted_mc mc_) (N : Nat) (hN : N ≤ mc_.length)
    (inner : Nat) (hf : 10 < inner) :
    ∀ (fuel k : Nat) (st st1 : List box_data × List Nat), loop_inv mc_ N k st →
      box_loop mc_ fuel inner k st = some st1 → loop_inv mc_ N st1.1.length st1 := by
  intro fuel
  induction fuel with
  | zero =>
    intro k st st1 _ h
    simp [box_loop] at h
  | succ fuel ih =>
    intro k st st1 hinv h
    obtain ⟨boxes, offs⟩ := st
    by_cases hk : k = boxes.length
    · simp only [box_loop, if_pos hk, Option.some.injEq] at h
      subst h
      rw [← hk]
      exact hinv
    · have hlt : k < boxes.length := by
        have := hinv.1
        simp only at this
        omega
      simp only [box_loop, if_neg hk] at h
      cases hv : visit_box inner mc_ k (boxes, offs) with
      | none => simp [hv] at h
      | some st2 =>
        rw [hv] at h
        simp only at h
        have hnext : loop_inv mc_ N (k + 1) st2 := by
          by_cases hn : (boxes.getD k default).num_children ≤ 1
          · obtain ⟨st3, e1, e2, -⟩ := visit_leaf_inv mc_ N inner k boxes offs hinv hlt hn
            rw [hv] at e1
            simp only [Option.some.injEq] at e1
            rw [e1]
            exact e2
          · have hn1 : 1 < (boxes.getD k default).num_children := by omega
            by_cases hL : (boxes.getD k default).level < 10
            · obtain ⟨st3, e1, e2, -⟩ :=
                visit_split_inv mc_ hs N inner k hN hf boxes offs hinv hlt hn1 hL
              rw [hv] at e1
              simp only [Option.some.injEq] at e1
              rw [e1]
              exact e2
            · rcases visit_deep_inv mc_ hs N inner k hN boxes offs hinv hlt hn1 hL st2 hv
                with e | e
              · exact e
              · rw [doomed_diverges inner mc_ hs hf fuel (k + 1) st2 e] at h
                cases h
        exact ih (k + 1) st2 st1 hnext h

/-- The invariant of the box loop holds of every tree that `construct_tree` returns on
points with 30-bit codes, whether or not points share a code. -/
theorem construct_tree_loop_inv {α : Type} [Inhabited α] (contains : α → Bool)
    (code : α → Nat) (pts : List α) (h30 : ∀ p ∈ pts, code p < 2 ^ 30) (fuel : Nat)
    (t : Octree α) (h : construct_tree contains code pts fuel = .ok t) :
    ∃ offsets, t.level_offset_ = offsets ++ [t.box_data_.length] ∧
      loop_inv t.mc_ pts.length t.box_data_.length (t.box_data_, offsets) := by
  have hbig := construct_tree_mono contains code pts fuel 11 t h
  obtain ⟨hmc, -, -, offsets, hloop, hoff⟩ :=
    construct_tree_ok contains code pts (fuel + 11) t hbig
  have hlen : t.mc_.length = pts.length := by
    rw [hmc, List.length_map, sorted_codes_length]
  have hsorted : sorted_mc t.mc_ := by
    rw [hmc]
    exact sorted_codes_sorted code pts
  have hinit : loop_inv t.mc_ pts.length 0 ([⟨1, 0, 0, pts.length⟩], [0]) := by
    apply loop_inv_init
    rw [hmc]
    exact sorted_codes_lt code pts h30
  exact ⟨offsets, hoff, box_loop_inv t.mc_ hsorted pts.length (by omega) (fuel + 11)
    (by omega) (fuel + 11) 0 _ _ hinit hloop⟩

/-! ## The level structure of a tree -/

/-- The invariant of the levels at the end of the box loop gives the level structure of
the tree. -/
theorem level_ordered_of_levels_ok {α : Type} (t : Octree α) (offs : List Nat)
    (ho : t.level_offset_ = offs ++ [t.box_data_.length])
    (h : levels_ok t.box_data_.length (t.box_data_.map box_data.level) offs) :
    level_ordered t := by
  obtain ⟨h0, h1, -, h3, h4⟩ := h
  simp only [List.length_map] at h0 h1 h3 h4
  have hlv : levels t = offs.length := by
    simp [levels, ho]
  have hbx : boxes t = t.box_data_.length := rfl
  have hget : ∀ l, l < offs.length → t.level_offset_.getD l 0 = offs.getD l 0 := by
    intro l hl
    rw [ho, getD_concat, if_pos hl]
  have hgetlast : t.level_offset_.getD offs.length 0 = t.box_data_.length := by
    rw [ho, getD_concat, if_neg (by omega), if_pos rfl]
  have hlevel : ∀ j, j < t.box_data_.length →
      (t.box_data_.map box_data.level).getD j 0 = (t.box_data_.getD j default).level :=
    fun j hj => map_level_getD _ j hj
  have hmono : ∀ i j, i ≤ j → j < t.box_data_.length →
      (t.box_data_.getD i default).level ≤ (t.box_data_.getD j default).level := by
    intro i j hij hj
    rw [← hlevel i (by omega), ← hlevel j hj]
    exact h1 i j hij hj
  have hoffs : 0 < offs.length := by omega
  -- the upper end of the range of a level
  have hupper : ∀ l, l < offs.length → ∀ j, j < t.box_data_.length →
      (j < t.level_offset_.getD (l + 1) 0 ↔ (t.box_data_.getD j default).level < l + 1) := by
    intro l hl j hj
    by_cases hl1 : l + 1 < offs.length
    · rw [hget _ hl1]
      obtain ⟨a1, a2, a3⟩ := h4 (l + 1) hl1
      constructor
      · intro hlt
        rw [← hlevel j hj]
        exact a3 j hlt
      · intro hlt
        by_contra hc
        have := hmono (offs.getD (l + 1) 0) j (by omega) hj
        rw [← hlevel _ a1, a2] at this
        omega
    · have hl2 : l + 1 = offs.length := by omega
      rw [hl2, hgetlast]
      constructor
      · intro _
        have := hmono j (t.box_data_.length - 1) (by omega) (by omega)
        rw [← hlevel (t.box_data_.length - 1) (by omega)] at this
        omega
      · intro _
        exact hj
  have hlower : ∀ l, l < offs.length → ∀ j, j < t.box_data_.length →
      (t.level_offset_.getD l 0 ≤ j ↔ l ≤ (t.box_data_.getD j default).level) := by
    intro l hl j hj
    rw [hget _ hl]
    obtain ⟨a1, a2, a3⟩ := h4 l hl
    constructor
    · intro hle
      have := hmono (offs.getD l 0) j hle hj
      rw [← hlevel _ a1, a2] at this
      exact this
    · intro hle
      by_contra hc
      have := a3 j (by omega)
      rw [hlevel j hj] at this
      omega
  refine ⟨?_, ?_, ?_, ?_, ?_⟩
  · rw [hget 0 hoffs]
    obtain ⟨a1, a2, a3⟩ := h4 0 hoffs
    by_contra hc
    have := a3 0 (by omega)
    omega
  · rw [hlv, hbx]
    exact hgetlast
  · intro l hl
    rw [hlv] at hl
    obtain ⟨a1, a2, a3⟩ := h4 l hl
    rw [hget l hl]
    rw [hupper l hl _ a1, ← hlevel _ a1, a2]
    omega
  · intro l j hl hj
    rw [hlv] at hl
    rw [hbx] at hj
    rw [hlower l hl j hj, hupper l hl j hj]
    omega
  · intro i j hij hj
    exact hmono i j hij hj

/-! ## The trees of three inputs -/

set_option maxRecDepth 100000 in
theorem construct_tree_9_9 :
    construct_tree (fun _ => true) (fun c : Nat => c) [9, 9] 20 = .ok tree_9_9 := by
  rfl

set_option maxRecDepth 100000 in
theorem construct_tree_0_1 :
    construct_tree (fun _ => true) (fun c : Nat => c) [0, 1] 20 = .ok tree_0_1 := by
  rfl

theorem construct_tree_5_3_1 :
    construct_tree (fun _ => true) (fun c : Nat => c) [5 * 2 ^ 27, 3 * 2 ^ 27, 2 ^ 27] 41 =
      .ok tree_5_3_1 := by
  rfl

/-- Whatever the fuel, a tree that `construct_tree` returns is the tree that it returns
with a given fuel. -/
theorem construct_tree_unique {α : Type} [Inhabited α] (contains : α → Bool) (code : α → Nat)
    (pts : List α) (f1 f2 : Nat) (t1 t2 : Octree α)
    (h1 : construct_tree contains code pts f1 = .ok t1)
    (h2 : construct_tree contains code pts f2 = .ok t2) : t1 = t2 := by
  have a := construct_tree_mono contains code pts f1 f2 t1 h1
  have b := construct_tree_mono contains code pts f2 f1 t2 h2
  rw [Nat.add_comm] at b
  rw [a] at b
  simpa using b

/-- C2: after `construct_tree`, `permute_` is a permutation of the indices of the input,
`point_[i]` is the input point of index `permute_[i]` and `mc_[i]` its code, `mc_` is in
non-decreasing order, bodies with equal codes keep the order of their original indices,
and the inverse of `permute_` applied to `point_` gives back the input; on points inside
the bounding box with pairwise distinct 30-bit codes `construct_tree` returns. -/
theorem construct_tree_sorted_permutation {α : Type} [Inhabited α] (contains : α → Bool)
    (code : α → Nat) (pts : List α) :
    (∀ fuel t, construct_tree contains code pts fuel = .ok t →
      t.permute_.Perm (List.range pts.length) ∧
      t.point_.length = pts.length ∧ t.mc_.length = pts.length ∧
      (∀ i, i < pts.length →
        t.point_.getD i default = pts.getD (t.permute_.getD i 0) default ∧
        t.mc_.getD i 0 = code (t.point_.getD i default)) ∧
      sorted_mc t.mc_ ∧
      (∀ i j, i < j → j < pts.length → t.mc_.getD i 0 = t.mc_.getD j 0 →
        t.permute_.getD i 0 < t.permute_.getD j 0) ∧
      unpermute t = pts) ∧
    ((∀ p ∈ pts, contains p = true) → (∀ p ∈ pts, code p < 2 ^ 30) →
      (pts.map code).Nodup → ∀ fuel, 10 * pts.length + 11 ≤ fuel →
        ∃ t, construct_tree contains code pts fuel = .ok t) := by
  constructor
  · intro fuel t h
    exact construct_tree_sorts contains code pts fuel t h
  · intro hc h30 hd fuel hf
    obtain ⟨t, _, h, _⟩ := construct_tree_total contains code pts hc h30 hd fuel hf
    exact ⟨t, h⟩

theorem construct_tree_sorted_permutation_witness :
    construct_tree (fun _ => true) (fun c : Nat => c) [5 * 2 ^ 27, 3 * 2 ^ 27, 2 ^ 27] 41 =
      .ok tree_5_3_1 ∧
    tree_5_3_1.permute_.Perm (List.range [5 * 2 ^ 27, 3 * 2 ^ 27, 2 ^ 27].length) ∧
    tree_5_3_1.point_.length = [5 * 2 ^ 27, 3 * 2 ^ 27, 2 ^ 27].length ∧
    tree_5_3_1.mc_.length = [5 * 2 ^ 27, 3 * 2 ^ 27, 2 ^ 27].length ∧
    (∀ i, i < [5 * 2 ^ 27, 3 * 2 ^ 27, 2 ^ 27].length →
      tree_5_3_1.point_.getD i default =
        [5 * 2 ^ 27, 3 * 2 ^ 27, 2 ^ 27].getD (tree_5_3_1.permute_.getD i 0) default ∧
      tree_5_3_1.mc_.getD i 0 = (fun c : Nat => c) (tree_5_3_1.point_.getD i default)) ∧
    sorted_mc tree_5_3_1.mc_ ∧
    (∀ i j, i < j → j < [5 * 2 ^ 27, 3 * 2 ^ 27, 2 ^ 27].length →
      tree_5_3_1.mc_.getD i 0 = tree_5_3_1.mc_.getD j 0 →
      tree_5_3_1.permute_.getD i 0 < tree_5_3_1.permute_.getD j 0) ∧
    unpermute tree_5_3_1 = [5 * 2 ^ 27, 3 * 2 ^ 27, 2 ^ 27] :=
  ⟨construct_tree_5_3_1,
    (construct_tree_sorted_permutation (fun _ => true) (fun c : Nat => c)
      [5 * 2 ^ 27, 3 * 2 ^ 27, 2 ^ 27]).1 41 tree_5_3_1 construct_tree_5_3_1⟩

theorem leaves_hold_one_body_witness :
    ([5 * 2 ^ 27, 3 * 2 ^ 27, 2 ^ 27] : List Nat) ≠ [] ∧
    (∀ p ∈ ([5 * 2 ^ 27, 3 * 2 ^ 27, 2 ^ 27] : List Nat), (fun _ : Nat => true) p = true) ∧
    (∀ p ∈ ([5 * 2 ^ 27, 3 * 2 ^ 27, 2 ^ 27] : List Nat), (fun c : Nat => c) p < 2 ^ 30) ∧
    (([5 * 2 ^ 27, 3 * 2 ^ 27, 2 ^ 27] : List Nat).map (fun c : Nat => c)).Nodup ∧
    ((∀ fuel, 10 * ([5 * 2 ^ 27, 3 * 2 ^ 27, 2 ^ 27] : List Nat).length + 11 ≤ fuel →
      ∃ t, construct_tree (fun _ => true) (fun c : Nat => c)
        [5 * 2 ^ 27, 3 * 2 ^ 27, 2 ^ 27] fuel = .ok t) ∧
    ∀ fuel t, construct_tree (fun _ => true) (fun c : Nat => c)
        [5 * 2 ^ 27, 3 * 2 ^ 27, 2 ^ 27] fuel = .ok t →
      ∀ b ∈ t.box_data_, b.is_leaf = true → b.child_end_ - b.child_begin_ = 1) :=
  ⟨by decide, by decide, by decide, by decide,
    leaves_hold_one_body (fun _ => true) (fun c : Nat => c) [5 * 2 ^ 27, 3 * 2 ^ 27, 2 ^ 27]
      (by decide) (by decide) (by decide) (by decide)⟩

/-- C1: two points that share the Morton code `9` are in no leaf of the tree that
`construct_tree` returns: the leaves hold `0` of the `2` bodies. -/
theorem leaves_miss_bodies_of_shared_code :
    construct_tree (fun _ => true) (fun c : Nat => c) [9, 9] 20 = .ok tree_9_9 ∧
    (∀ fuel t, construct_tree (fun _ => true) (fun c : Nat => c) [9, 9] fuel = .ok t →
      t = tree_9_9) ∧
    size tree_9_9 = 2 ∧ leaf_bodies tree_9_9 = 0 ∧
    leaves_holding tree_9_9 0 = 0 ∧ leaves_holding tree_9_9 1 = 0 :=
  ⟨construct_tree_9_9,
    fun fuel t h => construct_tree_unique _ _ _ fuel 20 t tree_9_9 h construct_tree_9_9,
    by decide, by decide, by decide, by decide⟩

/-- C3: in the tree of two points with the codes `0` and `1` the box of index `10` is a
leaf of level `10` that holds the body `0`, of code `0`, and `get_mc_lower_bound` returns
`2 ^ 31` on its stored key: the leaf bit is part of the bound. -/
theorem leaf_bound_above_code :
    construct_tree (fun _ => true) (fun c : Nat => c) [0, 1] 20 = .ok tree_0_1 ∧
    (tree_0_1.box_data_.getD 10 default).is_leaf = true ∧
    (tree_0_1.box_data_.getD 10 default).level = 10 ∧
    (tree_0_1.box_data_.getD 10 default).child_begin_ = 0 ∧
    (tree_0_1.box_data_.getD 10 default).child_end_ = 1 ∧
    tree_0_1.mc_.getD 0 0 = 0 ∧
    (∀ fuel, (tree_0_1.box_data_.getD 10 default).get_mc_lower_bound (fuel + 1) =
      some (2 ^ 31)) ∧
    (∀ fuel, (tree_0_1.box_data_.getD 10 default).get_mc_upper_bound (fuel + 1) =
      some (2 ^ 31)) := by
  refine ⟨construct_tree_0_1, by decide, by decide, by decide, by decide, by decide, ?_, ?_⟩
  · intro fuel
    have hk : (tree_0_1.box_data_.getD 10 default).key_ = 3221225472 := by decide
    have hm : (3221225472 : Nat) &&& max_marker_bit ≠ 0 := by decide
    simp only [box_data.get_mc_lower_bound, hk, lower_loop, if_pos hm, Option.map_some']
    decide
  · intro fuel
    have hk : (tree_0_1.box_data_.getD 10 default).key_ = 3221225472 := by decide
    have hm : (3221225472 : Nat) &&& max_marker_bit ≠ 0 := by decide
    simp only [box_data.get_mc_upper_bound, hk, upper_loop, if_pos hm, Option.map_some']
    decide

/-- C5: in the tree of two points that share the Morton code `9` the box of index `10` is
not a leaf and has no child: its `child_begin_` and `child_end_` are both `boxes()`. -/
theorem childless_internal_box :
    construct_tree (fun _ => true) (fun c : Nat => c) [9, 9] 20 = .ok tree_9_9 ∧
    boxes tree_9_9 = 11 ∧
    (tree_9_9.box_data_.getD 10 default).is_leaf = false ∧
    (tree_9_9.box_data_.getD 10 default).num_children = 0 ∧
    (tree_9_9.box_data_.getD 10 default).child_begin_ = 11 ∧
    (tree_9_9.box_data_.getD 10 default).child_end_ = 11 :=
  ⟨construct_tree_9_9, by decide, by decide, by decide, by decide, by decide⟩

theorem body_end_loop_9_9 (fuel : Nat) :
    body_end_loop tree_9_9.box_data_ fuel 10 = .error .fuel := by
  induction fuel with
  | zero => rfl
  | succ fuel ih =>
    have h1 : tree_9_9.box_data_[10]? = some ⟨1073741833, 9, 11, 11⟩ := by decide
    have h2 : (⟨1073741833, 9, 11, 11⟩ : box_data).is_leaf = false := by decide
    have h3 : ((⟨1073741833, 9, 11, 11⟩ : box_data).child_end_ + word - 1) % word = 10 := by
      decide
    simp only [body_end_loop, h1, h2, h3]
    exact ih

/-- C6: in the tree of two points that share the Morton code `9` the box of index `10` is
not a leaf; its `body_begin` reads the vector of boxes at the index `11`, which the vector
does not have, and the loop of its `body_end` does not terminate. -/
theorem body_range_of_childless_box :
    construct_tree (fun _ => true) (fun c : Nat => c) [9, 9] 20 = .ok tree_9_9 ∧
    boxes tree_9_9 = 11 ∧
    (tree_9_9.box_data_.getD 10 default).is_leaf = false ∧
    (∀ fuel, body_begin tree_9_9 (fuel + 1) 10 = .error (.range 11)) ∧
    (∀ fuel, body_end tree_9_9 fuel 10 = .error .fuel) := by
  refine ⟨construct_tree_9_9, by decide, by decide, ?_, ?_⟩
  · intro fuel
    have h1 : tree_9_9.box_data_[10]? = some ⟨1073741833, 9, 11, 11⟩ := by decide
    have h2 : (⟨1073741833, 9, 11, 11⟩ : box_data).is_leaf = false := by decide
    have h3 : tree_9_9.box_data_[11]? = none := by decide
    simp only [body_begin, h1, h2, body_begin_loop, h3]
    rfl
  · intro fuel
    have h1 : tree_9_9.box_data_[10]? = some ⟨1073741833, 9, 11, 11⟩ := by decide
    have h2 : (⟨1073741833, 9, 11, 11⟩ : box_data).is_leaf = false := by decide
    have h3 : ((⟨1073741833, 9, 11, 11⟩ : box_data).child_end_ + word - 1) % word = 10 := by
      decide
    simp only [body_end, h1, h2, h3]
    exact body_end_loop_9_9 fuel

/-- C4: in every tree that `construct_tree` returns, whether or not points share a code,
`level_offset_` increases strictly from `0` to `boxes()`, the boxes of index in
`[level_offset_[L], level_offset_[L+1])` are the boxes of level `L`, and the level does
not decrease along the vector of boxes; on points inside the bounding box with pairwise
distinct codes `construct_tree` returns. -/
theorem tree_level_ordered {α : Type} [Inhabited α] (contains : α → Bool) (code : α → Nat)
    (pts : List α) (h30 : ∀ p ∈ pts, code p < 2 ^ 30) :
    (∀ fuel t, construct_tree contains code pts fuel = .ok t → level_ordered t) ∧
    ((∀ p ∈ pts, contains p = true) → (pts.map code).Nodup →
      ∀ fuel, 10 * pts.length + 11 ≤ fuel →
        ∃ t, construct_tree contains code pts fuel = .ok t) := by
  constructor
  · intro fuel t h
    obtain ⟨offsets, ho, -, -, -, hLv⟩ := construct_tree_loop_inv contains code pts h30 fuel t h
    exact level_ordered_of_levels_ok t offsets ho hLv
  · intro hc hd fuel hf
    obtain ⟨t, _, h, _⟩ := construct_tree_total contains code pts hc h30 hd fuel hf
    exact ⟨t, h⟩

theorem tree_level_ordered_witness :
    (∀ p ∈ ([5 * 2 ^ 27, 3 * 2 ^ 27, 2 ^ 27] : List Nat), (fun c : Nat => c) p < 2 ^ 30) ∧
    construct_tree (fun _ => true) (fun c : Nat => c) [5 * 2 ^ 27, 3 * 2 ^ 27, 2 ^ 27] 41 =
      .ok tree_5_3_1 ∧
    level_ordered tree_5_3_1 :=
  ⟨by decide, construct_tree_5_3_1,
    (tree_level_ordered (fun _ => true) (fun c : Nat => c) [5 * 2 ^ 27, 3 * 2 ^ 27, 2 ^ 27]
      (by decide)).1 41 tree_5_3_1 construct_tree_5_3_1⟩

/-! ## The containment assertion of `construct_tree` -/

theorem collect_error_iff {α : Type} (contains : α → Bool) (code : α → Nat) :
    ∀ (pts : List α) (idx : Nat) (points_tmp : List α) (code_idx : List (Nat × Nat))
      (e : Nat),
      collect contains code pts idx points_tmp code_idx = .error e ↔
        ∃ i, e = idx + i ∧ i < pts.length ∧ (∃ p, pts[i]? = some p ∧ contains p = false) ∧
          ∀ j < i, ∀ q, pts[j]? = some q → contains q = true := by
  intro pts
  induction pts with
  | nil =>
    intro idx points_tmp code_idx e
    simp [collect]
  | cons p rest ih =>
    intro idx points_tmp code_idx e
    by_cases hc : contains p = true
    · simp only [collect, if_pos hc]
      rw [ih]
      constructor
      · rintro ⟨i, he, hi, ⟨q, hq, hqc⟩, hall⟩
        refine ⟨i + 1, by omega, by simp; omega, ⟨q, by simpa using hq, hqc⟩, ?_⟩
        intro j hj r hr
        cases j with
        | zero =>
          simp at hr
          rw [← hr]
          exact hc
        | succ j =>
          simp at hr
          exact hall j (by omega) r hr
      · rintro ⟨i, he, hi, ⟨q, hq, hqc⟩, hall⟩
        cases i with
        | zero =>
          simp at hq
          rw [hq] at hc
          rw [hc] at hqc
          cases hqc
        | succ i =>
          refine ⟨i, by omega, by simpa using hi, ⟨q, by simpa using hq, hqc⟩, ?_⟩
          intro j hj r hr
          exact hall (j + 1) (by omega) r (by simpa using hr)
    · simp only [collect, if_neg hc]
      have hf : contains p = false := by simpa using hc
      constructor
      · intro h
        cases h
        exact ⟨0, rfl, by simp, ⟨p, by simp, hf⟩, by intro j hj; omega⟩
      · rintro ⟨i, he, hi, ⟨q, hq, hqc⟩, hall⟩
        cases i with
        | zero => subst he; rfl
        | succ i =>
          have := hall 0 (by omega) p (by simp)
          rw [this] at hf
          cases hf

theorem collect_loop_from {α : Type} (contains : α → Bool) (code : α → Nat) :
    ∀ (pts : List α) (s : collect_state α),
      pts.foldlM (collect_pass contains code) s =
        match collect contains code pts s.idx s.points_tmp s.code_idx with
        | .error e => (.error ⟨s.tree,
            s.points_tmp ++ pts.take (e - s.idx),
            s.code_idx ++ ((pts.take (e - s.idx)).enumFrom s.idx).map
              (fun x => (code x.2, x.1)), e⟩ : Except (collect_state α) (collect_state α))
        | .ok r => .ok ⟨s.tree, r.1, r.2, s.idx + pts.length⟩ := by
  intro pts
  induction pts with
  | nil =>
    intro s
    simp [collect]
    rfl
  | cons p rest ih =>
    intro s
    by_cases hc : contains p = true
    · simp only [List.foldlM, collect, if_pos hc]
      have hp : collect_pass contains code s p = .ok { s with
          points_tmp := s.points_tmp ++ [p], code_idx := s.code_idx ++ [(code p, s.idx)],
          idx := s.idx + 1 } := by
        simp [collect_pass, hc]
      rw [hp]
      show List.foldlM (collect_pass contains code) _ rest = _
      rw [ih]
      simp only
      cases hr : collect contains code rest (s.idx + 1) (s.points_tmp ++ [p])
          (s.code_idx ++ [(code p, s.idx)]) with
      | error e =>
        simp only
        have := (collect_error_iff contains code rest _ _ _ e).1 hr
        obtain ⟨i, he, _⟩ := this
        have e1 : e - s.idx = (e - (s.idx + 1)) + 1 := by omega
        rw [e1]
        simp [List.take_succ_cons, List.enumFrom_cons]
      | ok r =>
        simp only [List.length_cons]
        congr 2
        omega
    · simp only [List.foldlM, collect, if_neg hc]
      have hp : collect_pass contains code s p = .error s := by
        simp [collect_pass, hc]
      rw [hp]
      simp
      rfl

theorem construct_tree_error_iff {α : Type} [Inhabited α] (contains : α → Bool)
    (code : α → Nat) (pts : List α) (fuel idx : Nat) :
    construct_tree contains code pts fuel = .error (.assertion idx) ↔
      collect contains code pts 0 [] [] = .error idx := by
  unfold construct_tree
  cases hc : collect contains code pts 0 [] [] with
  | error e =>
    simp only [Except.error.injEq, Failure.assertion.injEq]
  | ok r =>
    simp only
    cases hb : box_loop (List.map Prod.fst (List.insertionSort pair_le r.2)) fuel fuel 0
        ([⟨1, 0, 0, (List.map (fun i => r.1.getD i default)
          (List.map Prod.snd (List.insertionSort pair_le r.2))).length⟩], [0]) with
    | none => simp
    | some st => simp

/-- C22: `construct_tree` stops at the containment assertion with the index `idx` exactly
when the point of index `idx` is the first input point that the bounding box does not
contain, so it stops there exactly when some point is not contained and never when every
point is contained; in the state in which the assertion fails the data members of the
tree (`point_`, `mc_`, `permute_`, `box_data_`, `level_offset_`) are those from before
the call. -/
theorem construct_tree_assertion {α : Type} [Inhabited α] (contains : α → Bool)
    (code : α → Nat) (pts : List α) (fuel : Nat) :
    (∀ idx, construct_tree contains code pts fuel = .error (.assertion idx) ↔
      (idx < pts.length ∧ (∃ p, pts[idx]? = some p ∧ contains p = false) ∧
        ∀ j < idx, ∀ q, pts[j]? = some q → contains q = true)) ∧
    ((∃ idx, construct_tree contains code pts fuel = .error (.assertion idx)) ↔
      ∃ p ∈ pts, contains p = false) ∧
    (∀ idx, construct_tree contains code pts fuel = .error (.assertion idx) →
      ∀ t : Octree α, ∃ s, collect_loop contains code t pts = .error s ∧ s.tree = t ∧
        s.idx = idx) ∧
    (∀ (t : Octree α) (s : collect_state α), collect_loop contains code t pts = .error s →
      s.tree = t ∧ construct_tree contains code pts fuel = .error (.assertion s.idx)) := by
  have h1 : ∀ idx, construct_tree contains code pts fuel = .error (.assertion idx) ↔
      (idx < pts.length ∧ (∃ p, pts[idx]? = some p ∧ contains p = false) ∧
        ∀ j < idx, ∀ q, pts[j]? = some q → contains q = true) := by
    intro idx
    rw [construct_tree_error_iff, collect_error_iff]
    constructor
    · rintro ⟨i, he, h⟩
      have : idx = i := by omega
      subst this
      exact h
    · intro h
      exact ⟨idx, by omega, h⟩
  refine ⟨h1, ?_, ?_, ?_⟩
  · constructor
    · rintro ⟨idx, h⟩
      obtain ⟨_, ⟨p, hp, hc⟩, _⟩ := (h1 idx).1 h
      exact ⟨p, List.getElem?_mem hp, hc⟩
    · rintro ⟨p, hp, hc⟩
      by_contra hno
      have hall : ∀ q ∈ pts, contains q = true := by
        intro q hq
        by_contra hq'
        have hqf : contains q = false := by simpa using hq'
        apply hno
        -- the first index that is not contained
        have hex : ∃ i, i < pts.length ∧ ∃ r, pts[i]? = some r ∧ contains r = false := by
          obtain ⟨i, hi, hiq⟩ := List.mem_iff_getElem.1 hq
          exact ⟨i, hi, q, by simp [List.getElem?_eq_getElem hi, hiq], hqf⟩
        classical
        let i0 := Nat.find hex
        have hi0 := Nat.find_spec hex
        refine ⟨i0, (h1 i0).2 ⟨hi0.1, hi0.2, ?_⟩⟩
        intro j hj r hr
        by_contra hcr
        have hrf : contains r = false := by simpa using hcr
        have hjl : j < pts.length := by
          have := hi0.1
          omega
        exact Nat.find_min hex hj ⟨hjl, r, hr, hrf⟩
      rw [hall p hp] at hc
      cases hc
  · intro idx h t
    have hc := (construct_tree_error_iff contains code pts fuel idx).1 h
    have := collect_loop_from contains code pts ⟨t, [], [], 0⟩
    simp only [hc] at this
    exact ⟨_, this, rfl, rfl⟩
  · intro t s h
    have := collect_loop_from contains code pts ⟨t, [], [], 0⟩
    unfold collect_loop at h
    rw [h] at this
    cases hc : collect contains code pts 0 [] [] with
    | error e =>
      rw [hc] at this
      simp only [Except.error.injEq] at this
      subst this
      exact ⟨rfl, (construct_tree_error_iff contains code pts fuel e).2 hc⟩
    | ok r =>
      rw [hc] at this
      cases this

/-- An instance: of the points `5, 300, 7, 400` in the box of the codes below 100 the
point of index 1 is the first outside; the assertion fails there for every fuel, with
the members of the tree as before the call. -/
theorem construct_tree_assertion_witness :
    (∀ fuel, construct_tree (fun c : Nat => decide (c < 100)) (fun c => c) [5, 300, 7, 400] fuel
      = .error (.assertion 1)) ∧
    ∀ t : Octree Nat, ∃ s, collect_loop (fun c : Nat => decide (c < 100)) (fun c => c) t
        [5, 300, 7, 400] = .error s ∧ s.tree = t ∧ s.idx = 1 := by
  have h : ∀ fuel, construct_tree (fun c : Nat => decide (c < 100)) (fun c => c)
      [5, 300, 7, 400] fuel = .error (.assertion 1) := by
    intro fuel
    refine ((construct_tree_assertion (fun c : Nat => decide (c < 100)) (fun c => c)
      [5, 300, 7, 400] fuel).1 1).2 ⟨by decide, ⟨300, by decide, by decide⟩, ?_⟩
    intro j hj q hq
    have hj0 : j = 0 := by omega
    subst hj0
    simp at hq
    subst hq
    decide
  exact ⟨h, fun t => (construct_tree_assertion (fun c : Nat => decide (c < 100))
    (fun c => c) [5, 300, 7, 400] 0).2.2.1 1 (h 0) t⟩

end Octree

namespace SphericalLaplaceKernel

/-! ## The direct kernel -/

theorem P2P_sums_foldl {K : Type} [Field K] [DecidableEq K] (sqrt : K → K) (EPS2 : K)
    (Xperiodic Xi : vect K) (Cj : List (Body K)) (a : K) (v : vect K) :
    Cj.foldl (fun acc Bj =>
        (acc.1 + (P2P_pair sqrt EPS2 Xperiodic Xi Bj).1,
          acc.2.add (P2P_pair sqrt EPS2 Xperiodic Xi Bj).2)) (a, v) =
      (a + (Cj.map (fun Bj => (P2P_pair sqrt EPS2 Xperiodic Xi Bj).1)).sum,
        ⟨v.x + (Cj.map (fun Bj => (P2P_pair sqrt EPS2 Xperiodic Xi Bj).2.x)).sum,
         v.y + (Cj.map (fun Bj => (P2P_pair sqrt EPS2 Xperiodic Xi Bj).2.y)).sum,
         v.z + (Cj.map (fun Bj => (P2P_pair sqrt EPS2 Xperiodic Xi Bj).2.z)).sum⟩) := by
  induction Cj generalizing a v with
  | nil => simp
  | cons B rest ih =>
    rw [List.foldl_cons, ih]
    simp only [List.map_cons, List.sum_cons, vect.add, add_assoc]

/-- The power `3/2` of a positive real is the product with the square root. -/
theorem rpow_three_halves (x : ℝ) (hx : 0 < x) : x ^ (3 / 2 : ℝ) = x * Real.sqrt x := by
  rw [Real.sqrt_eq_rpow, show (3 / 2 : ℝ) = 1 + 1 / 2 by norm_num, Real.rpow_add hx,
    Real.rpow_one]

/-- The pair of the kernel is the pair of the specification. -/
theorem P2P_pair_eq (EPS2 : ℝ) (hE : 0 ≤ EPS2) (Xperiodic Xi : vect ℝ) (Bj : Body ℝ) :
    (P2P_pair Real.sqrt EPS2 Xperiodic Xi Bj).1 =
        pair_potential Real.sqrt EPS2 Xperiodic Xi Bj ∧
      (P2P_pair Real.sqrt EPS2 Xperiodic Xi Bj).2 =
        pair_force (fun r => r ^ (3 / 2 : ℝ)) EPS2 Xperiodic Xi Bj := by
  have hR : 0 ≤ pair_R2 EPS2 Xperiodic Xi Bj := by
    unfold pair_R2 norm
    have h1 := mul_self_nonneg (pair_dist Xperiodic Xi Bj).x
    have h2 := mul_self_nonneg (pair_dist Xperiodic Xi Bj).y
    have h3 := mul_self_nonneg (pair_dist Xperiodic Xi Bj).z
    linarith
  by_cases h0 : pair_R2 EPS2 Xperiodic Xi Bj = 0
  · have h0' : norm ((Xi.sub Bj.X).sub Xperiodic) + EPS2 = 0 := h0
    simp [P2P_pair, pair_potential, pair_force, h0, h0', vect.smul]
  · have h0' : ¬ norm ((Xi.sub Bj.X).sub Xperiodic) + EPS2 = 0 := h0
    have hpos : 0 < pair_R2 EPS2 Xperiodic Xi Bj := lt_of_le_of_ne hR (Ne.symm h0)
    have hsq : 0 < Real.sqrt (pair_R2 EPS2 Xperiodic Xi Bj) := Real.sqrt_pos.mpr hpos
    constructor
    · simp only [P2P_pair, pair_potential, if_neg h0, if_neg h0']
      rw [one_div, Real.sqrt_inv]
      rfl
    · simp only [P2P_pair, pair_force, if_neg h0, if_neg h0']
      rw [rpow_three_halves _ hpos, one_div, Real.sqrt_inv]
      have e : (norm ((Xi.sub Bj.X).sub Xperiodic) + EPS2)⁻¹ *
          (Bj.SRC * (Real.sqrt (norm ((Xi.sub Bj.X).sub Xperiodic) + EPS2))⁻¹) =
          Bj.SRC / (pair_R2 EPS2 Xperiodic Xi Bj * Real.sqrt (pair_R2 EPS2 Xperiodic Xi Bj)) := by
        unfold pair_R2 pair_dist
        field_simp
      rw [e]
      rfl

/-- C9: for every target body `P2P` adds to `TRG[0]` the sum over the source bodies of
`SRC_j / sqrt(R2_j)` and subtracts from `TRG[1..3]` the sum of
`dist_j * SRC_j / R2_j^(3/2)`, a pair with `R2_j = 0` contributing nothing; position and
source weight stay, and the increment of `TRG` does not depend on the value that `TRG`
had. -/
theorem P2P_adds_pair_sums (EPS2 : ℝ) (hE : 0 ≤ EPS2) (Xperiodic : vect ℝ)
    (Ci Cj : List (Body ℝ)) :
    P2P Real.sqrt EPS2 Xperiodic Ci Cj =
        Ci.map (P2P_spec Real.sqrt (fun r => r ^ (3 / 2 : ℝ)) EPS2 Xperiodic Cj) ∧
      ∀ (Bi : Body ℝ) (T : vec4 ℝ),
        (P2P Real.sqrt EPS2 Xperiodic [⟨Bi.X, Bi.SRC, T⟩] Cj).map
            (fun B => (B.TRG.v0 - T.v0, B.TRG.v1 - T.v1, B.TRG.v2 - T.v2, B.TRG.v3 - T.v3)) =
          (P2P Real.sqrt EPS2 Xperiodic [Bi] Cj).map
            (fun B => (B.TRG.v0 - Bi.TRG.v0, B.TRG.v1 - Bi.TRG.v1, B.TRG.v2 - Bi.TRG.v2,
              B.TRG.v3 - Bi.TRG.v3)) := by
  constructor
  · unfold P2P
    apply List.map_congr_left
    intro Bi _
    have hs : P2P_sums Real.sqrt EPS2 Xperiodic Bi.X Cj =
        ((Cj.map (pair_potential Real.sqrt EPS2 Xperiodic Bi.X)).sum,
          ⟨(Cj.map (fun Bj =>
              (pair_force (fun r => r ^ (3 / 2 : ℝ)) EPS2 Xperiodic Bi.X Bj).x)).sum,
           (Cj.map (fun Bj =>
              (pair_force (fun r => r ^ (3 / 2 : ℝ)) EPS2 Xperiodic Bi.X Bj).y)).sum,
           (Cj.map (fun Bj =>
              (pair_force (fun r => r ^ (3 / 2 : ℝ)) EPS2 Xperiodic Bi.X Bj).z)).sum⟩) := by
      unfold P2P_sums
      rw [P2P_sums_foldl]
      have e1 : (fun Bj => (P2P_pair Real.sqrt EPS2 Xperiodic Bi.X Bj).1) =
          pair_potential Real.sqrt EPS2 Xperiodic Bi.X :=
        funext fun Bj => (P2P_pair_eq EPS2 hE Xperiodic Bi.X Bj).1
      have e2 : (fun Bj => (P2P_pair Real.sqrt EPS2 Xperiodic Bi.X Bj).2) =
          pair_force (fun r => r ^ (3 / 2 : ℝ)) EPS2 Xperiodic Bi.X :=
        funext fun Bj => (P2P_pair_eq EPS2 hE Xperiodic Bi.X Bj).2
      have e2x : (fun Bj => (P2P_pair Real.sqrt EPS2 Xperiodic Bi.X Bj).2.x) =
          fun Bj => (pair_force (fun r => r ^ (3 / 2 : ℝ)) EPS2 Xperiodic Bi.X Bj).x :=
        funext fun Bj => congrArg vect.x (congrFun e2 Bj)
      have e2y : (fun Bj => (P2P_pair Real.sqrt EPS2 Xperiodic Bi.X Bj).2.y) =
          fun Bj => (pair_force (fun r => r ^ (3 / 2 : ℝ)) EPS2 Xperiodic Bi.X Bj).y :=
        funext fun Bj => congrArg vect.y (congrFun e2 Bj)
      have e2z : (fun Bj => (P2P_pair Real.sqrt EPS2 Xperiodic Bi.X Bj).2.z) =
          fun Bj => (pair_force (fun r => r ^ (3 / 2 : ℝ)) EPS2 Xperiodic Bi.X Bj).z :=
        funext fun Bj => congrArg vect.z (congrFun e2 Bj)
      rw [e1, e2x, e2y, e2z]
      simp
    simp only [hs, P2P_spec]
  · intro Bi T
    simp [P2P]

theorem P2P_adds_pair_sums_witness :
    (0 : ℝ) ≤ 0 ∧
    (P2P Real.sqrt 0 ⟨0, 0, 0⟩ [⟨⟨0, 0, 0⟩, 1, ⟨0, 0, 0, 0⟩⟩] [⟨⟨3, 4, 0⟩, 2, ⟨0, 0, 0, 0⟩⟩] =
        [⟨⟨0, 0, 0⟩, 1, ⟨0, 0, 0, 0⟩⟩].map
          (P2P_spec Real.sqrt (fun r => r ^ (3 / 2 : ℝ)) 0 ⟨0, 0, 0⟩
            [⟨⟨3, 4, 0⟩, 2, ⟨0, 0, 0, 0⟩⟩]) ∧
      ∀ (Bi : Body ℝ) (T : vec4 ℝ),
        (P2P Real.sqrt 0 ⟨0, 0, 0⟩ [⟨Bi.X, Bi.SRC, T⟩] [⟨⟨3, 4, 0⟩, 2, ⟨0, 0, 0, 0⟩⟩]).map
            (fun B => (B.TRG.v0 - T.v0, B.TRG.v1 - T.v1, B.TRG.v2 - T.v2, B.TRG.v3 - T.v3)) =
          (P2P Real.sqrt 0 ⟨0, 0, 0⟩ [Bi] [⟨⟨3, 4, 0⟩, 2, ⟨0, 0, 0, 0⟩⟩]).map
            (fun B => (B.TRG.v0 - Bi.TRG.v0, B.TRG.v1 - Bi.TRG.v1, B.TRG.v2 - Bi.TRG.v2,
              B.TRG.v3 - Bi.TRG.v3))) :=
  ⟨le_refl 0, P2P_adds_pair_sums 0 (le_refl 0) ⟨0, 0, 0⟩ _ _⟩

/-- C10, as stated, fails: with `EPS2 = 1` a unit source at the position of the target
contributes `1` to the potential of that target. -/
theorem self_pair_softened_potential :
    (0 : ℝ) ≤ 1 ∧
    (P2P_pair Real.sqrt 1 ⟨0, 0, 0⟩ ⟨0, 0, 0⟩ ⟨⟨0, 0, 0⟩, 1, ⟨0, 0, 0, 0⟩⟩).1 = 1 ∧
    (P2P Real.sqrt 1 ⟨0, 0, 0⟩ [⟨⟨0, 0, 0⟩, 1, ⟨0, 0, 0, 0⟩⟩]
        [⟨⟨0, 0, 0⟩, 1, ⟨0, 0, 0, 0⟩⟩]).map (fun B => B.TRG.v0) = [1] ∧
    (1 : ℝ) ≠ 0 := by
  refine ⟨by norm_num, ?_, ?_, by norm_num⟩
  · simp [P2P_pair, norm, vect.sub]
  · simp [P2P, P2P_sums, P2P_pair, norm, vect.sub]

/-- C10, amended: with `Xperiodic = 0` a source body at the position of the target
contributes zero to the force for every `EPS2 ≥ 0`; to the potential it contributes zero
when `EPS2 = 0` and `SRC / sqrt(EPS2)` when `EPS2 > 0`, in which case `R2 = EPS2` is not
zero. -/
theorem self_pair_contribution (EPS2 : ℝ) (hE : 0 ≤ EPS2) (X : vect ℝ) (SRC : ℝ)
    (T : vec4 ℝ) :
    (P2P_pair Real.sqrt EPS2 ⟨0, 0, 0⟩ X ⟨X, SRC, T⟩).2 = ⟨0, 0, 0⟩ ∧
    (EPS2 = 0 → (P2P_pair Real.sqrt EPS2 ⟨0, 0, 0⟩ X ⟨X, SRC, T⟩).1 = 0) ∧
    (0 < EPS2 →
      (P2P_pair Real.sqrt EPS2 ⟨0, 0, 0⟩ X ⟨X, SRC, T⟩).1 = SRC / Real.sqrt EPS2 ∧
      pair_R2 EPS2 ⟨0, 0, 0⟩ X ⟨X, SRC, T⟩ = EPS2 ∧
      pair_R2 EPS2 ⟨0, 0, 0⟩ X ⟨X, SRC, T⟩ ≠ 0) := by
  have hn : norm (((X.sub X).sub ⟨0, 0, 0⟩ : vect ℝ)) = 0 := by
    simp [norm, vect.sub]
  refine ⟨?_, ?_, ?_⟩
  · simp [P2P_pair, vect.sub, vect.smul]
  · intro h0
    subst h0
    simp [P2P_pair, hn]
  · intro hpos
    have hne : EPS2 ≠ 0 := ne_of_gt hpos
    refine ⟨?_, ?_, ?_⟩
    · simp only [P2P_pair, hn, zero_add, if_neg hne]
      rw [one_div, Real.sqrt_inv]
      rfl
    · simp [pair_R2, pair_dist, hn]
    · simp [pair_R2, pair_dist, hn, hne]

theorem self_pair_contribution_witness :
    (0 : ℝ) ≤ 4 ∧
    ((P2P_pair Real.sqrt 4 ⟨0, 0, 0⟩ ⟨1, 2, 3⟩ ⟨⟨1, 2, 3⟩, 5, ⟨0, 0, 0, 0⟩⟩).2 = ⟨0, 0, 0⟩ ∧
    ((4 : ℝ) = 0 →
      (P2P_pair Real.sqrt 4 ⟨0, 0, 0⟩ ⟨1, 2, 3⟩ ⟨⟨1, 2, 3⟩, 5, ⟨0, 0, 0, 0⟩⟩).1 = 0) ∧
    ((0 : ℝ) < 4 →
      (P2P_pair Real.sqrt 4 ⟨0, 0, 0⟩ ⟨1, 2, 3⟩ ⟨⟨1, 2, 3⟩, 5, ⟨0, 0, 0, 0⟩⟩).1 =
        5 / Real.sqrt 4 ∧
      pair_R2 (4 : ℝ) ⟨0, 0, 0⟩ ⟨1, 2, 3⟩ ⟨⟨1, 2, 3⟩, 5, ⟨0, 0, 0, 0⟩⟩ = 4 ∧
      pair_R2 (4 : ℝ) ⟨0, 0, 0⟩ ⟨1, 2, 3⟩ ⟨⟨1, 2, 3⟩, 5, ⟨0, 0, 0, 0⟩⟩ ≠ 0)) :=
  ⟨by norm_num, self_pair_contribution 4 (by norm_num) ⟨1, 2, 3⟩ 5 ⟨0, 0, 0, 0⟩⟩

/-! ## Loops -/

theorem for_range_empty {σ : Type} (lo hi : Nat) (h : hi ≤ lo) (body : Nat → σ → σ)
    (s : σ) : for_range lo hi body s = s := by
  unfold for_range
  rw [Nat.sub_eq_zero_of_le h]
  rfl

theorem for_range_succ {σ : Type} (lo hi : Nat) (h : lo ≤ hi) (body : Nat → σ → σ)
    (s : σ) : for_range lo (hi + 1) body s = body hi (for_range lo hi body s) := by
  unfold for_range
  have e : hi + 1 - lo = (hi - lo) + 1 := by omega
  rw [e, List.range'_concat, List.foldl_append]
  simp only [List.foldl_cons, List.foldl_nil, one_mul]
  congr 1
  omega

/-- An invariant of a loop over a range holds after the loop. -/
theorem for_range_induction {σ : Type} (Inv : Nat → σ → Prop) (lo hi : Nat)
    (h : lo ≤ hi) (body : Nat → σ → σ) (s : σ) (h0 : Inv lo s)
    (hstep : ∀ i t, lo ≤ i → i < hi → Inv i t → Inv (i + 1) (body i t)) :
    Inv hi (for_range lo hi body s) := by
  induction hi with
  | zero =>
    have : lo = 0 := by omega
    subst this
    rw [for_range_empty _ _ le_rfl]
    exact h0
  | succ hi ih =>
    by_cases hlo : lo = hi + 1
    · subst hlo
      rw [for_range_empty _ _ le_rfl]
      exact h0
    · have hle : lo ≤ hi := by omega
      rw [for_range_succ _ _ hle]
      exact hstep hi _ hle (by omega)
        (ih hle (fun i t h1 h2 h3 => hstep i t h1 (by omega) h3))

theorem for_int_empty {σ : Type} (lo hi : Int) (h : hi < lo) (body : Int → σ → σ)
    (s : σ) : for_int lo hi body s = s := by
  unfold for_int
  have e : (hi + 1 - lo).toNat = 0 := by omega
  rw [e]
  rfl

theorem for_int_succ {σ : Type} (lo hi : Int) (h : lo ≤ hi + 1) (body : Int → σ → σ)
    (s : σ) : for_int lo (hi + 1) body s = body (hi + 1) (for_int lo hi body s) := by
  unfold for_int
  have e : (hi + 1 + 1 - lo).toNat = (hi + 1 - lo).toNat + 1 := by omega
  rw [e, List.range_succ, List.foldl_append]
  simp only [List.foldl_cons, List.foldl_nil]
  congr 1
  omega

/-- An invariant of a loop over integers holds after the loop. -/
theorem for_int_induction {σ : Type} (Inv : Int → σ → Prop) (lo : Int) (cnt : Nat)
    (body : Int → σ → σ) (s : σ) (h0 : Inv lo s)
    (hstep : ∀ i t, lo ≤ i → i < lo + cnt → Inv i t → Inv (i + 1) (body i t)) :
    Inv (lo + cnt) (for_int lo (lo + cnt - 1) body s) := by
  induction cnt with
  | zero =>
    rw [for_int_empty _ _ (by omega)]
    simpa using h0
  | succ c ih =>
    have e : lo + ((c + 1 : Nat) : Int) - 1 = (lo + c - 1) + 1 := by push_cast; ring
    have e2 : lo + ((c + 1 : Nat) : Int) = (lo + c) + 1 := by push_cast; ring
    rw [e, for_int_succ _ _ (by omega), e2]
    have e3 : lo + (c : Int) - 1 + 1 = lo + c := by ring
    rw [e3]
    exact hstep _ _ (by omega) (by omega)
      (ih (fun i t h1 h2 h3 => hstep i t h1 (by push_cast; omega) h3))

/-! ## The harmonic evaluators -/

/-- The entries `n*n+n+m` and `n*n+n-m` of different pairs `(m, n)` with `m ≤ n` are
different. -/
theorem index_ne (m n m' n' : Nat) (h : m ≤ n) (h' : m' ≤ n')
    (hne : ¬ (m' = m ∧ n' = n)) :
    n' * n' + n' + m' ≠ n * n + n + m ∧ n' * n' + n' + m' ≠ n * n + n - m ∧
    n' * n' + n' - m' ≠ n * n + n + m ∧ n' * n' + n' - m' ≠ n * n + n - m := by
  rcases lt_trichotomy n n' with hlt | heq | hgt
  · have h1 : n * n + 2 * n + 1 ≤ n' * n' := by nlinarith
    refine ⟨?_, ?_, ?_, ?_⟩ <;> omega
  · subst heq
    have : m' ≠ m := fun e => hne ⟨e, rfl⟩
    refine ⟨?_, ?_, ?_, ?_⟩ <;> omega
  · have h1 : n' * n' + 2 * n' + 1 ≤ n * n := by nlinarith
    refine ⟨?_, ?_, ?_, ?_⟩ <;> omega

/-- The entries of another pair stay when the entries of the pair `(m, n)` are
written. -/
theorem stored_frame (F : cmath ℝ ℂ) (pref : ℕ → ℝ) (R : ℕ → ℝ) (x y β : ℝ)
    (Y T : ℕ → ℂ) (m n m' n' : ℕ) (h : m ≤ n) (h' : m' ≤ n')
    (hne : ¬ (m' = m ∧ n' = n)) (v w u : ℂ)
    (hs : stored F pref R x y β Y T m' n') :
    stored F pref R x y β
      (Function.update (Function.update Y (n * n + n + m) v) (n * n + n - m) w)
      (Function.update T (n * n + n + m) u) m' n' := by
  obtain ⟨i1, i2, i3, i4⟩ := index_ne m n m' n' h h' hne
  obtain ⟨s1, s2, s3⟩ := hs
  refine ⟨?_, ?_, ?_⟩
  · rw [Function.update_noteq i2, Function.update_noteq i1]; exact s1
  · rw [Function.update_noteq i4, Function.update_noteq i3]; exact s2
  · rw [Function.update_noteq i1]; exact s3

/-- The entries of the pair `(m, n)` after they are written. -/
theorem stored_new (F : cmath ℝ ℂ) (hF : F.exact) (pref : ℕ → ℝ) (R : ℕ → ℝ)
    (x y β : ℝ) (Y T : ℕ → ℂ) (m n : ℕ) (h : m ≤ n) :
    stored F pref R x y β
      (Function.update (Function.update Y (n * n + n + m)
          (inner_value F pref R x y β m n)) (n * n + n - m)
        (F.conj (Function.update Y (n * n + n + m)
          (inner_value F pref R x y β m n) (n * n + n + m))))
      (Function.update T (n * n + n + m) (theta_value F pref R x y β m n)) m n := by
  obtain ⟨hsqrt, hcos, hsin, hacos, hatan, hpi, hof, hconj, hre, hexp, hpow, hI⟩ := hF
  refine ⟨?_, ?_, ?_⟩
  · by_cases hm : m = 0
    · subst hm
      simp only [Nat.sub_zero, Nat.add_zero, Function.update_same]
      simp [inner_value, hof, hconj, hexp, hI]
    · have hne : n * n + n + m ≠ n * n + n - m := by omega
      rw [Function.update_noteq hne, Function.update_same]
  · rw [Function.update_same, Function.update_same]
  · rw [Function.update_same]

theorem harmonics_n_step (F : cmath ℝ ℂ) (hF : F.exact) (pref : ℕ → ℝ) (upd : ℝ → ℝ)
    (R : ℕ → ℝ) (hR : ∀ k, R (k + 1) = upd (R k)) (x y β : ℝ) (N m n : ℕ)
    (hmn : m < n) (s : eval_n ℝ ℂ) (hs : inv_n F pref R x y β N m n s) :
    inv_n F pref R x y β N m (n + 1)
      (harmonics_n F pref upd x y (F.exp (F.I * F.ofReal ((m : ℝ) * β))) m n s) := by
  obtain ⟨hp, hp1, hr, hdone⟩ := hs
  obtain ⟨k, rfl⟩ : ∃ k, n = m + k + 1 := ⟨n - m - 1, by omega⟩
  have e1 : m + k + 1 - m = k + 1 := by omega
  have e2 : m + k + 1 - m - 1 = k := by omega
  have e3 : m + k + 1 + 1 - m = k + 2 := by omega
  rw [e1] at hp
  rw [e2] at hp1
  have hpnew : (x * (2 * ((m + k + 1 : ℕ) : ℝ) + 1) * s.p
      - (((m + k + 1 : ℕ) : ℝ) + (m : ℝ)) * s.p1) / (((m + k + 1 : ℕ) : ℝ) - (m : ℝ) + 1)
      = legendre x y m (k + 2) := by
    rw [hp, hp1]
    show _ = ((2 * ((m + k + 2 : ℕ) : ℝ) - 1) * x * legendre x y m (k + 1)
      - (((m + k + 2 : ℕ) : ℝ) + (m : ℝ) - 1) * legendre x y m k)
      / (((m + k + 2 : ℕ) : ℝ) - (m : ℝ))
    push_cast
    ring
  have hval : F.ofReal (s.rhon * s.p * pref ((m + k + 1) * (m + k + 1) + (m + k + 1) + m))
      * F.exp (F.I * F.ofReal ((m : ℝ) * β)) = inner_value F pref R x y β m (m + k + 1) := by
    unfold inner_value
    rw [hr, hp, e1]
  have htheta : F.ofReal (s.rhon * ((((m + k + 1 : ℕ) : ℝ) - (m : ℝ) + 1)
        * ((x * (2 * ((m + k + 1 : ℕ) : ℝ) + 1) * s.p
          - (((m + k + 1 : ℕ) : ℝ) + (m : ℝ)) * s.p1)
            / (((m + k + 1 : ℕ) : ℝ) - (m : ℝ) + 1))
        - (((m + k + 1 : ℕ) : ℝ) + 1) * x * s.p) / y
        * pref ((m + k + 1) * (m + k + 1) + (m + k + 1) + m))
      * F.exp (F.I * F.ofReal ((m : ℝ) * β)) = theta_value F pref R x y β m (m + k + 1) := by
    unfold theta_value
    rw [hpnew, hr, hp, e1]
  refine ⟨?_, ?_, ?_, ?_⟩
  · rw [e3]; exact hpnew
  · show s.p = _
    rw [hp]; congr 1; omega
  · show upd s.rhon = _
    rw [hr]; exact (hR _).symm
  · intro m' n' hle hcase
    show stored F pref R x y β (Function.update (Function.update s.Ynm _ _) _ _)
      (Function.update s.YnmTheta _ _) m' n'
    rw [htheta, hval]
    by_cases heq : m' = m ∧ n' = m + k + 1
    · obtain ⟨rfl, rfl⟩ := heq
      exact stored_new F hF pref R x y β _ _ _ _ (by omega)
    · exact stored_frame F pref R x y β _ _ _ _ _ _ (by omega) hle heq _ _ _
        (hdone m' n' hle (by omega))

theorem harmonics_n_loop (F : cmath ℝ ℂ) (hF : F.exact) (pref : ℕ → ℝ) (upd : ℝ → ℝ)
    (R : ℕ → ℝ) (hR : ∀ k, R (k + 1) = upd (R k)) (x y β : ℝ) (N m : ℕ)
    (hm : m < N) (s : eval_n ℝ ℂ) (hs : inv_n F pref R x y β N m (m + 1) s) :
    inv_n F pref R x y β N m N
      (for_range (m + 1) N
        (harmonics_n F pref upd x y (F.exp (F.I * F.ofReal ((m : ℝ) * β))) m) s) :=
  for_range_induction (fun n t => inv_n F pref R x y β N m n t) (m + 1) N hm _ s hs
    (fun i t h1 _ h3 => harmonics_n_step F hF pref upd R hR x y β N m i (by omega) t h3)

theorem double_factorial_step (m : ℕ) :
    (2 * (m + 1) - 1).doubleFactorial = (2 * m + 1) * (2 * m - 1).doubleFactorial := by
  cases m with
  | zero => rfl
  | succ j =>
    have e1 : 2 * (j + 1 + 1) - 1 = (2 * j + 1) + 2 := by omega
    have e2 : 2 * (j + 1) - 1 = 2 * j + 1 := by omega
    rw [e1, e2, Nat.doubleFactorial_add_two]
    ring

theorem harmonics_m_step (F : cmath ℝ ℂ) (hF : F.exact) (pref : ℕ → ℝ) (upd : ℝ → ℝ)
    (R : ℕ → ℝ) (hR : ∀ k, R (k + 1) = upd (R k)) (x y β : ℝ) (N m : ℕ)
    (hm : m < N) (s : eval_m ℝ ℂ) (hs : inv_m F pref R x y β N m s) :
    inv_m F pref R x y β N (m + 1) (harmonics_m F pref N upd β x y m s) := by
  obtain ⟨hpn, hfact, hr, hdone⟩ := hs
  have ei : m * m + 2 * m = m * m + m + m := by ring
  have ej : m * m = m * m + m - m := by omega
  have hval : F.ofReal (s.rhom * s.pn * pref (m * m + m + m))
      * F.exp (F.I * F.ofReal ((m : ℝ) * β)) = inner_value F pref R x y β m m := by
    unfold inner_value
    rw [hr, hpn, Nat.sub_self]
  have htheta : F.ofReal (s.rhom * (x * (2 * (m : ℝ) + 1) * s.pn
        - ((m : ℝ) + 1) * x * s.pn) / y * pref (m * m + m + m))
      * F.exp (F.I * F.ofReal ((m : ℝ) * β)) = theta_value F pref R x y β m m := by
    unfold theta_value
    rw [hr, hpn, Nat.sub_self]
    have e : legendre x y m (0 + 1) = (2 * (m : ℝ) + 1) * x * legendre x y m 0 := rfl
    rw [e]
    congr 2
    ring
  have hinner := harmonics_n_loop F hF pref upd R hR x y β N m hm
    ⟨Function.update (Function.update s.Ynm (m * m + m + m)
        (F.ofReal (s.rhom * s.pn * pref (m * m + m + m))
          * F.exp (F.I * F.ofReal ((m : ℝ) * β)))) (m * m + m - m)
      (F.conj (Function.update s.Ynm (m * m + m + m)
        (F.ofReal (s.rhom * s.pn * pref (m * m + m + m))
          * F.exp (F.I * F.ofReal ((m : ℝ) * β))) (m * m + m + m))),
     Function.update s.YnmTheta (m * m + m + m)
      (F.ofReal (s.rhom * (x * (2 * (m : ℝ) + 1) * s.pn
        - ((m : ℝ) + 1) * x * s.pn) / y * pref (m * m + m + m))
      * F.exp (F.I * F.ofReal ((m : ℝ) * β))),
     x * (2 * (m : ℝ) + 1) * s.pn, s.pn, upd s.rhom⟩
    (by
      refine ⟨?_, ?_, ?_, ?_⟩
      · show x * (2 * (m : ℝ) + 1) * s.pn = legendre x y m (m + 1 - m)
        have e : m + 1 - m = 1 := by omega
        rw [e, hpn]
        show _ = (2 * (m : ℝ) + 1) * x * legendre x y m 0
        ring
      · show s.pn = legendre x y m (m + 1 - m - 1)
        have e : m + 1 - m - 1 = 0 := by omega
        rw [e, hpn]
      · show upd s.rhom = R (m + 1)
        rw [hr]; exact (hR _).symm
      · intro m' n' hle hcase
        show stored F pref R x y β (Function.update (Function.update s.Ynm _ _) _ _)
          (Function.update s.YnmTheta _ _) m' n'
        rw [htheta, hval]
        by_cases heq : m' = m ∧ n' = m
        · obtain ⟨rfl, rfl⟩ := heq
          exact stored_new F hF pref R x y β _ _ _ _ le_rfl
        · exact stored_frame F pref R x y β _ _ _ _ _ _ le_rfl hle heq _ _ _
            (hdone m' n' hle (by omega) (by omega)))
  obtain ⟨_, _, _, hd⟩ := hinner
  refine ⟨?_, ?_, ?_, ?_⟩
  · show -s.pn * s.fact * y = legendre x y (m + 1) 0
    rw [hpn, hfact]
    show _ = (-1) ^ (m + 1) * ((2 * (m + 1) - 1).doubleFactorial : ℝ) * y ^ (m + 1)
    rw [double_factorial_step]
    show -((-1) ^ m * ((2 * m - 1).doubleFactorial : ℝ) * y ^ m) * _ * _ = _
    push_cast
    ring
  · show s.fact + 2 = 2 * ((m + 1 : ℕ) : ℝ) + 1
    rw [hfact]; push_cast; ring
  · show upd s.rhom = R (m + 1)
    rw [hr]; exact (hR _).symm
  · intro m' n' hle hlt hn
    have := hd m' n' hle (by omega)
    rw [← ej, ← ei] at this
    exact this

/-- The closed form of the entries that an evaluator stores. -/
theorem harmonics_stored (F : cmath ℝ ℂ) (hF : F.exact) (pref : ℕ → ℝ) (upd : ℝ → ℝ)
    (R : ℕ → ℝ) (hR : ∀ k, R (k + 1) = upd (R k)) (α β : ℝ) (N : ℕ)
    (Y T : ℕ → ℂ) (m n : ℕ) (hmn : m ≤ n) (hn : n < N) :
    stored F pref R (F.cos α) (F.sin α) β
      (harmonics F pref N upd (R 0) α β Y T).1 (harmonics F pref N upd (R 0) α β Y T).2
      m n := by
  have h := for_range_induction
    (fun m t => inv_m F pref R (F.cos α) (F.sin α) β N m t) 0 N (Nat.zero_le _)
    (harmonics_m F pref N upd β (F.cos α) (F.sin α)) ⟨Y, T, 1, 1, R 0⟩
    (by
      refine ⟨?_, ?_, rfl, ?_⟩
      · show (1 : ℝ) = (-1) ^ 0 * ((2 * 0 - 1).doubleFactorial : ℝ) * (F.sin α) ^ 0
        simp
      · show (1 : ℝ) = 2 * ((0 : ℕ) : ℝ) + 1
        simp
      · intro m' n' _ h; omega)
    (fun i t _ h2 h3 =>
      harmonics_m_step F hF pref upd R hR (F.cos α) (F.sin α) β N i h2 t h3)
  exact h.2.2.2 m n hmn (by omega) hn

theorem evalMultipole_eq_harmonics {K C : Type} [LinearOrderedField K] [Field C]
    (F : cmath K C) (pref : ℕ → K) (P : ℕ) (ρ α β : K) (Y T : ℕ → C) :
    evalMultipole F pref P ρ α β Y T = harmonics F pref P (fun r => r * ρ) 1 α β Y T :=
  rfl

theorem evalLocal_eq_harmonics {K C : Type} [LinearOrderedField K] [Field C]
    (F : cmath K C) (pref : ℕ → K) (P : ℕ) (ρ α β : K) (Y T : ℕ → C) :
    evalLocal F pref P ρ α β Y T =
      harmonics F pref (2 * P) (fun r => r / ρ) (1 / ρ) α β Y T :=
  rfl

/-- The entries of `evalMultipole` for `0 ≤ m ≤ n < P`. -/
theorem evalMultipole_stored (F : cmath ℝ ℂ) (hF : F.exact) (pref : ℕ → ℝ) (P : ℕ)
    (ρ α β : ℝ) (Y T : ℕ → ℂ) (m n : ℕ) (hmn : m ≤ n) (hn : n < P) :
    stored F pref (fun k => ρ ^ k) (F.cos α) (F.sin α) β
      (evalMultipole F pref P ρ α β Y T).1 (evalMultipole F pref P ρ α β Y T).2 m n := by
  rw [evalMultipole_eq_harmonics]
  have h := harmonics_stored F hF pref (fun r => r * ρ) (fun k => ρ ^ k)
    (fun k => pow_succ ρ k) α β P Y T m n hmn hn
  simpa using h

/-- The entries of `evalLocal` for `0 ≤ m ≤ n < 2 P`. -/
theorem evalLocal_stored (F : cmath ℝ ℂ) (hF : F.exact) (pref : ℕ → ℝ) (P : ℕ)
    (ρ α β : ℝ) (Y T : ℕ → ℂ) (m n : ℕ) (hmn : m ≤ n) (hn : n < 2 * P) :
    stored F pref (fun k => 1 / ρ / ρ ^ k) (F.cos α) (F.sin α) β
      (evalLocal F pref P ρ α β Y T).1 (evalLocal F pref P ρ α β Y T).2 m n := by
  rw [evalLocal_eq_harmonics]
  have h := harmonics_stored F hF pref (fun r => r / ρ) (fun k => 1 / ρ / ρ ^ k)
    (fun k => by simp only [pow_succ, div_div, mul_assoc]) α β (2 * P) Y T m n hmn hn
  simpa using h

theorem conj_inner_value (F : cmath ℝ ℂ) (hF : F.exact) (pref : ℕ → ℝ) (R : ℕ → ℝ)
    (x y β : ℝ) (m n : ℕ) :
    F.conj (inner_value F pref R x y β m n) =
      ((R n * legendre x y m (n - m) * pref (n * n + n + m) : ℝ) : ℂ)
        * Complex.exp (Complex.I * ((-(m : ℤ) : ℤ) : ℂ) * (β : ℂ)) := by
  obtain ⟨hsqrt, hcos, hsin, hacos, hatan, hpi, hof, hconj, hre, hexp, hpow, hI⟩ := hF
  unfold inner_value
  rw [hof, hconj, hexp, hI, map_mul, Complex.conj_ofReal, ← Complex.exp_conj, map_mul,
    Complex.conj_I, Complex.conj_ofReal]
  congr 2
  push_cast
  ring

theorem inner_value_exact (F : cmath ℝ ℂ) (hF : F.exact) (pref : ℕ → ℝ) (R : ℕ → ℝ)
    (x y β : ℝ) (m n : ℕ) :
    inner_value F pref R x y β m n =
      ((R n * legendre x y m (n - m) * pref (n * n + n + m) : ℝ) : ℂ)
        * Complex.exp (Complex.I * (((m : ℤ) : ℤ) : ℂ) * (β : ℂ)) := by
  obtain ⟨hsqrt, hcos, hsin, hacos, hatan, hpi, hof, hconj, hre, hexp, hpow, hI⟩ := hF
  unfold inner_value
  rw [hof, hexp, hI]
  congr 2
  push_cast
  ring

/-- The entry of an evaluator at the index of `(n, m)` with `|m| ≤ n`. -/
theorem stored_entry (F : cmath ℝ ℂ) (hF : F.exact) (pref : ℕ → ℝ) (R : ℕ → ℝ)
    (x y β : ℝ) (Y T : ℕ → ℂ) (n : ℕ) (m : ℤ) (hm : |m| ≤ n)
    (hs : stored F pref R x y β Y T m.natAbs n) :
    Y ((n : ℤ) * n + n + m).toNat =
      ((R n * legendre x y m.natAbs (n - m.natAbs) * pref (n * n + n + m.natAbs) : ℝ) : ℂ)
        * Complex.exp (Complex.I * (m : ℂ) * (β : ℂ)) := by
  obtain ⟨s1, s2, _⟩ := hs
  rcases le_or_lt 0 m with h0 | h0
  · obtain ⟨k, rfl⟩ := Int.eq_ofNat_of_zero_le h0
    have e : ((n : ℤ) * n + n + (k : ℤ)).toNat = n * n + n + k := by
      have : ((n : ℤ) * n + n + (k : ℤ)) = ((n * n + n + k : ℕ) : ℤ) := by push_cast; ring
      rw [this, Int.toNat_natCast]
    rw [e]
    simp only [Int.natAbs_ofNat] at s1 ⊢
    rw [s1, inner_value_exact F hF]
  · obtain ⟨k, rfl⟩ : ∃ k : ℕ, m = -(k : ℤ) := ⟨m.natAbs, by omega⟩
    have hk : k ≤ n := by
      have := abs_le.mp hm
      omega
    have e : ((n : ℤ) * n + n + -(k : ℤ)).toNat = n * n + n - k := by
      have h2 : k ≤ n * n + n := by nlinarith
      have : ((n : ℤ) * n + n + -(k : ℤ)) = ((n * n + n - k : ℕ) : ℤ) := by
        push_cast [h2]; ring
      rw [this, Int.toNat_natCast]
    rw [e]
    simp only [Int.natAbs_neg, Int.natAbs_ofNat] at s2 ⊢
    rw [s2, conj_inner_value F hF]

/-- The entry of `evalMultipole` at the index of `(n, m)` with `|m| ≤ n < P`, and the
entry of `(n, -m)` as its conjugate. -/
theorem evalMultipole_entry (F : cmath ℝ ℂ) (hF : F.exact) (prefactor : ℕ → ℝ)
    (P : ℕ) (ρ α β : ℝ) (Ynm YnmTheta : ℕ → ℂ) (n : ℕ) (m : ℤ) (hm : |m| ≤ n)
    (hn : n < P) :
    (evalMultipole F prefactor P ρ α β Ynm YnmTheta).1 ((n : ℤ) * n + n + m).toNat =
        ((ρ ^ n * legendre (Real.cos α) (Real.sin α) m.natAbs (n - m.natAbs)
            * prefactor (n * n + n + m.natAbs) : ℝ) : ℂ)
          * Complex.exp (Complex.I * (m : ℂ) * (β : ℂ)) ∧
      (evalMultipole F prefactor P ρ α β Ynm YnmTheta).1 ((n : ℤ) * n + n + -m).toNat =
        (starRingEnd ℂ)
          ((evalMultipole F prefactor P ρ α β Ynm YnmTheta).1 ((n : ℤ) * n + n + m).toNat) := by
  have hmn : m.natAbs ≤ n := by
    have := abs_le.mp hm
    omega
  have hs := evalMultipole_stored F hF prefactor P ρ α β Ynm YnmTheta m.natAbs n hmn hn
  have hs' : stored F prefactor (fun k => ρ ^ k) (F.cos α) (F.sin α) β
      (evalMultipole F prefactor P ρ α β Ynm YnmTheta).1
      (evalMultipole F prefactor P ρ α β Ynm YnmTheta).2 (-m).natAbs n := by
    rw [Int.natAbs_neg]; exact hs
  have h1 := stored_entry F hF prefactor (fun k => ρ ^ k) (F.cos α) (F.sin α) β _ _ n m hm hs
  have h2 := stored_entry F hF prefactor (fun k => ρ ^ k) (F.cos α) (F.sin α) β _ _ n (-m)
    (by rwa [abs_neg]) hs'
  rw [hF.2.1, hF.2.2.1] at h1 h2
  refine ⟨h1, ?_⟩
  rw [h2, h1, map_mul, Complex.conj_ofReal, ← Complex.exp_conj, Int.natAbs_neg]
  congr 2
  have hc : (starRingEnd ℂ) (m : ℂ) = (m : ℂ) := by
    rw [← Complex.ofReal_intCast, Complex.conj_ofReal]
  simp only [map_mul, Complex.conj_I, Complex.conj_ofReal, hc]
  push_cast
  ring

/-! ## The derivative of the harmonics with respect to the polar angle -/

theorem legendre_succ_succ (x y : ℝ) (m k : ℕ) :
    ((k : ℝ) + 2) * legendre x y m (k + 2) =
      (2 * ((m : ℝ) + k + 2) - 1) * x * legendre x y m (k + 1)
        - (((m : ℝ) + k + 2) + m - 1) * legendre x y m k := by
  have hk : ((k : ℝ) + 2) ≠ 0 := by positivity
  show ((k : ℝ) + 2) * (((2 * ((m + k + 2 : ℕ) : ℝ) - 1) * x * legendre x y m (k + 1)
      - (((m + k + 2 : ℕ) : ℝ) + (m : ℝ) - 1) * legendre x y m k)
      / (((m + k + 2 : ℕ) : ℝ) - (m : ℝ))) = _
  have e : (((m + k + 2 : ℕ) : ℝ) - (m : ℝ)) = (k : ℝ) + 2 := by push_cast; ring
  rw [e]
  field_simp

/-- The step of the induction: the derivative of the function of degree `m + k + 2`. -/
theorem legendre_deriv_step (x y : ℝ) (hxy : x ^ 2 + y ^ 2 = 1) (m k : ℕ)
    (a b c d D0 D1 D2 : ℝ)
    (hc : ((k : ℝ) + 2) * c = (2 * ((m : ℝ) + k + 2) - 1) * x * b
      - (((m : ℝ) + k + 2) + m - 1) * a)
    (hd : ((k : ℝ) + 3) * d = (2 * ((m : ℝ) + k + 3) - 1) * x * c
      - (((m : ℝ) + k + 3) + m - 1) * b)
    (h0 : y * D0 = ((k : ℝ) + 1) * b - ((m : ℝ) + k + 1) * x * a)
    (h1 : y * D1 = ((k : ℝ) + 2) * c - ((m : ℝ) + k + 2) * x * b)
    (hD : ((k : ℝ) + 2) * D2 = (2 * ((m : ℝ) + k + 2) - 1) * (-y * b + x * D1)
      - (((m : ℝ) + k + 2) + m - 1) * D0) :
    y * D2 = ((k : ℝ) + 3) * d - ((m : ℝ) + k + 3) * x * c := by
  have hk : ((k : ℝ) + 2) ≠ 0 := by positivity
  have key : ((k : ℝ) + 2) * (y * D2) =
      ((k : ℝ) + 2) * (((k : ℝ) + 3) * d - ((m : ℝ) + k + 3) * x * c) := by
    linear_combination y * hD + (2 * ((m : ℝ) + k + 2) - 1) * x * h1
      - (((m : ℝ) + k + 2) + m - 1) * h0 - ((k : ℝ) + 2) * hd
      + ((m : ℝ) + k + 1) * x * hc - (2 * ((m : ℝ) + k + 2) - 1) * b * hxy
  exact mul_left_cancel₀ hk key

/-- The derivative of the Legendre functions of the degrees `m + k` and `m + k + 1` with
respect to the polar angle. -/
theorem legendre_hasDerivAt (α : ℝ) (m k : ℕ) :
    ∃ D0 D1 : ℝ,
      HasDerivAt (fun a => legendre (Real.cos a) (Real.sin a) m k) D0 α ∧
      Real.sin α * D0 = ((k : ℝ) + 1) * legendre (Real.cos α) (Real.sin α) m (k + 1)
        - ((m : ℝ) + k + 1) * Real.cos α * legendre (Real.cos α) (Real.sin α) m k ∧
      HasDerivAt (fun a => legendre (Real.cos a) (Real.sin a) m (k + 1)) D1 α ∧
      Real.sin α * D1 = ((k : ℝ) + 2) * legendre (Real.cos α) (Real.sin α) m (k + 2)
        - ((m : ℝ) + k + 2) * Real.cos α * legendre (Real.cos α) (Real.sin α) m (k + 1) := by
  have hxy : Real.cos α ^ 2 + Real.sin α ^ 2 = 1 := Real.cos_sq_add_sin_sq α
  induction k with
  | zero =>
    have hcos := Real.hasDerivAt_cos α
    have hsin := Real.hasDerivAt_sin α
    have h0 : HasDerivAt (fun a => legendre (Real.cos a) (Real.sin a) m 0)
        ((-1) ^ m * ((2 * m - 1).doubleFactorial : ℝ)
          * ((m : ℝ) * Real.sin α ^ (m - 1) * Real.cos α)) α :=
      (hsin.pow m).const_mul ((-1) ^ m * ((2 * m - 1).doubleFactorial : ℝ))
    have h1 : HasDerivAt (fun a => legendre (Real.cos a) (Real.sin a) m 1)
        ((2 * (m : ℝ) + 1) * (-Real.sin α) * legendre (Real.cos α) (Real.sin α) m 0
          + (2 * (m : ℝ) + 1) * Real.cos α * ((-1) ^ m * ((2 * m - 1).doubleFactorial : ℝ)
          * ((m : ℝ) * Real.sin α ^ (m - 1) * Real.cos α))) α :=
      (hcos.const_mul (2 * (m : ℝ) + 1)).mul h0
    have hpow : Real.sin α * ((m : ℝ) * Real.sin α ^ (m - 1)) = (m : ℝ) * Real.sin α ^ m := by
      cases m with
      | zero => simp
      | succ j => simp only [Nat.add_sub_cancel]; ring
    have e1 : legendre (Real.cos α) (Real.sin α) m 1
        = (2 * (m : ℝ) + 1) * Real.cos α * legendre (Real.cos α) (Real.sin α) m 0 := rfl
    have e0 : legendre (Real.cos α) (Real.sin α) m 0
        = (-1) ^ m * ((2 * m - 1).doubleFactorial : ℝ) * Real.sin α ^ m := rfl
    have e2 := legendre_succ_succ (Real.cos α) (Real.sin α) m 0
    refine ⟨_, _, h0, ?_, h1, ?_⟩
    · rw [e1, e0]
      linear_combination ((-1) ^ m * ((2 * m - 1).doubleFactorial : ℝ) * Real.cos α) * hpow
    · rw [e1, e0] at e2
      rw [e1, e0]
      push_cast at e2 ⊢
      linear_combination ((2 * (m : ℝ) + 1) * Real.cos α ^ 2
          * ((-1) ^ m * ((2 * m - 1).doubleFactorial : ℝ))) * hpow - e2
        - ((2 * (m : ℝ) + 1) * ((-1) ^ m * ((2 * m - 1).doubleFactorial : ℝ))
          * Real.sin α ^ m) * hxy
  | succ k ih =>
    obtain ⟨D0, D1, hd0, hy0, hd1, hy1⟩ := ih
    have hcos := Real.hasDerivAt_cos α
    have h2 : HasDerivAt (fun a => legendre (Real.cos a) (Real.sin a) m (k + 2))
        (((2 * ((m + k + 2 : ℕ) : ℝ) - 1) * (-Real.sin α)
            * legendre (Real.cos α) (Real.sin α) m (k + 1)
          + (2 * ((m + k + 2 : ℕ) : ℝ) - 1) * Real.cos α * D1
          - (((m + k + 2 : ℕ) : ℝ) + (m : ℝ) - 1) * D0)
          / (((m + k + 2 : ℕ) : ℝ) - (m : ℝ))) α :=
      ((((hcos.const_mul (2 * ((m + k + 2 : ℕ) : ℝ) - 1)).mul hd1).sub
        (hd0.const_mul (((m + k + 2 : ℕ) : ℝ) + (m : ℝ) - 1))).div_const _)
    refine ⟨D1, _, hd1, ?_, h2, ?_⟩
    · push_cast
      linear_combination hy1
    · have hc := legendre_succ_succ (Real.cos α) (Real.sin α) m k
      have hd := legendre_succ_succ (Real.cos α) (Real.sin α) m (k + 1)
      have e : (((m + k + 2 : ℕ) : ℝ) - (m : ℝ)) = (k : ℝ) + 2 := by push_cast; ring
      have hk : ((k : ℝ) + 2) ≠ 0 := by positivity
      have hD : ((k : ℝ) + 2) * (((2 * ((m + k + 2 : ℕ) : ℝ) - 1) * (-Real.sin α)
            * legendre (Real.cos α) (Real.sin α) m (k + 1)
          + (2 * ((m + k + 2 : ℕ) : ℝ) - 1) * Real.cos α * D1
          - (((m + k + 2 : ℕ) : ℝ) + (m : ℝ) - 1) * D0)
          / (((m + k + 2 : ℕ) : ℝ) - (m : ℝ)))
          = (2 * ((m : ℝ) + k + 2) - 1)
              * (-Real.sin α * legendre (Real.cos α) (Real.sin α) m (k + 1)
                + Real.cos α * D1)
            - (((m : ℝ) + k + 2) + m - 1) * D0 := by
        rw [e]
        field_simp
        ring
      have := legendre_deriv_step (Real.cos α) (Real.sin α) hxy m k _ _ _
        (legendre (Real.cos α) (Real.sin α) m (k + 1 + 2)) D0 D1 _ hc
        (by push_cast at hd ⊢; linear_combination hd) hy0 hy1 hD
      push_cast at this ⊢
      linear_combination this

/-- The entry of `YnmTheta` is the derivative of the entry of `Ynm` with respect to the
polar angle, for arrays whose entries of the pair `(m, n)` are the stored values. -/
theorem stored_hasDerivAt (F : cmath ℝ ℂ) (hF : F.exact) (pref : ℕ → ℝ) (R : ℕ → ℝ)
    (β : ℝ) (m n : ℕ) (hmn : m ≤ n) (f : ℝ → (ℕ → ℂ) × (ℕ → ℂ))
    (hst : ∀ a, stored F pref R (F.cos a) (F.sin a) β (f a).1 (f a).2 m n) (α : ℝ)
    (hs : Real.sin α ≠ 0) :
    HasDerivAt (fun a => (f a).1 (n * n + n + m)) ((f α).2 (n * n + n + m)) α := by
  obtain ⟨k, rfl⟩ : ∃ k, n = m + k := ⟨n - m, by omega⟩
  obtain ⟨D0, _, hd0, hy0, _, _⟩ := legendre_hasDerivAt α m k
  have hfun : (fun a => (f a).1 ((m + k) * (m + k) + (m + k) + m)) =
      fun a => ((R (m + k) * legendre (Real.cos a) (Real.sin a) m k
        * pref ((m + k) * (m + k) + (m + k) + m) : ℝ) : ℂ) * F.exp (F.I * F.ofReal ((m : ℝ) * β)) := by
    funext a
    rw [(hst a).1]
    unfold inner_value
    rw [hF.2.1, hF.2.2.1, hF.2.2.2.2.2.2.1, Nat.add_sub_cancel_left]
  have hval : (f α).2 ((m + k) * (m + k) + (m + k) + m) =
      ((R (m + k) * D0 * pref ((m + k) * (m + k) + (m + k) + m) : ℝ) : ℂ)
        * F.exp (F.I * F.ofReal ((m : ℝ) * β)) := by
    rw [(hst α).2.2]
    unfold theta_value
    rw [hF.2.1, hF.2.2.1, hF.2.2.2.2.2.2.1, Nat.add_sub_cancel_left]
    congr 3
    have e : D0 = (((k : ℝ) + 1) * legendre (Real.cos α) (Real.sin α) m (k + 1)
        - ((m : ℝ) + k + 1) * Real.cos α * legendre (Real.cos α) (Real.sin α) m k)
        / Real.sin α := by
      rw [eq_div_iff hs, mul_comm]; exact hy0
    rw [e]
    push_cast
    ring
  rw [hfun, hval]
  exact (((hd0.const_mul (R (m + k))).mul_const _).ofReal_comp).mul_const _

/-! ## The index of an expansion coefficient -/

theorem triangle_succ (n : ℕ) : (n + 1) * (n + 1 + 1) / 2 = n * (n + 1) / 2 + (n + 1) := by
  have e : (n + 1) * (n + 1 + 1) = n * (n + 1) + 2 * (n + 1) := by ring
  rw [e, Nat.add_mul_div_left _ _ (by norm_num : 0 < 2)]

theorem triangle_mono (n n' : ℕ) (h : n < n') :
    n * (n + 1) / 2 + n + 1 ≤ n' * (n' + 1) / 2 := by
  induction n' with
  | zero => omega
  | succ k ih =>
    rw [triangle_succ]
    rcases Nat.lt_succ_iff_lt_or_eq.mp h with h1 | h1
    · have := ih h1; omega
    · subst h1; omega

theorem triangle_index_lt (P n m : ℕ) (hm : m ≤ n) (hn : n < P) :
    n * (n + 1) / 2 + m < P * (P + 1) / 2 := by
  have := triangle_mono n P hn
  omega

theorem triangle_index_inj (n m n' m' : ℕ) (hm : m ≤ n) (hm' : m' ≤ n')
    (h : n * (n + 1) / 2 + m = n' * (n' + 1) / 2 + m') : n = n' ∧ m = m' := by
  rcases lt_trichotomy n n' with h1 | h1 | h1
  · have := triangle_mono n n' h1; omega
  · subst h1; exact ⟨rfl, by omega⟩
  · have := triangle_mono n' n h1; omega

theorem triangle_index_surj (P i : ℕ) (h : i < P * (P + 1) / 2) :
    ∃ n m, m ≤ n ∧ n < P ∧ n * (n + 1) / 2 + m = i := by
  induction P with
  | zero => simp at h
  | succ k ih =>
    rw [triangle_succ] at h
    by_cases hi : i < k * (k + 1) / 2
    · obtain ⟨n, m, h1, h2, h3⟩ := ih hi
      exact ⟨n, m, h1, by omega, h3⟩
    · exact ⟨k, i - k * (k + 1) / 2, by omega, by omega, by omega⟩

/-! ## Loops that add -/

/-- A loop whose pass `i` adds `d i` to a value adds the sum of the `d i`. -/
theorem for_range_sum {A : Type} [AddCommMonoid A] (lo hi : ℕ) (h : lo ≤ hi)
    (body : ℕ → A → A) (d : ℕ → A) (hb : ∀ i a, body i a = a + d i) (a : A) :
    for_range lo hi body a = a + ∑ i ∈ Finset.Ico lo hi, d i := by
  induction hi with
  | zero =>
    have : lo = 0 := by omega
    subst this
    rw [for_range_empty _ _ le_rfl]
    simp
  | succ k ih =>
    by_cases hlo : lo = k + 1
    · subst hlo
      rw [for_range_empty _ _ le_rfl]
      simp
    · have hle : lo ≤ k := by omega
      rw [for_range_succ _ _ hle, hb, ih hle, Finset.sum_Ico_succ_top hle, add_assoc]

/-- A loop over integers whose pass `i` adds `d i` to a value adds the sum of the
`d i`. -/
theorem for_int_sum {A : Type} [AddCommMonoid A] (lo hi : ℤ)
    (body : ℤ → A → A) (d : ℤ → A) (hb : ∀ i a, body i a = a + d i) (a : A) :
    for_int lo hi body a = a + ∑ i ∈ Finset.Icc lo hi, d i := by
  rcases lt_or_le hi lo with h | h
  · rw [for_int_empty _ _ h, Finset.Icc_eq_empty (by omega)]
    simp
  · obtain ⟨c, rfl⟩ : ∃ c : ℕ, hi = lo + c := ⟨(hi - lo).toNat, by omega⟩
    induction c with
    | zero =>
      have e : lo + ((0 : ℕ) : ℤ) = (lo - 1) + 1 := by push_cast; ring
      rw [e, for_int_succ _ _ (by omega), for_int_empty _ _ (by omega), hb]
      simp
    | succ c ih =>
      have e : lo + ((c + 1 : ℕ) : ℤ) = (lo + c) + 1 := by push_cast; ring
      rw [e, for_int_succ _ _ (by omega), hb, ih (by omega)]
      have hI : Finset.Icc lo (lo + (c : ℤ) + 1) =
          insert (lo + (c : ℤ) + 1) (Finset.Icc lo (lo + (c : ℤ))) := by
        ext t
        simp only [Finset.mem_Icc, Finset.mem_insert]
        omega
      rw [hI, Finset.sum_insert (by simp), add_assoc, add_comm (d _)]

/-- A loop whose pass `i` adds `d i j` to the element `j` of an array, for every `j`,
adds the sums. -/
theorem for_range_array_sum {A : Type} [AddCommMonoid A] (lo hi : ℕ) (h : lo ≤ hi)
    (body : ℕ → (ℕ → A) → (ℕ → A)) (d : ℕ → ℕ → A)
    (hb : ∀ i M j, body i M j = M j + d i j) (M : ℕ → A) (j : ℕ) :
    for_range lo hi body M j = M j + ∑ i ∈ Finset.Ico lo hi, d i j := by
  induction hi with
  | zero =>
    have : lo = 0 := by omega
    subst this
    rw [for_range_empty _ _ le_rfl]
    simp
  | succ k ih =>
    by_cases hlo : lo = k + 1
    · subst hlo
      rw [for_range_empty _ _ le_rfl]
      simp
    · have hle : lo ≤ k := by omega
      rw [for_range_succ _ _ hle, hb, ih hle, Finset.sum_Ico_succ_top hle, add_assoc]

/-- The assignment `M[g] += v` adds `v` to the element `g` and nothing elsewhere. -/
theorem update_add_apply {A : Type} [AddCommMonoid A] (M : ℕ → A) (g : ℕ) (v : A)
    (j : ℕ) : Function.update M g (M g + v) j = M j + if g = j then v else 0 := by
  by_cases h : g = j
  · subst h; simp
  · rw [Function.update_noteq (Ne.symm h), if_neg h, add_zero]

/-- The two loops over the coefficients `(n, m)`, `0 ≤ m ≤ n < P`, with the assignment
`M[n(n+1)/2+m] += f n m`. -/
theorem triangle_loops (P : ℕ) {A : Type} [AddCommMonoid A] (f : ℕ → ℕ → A)
    (M : ℕ → A) :
    (∀ n m, m ≤ n → n < P →
      for_range 0 P (fun n M => for_range 0 (n + 1) (fun m M =>
        Function.update M (n * (n + 1) / 2 + m) (M (n * (n + 1) / 2 + m) + f n m)) M) M
        (n * (n + 1) / 2 + m) = M (n * (n + 1) / 2 + m) + f n m) ∧
    (∀ i, P * (P + 1) / 2 ≤ i →
      for_range 0 P (fun n M => for_range 0 (n + 1) (fun m M =>
        Function.update M (n * (n + 1) / 2 + m) (M (n * (n + 1) / 2 + m) + f n m)) M) M
        i = M i) := by
  have hsum : ∀ j, for_range 0 P (fun n M => for_range 0 (n + 1) (fun m M =>
        Function.update M (n * (n + 1) / 2 + m) (M (n * (n + 1) / 2 + m) + f n m)) M) M j
      = M j + ∑ n ∈ Finset.Ico 0 P, ∑ m ∈ Finset.Ico 0 (n + 1),
          if n * (n + 1) / 2 + m = j then f n m else 0 := by
    intro j
    refine for_range_array_sum 0 P (Nat.zero_le _) _
      (fun n j => ∑ m ∈ Finset.Ico 0 (n + 1),
          if n * (n + 1) / 2 + m = j then f n m else 0) ?_ M j
    intro n M' j'
    exact for_range_array_sum 0 (n + 1) (Nat.zero_le _) _
      (fun m j => if n * (n + 1) / 2 + m = j then f n m else 0)
      (fun m M'' j'' => update_add_apply M'' _ _ j'') M' j'
  constructor
  · intro n m hm hn
    rw [hsum]
    congr 1
    rw [Finset.sum_eq_single n, Finset.sum_eq_single m]
    · simp
    · intro m' hm' hne
      rw [if_neg]
      intro h
      exact hne (triangle_index_inj n m' n m (by simp at hm'; omega) hm h).2
    · intro h; simp at h; omega
    · intro n' hn' hne
      apply Finset.sum_eq_zero
      intro m' hm'
      rw [if_neg]
      intro h
      exact hne (triangle_index_inj n' m' n m (by simp at hm'; omega) hm h).1
    · intro h; simp at h; omega
  · intro i hi
    rw [hsum]
    have : ∑ n ∈ Finset.Ico 0 P, ∑ m ∈ Finset.Ico 0 (n + 1),
        (if n * (n + 1) / 2 + m = i then f n m else 0) = 0 := by
      apply Finset.sum_eq_zero
      intro n hn
      apply Finset.sum_eq_zero
      intro m hm
      rw [if_neg]
      intro h
      simp at hn hm
      have := triangle_index_lt P n m (by omega) hn
      omega
    rw [this, add_zero]

/-! ## The kernel `P2M` -/

/-- The entries of `evalMultipole` do not depend on the content of the arrays before the
call. -/
theorem evalMultipole_fresh (F : cmath ℝ ℂ) (hF : F.exact) (pref : ℕ → ℝ) (P : ℕ)
    (ρ α β : ℝ) (Y T Y' T' : ℕ → ℂ) (m n : ℕ) (hmn : m ≤ n) (hn : n < P) :
    (evalMultipole F pref P ρ α β Y T).1 (n * n + n + m) =
      (evalMultipole F pref P ρ α β Y' T').1 (n * n + n + m) := by
  rw [(evalMultipole_stored F hF pref P ρ α β Y T m n hmn hn).1,
    (evalMultipole_stored F hF pref P ρ α β Y' T' m n hmn hn).1]

/-- The harmonic of a body `B` about the center `X` that `P2M` adds with the weight of
the body. -/
theorem P2M_body_M (F : cmath ℝ ℂ) (hF : F.exact) (EPS : ℝ) (pref : ℕ → ℝ) (P : ℕ)
    (Cj : Cell ℝ ℂ) (s : P2M_state ℝ ℂ) (B : Body ℝ) :
    (∀ n m, m ≤ n → n < P →
      (P2M_body F EPS pref P Cj s B).M (n * (n + 1) / 2 + m) =
        s.M (n * (n + 1) / 2 + m) + (B.SRC : ℂ) *
          (evalMultipole F pref P (cart2sph F EPS (B.X.sub Cj.X)).1
            (cart2sph F EPS (B.X.sub Cj.X)).2.1 (-(cart2sph F EPS (B.X.sub Cj.X)).2.2)
            (fun _ => 0) (fun _ => 0)).1 (n * n + n + m)) ∧
    (∀ i, P * (P + 1) / 2 ≤ i → (P2M_body F EPS pref P Cj s B).M i = s.M i) := by
  have h := triangle_loops P (fun n m => F.ofReal B.SRC *
    (evalMultipole F pref P (cart2sph F EPS (B.X.sub Cj.X)).1
      (cart2sph F EPS (B.X.sub Cj.X)).2.1 (-(cart2sph F EPS (B.X.sub Cj.X)).2.2)
      s.Ynm s.YnmTheta).1 (n * n + n + m)) s.M
  constructor
  · intro n m hm hn
    refine (h.1 n m hm hn).trans ?_
    rw [evalMultipole_fresh F hF pref P _ _ _ s.Ynm s.YnmTheta (fun _ => 0) (fun _ => 0)
      m n hm hn, hF.2.2.2.2.2.2.1]
  · exact h.2

theorem P2M_fold_M (F : cmath ℝ ℂ) (hF : F.exact) (EPS : ℝ) (pref : ℕ → ℝ) (P : ℕ)
    (Cj : Cell ℝ ℂ) (bodies : List (Body ℝ)) (s : P2M_state ℝ ℂ) :
    (∀ n m, m ≤ n → n < P →
      (bodies.foldl (P2M_body F EPS pref P Cj) s).M (n * (n + 1) / 2 + m) =
        s.M (n * (n + 1) / 2 + m) + (bodies.map (fun B => (B.SRC : ℂ) *
          (evalMultipole F pref P (cart2sph F EPS (B.X.sub Cj.X)).1
            (cart2sph F EPS (B.X.sub Cj.X)).2.1 (-(cart2sph F EPS (B.X.sub Cj.X)).2.2)
            (fun _ => 0) (fun _ => 0)).1 (n * n + n + m))).sum) ∧
    (∀ i, P * (P + 1) / 2 ≤ i → (bodies.foldl (P2M_body F EPS pref P Cj) s).M i = s.M i) := by
  induction bodies generalizing s with
  | nil => simp
  | cons B rest ih =>
    obtain ⟨h1, h2⟩ := P2M_body_M F hF EPS pref P Cj s B
    obtain ⟨i1, i2⟩ := ih (P2M_body F EPS pref P Cj s B)
    constructor
    · intro n m hm hn
      rw [List.foldl_cons, i1 n m hm hn, h1 n m hm hn, List.map_cons, List.sum_cons,
        add_assoc]
    · intro i hi
      rw [List.foldl_cons, i2 i hi, h2 i hi]

/-! ## The coefficient tables -/

theorem nm_index_natCast (n m : ℕ) : nm_index n (m : ℤ) = n * n + n + m := by
  unfold nm_index
  have : ((n : ℤ) * n + n + (m : ℤ)) = ((n * n + n + m : ℕ) : ℤ) := by push_cast; ring
  rw [this, Int.toNat_natCast]

theorem nm_index_cast (n : ℕ) (m : ℤ) (hm : |m| ≤ n) :
    ((nm_index n m : ℕ) : ℤ) = (n : ℤ) * n + n + m := by
  unfold nm_index
  have h := abs_le.mp hm
  have h2 : (0 : ℤ) ≤ (n : ℤ) * n := mul_nonneg (by omega) (by omega)
  omega

theorem nm_index_bounds (n : ℕ) (m : ℤ) (hm : |m| ≤ n) :
    n * n ≤ nm_index n m ∧ nm_index n m ≤ n * n + 2 * n := by
  have h := nm_index_cast n m hm
  have h1 := abs_le.mp hm
  constructor
  · have : ((n * n : ℕ) : ℤ) ≤ nm_index n m := by push_cast; omega
    exact_mod_cast this
  · have : ((nm_index n m : ℕ) : ℤ) ≤ ((n * n + 2 * n : ℕ) : ℤ) := by push_cast; omega
    exact_mod_cast this

theorem nm_index_lt (N n : ℕ) (m : ℤ) (hm : |m| ≤ n) (hn : n < N) :
    nm_index n m < N * N := by
  have h := (nm_index_bounds n m hm).2
  have : n * n + 2 * n + 1 ≤ N * N := by nlinarith
  omega

theorem nm_index_inj (n : ℕ) (m : ℤ) (n' : ℕ) (m' : ℤ) (hm : |m| ≤ n) (hm' : |m'| ≤ n')
    (h : nm_index n m = nm_index n' m') : n = n' ∧ m = m' := by
  have b := nm_index_bounds n m hm
  have b' := nm_index_bounds n' m' hm'
  have c := nm_index_cast n m hm
  have c' := nm_index_cast n' m' hm'
  rcases lt_trichotomy n n' with h1 | h1 | h1
  · have : n * n + 2 * n + 1 ≤ n' * n' := by nlinarith
    omega
  · subst h1
    refine ⟨rfl, ?_⟩
    rw [h] at c
    omega
  · have : n' * n' + 2 * n' + 1 ≤ n * n := by nlinarith
    omega

/-- The index of a pair that comes before another pair in the order of the loops is
smaller. -/
theorem nm_index_before (n : ℕ) (m : ℤ) (n' : ℕ) (m' : ℤ) (hm' : |m'| ≤ n')
    (hlo : -(n : ℤ) ≤ m) (hb : n' < n ∨ (n' = n ∧ m' < m)) :
    ((nm_index n' m' : ℕ) : ℤ) < (n : ℤ) * n + n + m := by
  have c' := nm_index_cast n' m' hm'
  have h' := abs_le.mp hm'
  rcases hb with h1 | ⟨h1, h2⟩
  · have : ((n' : ℤ) * n' + 2 * n' + 1) ≤ (n : ℤ) * n := by
      have : n' * n' + 2 * n' + 1 ≤ n * n := by nlinarith
      exact_mod_cast this
    omega
  · subst h1
    omega

/-- The two loops over the pairs `(n, m)`, `-n ≤ m ≤ n`, `n < N`, whose pass writes the
value `v n m` to the element `n*n+n+m` of an array of the state. -/
theorem fill_loops {σ A : Type} (N : ℕ) (v : ℕ → ℤ → A) (body : ℕ → ℤ → σ → σ)
    (get : σ → ℕ → A)
    (hbody : ∀ n m s i, get (body n m s) i = if i = nm_index n m then v n m else get s i)
    (s0 : σ) (n : ℕ) (m : ℤ) (hm : |m| ≤ n) (hn : n < N) :
    get (for_range 0 N (fun n s => for_int (-(n : ℤ)) n (body n) s) s0) (nm_index n m)
      = v n m := by
  have houter := for_range_induction
    (fun n s => ∀ (n' : ℕ) (m' : ℤ), |m'| ≤ (n' : ℤ) → n' < n →
      get s (nm_index n' m') = v n' m')
    0 N (Nat.zero_le _) (fun n s => for_int (-(n : ℤ)) n (body n) s) s0
    (by intro n' m' _ h; omega)
    (by
      intro n s _ hnN hs
      have hinner := for_int_induction
        (fun m s => ∀ (n' : ℕ) (m' : ℤ), |m'| ≤ (n' : ℤ) → (n' < n ∨ (n' = n ∧ m' < m)) →
          get s (nm_index n' m') = v n' m')
        (-(n : ℤ)) (2 * n + 1) (body n) s
        (by
          intro n' m' hm' hc
          rcases hc with hc | ⟨rfl, hc⟩
          · exact hs n' m' hm' hc
          · have := abs_le.mp hm'; omega)
        (by
          intro i t h1 h2 ht n' m' hm' hc
          rw [hbody]
          have habs : |i| ≤ (n : ℤ) := abs_le.mpr ⟨h1, by push_cast at h2; omega⟩
          by_cases heq : nm_index n' m' = nm_index n i
          · obtain ⟨rfl, rfl⟩ := nm_index_inj n' m' n i hm' habs heq
            rw [if_pos rfl]
          · rw [if_neg heq]
            apply ht n' m' hm'
            rcases hc with hc | ⟨rfl, hc⟩
            · exact Or.inl hc
            · refine Or.inr ⟨rfl, ?_⟩
              have : m' ≠ i := fun e => heq (by rw [e])
              omega)
      have e1 : -(n : ℤ) + ((2 * n + 1 : ℕ) : ℤ) - 1 = n := by push_cast; ring
      rw [e1] at hinner
      intro n' m' hm' hlt
      apply hinner n' m' hm'
      rcases Nat.lt_succ_iff_lt_or_eq.mp hlt with h | h
      · exact Or.inl h
      · refine Or.inr ⟨h, ?_⟩
        subst h
        have := abs_le.mp hm'
        push_cast
        omega)
  exact houter n m hm hn

theorem factorial_loop_eq (f : ℝ) (hi : ℤ) :
    factorial_loop f hi = f * (hi.toNat.factorial : ℝ) := by
  unfold factorial_loop
  rcases lt_or_le hi 1 with h | h
  · rw [for_int_empty _ _ h]
    have : hi.toNat = 0 := by omega
    rw [this]; simp
  · obtain ⟨c, rfl⟩ : ∃ c : ℕ, hi = 1 + c := ⟨(hi - 1).toNat, by omega⟩
    induction c with
    | zero =>
      have e : (1 : ℤ) + ((0 : ℕ) : ℤ) = 0 + 1 := by norm_num
      rw [e, for_int_succ _ _ (by omega), for_int_empty _ _ (by omega)]
      simp
    | succ c ih =>
      have e : (1 : ℤ) + ((c + 1 : ℕ) : ℤ) = (1 + c) + 1 := by push_cast; ring
      rw [e, for_int_succ _ _ (by omega), ih (by omega)]
      have t1 : ((1 : ℤ) + (c : ℤ) + 1).toNat = (c + 1) + 1 := by omega
      have t2 : ((1 : ℤ) + (c : ℤ)).toNat = c + 1 := by omega
      rw [t1, t2, Nat.factorial_succ (c + 1)]
      push_cast
      ring

theorem ODDEVEN_natCast (n : ℕ) : ((ODDEVEN (n : ℤ) : ℤ) : ℝ) = (-1) ^ n := by
  unfold ODDEVEN
  rcases Nat.even_or_odd n with h | h
  · have : (n : ℤ) % 2 ≠ 1 := by
      have := Nat.even_iff.mp h; omega
    rw [if_neg this, h.neg_one_pow]; simp
  · have : (n : ℤ) % 2 = 1 := by
      have := Nat.odd_iff.mp h; omega
    rw [if_pos this, h.neg_one_pow]; simp

/-- There are tables for every order `P ≥ 1`. -/
theorem preCalculation_some {K C : Type} [LinearOrderedField K] [Field C] (F : cmath K C)
    (EPS : K) (P : ℕ) (hP : 1 ≤ P) (raw : tables K C) :
    ∃ T, preCalculation F EPS P raw = some T := by
  unfold preCalculation
  rw [if_neg (by omega)]
  exact ⟨_, rfl⟩

/-- The arrays of the tables as the results of the loops. -/
theorem preCalculation_arrays {K C : Type} [LinearOrderedField K] [Field C]
    (F : cmath K C) (EPS : K) (P : ℕ) (raw T : tables K C)
    (h : preCalculation F EPS P raw = some T) :
    T.prefactor = (for_range 0 (2 * P) (fun n s =>
        for_int (-(n : Int)) n (preCalculation_nm F EPS n) s) (raw.prefactor, raw.Anm)).1 ∧
    T.Anm = (for_range 0 (2 * P) (fun n s =>
        for_int (-(n : Int)) n (preCalculation_nm F EPS n) s) (raw.prefactor, raw.Anm)).2 ∧
    T.Cnm = (for_range 0 P (fun j s =>
        for_int (-(j : Int)) j (preCalculation_jk F EPS P T.Anm j) s) ⟨raw.Cnm, 0, 0⟩).Cnm := by
  unfold preCalculation at h
  by_cases hP : P = 0
  · rw [if_pos hP] at h; exact absurd h (by simp)
  · rw [if_neg hP] at h
    have h' := Option.some.inj h
    subst h'
    exact ⟨rfl, rfl, rfl⟩

/-- The entries of `Anm` and `prefactor` as the code computes them. -/
theorem preCalculation_Anm_loop {K C : Type} [LinearOrderedField K] [Field C]
    (F : cmath K C) (EPS : K) (P : ℕ) (raw T : tables K C)
    (h : preCalculation F EPS P raw = some T) (n : ℕ) (m : ℤ) (hm : |m| ≤ n)
    (hn : n < 2 * P) :
    T.Anm (nm_index n m) = ((ODDEVEN n : ℤ) : K)
        / F.sqrt (factorial_loop EPS (n - m) * factorial_loop EPS (n + m)) ∧
    T.prefactor (nm_index n m) =
      F.sqrt (factorial_loop 1 (n - |m|) / factorial_loop 1 (n + |m|)) := by
  obtain ⟨h1, h2, _⟩ := preCalculation_arrays F EPS P raw T h
  rw [h1, h2]
  constructor
  · exact fill_loops (2 * P) (fun n m => ((ODDEVEN n : ℤ) : K)
        / F.sqrt (factorial_loop EPS (n - m) * factorial_loop EPS (n + m)))
      (preCalculation_nm F EPS) Prod.snd
      (by
        intro n m s i
        show Function.update s.2 (nm_index n m) _ i = _
        rw [Function.update_apply])
      _ n m hm hn
  · exact fill_loops (2 * P) (fun n m =>
        F.sqrt (factorial_loop 1 (n - |m|) / factorial_loop 1 (n + |m|)))
      (preCalculation_nm F EPS) Prod.fst
      (by
        intro n m s i
        show Function.update s.1 (nm_index n m) _ i = _
        rw [Function.update_apply])
      _ n m hm hn

/-- The entries of `Anm` for `EPS > 0`. -/
theorem preCalculation_Anm (F : cmath ℝ ℂ) (hF : F.exact) (EPS : ℝ) (hE : 0 < EPS)
    (P : ℕ) (raw T : tables ℝ ℂ) (h : preCalculation F EPS P raw = some T)
    (n : ℕ) (m : ℤ) (hm : |m| ≤ n) (hn : n < 2 * P) :
    T.Anm (nm_index n m) = a_nm Real.sqrt n m / EPS := by
  rw [(preCalculation_Anm_loop F EPS P raw T h n m hm hn).1, factorial_loop_eq,
    factorial_loop_eq, ODDEVEN_natCast, hF.1]
  unfold a_nm
  have e : EPS * ((((n : ℤ) - m).toNat.factorial : ℕ) : ℝ)
      * (EPS * ((((n : ℤ) + m).toNat.factorial : ℕ) : ℝ))
      = (EPS * EPS) * (((((n : ℤ) - m).toNat.factorial : ℕ) : ℝ)
        * ((((n : ℤ) + m).toNat.factorial : ℕ) : ℝ)) := by ring
  rw [e, Real.sqrt_mul (mul_self_nonneg EPS), Real.sqrt_mul_self hE.le, div_div,
    mul_comm EPS]

theorem a_nm_ne_zero (n : ℕ) (m : ℤ) : a_nm Real.sqrt n m ≠ 0 := by
  unfold a_nm
  apply div_ne_zero
  · exact pow_ne_zero _ (by norm_num)
  · apply ne_of_gt
    apply Real.sqrt_pos.mpr
    exact mul_pos (by exact_mod_cast Nat.factorial_pos _) (by exact_mod_cast Nat.factorial_pos _)

/-- The value of the innermost pass of the loops that fill `Cnm`, for the value `jk` of
the counter of the pairs `(j, k)`. -/
theorem preCalculation_jknm_apply {K C : Type} [LinearOrderedField K] [Field C]
    (F : cmath K C) (EPS : K) (Anm : ℕ → K) (j : ℕ) (k : ℤ) (n : ℕ) (m : ℤ)
    (s : Cnm_nm C) (hnm : s.nm = nm_index n m) :
    preCalculation_jknm F EPS Anm j k (nm_index j k) n m s =
      ⟨Function.update s.Cnm s.jknm (Cnm_entry F EPS Anm j k n m), s.nm + 1, s.jknm + 1⟩ := by
  unfold preCalculation_jknm Cnm_entry
  rw [hnm]
  have e : (((j : ℤ) + n) * (j + n) + j + n + m - k).toNat = nm_index (j + n) (m - k) := by
    unfold nm_index
    congr 1
    push_cast
    ring
  rw [e]

/-- The loops over `n` and `m` that fill `Cnm` for one pair `(j, k)`, started with the
counter `jknm = b`. -/
theorem Cnm_nm_loops {K C : Type} [LinearOrderedField K] [Field C] (F : cmath K C)
    (EPS : K) (Anm : ℕ → K) (P : ℕ) (j : ℕ) (k : ℤ) (Cnm0 : ℕ → C) (b : ℕ) :
    (for_range 0 P (fun n t =>
        for_int (-(n : ℤ)) n (preCalculation_jknm F EPS Anm j k (nm_index j k) n) t)
        ⟨Cnm0, 0, b⟩).jknm = b + P * P ∧
    (∀ i < b, (for_range 0 P (fun n t =>
        for_int (-(n : ℤ)) n (preCalculation_jknm F EPS Anm j k (nm_index j k) n) t)
        ⟨Cnm0, 0, b⟩).Cnm i = Cnm0 i) ∧
    (∀ (n : ℕ) (m : ℤ), |m| ≤ n → n < P → (for_range 0 P (fun n t =>
        for_int (-(n : ℤ)) n (preCalculation_jknm F EPS Anm j k (nm_index j k) n) t)
        ⟨Cnm0, 0, b⟩).Cnm (b + nm_index n m) = Cnm_entry F EPS Anm j k n m) := by
  have houter := for_range_induction
    (fun n (s : Cnm_nm C) => s.nm = n * n ∧ s.jknm = b + n * n ∧
      (∀ i < b, s.Cnm i = Cnm0 i) ∧
      ∀ (n' : ℕ) (m' : ℤ), |m'| ≤ (n' : ℤ) → n' < n →
        s.Cnm (b + nm_index n' m') = Cnm_entry F EPS Anm j k n' m')
    0 P (Nat.zero_le _) (fun n t =>
        for_int (-(n : ℤ)) n (preCalculation_jknm F EPS Anm j k (nm_index j k) n) t)
    ⟨Cnm0, 0, b⟩
    (by
      refine ⟨by simp, by simp, fun i _ => rfl, ?_⟩
      intro n' m' _ h; omega)
    (by
      intro n s _ hnP ⟨hs1, hs2, hs3, hs4⟩
      have hinner := for_int_induction
        (fun m (s : Cnm_nm C) => ((s.nm : ℕ) : ℤ) = (n : ℤ) * n + n + m ∧
          ((s.jknm : ℕ) : ℤ) = (b : ℤ) + ((n : ℤ) * n + n + m) ∧
          (∀ i < b, s.Cnm i = Cnm0 i) ∧
          ∀ (n' : ℕ) (m' : ℤ), |m'| ≤ (n' : ℤ) → (n' < n ∨ (n' = n ∧ m' < m)) →
            s.Cnm (b + nm_index n' m') = Cnm_entry F EPS Anm j k n' m')
        (-(n : ℤ)) (2 * n + 1) (preCalculation_jknm F EPS Anm j k (nm_index j k) n) s
        (by
          refine ⟨by rw [hs1]; push_cast; ring, by rw [hs2]; push_cast; ring, hs3, ?_⟩
          intro n' m' hm' hc
          rcases hc with hc | ⟨rfl, hc⟩
          · exact hs4 n' m' hm' hc
          · have := abs_le.mp hm'; omega)
        (by
          intro i t h1 h2 ⟨ht1, ht2, ht3, ht4⟩
          have habs : |i| ≤ (n : ℤ) := abs_le.mpr ⟨h1, by push_cast at h2; omega⟩
          have hc := nm_index_cast n i habs
          have hnm : t.nm = nm_index n i := by omega
          have hjk : t.jknm = b + nm_index n i := by omega
          rw [preCalculation_jknm_apply F EPS Anm j k n i t hnm]
          refine ⟨?_, ?_, ?_, ?_⟩
          · show (((t.nm + 1 : ℕ)) : ℤ) = _
            push_cast; omega
          · show (((t.jknm + 1 : ℕ)) : ℤ) = _
            push_cast; omega
          · intro i' hi'
            show Function.update t.Cnm t.jknm _ i' = _
            rw [Function.update_noteq (by omega)]
            exact ht3 i' hi'
          · intro n' m' hm' hcase
            show Function.update t.Cnm t.jknm _ (b + nm_index n' m') = _
            by_cases heq : n' = n ∧ m' = i
            · obtain ⟨rfl, rfl⟩ := heq
              rw [hjk, Function.update_same]
            · have hne : nm_index n' m' ≠ nm_index n i := fun e =>
                heq (nm_index_inj n' m' n i hm' habs e)
              rw [Function.update_noteq (by omega)]
              apply ht4 n' m' hm'
              rcases hcase with hc' | ⟨rfl, hc'⟩
              · exact Or.inl hc'
              · refine Or.inr ⟨rfl, ?_⟩
                have : m' ≠ i := fun e => heq ⟨rfl, e⟩
                omega)
      have e1 : -(n : ℤ) + ((2 * n + 1 : ℕ) : ℤ) - 1 = n := by push_cast; ring
      have e2 : -(n : ℤ) + ((2 * n + 1 : ℕ) : ℤ) = n + 1 := by push_cast; ring
      rw [e1, e2] at hinner
      obtain ⟨hi1, hi2, hi3, hi4⟩ := hinner
      refine ⟨?_, ?_, hi3, ?_⟩
      · beta_reduce
        apply Nat.cast_injective (R := ℤ)
        rw [hi1]; push_cast; ring
      · beta_reduce
        apply Nat.cast_injective (R := ℤ)
        rw [hi2]; push_cast; ring
      · intro n' m' hm' hlt
        apply hi4 n' m' hm'
        rcases Nat.lt_succ_iff_lt_or_eq.mp hlt with h | h
        · exact Or.inl h
        · refine Or.inr ⟨h, ?_⟩
          subst h
          have := abs_le.mp hm'
          omega)
  obtain ⟨_, h2, h3, h4⟩ := houter
  exact ⟨h2, h3, h4⟩

/-- The loops over `j` and `k` that fill `Cnm`: the element with the index
`(j*j+j+k) * P*P + (n*n+n+m)` holds the value of the pass for `(j, k, n, m)`. -/
theorem Cnm_jk_loops {K C : Type} [LinearOrderedField K] [Field C] (F : cmath K C)
    (EPS : K) (Anm : ℕ → K) (P : ℕ) (Cnm0 : ℕ → C)
    (j : ℕ) (k : ℤ) (n : ℕ) (m : ℤ) (hk : |k| ≤ j) (hj : j < P) (hm : |m| ≤ n)
    (hn : n < P) :
    (for_range 0 P (fun j s =>
        for_int (-(j : ℤ)) j (preCalculation_jk F EPS P Anm j) s) ⟨Cnm0, 0, 0⟩).Cnm
      (nm_index j k * (P * P) + nm_index n m) = Cnm_entry F EPS Anm j k n m := by
  have houter := for_range_induction
    (fun j (s : Cnm_jk C) => s.jk = j * j ∧ s.jknm = j * j * (P * P) ∧
      ∀ (j' : ℕ) (k' : ℤ) (n : ℕ) (m : ℤ), |k'| ≤ (j' : ℤ) → |m| ≤ (n : ℤ) → n < P → j' < j →
        s.Cnm (nm_index j' k' * (P * P) + nm_index n m) = Cnm_entry F EPS Anm j' k' n m)
    0 P (Nat.zero_le _) (fun j s =>
        for_int (-(j : ℤ)) j (preCalculation_jk F EPS P Anm j) s) ⟨Cnm0, 0, 0⟩
    (by
      refine ⟨by simp, by simp, ?_⟩
      intro j' k' n m _ _ _ h; omega)
    (by
      intro j s _ hjP ⟨hs1, hs2, hs3⟩
      have hinner := for_int_induction
        (fun k (s : Cnm_jk C) => ((s.jk : ℕ) : ℤ) = (j : ℤ) * j + j + k ∧
          ((s.jknm : ℕ) : ℤ) = ((j : ℤ) * j + j + k) * ((P : ℤ) * P) ∧
          ∀ (j' : ℕ) (k' : ℤ) (n : ℕ) (m : ℤ), |k'| ≤ (j' : ℤ) → |m| ≤ (n : ℤ) → n < P →
            (j' < j ∨ (j' = j ∧ k' < k)) →
            s.Cnm (nm_index j' k' * (P * P) + nm_index n m) = Cnm_entry F EPS Anm j' k' n m)
        (-(j : ℤ)) (2 * j + 1) (preCalculation_jk F EPS P Anm j) s
        (by
          refine ⟨by rw [hs1]; push_cast; ring, by rw [hs2]; push_cast; ring, ?_⟩
          intro j' k' n m hk' hm' hn' hc
          rcases hc with hc | ⟨rfl, hc⟩
          · exact hs3 j' k' n m hk' hm' hn' hc
          · have := abs_le.mp hk'; omega)
        (by
          intro i t h1 h2 ⟨ht1, ht2, ht3⟩
          have habs : |i| ≤ (j : ℤ) := abs_le.mpr ⟨h1, by push_cast at h2; omega⟩
          have hc := nm_index_cast j i habs
          have hjk : t.jk = nm_index j i := by omega
          have hb : t.jknm = nm_index j i * (P * P) := by
            apply Nat.cast_injective (R := ℤ)
            rw [ht2]; push_cast; rw [hc]
          obtain ⟨l1, l2, l3⟩ := Cnm_nm_loops F EPS Anm P j i t.Cnm t.jknm
          have hstep : preCalculation_jk F EPS P Anm j i t =
              ⟨(for_range 0 P (fun n t' => for_int (-(n : ℤ)) n
                  (preCalculation_jknm F EPS Anm j i (nm_index j i) n) t')
                  ⟨t.Cnm, 0, t.jknm⟩).Cnm, nm_index j i + 1,
               (for_range 0 P (fun n t' => for_int (-(n : ℤ)) n
                  (preCalculation_jknm F EPS Anm j i (nm_index j i) n) t')
                  ⟨t.Cnm, 0, t.jknm⟩).jknm⟩ := by
            unfold preCalculation_jk
            rw [hjk]
          rw [hstep]
          dsimp only
          refine ⟨?_, ?_, ?_⟩
          · push_cast; omega
          · rw [l1, hb]; push_cast; rw [hc]; ring
          · intro j' k' n m hk' hm' hn' hcase
            by_cases heq : j' = j ∧ k' = i
            · obtain ⟨rfl, rfl⟩ := heq
              rw [← hb]
              exact l3 n m hm' hn'
            · have hlt : nm_index j' k' < nm_index j i := by
                have := nm_index_before j i j' k' hk' h1 (by
                  rcases hcase with hc' | ⟨rfl, hc'⟩
                  · exact Or.inl hc'
                  · refine Or.inr ⟨rfl, ?_⟩
                    have : k' ≠ i := fun e => heq ⟨rfl, e⟩
                    omega)
                omega
              have hnm := nm_index_lt P n m hm' hn'
              have hidx : nm_index j' k' * (P * P) + nm_index n m < t.jknm := by
                rw [hb]
                have : (nm_index j' k' + 1) * (P * P) ≤ nm_index j i * (P * P) :=
                  Nat.mul_le_mul_right _ hlt
                rw [Nat.add_mul, one_mul] at this
                omega
              rw [l2 _ hidx]
              apply ht3 j' k' n m hk' hm' hn'
              rcases hcase with hc' | ⟨rfl, hc'⟩
              · exact Or.inl hc'
              · refine Or.inr ⟨rfl, ?_⟩
                have : k' ≠ i := fun e => heq ⟨rfl, e⟩
                omega)
      have e1 : -(j : ℤ) + ((2 * j + 1 : ℕ) : ℤ) - 1 = j := by push_cast; ring
      have e2 : -(j : ℤ) + ((2 * j + 1 : ℕ) : ℤ) = j + 1 := by push_cast; ring
      rw [e1, e2] at hinner
      obtain ⟨hi1, hi2, hi3⟩ := hinner
      refine ⟨?_, ?_, ?_⟩
      · beta_reduce
        apply Nat.cast_injective (R := ℤ)
        rw [hi1]; push_cast; ring
      · beta_reduce
        apply Nat.cast_injective (R := ℤ)
        rw [hi2]; push_cast; ring
      · intro j' k' n m hk' hm' hn' hlt
        apply hi3 j' k' n m hk' hm' hn'
        rcases Nat.lt_succ_iff_lt_or_eq.mp hlt with h | h
        · exact Or.inl h
        · refine Or.inr ⟨h, ?_⟩
          subst h
          have := abs_le.mp hk'
          omega)
  exact houter.2.2 j k n m hk hm hn hj

/-- The entries of `Cnm`. -/
theorem preCalculation_Cnm {K C : Type} [LinearOrderedField K] [Field C] (F : cmath K C)
    (EPS : K) (P : ℕ) (raw T : tables K C) (h : preCalculation F EPS P raw = some T)
    (j : ℕ) (k : ℤ) (n : ℕ) (m : ℤ) (hk : |k| ≤ j) (hj : j < P) (hm : |m| ≤ n)
    (hn : n < P) :
    T.Cnm (nm_index j k * (P * P) + nm_index n m) = Cnm_entry F EPS T.Anm j k n m := by
  rw [(preCalculation_arrays F EPS P raw T h).2.2]
  exact Cnm_jk_loops F EPS T.Anm P raw.Cnm j k n m hk hj hm hn

/-- The entry of `Cnm` for `(j, k, n, m)` in terms of the coefficients `a(n, m)`. -/
theorem Cnm_entry_exact (F : cmath ℝ ℂ) (hF : F.exact) (EPS : ℝ) (hE : 0 < EPS) (P : ℕ)
    (raw T : tables ℝ ℂ) (h : preCalculation F EPS P raw = some T)
    (j : ℕ) (k : ℤ) (n : ℕ) (m : ℤ) (hk : |k| ≤ j) (hj : j < P) (hm : |m| ≤ n)
    (hn : n < P) :
    T.Anm (nm_index (j + n) (m - k)) ≠ 0 ∧
    Cnm_entry F EPS T.Anm j k n m =
      Complex.I ^ (|k - m| - |k| - |m|)
        * (((-1) ^ j * a_nm Real.sqrt n m * a_nm Real.sqrt j k
            / a_nm Real.sqrt (j + n) (m - k) : ℝ) : ℂ) := by
  have hkm : |m - k| ≤ ((j + n : ℕ) : ℤ) := by
    have h1 := abs_le.mp hk
    have h2 := abs_le.mp hm
    rw [abs_le]; push_cast; omega
  have A1 := preCalculation_Anm F hF EPS hE P raw T h n m hm (by omega)
  have A2 := preCalculation_Anm F hF EPS hE P raw T h j k hk (by omega)
  have A3 := preCalculation_Anm F hF EPS hE P raw T h (j + n) (m - k) hkm (by omega)
  have h3 := a_nm_ne_zero (j + n) (m - k)
  have hE' : EPS ≠ 0 := ne_of_gt hE
  constructor
  · rw [A3]; exact div_ne_zero h3 hE'
  · unfold Cnm_entry
    rw [A1, A2, A3, ODDEVEN_natCast]
    obtain ⟨hsqrt, hcos, hsin, hacos, hatan, hpi, hof, hconj, hre, hexp, hpow, hI⟩ := hF
    rw [hpow, hof, hI]
    have e : Complex.I ^ (((((|k - m| - |k| - |m| : ℤ)) : ℝ)) : ℂ)
        = Complex.I ^ (|k - m| - |k| - |m|) := by
      rw [Complex.ofReal_intCast, Complex.cpow_intCast]
    rw [show (fun (z : ℂ) (t : ℝ) => z ^ (t : ℂ)) Complex.I ((((|k - m| - |k| - |m| : ℤ)) : ℝ))
        = Complex.I ^ (((((|k - m| - |k| - |m| : ℤ)) : ℝ)) : ℂ) from rfl, e, mul_assoc,
      ← Complex.ofReal_mul]
    congr 2
    field_simp
    ring

/-! ## The kernel `M2L` -/

/-- The loops over `n` and `m` of `M2L` add the terms of all pairs `(n, m)`. -/
theorem M2L_jk_sum {K C : Type} [LinearOrderedField K] [Field C] (F : cmath K C)
    (Cnm : ℕ → C) (P : ℕ) (M Ynm : ℕ → C) (j k : ℕ) :
    M2L_jk F Cnm P M Ynm j k =
      ∑ n ∈ Finset.range P, ∑ m ∈ Finset.Icc (-(n : ℤ)) n,
        M_two_sided F M n m * Cnm (nm_index j k * (P * P) + nm_index n m)
          * Ynm (nm_index (j + n) (m - k)) := by
  unfold M2L_jk
  rw [for_range_sum 0 P (Nat.zero_le _) _
    (fun n => ∑ m ∈ Finset.Icc (-(n : ℤ)) n,
        M_two_sided F M n m * Cnm (nm_index j k * (P * P) + nm_index n m)
          * Ynm (nm_index (j + n) (m - k))) ?_ 0, zero_add, Finset.range_eq_Ico]
  intro n L
  have hidx : ∀ m : ℤ, |m| ≤ (n : ℤ) →
      (((j * j + j + k : ℕ) : ℤ) * P * P + ((n : ℤ) * n + n + m)).toNat
        = nm_index j k * (P * P) + nm_index n m := by
    intro m hm
    have c := nm_index_cast n m hm
    have c2 : nm_index j (k : ℤ) = j * j + j + k := nm_index_natCast j k
    rw [c2]
    have : (((j * j + j + k : ℕ) : ℤ) * P * P + ((n : ℤ) * n + n + m))
        = (((j * j + j + k) * (P * P) + nm_index n m : ℕ) : ℤ) := by
      push_cast; rw [c]; ring
    rw [this, Int.toNat_natCast]
  have hY : ∀ m : ℤ, (((j : ℤ) + n) * (j + n) + j + n + m - k).toNat
      = nm_index (j + n) (m - k) := by
    intro m
    unfold nm_index
    congr 1
    push_cast
    ring
  dsimp only
  rw [for_int_sum 0 (n : ℤ) _ (fun m => M (((n : ℤ) * (n + 1) / 2 + m).toNat)
      * Cnm ((((j * j + j + k : ℕ) : ℤ) * P * P + ((n : ℤ) * n + n + m)).toNat)
      * Ynm ((((j : ℤ) + n) * (j + n) + j + n + m - k).toNat)) (fun i a => rfl),
    for_int_sum (-(n : ℤ)) (-1) _ (fun m => F.conj (M (((n : ℤ) * (n + 1) / 2 - m).toNat))
      * Cnm ((((j * j + j + k : ℕ) : ℤ) * P * P + ((n : ℤ) * n + n + m)).toNat)
      * Ynm ((((j : ℤ) + n) * (j + n) + j + n + m - k).toNat)) (fun i a => rfl),
    add_assoc]
  congr 1
  rw [← Finset.sum_filter_add_sum_filter_not (Finset.Icc (-(n : ℤ)) n) (fun m => m < 0)]
  have f1 : Finset.filter (fun m : ℤ => m < 0) (Finset.Icc (-(n : ℤ)) n)
      = Finset.Icc (-(n : ℤ)) (-1) := by
    ext t; simp only [Finset.mem_filter, Finset.mem_Icc]; omega
  have f2 : Finset.filter (fun m : ℤ => ¬ m < 0) (Finset.Icc (-(n : ℤ)) n)
      = Finset.Icc 0 (n : ℤ) := by
    ext t; simp only [Finset.mem_filter, Finset.mem_Icc]; omega
  rw [f1, f2]
  congr 1
  · apply Finset.sum_congr rfl
    intro m hm
    rw [Finset.mem_Icc] at hm
    have hm' : |m| ≤ (n : ℤ) := abs_le.mpr ⟨hm.1, by omega⟩
    rw [hidx m hm', hY m]
    unfold M_two_sided
    rw [if_pos (by omega)]
  · apply Finset.sum_congr rfl
    intro m hm
    rw [Finset.mem_Icc] at hm
    have hm' : |m| ≤ (n : ℤ) := abs_le.mpr ⟨by omega, hm.2⟩
    rw [hidx m hm', hY m]
    unfold M_two_sided
    rw [if_neg (by omega)]

/-! ## The kernel `M2P` -/

/-- A loop whose pass adds to the four variables of `M2P` adds the sums. -/
theorem acc_loop_sum (lo hi : ℕ) (h : lo ≤ hi) (body : ℕ → M2P_acc ℝ → M2P_acc ℝ)
    (d0 dx dy dz : ℕ → ℝ)
    (hb : ∀ i a, body i a = ⟨a.TRG0 + d0 i,
      ⟨a.spherical.x + dx i, a.spherical.y + dy i, a.spherical.z + dz i⟩⟩)
    (a : M2P_acc ℝ) :
    for_range lo hi body a = ⟨a.TRG0 + ∑ i ∈ Finset.Ico lo hi, d0 i,
      ⟨a.spherical.x + ∑ i ∈ Finset.Ico lo hi, dx i,
       a.spherical.y + ∑ i ∈ Finset.Ico lo hi, dy i,
       a.spherical.z + ∑ i ∈ Finset.Ico lo hi, dz i⟩⟩ := by
  induction hi with
  | zero =>
    have : lo = 0 := by omega
    subst this
    rw [for_range_empty _ _ le_rfl]
    simp
  | succ k ih =>
    by_cases hlo : lo = k + 1
    · subst hlo
      rw [for_range_empty _ _ le_rfl]
      simp
    · have hle : lo ≤ k := by omega
      rw [for_range_succ _ _ hle, hb, ih hle]
      simp only [Finset.sum_Ico_succ_top hle, add_assoc]

/-- The pass for `n` of the loop of `M2P` adds the terms of the degree `n`. -/
theorem M2P_n_eq (F : cmath ℝ ℂ) (M Y T : ℕ → ℂ) (r : ℝ) (n : ℕ) (a : M2P_acc ℝ) :
    M2P_n F M Y T r n a =
      ⟨a.TRG0 + (F.real (M (n * (n + 1) / 2) * Y (n * n + n))
          + ∑ m ∈ Finset.Icc 1 n,
              2 * F.real (M (n * (n + 1) / 2 + m) * Y (n * n + n + m))),
       ⟨a.spherical.x + (-(F.real (M (n * (n + 1) / 2) * Y (n * n + n)) / r * ((n : ℝ) + 1))
          + ∑ m ∈ Finset.Icc 1 n,
              -(2 * F.real (M (n * (n + 1) / 2 + m) * Y (n * n + n + m)) / r
                  * ((n : ℝ) + 1))),
        a.spherical.y + (F.real (M (n * (n + 1) / 2) * T (n * n + n))
          + ∑ m ∈ Finset.Icc 1 n,
              2 * F.real (M (n * (n + 1) / 2 + m) * T (n * n + n + m))),
        a.spherical.z + ∑ m ∈ Finset.Icc 1 n,
          2 * F.real (M (n * (n + 1) / 2 + m) * Y (n * n + n + m) * F.I) * (m : ℝ)⟩⟩ := by
  unfold M2P_n
  dsimp only
  rw [acc_loop_sum 1 (n + 1) (by omega) _
    (fun m => 2 * F.real (M (n * (n + 1) / 2 + m) * Y (n * n + n + m)))
    (fun m => -(2 * F.real (M (n * (n + 1) / 2 + m) * Y (n * n + n + m)) / r
                  * ((n : ℝ) + 1)))
    (fun m => 2 * F.real (M (n * (n + 1) / 2 + m) * T (n * n + n + m)))
    (fun m => 2 * F.real (M (n * (n + 1) / 2 + m) * Y (n * n + n + m) * F.I) * (m : ℝ))
    (fun i a => by simp only [sub_eq_add_neg])]
  have hI : Finset.Ico 1 (n + 1) = Finset.Icc 1 n := by
    ext t; simp only [Finset.mem_Ico, Finset.mem_Icc]; omega
  simp only [hI, sub_eq_add_neg, add_assoc]

/-- The loop over `n` of `M2P`: the potential and the spherical gradient of the
specification. -/
theorem M2P_loop_n (F : cmath ℝ ℂ) (M Y T : ℕ → ℂ) (r : ℝ) (P : ℕ) (t0 : ℝ) :
    for_range 0 P (M2P_n F M Y T r) ⟨t0, ⟨0, 0, 0⟩⟩ =
      ⟨t0 + M2P_potential F M Y P, M2P_spherical F M Y T r P⟩ := by
  rw [acc_loop_sum 0 P (Nat.zero_le _) _ _ _ _ _ (fun n a => M2P_n_eq F M Y T r n a)]
  unfold M2P_potential M2P_spherical
  simp only [zero_add, Finset.range_eq_Ico]

/-- The entries of `evalLocal` do not depend on the content of the arrays before the
call. -/
theorem evalLocal_fresh (F : cmath ℝ ℂ) (hF : F.exact) (pref : ℕ → ℝ) (P : ℕ)
    (ρ α β : ℝ) (Y T Y' T' : ℕ → ℂ) (m n : ℕ) (hmn : m ≤ n) (hn : n < 2 * P) :
    (evalLocal F pref P ρ α β Y T).1 (n * n + n + m) =
        (evalLocal F pref P ρ α β Y' T').1 (n * n + n + m) ∧
      (evalLocal F pref P ρ α β Y T).2 (n * n + n + m) =
        (evalLocal F pref P ρ α β Y' T').2 (n * n + n + m) := by
  rw [(evalLocal_stored F hF pref P ρ α β Y T m n hmn hn).1,
    (evalLocal_stored F hF pref P ρ α β Y' T' m n hmn hn).1,
    (evalLocal_stored F hF pref P ρ α β Y T m n hmn hn).2.2,
    (evalLocal_stored F hF pref P ρ α β Y' T' m n hmn hn).2.2]
  exact ⟨rfl, rfl⟩

/-- The sums of `M2P` read the entries of the pairs `(n, m)`, `0 ≤ m ≤ n < P`, only. -/
theorem M2P_sums_congr (F : cmath ℝ ℂ) (M Y T Y' T' : ℕ → ℂ) (r : ℝ) (P : ℕ)
    (hY : ∀ m n, m ≤ n → n < P → Y (n * n + n + m) = Y' (n * n + n + m))
    (hT : ∀ m n, m ≤ n → n < P → T (n * n + n + m) = T' (n * n + n + m)) :
    M2P_potential F M Y P = M2P_potential F M Y' P ∧
      M2P_spherical F M Y T r P = M2P_spherical F M Y' T' r P := by
  have h0 : ∀ n, n < P → Y (n * n + n) = Y' (n * n + n) := fun n hn => hY 0 n (Nat.zero_le _) hn
  have t0 : ∀ n, n < P → T (n * n + n) = T' (n * n + n) := fun n hn => hT 0 n (Nat.zero_le _) hn
  unfold M2P_potential M2P_spherical
  refine ⟨?_, ?_⟩
  · apply Finset.sum_congr rfl
    intro n hn
    rw [Finset.mem_range] at hn
    rw [h0 n hn]
    congr 1
    apply Finset.sum_congr rfl
    intro m hm
    rw [Finset.mem_Icc] at hm
    rw [hY m n hm.2 hn]
  · congr 1
    · apply Finset.sum_congr rfl
      intro n hn
      rw [Finset.mem_range] at hn
      rw [h0 n hn]
      congr 1
      apply Finset.sum_congr rfl
      intro m hm
      rw [Finset.mem_Icc] at hm
      rw [hY m n hm.2 hn]
    · apply Finset.sum_congr rfl
      intro n hn
      rw [Finset.mem_range] at hn
      rw [t0 n hn]
      congr 1
      apply Finset.sum_congr rfl
      intro m hm
      rw [Finset.mem_Icc] at hm
      rw [hT m n hm.2 hn]
    · apply Finset.sum_congr rfl
      intro n hn
      rw [Finset.mem_range] at hn
      apply Finset.sum_congr rfl
      intro m hm
      rw [Finset.mem_Icc] at hm
      rw [hY m n hm.2 hn]

/-- The body that `M2P` leaves for a target body `B`: the potential of the
specification is added to `TRG[0]`, the output of `sph2cart` for the spherical gradient
of the specification is added to `TRG[1..3]`. -/
theorem M2P_body_eq (F : cmath ℝ ℂ) (hF : F.exact) (EPS : ℝ) (Xperiodic : vect ℝ)
    (pref : ℕ → ℝ) (P : ℕ) (Cj : Cell ℝ ℂ) (Y : (ℕ → ℂ) × (ℕ → ℂ)) (B : Body ℝ) :
    (M2P_body F EPS Xperiodic pref P Cj Y B).2 =
      { B with TRG :=
        ⟨B.TRG.v0 + M2P_phi F EPS Xperiodic pref P Cj B,
         B.TRG.v1 + (M2P_cartesian F EPS Xperiodic pref P Cj B).x,
         B.TRG.v2 + (M2P_cartesian F EPS Xperiodic pref P Cj B).y,
         B.TRG.v3 + (M2P_cartesian F EPS Xperiodic pref P Cj B).z⟩ } := by
  unfold M2P_phi M2P_cartesian
  unfold M2P_body
  dsimp only
  rw [M2P_loop_n]
  dsimp only
  obtain ⟨e1, e2⟩ := M2P_sums_congr F Cj.M
    (evalLocal F pref P (cart2sph F EPS ((B.X.sub Cj.X).sub Xperiodic)).1
      (cart2sph F EPS ((B.X.sub Cj.X).sub Xperiodic)).2.1
      (cart2sph F EPS ((B.X.sub Cj.X).sub Xperiodic)).2.2 Y.1 Y.2).1
    (evalLocal F pref P (cart2sph F EPS ((B.X.sub Cj.X).sub Xperiodic)).1
      (cart2sph F EPS ((B.X.sub Cj.X).sub Xperiodic)).2.1
      (cart2sph F EPS ((B.X.sub Cj.X).sub Xperiodic)).2.2 Y.1 Y.2).2
    (evalLocal F pref P (cart2sph F EPS ((B.X.sub Cj.X).sub Xperiodic)).1
      (cart2sph F EPS ((B.X.sub Cj.X).sub Xperiodic)).2.1
      (cart2sph F EPS ((B.X.sub Cj.X).sub Xperiodic)).2.2 (fun _ => 0) (fun _ => 0)).1
    (evalLocal F pref P (cart2sph F EPS ((B.X.sub Cj.X).sub Xperiodic)).1
      (cart2sph F EPS ((B.X.sub Cj.X).sub Xperiodic)).2.1
      (cart2sph F EPS ((B.X.sub Cj.X).sub Xperiodic)).2.2 (fun _ => 0) (fun _ => 0)).2
    (cart2sph F EPS ((B.X.sub Cj.X).sub Xperiodic)).1 P
    (fun m n hmn hn => (evalLocal_fresh F hF pref P _ _ _ _ _ _ _ m n hmn (by omega)).1)
    (fun m n hmn hn => (evalLocal_fresh F hF pref P _ _ _ _ _ _ _ m n hmn (by omega)).2)
  rw [e1, e2]

/-- The bodies that `M2P` leaves. -/
theorem M2P_eq_map (F : cmath ℝ ℂ) (hF : F.exact) (EPS : ℝ) (Xperiodic : vect ℝ)
    (pref : ℕ → ℝ) (P : ℕ) (Ci : List (Body ℝ)) (Cj : Cell ℝ ℂ) :
    M2P F EPS Xperiodic pref P Ci Cj = Ci.map (fun B =>
      { B with TRG :=
        ⟨B.TRG.v0 + M2P_phi F EPS Xperiodic pref P Cj B,
         B.TRG.v1 + (M2P_cartesian F EPS Xperiodic pref P Cj B).x,
         B.TRG.v2 + (M2P_cartesian F EPS Xperiodic pref P Cj B).y,
         B.TRG.v3 + (M2P_cartesian F EPS Xperiodic pref P Cj B).z⟩ }) := by
  unfold M2P
  generalize ((fun _ => 0, fun _ => 0) : (ℕ → ℂ) × (ℕ → ℂ)) = Y
  induction Ci generalizing Y with
  | nil => rfl
  | cons B rest ih =>
    rw [M2P_loop, List.map_cons, M2P_body_eq F hF, ih]

/-- The gradient of `M2P` for a monopole at the origin and a target on the z-axis. -/
theorem M2P_cartesian_monopole :
    (M2P_cartesian (⟨Real.sqrt, Real.cos, Real.sin, Real.arccos, Real.arctan, Real.pi,
          Complex.ofReal, starRingEnd ℂ, Complex.re, Complex.exp,
          fun (z : ℂ) (t : ℝ) => z ^ (t : ℂ), Complex.I⟩ : cmath ℝ ℂ)
        (1 / 1000000) ⟨0, 0, 0⟩ (fun _ => 1) 1
        ⟨⟨0, 0, 0⟩, 0, 0, 0, fun _ => 1, fun _ => 0⟩
        ⟨⟨0, 0, 1⟩, 0, ⟨0, 0, 0, 0⟩⟩).z = -(1000000 / 1000001) ^ 3 := by
  have hF : cmath.exact (⟨Real.sqrt, Real.cos, Real.sin, Real.arccos, Real.arctan, Real.pi,
          Complex.ofReal, starRingEnd ℂ, Complex.re, Complex.exp,
          fun (z : ℂ) (t : ℝ) => z ^ (t : ℂ), Complex.I⟩ : cmath ℝ ℂ) :=
    ⟨rfl, rfl, rfl, rfl, rfl, rfl, rfl, rfl, rfl, rfl, rfl, rfl⟩
  unfold M2P_cartesian
  dsimp only
  have hs := fun ρ α β => evalLocal_stored _ hF (fun _ => 1) 1 ρ α β (fun _ => 0) (fun _ => 0)
    0 0 le_rfl (by norm_num)
  have hc : cart2sph (⟨Real.sqrt, Real.cos, Real.sin, Real.arccos, Real.arctan, Real.pi,
          Complex.ofReal, starRingEnd ℂ, Complex.re, Complex.exp,
          fun (z : ℂ) (t : ℝ) => z ^ (t : ℂ), Complex.I⟩ : cmath ℝ ℂ) (1 / 1000000)
      ((vect.sub (⟨0, 0, 1⟩ : vect ℝ) ⟨0, 0, 0⟩).sub ⟨0, 0, 0⟩)
      = (1000001 / 1000000, Real.arccos (1000000 / 1000001), 0) := by
    simp [cart2sph, vect.sub, norm]
    norm_num
  rw [hc]
  dsimp only
  obtain ⟨h1, _, h3⟩ := hs (1000001 / 1000000) (Real.arccos (1000000 / 1000001)) 0
  simp only [Nat.mul_zero, Nat.zero_mul, Nat.add_zero] at h1 h3
  unfold sph2cart M2P_spherical
  simp only [Finset.range_one, Finset.sum_singleton, Nat.mul_zero, Nat.zero_mul,
    Nat.add_zero, Nat.zero_div, Nat.zero_add]
  rw [h1, h3]
  have hcos : Real.cos (Real.arccos (1000000 / 1000001)) = 1000000 / 1000001 :=
    Real.cos_arccos (by norm_num) (by norm_num)
  simp [inner_value, theta_value, legendre]
  rw [hcos]
  norm_num

/-! ## Divisions -/

theorem sdiv_some {K : Type} [LinearOrderedField K] (a b : K) (h : b ≠ 0) :
    sdiv a b = some (a / b) := by
  unfold sdiv
  rw [if_neg h]

theorem foldlM_some {σ : Type} (l : List ℕ) (body' : ℕ → σ → Option σ)
    (body : ℕ → σ → σ) (h : ∀ i s, i ∈ l → body' i s = some (body i s)) (s : σ) :
    l.foldlM (fun s i => body' i s) s = some (l.foldl (fun s i => body i s) s) := by
  induction l generalizing s with
  | nil => rfl
  | cons a rest ih =>
    rw [List.foldlM_cons, h a s (List.mem_cons_self _ _)]
    exact ih (fun i s hi => h i s (List.mem_cons_of_mem _ hi)) (body a s)

/-- A loop whose passes do not stop gives the result of the loop. -/
theorem for_range_checked_some {σ : Type} (lo hi : ℕ) (body' : ℕ → σ → Option σ)
    (body : ℕ → σ → σ) (h : ∀ i s, lo ≤ i → i < hi → body' i s = some (body i s)) (s : σ) :
    for_range_checked lo hi body' s = some (for_range lo hi body s) := by
  unfold for_range_checked for_range
  apply foldlM_some
  intro i s hi
  rw [List.mem_range'_1] at hi
  exact h i s hi.1 (by omega)

theorem degree_gap_ne_zero (m n : ℕ) (h : m ≤ n) : ((n : ℝ) - (m : ℝ) + 1) ≠ 0 := by
  have : (m : ℝ) ≤ n := by exact_mod_cast h
  linarith

theorem evalMultipole_n_checked_some (F : cmath ℝ ℂ) (pref : ℕ → ℝ) (ρ x y : ℝ) (eim : ℂ)
    (m n : ℕ) (hmn : m ≤ n) (hy : y ≠ 0) (s : eval_n ℝ ℂ) :
    evalMultipole_n_checked F pref ρ x y eim m n s =
      some (evalMultipole_n F pref ρ x y eim m n s) := by
  unfold evalMultipole_n_checked evalMultipole_n
  simp only [sdiv_some _ _ (degree_gap_ne_zero m n hmn), sdiv_some _ _ hy, Option.bind_eq_bind,
    Option.some_bind, Option.pure_def, bind_pure_comp, Option.map_some', pure]

theorem evalLocal_n_checked_some (F : cmath ℝ ℂ) (pref : ℕ → ℝ) (ρ x y : ℝ) (eim : ℂ)
    (m n : ℕ) (hmn : m ≤ n) (hy : y ≠ 0) (hρ : ρ ≠ 0) (s : eval_n ℝ ℂ) :
    evalLocal_n_checked F pref ρ x y eim m n s =
      some (evalLocal_n F pref ρ x y eim m n s) := by
  unfold evalLocal_n_checked evalLocal_n
  simp only [sdiv_some _ _ (degree_gap_ne_zero m n hmn), sdiv_some _ _ hy, sdiv_some _ _ hρ,
    Option.bind_eq_bind, Option.some_bind, Option.pure_def, bind_pure_comp, Option.map_some',
    pure]

theorem evalMultipole_m_checked_some (F : cmath ℝ ℂ) (pref : ℕ → ℝ) (P : ℕ) (ρ β x y : ℝ)
    (m : ℕ) (hy : y ≠ 0) (s : eval_m ℝ ℂ) :
    evalMultipole_m_checked F pref P ρ β x y m s =
      some (evalMultipole_m F pref P ρ β x y m s) := by
  unfold evalMultipole_m_checked evalMultipole_m
  simp only [sdiv_some _ _ hy, Option.bind_eq_bind, Option.some_bind, Option.pure_def,
    bind_pure_comp, Option.map_some', pure,
    for_range_checked_some (m + 1) P _ _ (fun i t h1 _ =>
      evalMultipole_n_checked_some F pref ρ x y _ m i (by omega) hy t)]

theorem evalLocal_m_checked_some (F : cmath ℝ ℂ) (pref : ℕ → ℝ) (P : ℕ) (ρ β x y : ℝ)
    (m : ℕ) (hy : y ≠ 0) (hρ : ρ ≠ 0) (s : eval_m ℝ ℂ) :
    evalLocal_m_checked F pref P ρ β x y m s =
      some (evalLocal_m F pref P ρ β x y m s) := by
  unfold evalLocal_m_checked evalLocal_m
  simp only [sdiv_some _ _ hy, sdiv_some _ _ hρ, Option.bind_eq_bind, Option.some_bind,
    Option.pure_def, bind_pure_comp, Option.map_some', pure,
    for_range_checked_some (m + 1) (2 * P) _ _ (fun i t h1 _ =>
      evalLocal_n_checked_some F pref ρ x y _ m i (by omega) hy hρ t)]

/-- No division of `evalMultipole` is a division by zero when `sin(alpha)` is not
zero. -/
theorem evalMultipole_checked_some (F : cmath ℝ ℂ) (pref : ℕ → ℝ) (P : ℕ) (ρ α β : ℝ)
    (Y T : ℕ → ℂ) (hy : F.sin α ≠ 0) :
    evalMultipole_checked F pref P ρ α β Y T = some (evalMultipole F pref P ρ α β Y T) := by
  unfold evalMultipole_checked evalMultipole
  simp only [Option.bind_eq_bind, Option.some_bind, Option.pure_def, bind_pure_comp,
    Option.map_some', pure,
    for_range_checked_some 0 P _ _ (fun i t _ _ =>
      evalMultipole_m_checked_some F pref P ρ β _ _ i hy t)]

/-- No division of `evalLocal` is a division by zero when `rho` and `sin(alpha)` are not
zero. -/
theorem evalLocal_checked_some (F : cmath ℝ ℂ) (pref : ℕ → ℝ) (P : ℕ) (ρ α β : ℝ)
    (Y T : ℕ → ℂ) (hy : F.sin α ≠ 0) (hρ : ρ ≠ 0) :
    evalLocal_checked F pref P ρ α β Y T = some (evalLocal F pref P ρ α β Y T) := by
  unfold evalLocal_checked evalLocal
  simp only [sdiv_some _ _ hρ, Option.bind_eq_bind, Option.some_bind, Option.pure_def,
    bind_pure_comp, Option.map_some', pure,
    for_range_checked_some 0 (2 * P) _ _ (fun i t _ _ =>
      evalLocal_m_checked_some F pref P ρ β _ _ i hy hρ t)]

/-- No division of `sph2cart` is a division by zero when `r` and `sin(theta)` are not
zero. -/
theorem sph2cart_checked_some (F : cmath ℝ ℂ) (r θ φ : ℝ) (s : vect ℝ) (hr : r ≠ 0)
    (hy : F.sin θ ≠ 0) :
    sph2cart_checked F r θ φ s = some (sph2cart F r θ φ s) := by
  unfold sph2cart_checked sph2cart
  simp only [sdiv_some _ _ hr, sdiv_some _ _ hy, Option.bind_eq_bind, Option.some_bind,
    Option.pure_def, bind_pure_comp, Option.map_some', pure]

/-! ## The spherical coordinates of `cart2sph` -/

theorem abs_z_le_sqrt_norm (dist : vect ℝ) : |dist.z| ≤ Real.sqrt (norm dist) := by
  rw [← Real.sqrt_sq_eq_abs]
  apply Real.sqrt_le_sqrt
  unfold norm
  nlinarith [mul_self_nonneg dist.x, mul_self_nonneg dist.y]

/-- The radius and the polar angle of `cart2sph` for `EPS > 0`. -/
theorem cart2sph_range (F : cmath ℝ ℂ) (hF : F.exact) (EPS : ℝ) (hE : 0 < EPS)
    (dist : vect ℝ) :
    EPS ≤ (cart2sph F EPS dist).1 ∧ 0 < (cart2sph F EPS dist).2.1 ∧
      (cart2sph F EPS dist).2.1 < Real.pi ∧ 0 < Real.sin (cart2sph F EPS dist).2.1 := by
  obtain ⟨hsqrt, hcos, hsin, hacos, hatan, hpi, hof, hconj, hre, hexp, hpow, hI⟩ := hF
  have hz := abs_z_le_sqrt_norm dist
  have hs : 0 ≤ Real.sqrt (norm dist) := Real.sqrt_nonneg _
  have hr : 0 < Real.sqrt (norm dist) + EPS := by linarith
  have h1 : dist.z / (Real.sqrt (norm dist) + EPS) < 1 := by
    rw [div_lt_one hr]
    have := le_abs_self dist.z
    linarith
  have h2 : -1 < dist.z / (Real.sqrt (norm dist) + EPS) := by
    rw [lt_div_iff₀ hr]
    have := neg_abs_le dist.z
    linarith
  have e1 : (cart2sph F EPS dist).1 = Real.sqrt (norm dist) + EPS := by
    unfold cart2sph; rw [hsqrt]
  have e2 : (cart2sph F EPS dist).2.1
      = Real.arccos (dist.z / (Real.sqrt (norm dist) + EPS)) := by
    unfold cart2sph; rw [hsqrt, hacos]
  rw [e1, e2]
  have p1 := Real.arccos_pos.mpr h1
  have p2 : Real.arccos (dist.z / (Real.sqrt (norm dist) + EPS)) < Real.pi := by
    apply lt_of_le_of_ne (Real.arccos_le_pi _)
    intro h
    have := Real.arccos_eq_pi.mp h
    linarith
  exact ⟨by linarith, p1, p2, Real.sin_pos_of_pos_of_lt_pi p1 p2⟩

/-- No division of `cart2sph` is a division by zero for `EPS > 0`. -/
theorem cart2sph_checked_some (F : cmath ℝ ℂ) (hF : F.exact) (EPS : ℝ) (hE : 0 < EPS)
    (dist : vect ℝ) : cart2sph_checked F EPS dist = some (cart2sph F EPS dist) := by
  have hr : F.sqrt (norm dist) + EPS ≠ 0 := by
    rw [hF.1]
    have hs : 0 ≤ Real.sqrt (norm dist) := Real.sqrt_nonneg _
    linarith
  unfold cart2sph_checked cart2sph
  simp only [sdiv_some _ _ hr, Option.bind_eq_bind, Option.some_bind, Option.pure_def, pure]
  by_cases c1 : |dist.x| + |dist.y| < EPS
  · simp only [if_pos c1]
  · simp only [if_neg c1]
    by_cases c2 : |dist.x| < EPS
    · have hy : |dist.y| ≠ 0 := by
        have := abs_nonneg dist.y
        intro h0
        rw [h0] at c1
        linarith
      simp only [if_pos c2, sdiv_some _ _ hy, Option.some_bind]
    · have hx : dist.x ≠ 0 := by
        intro h0
        rw [h0, abs_zero] at c2
        exact c2 hE
      simp only [if_neg c2, sdiv_some _ _ hx, Option.some_bind]
      by_cases c3 : dist.x > 0
      · simp only [if_pos c3]
      · simp only [if_neg c3]

/-! ## The contracts of the harmonic kernels -/

/-- C11: `P2M` adds to `M[n(n+1)/2+m]`, for `0 ≤ m ≤ n < P`, the sum over the bodies of
the cell of `SRC_b * Y_b[n*n+n+m]`, where `Y_b` is the array of `evalMultipole` at
`cart2sph(X_b - C)` with the azimuth negated; the term of a body is `SRC_b` times the
conjugate of the entry of `evalMultipole` at the azimuth itself; the elements of `M`
from `P(P+1)/2` on, which are the elements with no index `n(n+1)/2+m`, do not change. -/
theorem P2M_adds_harmonics (F : cmath ℝ ℂ) (hF : F.exact) (EPS : ℝ) (prefactor : ℕ → ℝ)
    (P : ℕ) (Cj : Cell ℝ ℂ) (bodies : List (Body ℝ)) :
    (∀ n m, m ≤ n → n < P →
      (P2M F EPS prefactor P Cj bodies).M (n * (n + 1) / 2 + m) =
        Cj.M (n * (n + 1) / 2 + m) + (bodies.map (fun B => (B.SRC : ℂ) *
          (evalMultipole F prefactor P (cart2sph F EPS (B.X.sub Cj.X)).1
            (cart2sph F EPS (B.X.sub Cj.X)).2.1 (-(cart2sph F EPS (B.X.sub Cj.X)).2.2)
            (fun _ => 0) (fun _ => 0)).1 (n * n + n + m))).sum) ∧
    (∀ n m, m ≤ n → n < P →
      (P2M F EPS prefactor P Cj bodies).M (n * (n + 1) / 2 + m) =
        Cj.M (n * (n + 1) / 2 + m) + (bodies.map (fun B => (B.SRC : ℂ) *
          (starRingEnd ℂ) ((evalMultipole F prefactor P (cart2sph F EPS (B.X.sub Cj.X)).1
            (cart2sph F EPS (B.X.sub Cj.X)).2.1 (cart2sph F EPS (B.X.sub Cj.X)).2.2
            (fun _ => 0) (fun _ => 0)).1 (n * n + n + m)))).sum) ∧
    (∀ i, P * (P + 1) / 2 ≤ i → (P2M F EPS prefactor P Cj bodies).M i = Cj.M i) := by
  obtain ⟨h1, h2⟩ := P2M_fold_M F hF EPS prefactor P Cj bodies
    ⟨0, fun _ => 0, fun _ => 0, Cj.M⟩
  refine ⟨h1, ?_, h2⟩
  intro n m hm hn
  refine (h1 n m hm hn).trans ?_
  show Cj.M _ + _ = Cj.M _ + _
  congr 2
  apply List.map_congr_left
  intro B _
  congr 1
  have habs : |(m : ℤ)| ≤ (n : ℤ) := by rw [abs_of_nonneg (by omega)]; exact_mod_cast hm
  have e1 := (evalMultipole_entry F hF prefactor P (cart2sph F EPS (B.X.sub Cj.X)).1
    (cart2sph F EPS (B.X.sub Cj.X)).2.1 (-(cart2sph F EPS (B.X.sub Cj.X)).2.2)
    (fun _ => 0) (fun _ => 0) n m habs hn).1
  have e2 := (evalMultipole_entry F hF prefactor P (cart2sph F EPS (B.X.sub Cj.X)).1
    (cart2sph F EPS (B.X.sub Cj.X)).2.1 ((cart2sph F EPS (B.X.sub Cj.X)).2.2)
    (fun _ => 0) (fun _ => 0) n m habs hn).1
  have ei : ((n : ℤ) * n + n + (m : ℤ)).toNat = n * n + n + m := by
    have : ((n : ℤ) * n + n + (m : ℤ)) = ((n * n + n + m : ℕ) : ℤ) := by push_cast; ring
    rw [this, Int.toNat_natCast]
  rw [ei] at e1 e2
  rw [e1, e2, map_mul, Complex.conj_ofReal, ← Complex.exp_conj]
  congr 2
  have hc : (starRingEnd ℂ) (((m : ℤ) : ℤ) : ℂ) = (((m : ℤ) : ℤ) : ℂ) := by
    rw [← Complex.ofReal_intCast, Complex.conj_ofReal]
  simp only [map_mul, Complex.conj_I, Complex.conj_ofReal, hc]
  push_cast
  ring

/-- An instance: a cell at the origin with one body on the z-axis, `P = 1`
and `EPS = 1`: the element `M[5]` stays. -/
theorem P2M_adds_harmonics_witness :
    cmath.exact (⟨Real.sqrt, Real.cos, Real.sin, Real.arccos, Real.arctan, Real.pi,
        Complex.ofReal, starRingEnd ℂ, Complex.re, Complex.exp,
        fun (z : ℂ) (t : ℝ) => z ^ (t : ℂ), Complex.I⟩ : cmath ℝ ℂ) ∧
      (P2M (⟨Real.sqrt, Real.cos, Real.sin, Real.arccos, Real.arctan, Real.pi,
        Complex.ofReal, starRingEnd ℂ, Complex.re, Complex.exp,
        fun (z : ℂ) (t : ℝ) => z ^ (t : ℂ), Complex.I⟩ : cmath ℝ ℂ) 1 (fun _ => 1) 1
        ⟨⟨0, 0, 0⟩, 1, 0, 0, fun _ => 0, fun _ => 0⟩
        [⟨⟨0, 0, 1⟩, 1, ⟨0, 0, 0, 0⟩⟩]).M 5 = 0 :=
  ⟨⟨rfl, rfl, rfl, rfl, rfl, rfl, rfl, rfl, rfl, rfl, rfl, rfl⟩,
   (P2M_adds_harmonics _ ⟨rfl, rfl, rfl, rfl, rfl, rfl, rfl, rfl, rfl, rfl, rfl, rfl⟩ 1
      (fun _ => 1) 1 ⟨⟨0, 0, 0⟩, 1, 0, 0, fun _ => 0, fun _ => 0⟩
      [⟨⟨0, 0, 1⟩, 1, ⟨0, 0, 0, 0⟩⟩]).2.2 5 (by norm_num)⟩

/-- C12: for `0 ≤ k ≤ j < P` there are tables of `preCalculation`, and with them `M2L`
adds to `L[j(j+1)/2+k]` the sum over `n < P` and `-n ≤ m ≤ n` of
`Mt[n,m] * C(j,k,n,m) * Y[(j+n)^2+(j+n)+m-k]`, where `Mt` is the two-sided multipole of
the source cell, `Y` is the array of `evalLocal` at
`cart2sph(C_target - C_source - Xperiodic)` and `C(j,k,n,m)` is the value that
`preCalculation` computes in the pass for `(j, k, n, m)`; this value is the element of
`Cnm` with the index `(j^2+j+k) P^2 + (n^2+n+m)` that `M2L` reads. -/
theorem M2L_adds_coupled_sum {K C : Type} [LinearOrderedField K] [Field C]
    (F : cmath K C) (EPS : K) (Xperiodic : vect K) (P : ℕ) (raw : tables K C)
    (Ci Cj : Cell K C) (j k : ℕ) (hk : k ≤ j) (hj : j < P) :
    ∃ T, preCalculation F EPS P raw = some T ∧
      (M2L F EPS Xperiodic T P Ci Cj).L (j * (j + 1) / 2 + k) =
        Ci.L (j * (j + 1) / 2 + k) +
          ∑ n ∈ Finset.range P, ∑ m ∈ Finset.Icc (-(n : ℤ)) n,
            M_two_sided F Cj.M n m * Cnm_entry F EPS T.Anm j k n m
              * (evalLocal F T.prefactor P
                  (cart2sph F EPS ((Ci.X.sub Cj.X).sub Xperiodic)).1
                  (cart2sph F EPS ((Ci.X.sub Cj.X).sub Xperiodic)).2.1
                  (cart2sph F EPS ((Ci.X.sub Cj.X).sub Xperiodic)).2.2
                  (fun _ => 0) (fun _ => 0)).1 (nm_index (j + n) (m - k)) ∧
      ∀ (n : ℕ) (m : ℤ), |m| ≤ n → n < P →
        T.Cnm ((((j * j + j + k : ℕ) : ℤ) * P * P + ((n : ℤ) * n + n + m)).toNat) =
          Cnm_entry F EPS T.Anm j k n m := by
  obtain ⟨T, hT⟩ := preCalculation_some F EPS P (by omega) raw
  have hkj : |(k : ℤ)| ≤ (j : ℤ) := by rw [abs_of_nonneg (by omega)]; exact_mod_cast hk
  have hC : ∀ (n : ℕ) (m : ℤ), |m| ≤ n → n < P →
      T.Cnm (nm_index j k * (P * P) + nm_index n m) = Cnm_entry F EPS T.Anm j k n m :=
    fun n m hm hn => preCalculation_Cnm F EPS P raw T hT j k n m hkj hj hm hn
  refine ⟨T, hT, ?_, ?_⟩
  · have h := (triangle_loops P (fun j k => M2L_jk F T.Cnm P Cj.M
      (evalLocal F T.prefactor P
        (cart2sph F EPS ((Ci.X.sub Cj.X).sub Xperiodic)).1
        (cart2sph F EPS ((Ci.X.sub Cj.X).sub Xperiodic)).2.1
        (cart2sph F EPS ((Ci.X.sub Cj.X).sub Xperiodic)).2.2
        (fun _ => 0) (fun _ => 0)).1 j k) Ci.L).1 j k hk hj
    refine h.trans ?_
    congr 1
    rw [M2L_jk_sum]
    apply Finset.sum_congr rfl
    intro n hn
    rw [Finset.mem_range] at hn
    apply Finset.sum_congr rfl
    intro m hm
    rw [Finset.mem_Icc] at hm
    rw [hC n m (abs_le.mpr hm) hn]
  · intro n m hm hn
    rw [← hC n m hm hn]
    congr 1
    have c := nm_index_cast n m hm
    have c2 : nm_index j (k : ℤ) = j * j + j + k := nm_index_natCast j k
    rw [c2]
    have : (((j * j + j + k : ℕ) : ℤ) * P * P + ((n : ℤ) * n + n + m))
        = (((j * j + j + k) * (P * P) + nm_index n m : ℕ) : ℤ) := by
      push_cast; rw [c]; ring
    rw [this, Int.toNat_natCast]

/-- An instance: `P = 1` and `j = k = 0`: there are tables. -/
theorem M2L_adds_coupled_sum_witness :
    0 ≤ 0 ∧ 0 < 1 ∧
      ∃ T, preCalculation (⟨Real.sqrt, Real.cos, Real.sin, Real.arccos, Real.arctan,
        Real.pi, Complex.ofReal, starRingEnd ℂ, Complex.re, Complex.exp,
        fun (z : ℂ) (t : ℝ) => z ^ (t : ℂ), Complex.I⟩ : cmath ℝ ℂ) 1 1
        ⟨fun _ => 0, fun _ => 0, fun _ => 0, fun _ => 0⟩ = some T :=
  ⟨le_rfl, Nat.one_pos,
    (M2L_adds_coupled_sum (⟨Real.sqrt, Real.cos, Real.sin, Real.arccos, Real.arctan,
        Real.pi, Complex.ofReal, starRingEnd ℂ, Complex.re, Complex.exp,
        fun (z : ℂ) (t : ℝ) => z ^ (t : ℂ), Complex.I⟩ : cmath ℝ ℂ) 1 ⟨0, 0, 0⟩ 1
      ⟨fun _ => 0, fun _ => 0, fun _ => 0, fun _ => 0⟩
      ⟨⟨1, 0, 0⟩, 1, 0, 0, fun _ => 0, fun _ => 0⟩
      ⟨⟨0, 0, 0⟩, 1, 0, 0, fun _ => 1, fun _ => 0⟩ 0 0 le_rfl Nat.one_pos).imp
      (fun _ h => h.1)⟩

/-- C13, as stated, fails: for a monopole `M[0] = 1` at the origin, a target at `(0, 0, 1)`,
`P = 1` and `EPS = 1e-6`: `TRG[3]` goes from 0 to `-(1000000/1000001)^3`, which is the
third component of the output of `sph2cart` and not its negative. -/
theorem M2P_adds_to_force :
    (M2P (⟨Real.sqrt, Real.cos, Real.sin, Real.arccos, Real.arctan, Real.pi,
          Complex.ofReal, starRingEnd ℂ, Complex.re, Complex.exp,
          fun (z : ℂ) (t : ℝ) => z ^ (t : ℂ), Complex.I⟩ : cmath ℝ ℂ)
        (1 / 1000000) ⟨0, 0, 0⟩ (fun _ => 1) 1 [⟨⟨0, 0, 1⟩, 0, ⟨0, 0, 0, 0⟩⟩]
        ⟨⟨0, 0, 0⟩, 0, 0, 0, fun _ => 1, fun _ => 0⟩).map (fun B => B.TRG.v3)
        = [-(1000000 / 1000001) ^ 3] ∧
      (M2P_cartesian (⟨Real.sqrt, Real.cos, Real.sin, Real.arccos, Real.arctan, Real.pi,
          Complex.ofReal, starRingEnd ℂ, Complex.re, Complex.exp,
          fun (z : ℂ) (t : ℝ) => z ^ (t : ℂ), Complex.I⟩ : cmath ℝ ℂ)
        (1 / 1000000) ⟨0, 0, 0⟩ (fun _ => 1) 1
        ⟨⟨0, 0, 0⟩, 0, 0, 0, fun _ => 1, fun _ => 0⟩
        ⟨⟨0, 0, 1⟩, 0, ⟨0, 0, 0, 0⟩⟩).z = -(1000000 / 1000001) ^ 3 := by
  refine ⟨?_, M2P_cartesian_monopole⟩
  rw [M2P_eq_map _ ⟨rfl, rfl, rfl, rfl, rfl, rfl, rfl, rfl, rfl, rfl, rfl, rfl⟩]
  simp only [List.map_cons, List.map_nil]
  rw [M2P_cartesian_monopole]
  norm_num

/-- C13, amended: `M2P` converts the spherical gradient of the specification to
Cartesian components with `sph2cart` and adds the resulting vector to `TRG[1..3]` of
the target; it adds the potential of the specification to `TRG[0]` and leaves position
and source weight. -/
theorem M2P_adds_gradient (F : cmath ℝ ℂ) (hF : F.exact) (EPS : ℝ) (Xperiodic : vect ℝ)
    (prefactor : ℕ → ℝ) (P : ℕ) (Ci : List (Body ℝ)) (Cj : Cell ℝ ℂ) :
    M2P F EPS Xperiodic prefactor P Ci Cj = Ci.map (fun B =>
      ⟨B.X, B.SRC,
        ⟨B.TRG.v0 + M2P_phi F EPS Xperiodic prefactor P Cj B,
         B.TRG.v1 + (M2P_cartesian F EPS Xperiodic prefactor P Cj B).x,
         B.TRG.v2 + (M2P_cartesian F EPS Xperiodic prefactor P Cj B).y,
         B.TRG.v3 + (M2P_cartesian F EPS Xperiodic prefactor P Cj B).z⟩⟩) :=
  M2P_eq_map F hF EPS Xperiodic prefactor P Ci Cj

/-- An instance: a monopole at the origin, a target at `(0, 0, 1)`, `P = 1`
and `EPS = 1e-6`. -/
theorem M2P_adds_gradient_witness :
    cmath.exact (⟨Real.sqrt, Real.cos, Real.sin, Real.arccos, Real.arctan, Real.pi,
        Complex.ofReal, starRingEnd ℂ, Complex.re, Complex.exp,
        fun (z : ℂ) (t : ℝ) => z ^ (t : ℂ), Complex.I⟩ : cmath ℝ ℂ) ∧
      (M2P (⟨Real.sqrt, Real.cos, Real.sin, Real.arccos, Real.arctan, Real.pi,
          Complex.ofReal, starRingEnd ℂ, Complex.re, Complex.exp,
          fun (z : ℂ) (t : ℝ) => z ^ (t : ℂ), Complex.I⟩ : cmath ℝ ℂ)
        (1 / 1000000) ⟨0, 0, 0⟩ (fun _ => 1) 1 [⟨⟨0, 0, 1⟩, 0, ⟨0, 0, 0, 0⟩⟩]
        ⟨⟨0, 0, 0⟩, 0, 0, 0, fun _ => 1, fun _ => 0⟩).length = 1 :=
  ⟨⟨rfl, rfl, rfl, rfl, rfl, rfl, rfl, rfl, rfl, rfl, rfl, rfl⟩, by
    rw [M2P_adds_gradient _ ⟨rfl, rfl, rfl, rfl, rfl, rfl, rfl, rfl, rfl, rfl, rfl, rfl⟩]
    rfl⟩

/-- C14: for `|m| ≤ n < P`, `evalMultipole` stores in `Ynm[n*n+n+m]` the value
`rho^n * P_n^{|m|}(cos alpha) * prefactor[n*n+n+|m|] * e^{i m beta}` with the
associated Legendre function `legendre` of the specification, for every `rho`, `alpha`
and `beta`; the entry for `-m` is the complex conjugate of the entry for `m`. -/
theorem evalMultipole_stores (F : cmath ℝ ℂ) (hF : F.exact) (prefactor : ℕ → ℝ)
    (P : ℕ) (ρ α β : ℝ) (Ynm YnmTheta : ℕ → ℂ) (n : ℕ) (m : ℤ) (hm : |m| ≤ n)
    (hn : n < P) :
    (evalMultipole F prefactor P ρ α β Ynm YnmTheta).1 ((n : ℤ) * n + n + m).toNat =
        ((ρ ^ n * legendre (Real.cos α) (Real.sin α) m.natAbs (n - m.natAbs)
            * prefactor (n * n + n + m.natAbs) : ℝ) : ℂ)
          * Complex.exp (Complex.I * (m : ℂ) * (β : ℂ)) ∧
      (evalMultipole F prefactor P ρ α β Ynm YnmTheta).1 ((n : ℤ) * n + n + -m).toNat =
        (starRingEnd ℂ)
          ((evalMultipole F prefactor P ρ α β Ynm YnmTheta).1 ((n : ℤ) * n + n + m).toNat) :=
  evalMultipole_entry F hF prefactor P ρ α β Ynm YnmTheta n m hm hn

/-- An instance: `P = 2`, `n = 1`, `m = -1`, `rho = 2`, `alpha = 1` and
`beta = 3`. -/
theorem evalMultipole_stores_witness :
    cmath.exact (⟨Real.sqrt, Real.cos, Real.sin, Real.arccos, Real.arctan, Real.pi,
        Complex.ofReal, starRingEnd ℂ, Complex.re, Complex.exp,
        fun (z : ℂ) (t : ℝ) => z ^ (t : ℂ), Complex.I⟩ : cmath ℝ ℂ) ∧
      |(-1 : ℤ)| ≤ ((1 : ℕ) : ℤ) ∧ 1 < 2 ∧
      (evalMultipole (⟨Real.sqrt, Real.cos, Real.sin, Real.arccos, Real.arctan, Real.pi,
          Complex.ofReal, starRingEnd ℂ, Complex.re, Complex.exp,
          fun (z : ℂ) (t : ℝ) => z ^ (t : ℂ), Complex.I⟩ : cmath ℝ ℂ)
        (fun _ => 1) 2 2 1 3 (fun _ => 0) (fun _ => 0)).1
          (((1 : ℕ) : ℤ) * (1 : ℕ) + (1 : ℕ) + (-1 : ℤ)).toNat =
        ((2 ^ 1 * legendre (Real.cos 1) (Real.sin 1) (-1 : ℤ).natAbs (1 - (-1 : ℤ).natAbs)
            * (fun _ => 1) (1 * 1 + 1 + (-1 : ℤ).natAbs) : ℝ) : ℂ)
          * Complex.exp (Complex.I * ((-1 : ℤ) : ℂ) * ((3 : ℝ) : ℂ)) :=
  ⟨⟨rfl, rfl, rfl, rfl, rfl, rfl, rfl, rfl, rfl, rfl, rfl, rfl⟩, by norm_num, by norm_num,
   (evalMultipole_stores _ ⟨rfl, rfl, rfl, rfl, rfl, rfl, rfl, rfl, rfl, rfl, rfl, rfl⟩
      (fun _ => 1) 2 2 1 3 (fun _ => 0) (fun _ => 0) 1 (-1) (by norm_num) (by norm_num)).1⟩

/-- C15: for `sin(alpha) ≠ 0` and `0 ≤ m ≤ n`, the value that `evalMultipole` stores in
`YnmTheta[n*n+n+m]` for `n < P`, and the value that `evalLocal` stores there for
`n < 2P` and `rho ≠ 0`, is the derivative with respect to `alpha` of the value stored in
`Ynm[n*n+n+m]`, at fixed `rho` and `beta`. -/
theorem YnmTheta_is_derivative (F : cmath ℝ ℂ) (hF : F.exact) (prefactor : ℕ → ℝ)
    (P : ℕ) (ρ α β : ℝ) (Ynm YnmTheta : ℕ → ℂ) (m n : ℕ) (hs : Real.sin α ≠ 0)
    (hmn : m ≤ n) :
    (n < P →
      HasDerivAt (fun a => (evalMultipole F prefactor P ρ a β Ynm YnmTheta).1 (n * n + n + m))
        ((evalMultipole F prefactor P ρ α β Ynm YnmTheta).2 (n * n + n + m)) α) ∧
    (n < 2 * P → ρ ≠ 0 →
      HasDerivAt (fun a => (evalLocal F prefactor P ρ a β Ynm YnmTheta).1 (n * n + n + m))
        ((evalLocal F prefactor P ρ α β Ynm YnmTheta).2 (n * n + n + m)) α) := by
  constructor
  · intro hn
    exact stored_hasDerivAt F hF prefactor (fun k => ρ ^ k) β m n hmn
      (fun a => evalMultipole F prefactor P ρ a β Ynm YnmTheta)
      (fun a => evalMultipole_stored F hF prefactor P ρ a β Ynm YnmTheta m n hmn hn) α hs
  · intro hn _
    exact stored_hasDerivAt F hF prefactor (fun k => 1 / ρ / ρ ^ k) β m n hmn
      (fun a => evalLocal F prefactor P ρ a β Ynm YnmTheta)
      (fun a => evalLocal_stored F hF prefactor P ρ a β Ynm YnmTheta m n hmn hn) α hs

/-- An instance: `P = 1`, `n = m = 0`, `rho = 2`, `alpha = π / 2` and
`beta = 3`. -/
theorem YnmTheta_is_derivative_witness :
    cmath.exact (⟨Real.sqrt, Real.cos, Real.sin, Real.arccos, Real.arctan, Real.pi,
        Complex.ofReal, starRingEnd ℂ, Complex.re, Complex.exp,
        fun (z : ℂ) (t : ℝ) => z ^ (t : ℂ), Complex.I⟩ : cmath ℝ ℂ) ∧
      Real.sin (Real.pi / 2) ≠ 0 ∧ 0 ≤ 0 ∧ 0 < 1 ∧
      HasDerivAt (fun a => (evalMultipole (⟨Real.sqrt, Real.cos, Real.sin, Real.arccos,
          Real.arctan, Real.pi, Complex.ofReal, starRingEnd ℂ, Complex.re, Complex.exp,
          fun (z : ℂ) (t : ℝ) => z ^ (t : ℂ), Complex.I⟩ : cmath ℝ ℂ)
          (fun _ => 1) 1 2 a 3 (fun _ => 0) (fun _ => 0)).1 (0 * 0 + 0 + 0))
        ((evalMultipole (⟨Real.sqrt, Real.cos, Real.sin, Real.arccos,
          Real.arctan, Real.pi, Complex.ofReal, starRingEnd ℂ, Complex.re, Complex.exp,
          fun (z : ℂ) (t : ℝ) => z ^ (t : ℂ), Complex.I⟩ : cmath ℝ ℂ)
          (fun _ => 1) 1 2 (Real.pi / 2) 3 (fun _ => 0) (fun _ => 0)).2 (0 * 0 + 0 + 0))
        (Real.pi / 2) :=
  ⟨⟨rfl, rfl, rfl, rfl, rfl, rfl, rfl, rfl, rfl, rfl, rfl, rfl⟩,
   by rw [Real.sin_pi_div_two]; norm_num, le_rfl, Nat.one_pos,
   (YnmTheta_is_derivative _ ⟨rfl, rfl, rfl, rfl, rfl, rfl, rfl, rfl, rfl, rfl, rfl, rfl⟩
      (fun _ => 1) 1 2 (Real.pi / 2) 3 (fun _ => 0) (fun _ => 0) 0 0
      (by rw [Real.sin_pi_div_two]; norm_num) le_rfl).1 Nat.one_pos⟩

/-- C16: for `rho ≠ 0` and `|m| ≤ n < P`, the outer harmonic that `evalLocal` stores in
`Ynm[n*n+n+m]` is `rho^(-2n-1)` times the inner harmonic that `evalMultipole` stores at
the same index for the same arguments and the same table `prefactor`. -/
theorem evalLocal_radial_factor (F : cmath ℝ ℂ) (hF : F.exact) (prefactor : ℕ → ℝ)
    (P : ℕ) (ρ α β : ℝ) (Ynm YnmTheta Ynm' YnmTheta' : ℕ → ℂ) (n : ℕ) (m : ℤ)
    (hρ : ρ ≠ 0) (hm : |m| ≤ n) (hn : n < P) :
    (evalLocal F prefactor P ρ α β Ynm YnmTheta).1 ((n : ℤ) * n + n + m).toNat =
      ((ρ ^ (-(2 * (n : ℤ) + 1)) : ℝ) : ℂ)
        * (evalMultipole F prefactor P ρ α β Ynm' YnmTheta').1 ((n : ℤ) * n + n + m).toNat := by
  have hmn : m.natAbs ≤ n := by
    have := abs_le.mp hm
    omega
  have h1 := stored_entry F hF prefactor _ (F.cos α) (F.sin α) β _ _ n m hm
    (evalMultipole_stored F hF prefactor P ρ α β Ynm' YnmTheta' m.natAbs n hmn hn)
  have h2 := stored_entry F hF prefactor _ (F.cos α) (F.sin α) β _ _ n m hm
    (evalLocal_stored F hF prefactor P ρ α β Ynm YnmTheta m.natAbs n hmn (by omega))
  rw [h1, h2, ← mul_assoc, ← Complex.ofReal_mul]
  congr 2
  have e : ρ ^ (-(2 * (n : ℤ) + 1)) = (ρ ^ (2 * n + 1))⁻¹ := by
    rw [zpow_neg]
    norm_cast
  rw [e]
  have hp : ρ ^ n ≠ 0 := pow_ne_zero _ hρ
  have hp2 : ρ ^ (2 * n + 1) = ρ * ρ ^ n * ρ ^ n := by ring
  rw [hp2]
  field_simp
  ring

/-- An instance: `P = 2`, `n = 1`, `m = -1`, `rho = 2`, `alpha = 1` and
`beta = 3`. -/
theorem evalLocal_radial_factor_witness :
    cmath.exact (⟨Real.sqrt, Real.cos, Real.sin, Real.arccos, Real.arctan, Real.pi,
        Complex.ofReal, starRingEnd ℂ, Complex.re, Complex.exp,
        fun (z : ℂ) (t : ℝ) => z ^ (t : ℂ), Complex.I⟩ : cmath ℝ ℂ) ∧
      (2 : ℝ) ≠ 0 ∧ |(-1 : ℤ)| ≤ ((1 : ℕ) : ℤ) ∧ 1 < 2 ∧
      (evalLocal (⟨Real.sqrt, Real.cos, Real.sin, Real.arccos, Real.arctan, Real.pi,
          Complex.ofReal, starRingEnd ℂ, Complex.re, Complex.exp,
          fun (z : ℂ) (t : ℝ) => z ^ (t : ℂ), Complex.I⟩ : cmath ℝ ℂ)
        (fun _ => 1) 2 2 1 3 (fun _ => 0) (fun _ => 0)).1
          (((1 : ℕ) : ℤ) * (1 : ℕ) + (1 : ℕ) + (-1 : ℤ)).toNat =
        (((2 : ℝ) ^ (-(2 * ((1 : ℕ) : ℤ) + 1)) : ℝ) : ℂ)
          * (evalMultipole (⟨Real.sqrt, Real.cos, Real.sin, Real.arccos, Real.arctan,
              Real.pi, Complex.ofReal, starRingEnd ℂ, Complex.re, Complex.exp,
              fun (z : ℂ) (t : ℝ) => z ^ (t : ℂ), Complex.I⟩ : cmath ℝ ℂ)
            (fun _ => 1) 2 2 1 3 (fun _ => 0) (fun _ => 0)).1
              (((1 : ℕ) : ℤ) * (1 : ℕ) + (1 : ℕ) + (-1 : ℤ)).toNat :=
  ⟨⟨rfl, rfl, rfl, rfl, rfl, rfl, rfl, rfl, rfl, rfl, rfl, rfl⟩, by norm_num, by norm_num,
   by norm_num,
   evalLocal_radial_factor _ ⟨rfl, rfl, rfl, rfl, rfl, rfl, rfl, rfl, rfl, rfl, rfl, rfl⟩
      (fun _ => 1) 2 2 1 3 (fun _ => 0) (fun _ => 0) (fun _ => 0) (fun _ => 0) 1 (-1)
      (by norm_num) (by norm_num) (by norm_num)⟩

/-- Without rounding, for `EPS > 0` and every vector `dist`, no division of `cart2sph` is
a division by zero, the radius is at least `EPS`, the polar angle lies strictly between
0 and `π` and its sine is positive; hence no division of `evalMultipole`, `evalLocal`
and `sph2cart` at the radius and the polar angle of `cart2sph` is a division by zero. -/
theorem cart2sph_divisions_safe (F : cmath ℝ ℂ) (hF : F.exact) (EPS : ℝ) (hE : 0 < EPS)
    (dist : vect ℝ) :
    cart2sph_checked F EPS dist = some (cart2sph F EPS dist) ∧
      EPS ≤ (cart2sph F EPS dist).1 ∧
      0 < (cart2sph F EPS dist).2.1 ∧ (cart2sph F EPS dist).2.1 < Real.pi ∧
      0 < Real.sin (cart2sph F EPS dist).2.1 ∧
      (∀ (prefactor : ℕ → ℝ) (P : ℕ) (β : ℝ) (Ynm YnmTheta : ℕ → ℂ),
        evalMultipole_checked F prefactor P (cart2sph F EPS dist).1
            (cart2sph F EPS dist).2.1 β Ynm YnmTheta =
          some (evalMultipole F prefactor P (cart2sph F EPS dist).1
            (cart2sph F EPS dist).2.1 β Ynm YnmTheta) ∧
        evalLocal_checked F prefactor P (cart2sph F EPS dist).1
            (cart2sph F EPS dist).2.1 β Ynm YnmTheta =
          some (evalLocal F prefactor P (cart2sph F EPS dist).1
            (cart2sph F EPS dist).2.1 β Ynm YnmTheta)) ∧
      (∀ (φ : ℝ) (spherical : vect ℝ),
        sph2cart_checked F (cart2sph F EPS dist).1 (cart2sph F EPS dist).2.1 φ spherical =
          some (sph2cart F (cart2sph F EPS dist).1 (cart2sph F EPS dist).2.1 φ
            spherical)) := by
  obtain ⟨h1, h2, h3, h4⟩ := cart2sph_range F hF EPS hE dist
  have hr : (cart2sph F EPS dist).1 ≠ 0 := by linarith
  have hy : F.sin (cart2sph F EPS dist).2.1 ≠ 0 := by
    rw [hF.2.2.1]; exact ne_of_gt h4
  refine ⟨cart2sph_checked_some F hF EPS hE dist, h1, h2, h3, h4, ?_, ?_⟩
  · intro prefactor P β Ynm YnmTheta
    exact ⟨evalMultipole_checked_some F prefactor P _ _ β Ynm YnmTheta hy,
      evalLocal_checked_some F prefactor P _ _ β Ynm YnmTheta hy hr⟩
  · intro φ spherical
    exact sph2cart_checked_some F _ _ φ spherical hr hy

/-- An instance: `EPS = 1` and the zero vector. -/
theorem cart2sph_divisions_safe_witness :
    cmath.exact (⟨Real.sqrt, Real.cos, Real.sin, Real.arccos, Real.arctan, Real.pi,
        Complex.ofReal, starRingEnd ℂ, Complex.re, Complex.exp,
        fun (z : ℂ) (t : ℝ) => z ^ (t : ℂ), Complex.I⟩ : cmath ℝ ℂ) ∧
      (0 : ℝ) < 1 ∧
      cart2sph_checked (⟨Real.sqrt, Real.cos, Real.sin, Real.arccos, Real.arctan, Real.pi,
          Complex.ofReal, starRingEnd ℂ, Complex.re, Complex.exp,
          fun (z : ℂ) (t : ℝ) => z ^ (t : ℂ), Complex.I⟩ : cmath ℝ ℂ) 1 ⟨0, 0, 0⟩ =
        some (cart2sph (⟨Real.sqrt, Real.cos, Real.sin, Real.arccos, Real.arctan, Real.pi,
          Complex.ofReal, starRingEnd ℂ, Complex.re, Complex.exp,
          fun (z : ℂ) (t : ℝ) => z ^ (t : ℂ), Complex.I⟩ : cmath ℝ ℂ) 1 ⟨0, 0, 0⟩) :=
  ⟨⟨rfl, rfl, rfl, rfl, rfl, rfl, rfl, rfl, rfl, rfl, rfl, rfl⟩, one_pos,
   (cart2sph_divisions_safe _ ⟨rfl, rfl, rfl, rfl, rfl, rfl, rfl, rfl, rfl, rfl, rfl, rfl⟩
      1 one_pos ⟨0, 0, 0⟩).1⟩

/-- C18, as stated, fails: for `EPS = 1e-6` and `P = 1` the element `Anm[0]` is `1e6`,
and the coefficient `(-1)^0 / sqrt(0! 0!)` of the specification is 1. -/
theorem Anm_zero_zero :
    ∃ T, preCalculation (⟨Real.sqrt, Real.cos, Real.sin, Real.arccos, Real.arctan, Real.pi,
          Complex.ofReal, starRingEnd ℂ, Complex.re, Complex.exp,
          fun (z : ℂ) (t : ℝ) => z ^ (t : ℂ), Complex.I⟩ : cmath ℝ ℂ)
        (1 / 1000000) 1 ⟨fun _ => 0, fun _ => 0, fun _ => 0, fun _ => 0⟩ = some T ∧
      T.Anm (nm_index 0 0) = 1000000 ∧ a_nm Real.sqrt 0 0 = 1 := by
  obtain ⟨T, hT⟩ := preCalculation_some
    (⟨Real.sqrt, Real.cos, Real.sin, Real.arccos, Real.arctan, Real.pi,
      Complex.ofReal, starRingEnd ℂ, Complex.re, Complex.exp,
      fun (z : ℂ) (t : ℝ) => z ^ (t : ℂ), Complex.I⟩ : cmath ℝ ℂ)
    (1 / 1000000) 1 le_rfl ⟨fun _ => 0, fun _ => 0, fun _ => 0, fun _ => 0⟩
  have ha : a_nm Real.sqrt 0 0 = 1 := by simp [a_nm]
  refine ⟨T, hT, ?_, ha⟩
  rw [preCalculation_Anm _ ⟨rfl, rfl, rfl, rfl, rfl, rfl, rfl, rfl, rfl, rfl, rfl, rfl⟩
    (1 / 1000000) (by norm_num) 1 _ T hT 0 0 (by simp) (by norm_num), ha]
  norm_num

/-- C18, amended: for `EPS > 0`, `P ≥ 1` and `0 ≤ n < 2P`, `-n ≤ m ≤ n`,
`preCalculation` stores
`Anm[n*n+n+m] = (-1)^n / (EPS * sqrt((n-m)! * (n+m)!))`: the two factorials are started
at `EPS`, and the element carries the factor `1 / EPS`. -/
theorem Anm_carries_EPS (F : cmath ℝ ℂ) (hF : F.exact) (EPS : ℝ) (hE : 0 < EPS) (P : ℕ)
    (raw : tables ℝ ℂ) (n : ℕ) (m : ℤ) (hm : |m| ≤ n) (hn : n < 2 * P) :
    ∃ T, preCalculation F EPS P raw = some T ∧
      T.Anm (nm_index n m) =
        (-1) ^ n / (EPS * Real.sqrt ((((n - m).toNat.factorial : ℕ) : ℝ)
          * (((n + m).toNat.factorial : ℕ) : ℝ))) := by
  obtain ⟨T, hT⟩ := preCalculation_some F EPS P (by omega) raw
  refine ⟨T, hT, ?_⟩
  rw [preCalculation_Anm F hF EPS hE P raw T hT n m hm hn]
  unfold a_nm
  rw [div_div, mul_comm]

/-- An instance: `EPS = 1e-6`, `P = 1` and `n = m = 0`. -/
theorem Anm_carries_EPS_witness :
    cmath.exact (⟨Real.sqrt, Real.cos, Real.sin, Real.arccos, Real.arctan, Real.pi,
        Complex.ofReal, starRingEnd ℂ, Complex.re, Complex.exp,
        fun (z : ℂ) (t : ℝ) => z ^ (t : ℂ), Complex.I⟩ : cmath ℝ ℂ) ∧
      (0 : ℝ) < 1 / 1000000 ∧ |(0 : ℤ)| ≤ ((0 : ℕ) : ℤ) ∧ 0 < 2 * 1 ∧
      ∃ T, preCalculation (⟨Real.sqrt, Real.cos, Real.sin, Real.arccos, Real.arctan,
          Real.pi, Complex.ofReal, starRingEnd ℂ, Complex.re, Complex.exp,
          fun (z : ℂ) (t : ℝ) => z ^ (t : ℂ), Complex.I⟩ : cmath ℝ ℂ)
        (1 / 1000000) 1 ⟨fun _ => 0, fun _ => 0, fun _ => 0, fun _ => 0⟩ = some T ∧
        T.Anm (nm_index 0 0) =
          (-1) ^ 0 / (1 / 1000000 * Real.sqrt (((((0 : ℕ) - (0 : ℤ)).toNat.factorial : ℕ) : ℝ)
            * (((((0 : ℕ) + (0 : ℤ))).toNat.factorial : ℕ) : ℝ))) :=
  ⟨⟨rfl, rfl, rfl, rfl, rfl, rfl, rfl, rfl, rfl, rfl, rfl, rfl⟩, by norm_num, by simp,
   by norm_num,
   Anm_carries_EPS _ ⟨rfl, rfl, rfl, rfl, rfl, rfl, rfl, rfl, rfl, rfl, rfl, rfl⟩
      (1 / 1000000) (by norm_num) 1 ⟨fun _ => 0, fun _ => 0, fun _ => 0, fun _ => 0⟩ 0 0
      (by simp) (by norm_num)⟩

/-- C19: for `EPS > 0` and `0 ≤ j, n < P`, `|k| ≤ j`, `|m| ≤ n`, there are tables of
`preCalculation`, the element of `Anm` by which the pass for `(j, k, n, m)` divides is
not zero, and the element of `Cnm` that the pass stores, at the index
`(j^2+j+k) P^2 + (n^2+n+m)`, is
`i^(|k-m|-|k|-|m|) * (-1)^j * a(n,m) * a(j,k) / a(j+n, m-k)` with
`a(n,m) = (-1)^n / sqrt((n-m)! (n+m)!)`, in which `EPS` does not occur. -/
theorem Cnm_without_EPS (F : cmath ℝ ℂ) (hF : F.exact) (EPS : ℝ) (hE : 0 < EPS) (P : ℕ)
    (raw : tables ℝ ℂ) (j : ℕ) (k : ℤ) (n : ℕ) (m : ℤ) (hk : |k| ≤ j) (hj : j < P)
    (hm : |m| ≤ n) (hn : n < P) :
    ∃ T, preCalculation F EPS P raw = some T ∧
      T.Anm (nm_index (j + n) (m - k)) ≠ 0 ∧
      T.Cnm (nm_index j k * (P * P) + nm_index n m) =
        Complex.I ^ (|k - m| - |k| - |m|)
          * (((-1) ^ j * a_nm Real.sqrt n m * a_nm Real.sqrt j k
              / a_nm Real.sqrt (j + n) (m - k) : ℝ) : ℂ) := by
  obtain ⟨T, hT⟩ := preCalculation_some F EPS P (by omega) raw
  obtain ⟨h1, h2⟩ := Cnm_entry_exact F hF EPS hE P raw T hT j k n m hk hj hm hn
  refine ⟨T, hT, h1, ?_⟩
  rw [preCalculation_Cnm F EPS P raw T hT j k n m hk hj hm hn, h2]

/-- An instance: `EPS = 1e-6`, `P = 2`, `(j, k) = (1, -1)` and
`(n, m) = (1, 1)`. -/
theorem Cnm_without_EPS_witness :
    cmath.exact (⟨Real.sqrt, Real.cos, Real.sin, Real.arccos, Real.arctan, Real.pi,
        Complex.ofReal, starRingEnd ℂ, Complex.re, Complex.exp,
        fun (z : ℂ) (t : ℝ) => z ^ (t : ℂ), Complex.I⟩ : cmath ℝ ℂ) ∧
      (0 : ℝ) < 1 / 1000000 ∧ |(-1 : ℤ)| ≤ ((1 : ℕ) : ℤ) ∧ 1 < 2 ∧
      |(1 : ℤ)| ≤ ((1 : ℕ) : ℤ) ∧
      ∃ T, preCalculation (⟨Real.sqrt, Real.cos, Real.sin, Real.arccos, Real.arctan,
          Real.pi, Complex.ofReal, starRingEnd ℂ, Complex.re, Complex.exp,
          fun (z : ℂ) (t : ℝ) => z ^ (t : ℂ), Complex.I⟩ : cmath ℝ ℂ)
        (1 / 1000000) 2 ⟨fun _ => 0, fun _ => 0, fun _ => 0, fun _ => 0⟩ = some T ∧
        T.Anm (nm_index (1 + 1) (1 - -1)) ≠ 0 ∧
        T.Cnm (nm_index 1 (-1) * (2 * 2) + nm_index 1 1) =
          Complex.I ^ (|(-1 : ℤ) - 1| - |(-1 : ℤ)| - |(1 : ℤ)|)
            * (((-1) ^ 1 * a_nm Real.sqrt 1 1 * a_nm Real.sqrt 1 (-1)
                / a_nm Real.sqrt (1 + 1) (1 - -1) : ℝ) : ℂ) :=
  ⟨⟨rfl, rfl, rfl, rfl, rfl, rfl, rfl, rfl, rfl, rfl, rfl, rfl⟩, by norm_num, by norm_num,
   by norm_num, by norm_num,
   Cnm_without_EPS _ ⟨rfl, rfl, rfl, rfl, rfl, rfl, rfl, rfl, rfl, rfl, rfl, rfl⟩
      (1 / 1000000) (by norm_num) 2 ⟨fun _ => 0, fun _ => 0, fun _ => 0, fun _ => 0⟩
      1 (-1) 1 1 (by norm_num) (by norm_num) (by norm_num) (by norm_num)⟩

/-- C20: for every `P`, the map `(n, m) ↦ n(n+1)/2 + m` is a bijection from the pairs
with `0 ≤ m ≤ n < P` onto the indices below `P(P+1)/2`, and `multipole_size` and
`local_size` return `P(P+1)/2` for every level. -/
theorem expansion_index_bijection (P : ℕ) :
    Set.BijOn (fun p : ℕ × ℕ => p.1 * (p.1 + 1) / 2 + p.2)
        {p | p.2 ≤ p.1 ∧ p.1 < P} (Set.Iio (P * (P + 1) / 2)) ∧
      (∀ level : ℤ, multipole_size P level = ((P * (P + 1) / 2 : ℕ) : ℤ)) ∧
      (∀ level : ℤ, local_size P level = ((P * (P + 1) / 2 : ℕ) : ℤ)) := by
  refine ⟨⟨?_, ?_, ?_⟩, ?_, ?_⟩
  · rintro ⟨n, m⟩ ⟨h1, h2⟩
    exact triangle_index_lt P n m h1 h2
  · rintro ⟨n, m⟩ ⟨h1, _⟩ ⟨n', m'⟩ ⟨h1', _⟩ h
    obtain ⟨rfl, rfl⟩ := triangle_index_inj n m n' m' h1 h1' h
    rfl
  · intro i hi
    obtain ⟨n, m, h1, h2, h3⟩ := triangle_index_surj P i hi
    exact ⟨(n, m), ⟨h1, h2⟩, h3⟩
  · intro level
    unfold multipole_size
    push_cast
    omega
  · intro level
    unfold local_size
    push_cast
    omega

/-! ## The order of the expansion -/

theorem preCalculation_call_cases {K C : Type} [LinearOrderedField K] [Field C]
    (F : cmath K C) (EPS : K) (P : ℕ) (raw : tables K C) :
    (P = 0 ∧ preCalculation_call F EPS P raw = .undefined) ∨
    (1 ≤ P ∧ ∃ T, preCalculation F EPS P raw = some T ∧
      preCalculation_call F EPS P raw = .value T) := by
  rcases Nat.eq_zero_or_pos P with h | h
  · left
    subst h
    exact ⟨rfl, rfl⟩
  · right
    obtain ⟨T, hT⟩ := preCalculation_some F EPS P h raw
    refine ⟨h, T, hT, ?_⟩
    unfold preCalculation_call
    rw [hT]

/-- C21, as stated, fails: `preCalculation` with the order `P = 0` reports no
`InvalidOrder`; the call has no defined behaviour. -/
theorem preCalculation_order_zero :
    preCalculation_call (⟨Real.sqrt, Real.cos, Real.sin, Real.arccos, Real.arctan, Real.pi,
        Complex.ofReal, starRingEnd ℂ, Complex.re, Complex.exp,
        fun (z : ℂ) (t : ℝ) => z ^ (t : ℂ), Complex.I⟩ : cmath ℝ ℂ) (1 / 1000000) 0
        ⟨fun _ => 0, fun _ => 0, fun _ => 0, fun _ => 0⟩ = .undefined ∧
      preCalculation_call (⟨Real.sqrt, Real.cos, Real.sin, Real.arccos, Real.arctan,
        Real.pi, Complex.ofReal, starRingEnd ℂ, Complex.re, Complex.exp,
        fun (z : ℂ) (t : ℝ) => z ^ (t : ℂ), Complex.I⟩ : cmath ℝ ℂ) (1 / 1000000) 0
        ⟨fun _ => 0, fun _ => 0, fun _ => 0, fun _ => 0⟩ ≠ .error .InvalidOrder := by
  refine ⟨rfl, ?_⟩
  intro h
  cases h

/-- C21, amended: `preCalculation` reports no error for any order. It builds its tables
exactly for the orders `P ≥ 1`; for `P < 1` it builds no tables and has no defined
behaviour. The constructor of `StokesSpherical` reports an error exactly when the
constructor of its base class does, to which it hands the order unchecked. -/
theorem preCalculation_rejects_no_order {K C : Type} [LinearOrderedField K] [Field C]
    (F : cmath K C) (EPS : K) (P : ℕ) (raw : tables K C) :
    (∀ e, preCalculation_call F EPS P raw ≠ .error e) ∧
    (1 ≤ P → ∃ T, preCalculation_call F EPS P raw = .value T) ∧
    (P < 1 → preCalculation_call F EPS P raw = .undefined) ∧
    (∀ (ε κ : Type) (base : ℤ → Outcome ε κ) (p : ℤ) (e : ε),
      StokesSpherical.construct base p = .error e ↔ base p = .error e) := by
  refine ⟨?_, ?_, ?_, ?_⟩
  · intro e h
    rcases preCalculation_call_cases F EPS P raw with ⟨_, h0⟩ | ⟨_, T, _, hT⟩
    · rw [h0] at h
      cases h
    · rw [hT] at h
      cases h
  · intro hP
    rcases preCalculation_call_cases F EPS P raw with ⟨h0, _⟩ | ⟨_, T, _, hT⟩
    · omega
    · exact ⟨T, hT⟩
  · intro hP
    rcases preCalculation_call_cases F EPS P raw with ⟨_, h0⟩ | ⟨h1, _⟩
    · exact h0
    · omega
  · intro ε κ base p e
    rfl

/-- An instance: the order 1 gives tables, the order 0 gives none and no error. -/
theorem preCalculation_rejects_no_order_witness :
    (1 ≤ 1 ∧ ∃ T, preCalculation_call (⟨Real.sqrt, Real.cos, Real.sin, Real.arccos,
        Real.arctan, Real.pi, Complex.ofReal, starRingEnd ℂ, Complex.re, Complex.exp,
        fun (z : ℂ) (t : ℝ) => z ^ (t : ℂ), Complex.I⟩ : cmath ℝ ℂ) (1 / 1000000) 1
        ⟨fun _ => 0, fun _ => 0, fun _ => 0, fun _ => 0⟩ = .value T) ∧
    (0 < 1 ∧ preCalculation_call (⟨Real.sqrt, Real.cos, Real.sin, Real.arccos,
        Real.arctan, Real.pi, Complex.ofReal, starRingEnd ℂ, Complex.re, Complex.exp,
        fun (z : ℂ) (t : ℝ) => z ^ (t : ℂ), Complex.I⟩ : cmath ℝ ℂ) (1 / 1000000) 0
        ⟨fun _ => 0, fun _ => 0, fun _ => 0, fun _ => 0⟩ = .undefined) :=
  ⟨⟨le_refl 1, (preCalculation_rejects_no_order _ _ 1 _).2.1 (le_refl 1)⟩,
   ⟨Nat.zero_lt_one, (preCalculation_rejects_no_order _ _ 0 _).2.2.1 Nat.zero_lt_one⟩⟩

end SphericalLaplaceKernel

namespace StokesSpherical

open SphericalLaplaceKernel

/-! ## The direct Stokes kernel -/

theorem stokes_pair_eq (t r s f : vect ℝ) :
    P2P_pair Real.sqrt t r (s, f) = r.add (stokeslet Real.sqrt (t.sub s) f) := by
  unfold P2P_pair stokeslet
  by_cases h : SphericalLaplaceKernel.norm (t.sub s) < 1 / 100000000
  · simp only [if_pos h, vect.add, Real.sqrt_zero, mul_zero, zero_mul, add_zero]
  · simp only [if_neg h, vect.add]
    have hpos : 0 < SphericalLaplaceKernel.norm (t.sub s) := by
      have : (1 : ℝ) / 100000000 ≤ SphericalLaplaceKernel.norm (t.sub s) := not_lt.1 h
      linarith [show (0 : ℝ) < 1 / 100000000 by norm_num]
    generalize SphericalLaplaceKernel.norm (t.sub s) = N at hpos
    have hs : 0 < Real.sqrt N := Real.sqrt_pos.2 hpos
    have hsq : Real.sqrt N * Real.sqrt N = N := Real.mul_self_sqrt hpos.le
    have hinv : Real.sqrt (1 / N) = 1 / Real.sqrt N := by
      rw [one_div, Real.sqrt_inv, one_div]
    rw [hinv]
    have hne : Real.sqrt N ≠ 0 := hs.ne'
    have key : ∀ a b : ℝ, 1 / Real.sqrt N * (1 / N) * (a * N + b) =
        a / Real.sqrt N + b / Real.sqrt N ^ 3 := by
      intro a b
      have hN3 : Real.sqrt N ^ 3 = Real.sqrt N * N := by
        rw [pow_succ, pow_two, hsq, mul_comm]
      rw [hN3]
      field_simp
      ring
    rw [key, key, key]
    simp only [vect.mk.injEq]
    refine ⟨?_, ?_, ?_⟩ <;> ring

theorem stokes_fold_eq (t : vect ℝ) (sources : List (vect ℝ × vect ℝ)) :
    ∀ r : vect ℝ, sources.foldl (P2P_pair Real.sqrt t) r =
      ⟨r.x + (sources.map (fun sf => (stokeslet Real.sqrt (t.sub sf.1) sf.2).x)).sum,
       r.y + (sources.map (fun sf => (stokeslet Real.sqrt (t.sub sf.1) sf.2).y)).sum,
       r.z + (sources.map (fun sf => (stokeslet Real.sqrt (t.sub sf.1) sf.2).z)).sum⟩ := by
  induction sources with
  | nil =>
    intro r
    simp
  | cons sf rest ih =>
    intro r
    obtain ⟨s, f⟩ := sf
    rw [List.foldl_cons, stokes_pair_eq, ih]
    simp only [vect.add, List.map_cons, List.sum_cons, vect.mk.injEq]
    refine ⟨?_, ?_, ?_⟩ <;> ring

/-- C25: in Stokeslet mode the pass of `P2P` for a target `t` and a source `s` with
`|dist|^2 ≥ 1e-8`, `dist = t - s`, `R = |dist|`, adds `f_i / R + dist_i (f . dist) / R^3`
to the component `i` of the result, and a pass with `|dist|^2 < 1e-8`, so one for a
source at the target, leaves the result as it is; the kernel adds to the result of every
target the sum of these terms over the sources; for `f = (1,0,0)`, the source `(0,0,0)`
and the target `(1,0,0)` the result `(0,0,0)` becomes `(2,0,0)`. -/
theorem P2P_adds_stokeslets :
    (∀ t r s f : vect ℝ, 1 / 100000000 ≤ norm (t.sub s) →
      P2P_pair Real.sqrt t r (s, f) =
        ⟨r.x + (f.x / Real.sqrt (norm (t.sub s))
            + (t.sub s).x * (f.x * (t.sub s).x + f.y * (t.sub s).y + f.z * (t.sub s).z)
              / Real.sqrt (norm (t.sub s)) ^ 3),
         r.y + (f.y / Real.sqrt (norm (t.sub s))
            + (t.sub s).y * (f.x * (t.sub s).x + f.y * (t.sub s).y + f.z * (t.sub s).z)
              / Real.sqrt (norm (t.sub s)) ^ 3),
         r.z + (f.z / Real.sqrt (norm (t.sub s))
            + (t.sub s).z * (f.x * (t.sub s).x + f.y * (t.sub s).y + f.z * (t.sub s).z)
              / Real.sqrt (norm (t.sub s)) ^ 3)⟩) ∧
    (∀ t r s f : vect ℝ, norm (t.sub s) < 1 / 100000000 →
      P2P_pair Real.sqrt t r (s, f) = r) ∧
    (∀ t r f : vect ℝ, P2P_pair Real.sqrt t r (t, f) = r) ∧
    (∀ (sources targets : List (vect ℝ × vect ℝ)),
      P2P Real.sqrt sources targets = targets.map (fun tr =>
        ⟨tr.2.x + (sources.map (fun sf => (stokeslet Real.sqrt (tr.1.sub sf.1) sf.2).x)).sum,
         tr.2.y + (sources.map (fun sf => (stokeslet Real.sqrt (tr.1.sub sf.1) sf.2).y)).sum,
         tr.2.z + (sources.map (fun sf =>
            (stokeslet Real.sqrt (tr.1.sub sf.1) sf.2).z)).sum⟩)) ∧
    P2P Real.sqrt [(⟨0, 0, 0⟩, ⟨1, 0, 0⟩)] [(⟨1, 0, 0⟩, ⟨0, 0, 0⟩)] = [⟨2, 0, 0⟩] := by
  have hsmall : ∀ t r s f : vect ℝ, norm (t.sub s) < 1 / 100000000 →
      P2P_pair Real.sqrt t r (s, f) = r := by
    intro t r s f h
    rw [stokes_pair_eq]
    unfold stokeslet
    rw [if_pos h]
    simp [vect.add]
  refine ⟨?_, hsmall, ?_, ?_, ?_⟩
  · intro t r s f h
    rw [stokes_pair_eq]
    unfold stokeslet
    rw [if_neg (not_lt.2 h)]
    rfl
  · intro t r f
    apply hsmall
    have : SphericalLaplaceKernel.norm (t.sub t) = 0 := by
      simp [SphericalLaplaceKernel.norm, vect.sub]
    rw [this]
    norm_num
  · intro sources targets
    unfold P2P
    apply List.map_congr_left
    intro tr _
    exact stokes_fold_eq tr.1 sources tr.2
  · unfold P2P
    simp only [List.map_cons, List.map_nil, List.foldl_cons, List.foldl_nil]
    rw [stokes_pair_eq]
    unfold stokeslet
    have hn : SphericalLaplaceKernel.norm ((⟨1, 0, 0⟩ : vect ℝ).sub ⟨0, 0, 0⟩) = 1 := by
      simp [SphericalLaplaceKernel.norm, vect.sub]
    rw [hn, if_neg (by norm_num)]
    simp [vect.add, vect.sub]
    norm_num

/-! ## The kernel `P2M` of `StokesSpherical` -/

end StokesSpherical

namespace SphericalLaplaceKernel

theorem for_range_map {σ τ : Type} (f : σ → τ) (lo hi : ℕ) (body : ℕ → σ → σ)
    (body' : ℕ → τ → τ) (h : ∀ i s, lo ≤ i → i < hi → f (body i s) = body' i (f s))
    (s : σ) : f (for_range lo hi body s) = for_range lo hi body' (f s) := by
  rcases Nat.lt_or_ge hi lo with hlt | hge
  · rw [for_range_empty lo hi hlt.le, for_range_empty lo hi hlt.le]
  · exact for_range_induction (fun i t => f t = for_range lo i body' (f s)) lo hi hge body s
      (by beta_reduce; rw [for_range_empty lo lo (le_refl _)])
      (fun i t hi1 hi2 ht => by
        beta_reduce at ht ⊢
        rw [for_range_succ lo i hi1, ← ht]
        exact h i t hi1 hi2)

end SphericalLaplaceKernel

namespace StokesSpherical

open SphericalLaplaceKernel

/-- Each array of the expansion changes under `P2M` as the multipole of a cell under the
kernel `P2M` of the Laplace kernel, for every field of numbers. -/
theorem stokes_P2M_component {K C : Type} [LinearOrderedField K] [Field C] (F : cmath K C)
    (EPS : K) (prefactor : ℕ → K) (P : ℕ) (source charge center : vect K)
    (M : ℕ → ℕ → C) (R RMAX RCRIT : K) (L : ℕ → C) (TRG : vec4 K) :
    P2M F EPS prefactor P source charge center M 0 =
      (SphericalLaplaceKernel.P2M F EPS prefactor P ⟨center, R, RMAX, RCRIT, M 0, L⟩
        [⟨source, charge.x, TRG⟩]).M ∧
    P2M F EPS prefactor P source charge center M 1 =
      (SphericalLaplaceKernel.P2M F EPS prefactor P ⟨center, R, RMAX, RCRIT, M 1, L⟩
        [⟨source, charge.y, TRG⟩]).M ∧
    P2M F EPS prefactor P source charge center M 2 =
      (SphericalLaplaceKernel.P2M F EPS prefactor P ⟨center, R, RMAX, RCRIT, M 2, L⟩
        [⟨source, charge.z, TRG⟩]).M ∧
    P2M F EPS prefactor P source charge center M 3 =
      (SphericalLaplaceKernel.P2M F EPS prefactor P ⟨center, R, RMAX, RCRIT, M 3, L⟩
        [⟨source, charge.x * source.x + charge.y * source.y + charge.z * source.z,
          TRG⟩]).M ∧
    ∀ i, 4 ≤ i → P2M F EPS prefactor P source charge center M i = M i := by
  have hidx : ∀ n m : ℕ, n * (n + 1) + m = n * n + n + m := by
    intro n m
    ring
  refine ⟨?_, ?_, ?_, ?_, ?_⟩
  · unfold P2M SphericalLaplaceKernel.P2M P2M_body
    simp only [List.foldl_cons, List.foldl_nil]
    refine for_range_map (fun M4 : ℕ → ℕ → C => M4 0) 0 P _ _ ?_ M
    intro n M4 _ _
    refine for_range_map (fun M4 : ℕ → ℕ → C => M4 0) 0 (n + 1) _ _ ?_ M4
    intro m M5 _ _
    simp [Function.update_noteq, hidx]
  · unfold P2M SphericalLaplaceKernel.P2M P2M_body
    simp only [List.foldl_cons, List.foldl_nil]
    refine for_range_map (fun M4 : ℕ → ℕ → C => M4 1) 0 P _ _ ?_ M
    intro n M4 _ _
    refine for_range_map (fun M4 : ℕ → ℕ → C => M4 1) 0 (n + 1) _ _ ?_ M4
    intro m M5 _ _
    simp [Function.update_noteq, hidx]
  · unfold P2M SphericalLaplaceKernel.P2M P2M_body
    simp only [List.foldl_cons, List.foldl_nil]
    refine for_range_map (fun M4 : ℕ → ℕ → C => M4 2) 0 P _ _ ?_ M
    intro n M4 _ _
    refine for_range_map (fun M4 : ℕ → ℕ → C => M4 2) 0 (n + 1) _ _ ?_ M4
    intro m M5 _ _
    simp [Function.update_noteq, hidx]
  · unfold P2M SphericalLaplaceKernel.P2M P2M_body
    simp only [List.foldl_cons, List.foldl_nil]
    refine for_range_map (fun M4 : ℕ → ℕ → C => M4 3) 0 P _ _ ?_ M
    intro n M4 _ _
    refine for_range_map (fun M4 : ℕ → ℕ → C => M4 3) 0 (n + 1) _ _ ?_ M4
    intro m M5 _ _
    simp [Function.update_noteq, hidx]
  · intro i hi
    unfold P2M
    have h := for_range_map (fun M4 : ℕ → ℕ → C => M4 i) 0 P
      (fun n M => for_range 0 (n + 1) (fun m M =>
        let nm := n * (n + 1) + m
        let nms := n * (n + 1) / 2 + m
        let M := Function.update M 0 (Function.update (M 0) nms (M 0 nms + F.ofReal charge.x
          * (evalMultipole F prefactor P (cart2sph F EPS (source.sub center)).1
            (cart2sph F EPS (source.sub center)).2.1 (-(cart2sph F EPS (source.sub center)).2.2)
            (fun _ => 0) (fun _ => 0)).1 nm))
        let M := Function.update M 1 (Function.update (M 1) nms (M 1 nms + F.ofReal charge.y
          * (evalMultipole F prefactor P (cart2sph F EPS (source.sub center)).1
            (cart2sph F EPS (source.sub center)).2.1 (-(cart2sph F EPS (source.sub center)).2.2)
            (fun _ => 0) (fun _ => 0)).1 nm))
        let M := Function.update M 2 (Function.update (M 2) nms (M 2 nms + F.ofReal charge.z
          * (evalMultipole F prefactor P (cart2sph F EPS (source.sub center)).1
            (cart2sph F EPS (source.sub center)).2.1 (-(cart2sph F EPS (source.sub center)).2.2)
            (fun _ => 0) (fun _ => 0)).1 nm))
        Function.update M 3 (Function.update (M 3) nms (M 3 nms + F.ofReal
          (charge.x * source.x + charge.y * source.y + charge.z * source.z)
          * (evalMultipole F prefactor P (cart2sph F EPS (source.sub center)).1
            (cart2sph F EPS (source.sub center)).2.1 (-(cart2sph F EPS (source.sub center)).2.2)
            (fun _ => 0) (fun _ => 0)).1 nm))) M)
      (fun _ Mi => Mi) ?_ M
    · refine h.trans ?_
      have : ∀ (hi' : ℕ) (s : ℕ → C), for_range 0 hi' (fun _ Mi => Mi) s = s := by
        intro hi' s
        exact for_range_induction (fun _ t => t = s) 0 hi' (Nat.zero_le _) _ s rfl
          (fun _ t _ _ ht => ht)
      exact this P (M i)
    · intro n M4 _ _
      have h2 := for_range_map (fun M4 : ℕ → ℕ → C => M4 i) 0 (n + 1)
        (fun m M =>
        let nm := n * (n + 1) + m
        let nms := n * (n + 1) / 2 + m
        let M := Function.update M 0 (Function.update (M 0) nms (M 0 nms + F.ofReal charge.x
          * (evalMultipole F prefactor P (cart2sph F EPS (source.sub center)).1
            (cart2sph F EPS (source.sub center)).2.1 (-(cart2sph F EPS (source.sub center)).2.2)
            (fun _ => 0) (fun _ => 0)).1 nm))
        let M := Function.update M 1 (Function.update (M 1) nms (M 1 nms + F.ofReal charge.y
          * (evalMultipole F prefactor P (cart2sph F EPS (source.sub center)).1
            (cart2sph F EPS (source.sub center)).2.1 (-(cart2sph F EPS (source.sub center)).2.2)
            (fun _ => 0) (fun _ => 0)).1 nm))
        let M := Function.update M 2 (Function.update (M 2) nms (M 2 nms + F.ofReal charge.z
          * (evalMultipole F prefactor P (cart2sph F EPS (source.sub center)).1
            (cart2sph F EPS (source.sub center)).2.1 (-(cart2sph F EPS (source.sub center)).2.2)
            (fun _ => 0) (fun _ => 0)).1 nm))
        Function.update M 3 (Function.update (M 3) nms (M 3 nms + F.ofReal
          (charge.x * source.x + charge.y * source.y + charge.z * source.z)
          * (evalMultipole F prefactor P (cart2sph F EPS (source.sub center)).1
            (cart2sph F EPS (source.sub center)).2.1 (-(cart2sph F EPS (source.sub center)).2.2)
            (fun _ => 0) (fun _ => 0)).1 nm)))
        (fun _ Mi => Mi) ?_ M4
      · refine h2.trans ?_
        exact for_range_induction (fun _ t => t = M4 i) 0 (n + 1) (Nat.zero_le _) _ (M4 i) rfl
          (fun _ t _ _ ht => ht)
      · intro m M5 _ _
        have h0 : i ≠ 0 := by omega
        have h1 : i ≠ 1 := by omega
        have h2 : i ≠ 2 := by omega
        have h3 : i ≠ 3 := by omega
        simp [Function.update_noteq, h0, h1, h2, h3]

theorem stokes_P2M_entry (F : cmath ℝ ℂ) (hF : F.exact) (EPS : ℝ) (prefactor : ℕ → ℝ)
    (P : ℕ) (source charge center : vect ℝ) (M : ℕ → ℕ → ℂ) (i n m : ℕ) (hi : i < 4)
    (hm : m ≤ n) (hn : n < P) :
    P2M F EPS prefactor P source charge center M i (n * (n + 1) / 2 + m) =
      M i (n * (n + 1) / 2 + m) + ((P2M_weight charge source i : ℝ) : ℂ) *
        (evalMultipole F prefactor P (cart2sph F EPS (source.sub center)).1
          (cart2sph F EPS (source.sub center)).2.1 (-(cart2sph F EPS (source.sub center)).2.2)
          (fun _ => 0) (fun _ => 0)).1 (n * n + n + m) := by
  obtain ⟨h0, h1, h2, h3, _⟩ := stokes_P2M_component F EPS prefactor P source charge center M
    0 0 0 (fun _ => 0) ⟨0, 0, 0, 0⟩
  have key : ∀ (w : ℝ) (Mi : ℕ → ℂ),
      (SphericalLaplaceKernel.P2M F EPS prefactor P ⟨center, 0, 0, 0, Mi, fun _ => 0⟩
        [⟨source, w, ⟨0, 0, 0, 0⟩⟩]).M (n * (n + 1) / 2 + m) =
      Mi (n * (n + 1) / 2 + m) + (w : ℂ) *
        (evalMultipole F prefactor P (cart2sph F EPS (source.sub center)).1
          (cart2sph F EPS (source.sub center)).2.1 (-(cart2sph F EPS (source.sub center)).2.2)
          (fun _ => 0) (fun _ => 0)).1 (n * n + n + m) := by
    intro w Mi
    have := (P2M_fold_M F hF EPS prefactor P ⟨center, 0, 0, 0, Mi, fun _ => 0⟩
      [⟨source, w, ⟨0, 0, 0, 0⟩⟩] ⟨0, fun _ => 0, fun _ => 0, Mi⟩).1 n m hm hn
    simpa [SphericalLaplaceKernel.P2M] using this
  have hcases : i = 0 ∨ i = 1 ∨ i = 2 ∨ i = 3 := by omega
  rcases hcases with h | h | h | h <;> subst h
  · rw [h0, key]; rfl
  · rw [h1, key]; rfl
  · rw [h2, key]; rfl
  · rw [h3, key]; rfl

theorem P2M_weight_linear (a b : ℝ) (f g source : vect ℝ) (i : ℕ) :
    P2M_weight ⟨a * f.x + b * g.x, a * f.y + b * g.y, a * f.z + b * g.z⟩ source i =
      a * P2M_weight f source i + b * P2M_weight g source i := by
  unfold P2M_weight
  split <;> ring

/-- C27: in Stokeslet mode `P2M` of the source `x` with the charge `f` about the center
`c` changes the array `M[i]`, `i = 0, 1, 2`, as the kernel `P2M` of the Laplace kernel
changes the multipole `M[i]` of a cell with the center `c` and the one body `x` of
weight `f_i`, and `M[3]` as that kernel does with the weight `f . x` of the position
`x` itself; the amount by which a coefficient changes is linear in `f`. -/
theorem P2M_is_componentwise_laplace (F : cmath ℝ ℂ) (hF : F.exact) (EPS : ℝ)
    (prefactor : ℕ → ℝ) (P : ℕ) (source charge center : vect ℝ) (M : ℕ → ℕ → ℂ)
    (R RMAX RCRIT : ℝ) (L : ℕ → ℂ) (TRG : vec4 ℝ) :
    P2M F EPS prefactor P source charge center M 0 =
      (SphericalLaplaceKernel.P2M F EPS prefactor P ⟨center, R, RMAX, RCRIT, M 0, L⟩
        [⟨source, charge.x, TRG⟩]).M ∧
    P2M F EPS prefactor P source charge center M 1 =
      (SphericalLaplaceKernel.P2M F EPS prefactor P ⟨center, R, RMAX, RCRIT, M 1, L⟩
        [⟨source, charge.y, TRG⟩]).M ∧
    P2M F EPS prefactor P source charge center M 2 =
      (SphericalLaplaceKernel.P2M F EPS prefactor P ⟨center, R, RMAX, RCRIT, M 2, L⟩
        [⟨source, charge.z, TRG⟩]).M ∧
    P2M F EPS prefactor P source charge center M 3 =
      (SphericalLaplaceKernel.P2M F EPS prefactor P ⟨center, R, RMAX, RCRIT, M 3, L⟩
        [⟨source, charge.x * source.x + charge.y * source.y + charge.z * source.z,
          TRG⟩]).M ∧
    (∀ i, 4 ≤ i → P2M F EPS prefactor P source charge center M i = M i) ∧
    (∀ (a b : ℝ) (f g : vect ℝ) (i n m : ℕ), i < 4 → m ≤ n → n < P →
      P2M F EPS prefactor P source
          ⟨a * f.x + b * g.x, a * f.y + b * g.y, a * f.z + b * g.z⟩ center M i
          (n * (n + 1) / 2 + m) - M i (n * (n + 1) / 2 + m) =
        (a : ℂ) * (P2M F EPS prefactor P source f center M i (n * (n + 1) / 2 + m)
            - M i (n * (n + 1) / 2 + m))
          + (b : ℂ) * (P2M F EPS prefactor P source g center M i (n * (n + 1) / 2 + m)
            - M i (n * (n + 1) / 2 + m))) := by
  obtain ⟨h0, h1, h2, h3, h4⟩ := stokes_P2M_component F EPS prefactor P source charge
    center M R RMAX RCRIT L TRG
  refine ⟨h0, h1, h2, h3, h4, ?_⟩
  intro a b f g i n m hi hm hn
  rw [stokes_P2M_entry F hF EPS prefactor P source _ center M i n m hi hm hn,
    stokes_P2M_entry F hF EPS prefactor P source f center M i n m hi hm hn,
    stokes_P2M_entry F hF EPS prefactor P source g center M i n m hi hm hn,
    P2M_weight_linear]
  push_cast
  ring

/-- An instance: the order 1, the source `(1, 2, 3)` with the charge `(1, 0, 0)` about
the origin. -/
theorem P2M_is_componentwise_laplace_witness :
    cmath.exact (⟨Real.sqrt, Real.cos, Real.sin, Real.arccos, Real.arctan, Real.pi,
        Complex.ofReal, starRingEnd ℂ, Complex.re, Complex.exp,
        fun (z : ℂ) (t : ℝ) => z ^ (t : ℂ), Complex.I⟩ : cmath ℝ ℂ) ∧
      P2M (⟨Real.sqrt, Real.cos, Real.sin, Real.arccos, Real.arctan, Real.pi,
        Complex.ofReal, starRingEnd ℂ, Complex.re, Complex.exp,
        fun (z : ℂ) (t : ℝ) => z ^ (t : ℂ), Complex.I⟩ : cmath ℝ ℂ) (1 / 1000000)
        (fun _ => 1) 1 ⟨1, 2, 3⟩ ⟨1, 0, 0⟩ ⟨0, 0, 0⟩ (fun _ _ => 0) 3 =
      (SphericalLaplaceKernel.P2M (⟨Real.sqrt, Real.cos, Real.sin, Real.arccos, Real.arctan,
        Real.pi, Complex.ofReal, starRingEnd ℂ, Complex.re, Complex.exp,
        fun (z : ℂ) (t : ℝ) => z ^ (t : ℂ), Complex.I⟩ : cmath ℝ ℂ) (1 / 1000000)
        (fun _ => 1) 1 ⟨⟨0, 0, 0⟩, 0, 0, 0, fun _ => 0, fun _ => 0⟩
        [⟨⟨1, 2, 3⟩, 1 * 1 + 0 * 2 + 0 * 3, ⟨0, 0, 0, 0⟩⟩]).M :=
  ⟨⟨rfl, rfl, rfl, rfl, rfl, rfl, rfl, rfl, rfl, rfl, rfl, rfl⟩,
    (P2M_is_componentwise_laplace _ ⟨rfl, rfl, rfl, rfl, rfl, rfl, rfl, rfl, rfl, rfl, rfl,
      rfl⟩ (1 / 1000000) (fun _ => 1) 1 ⟨1, 2, 3⟩ ⟨1, 0, 0⟩ ⟨0, 0, 0⟩ (fun _ _ => 0)
      0 0 0 (fun _ => 0) ⟨0, 0, 0, 0⟩).2.2.2.1⟩

end StokesSpherical

namespace SphericalLaplaceKernel

theorem for_range_rel {σ τ : Type} (R : σ → τ → Prop) (lo hi : ℕ) (b1 : ℕ → σ → σ)
    (b2 : ℕ → τ → τ) (h : ∀ i s t, lo ≤ i → i < hi → R s t → R (b1 i s) (b2 i t))
    (s : σ) (t : τ) (h0 : R s t) :
    R (for_range lo hi b1 s) (for_range lo hi b2 t) := by
  rcases Nat.lt_or_ge hi lo with hlt | hge
  · rw [for_range_empty lo hi hlt.le, for_range_empty lo hi hlt.le]
    exact h0
  · exact for_range_induction (fun i u => R u (for_range lo i b2 t)) lo hi hge b1 s
      (by beta_reduce; rw [for_range_empty lo lo (le_refl _)]; exact h0)
      (fun i u hi1 hi2 hu => by
        beta_reduce at hu ⊢
        rw [for_range_succ lo i hi1]
        exact h i u _ hi1 hi2 hu)

end SphericalLaplaceKernel

namespace StokesSpherical

open SphericalLaplaceKernel

/-! ## The kernel `M2P` of `StokesSpherical` -/

theorem M2P_m_rel {K C : Type} [LinearOrderedField K] [Field C] (F : cmath K C)
    (M : ℕ → ℕ → C) (Y T : ℕ → C) (r : K) (r0 : vect K) (c : K) (n m : ℕ)
    (s : M2P_vars K) (a : M2P_acc K × M2P_acc K × M2P_acc K × M2P_acc K)
    (h : M2P_rel r0 c s a) :
    M2P_rel r0 c (M2P_m F M Y T (1 / r * ((n : K) + 1)) n m s)
      ((⟨a.1.TRG0 + 2 * F.real (M 0 (n * (n + 1) / 2 + m) * Y (n * n + n + m)),
         ⟨a.1.spherical.x - 2 * F.real (M 0 (n * (n + 1) / 2 + m) * Y (n * n + n + m)) / r
            * ((n : K) + 1),
          a.1.spherical.y + 2 * F.real (M 0 (n * (n + 1) / 2 + m) * T (n * n + n + m)),
          a.1.spherical.z + 2 * F.real (M 0 (n * (n + 1) / 2 + m) * Y (n * n + n + m) * F.I)
            * (m : K)⟩⟩ : M2P_acc K),
       (⟨a.2.1.TRG0 + 2 * F.real (M 1 (n * (n + 1) / 2 + m) * Y (n * n + n + m)),
         ⟨a.2.1.spherical.x - 2 * F.real (M 1 (n * (n + 1) / 2 + m) * Y (n * n + n + m)) / r
            * ((n : K) + 1),
          a.2.1.spherical.y + 2 * F.real (M 1 (n * (n + 1) / 2 + m) * T (n * n + n + m)),
          a.2.1.spherical.z + 2 * F.real (M 1 (n * (n + 1) / 2 + m) * Y (n * n + n + m) * F.I)
            * (m : K)⟩⟩ : M2P_acc K),
       (⟨a.2.2.1.TRG0 + 2 * F.real (M 2 (n * (n + 1) / 2 + m) * Y (n * n + n + m)),
         ⟨a.2.2.1.spherical.x - 2 * F.real (M 2 (n * (n + 1) / 2 + m) * Y (n * n + n + m)) / r
            * ((n : K) + 1),
          a.2.2.1.spherical.y + 2 * F.real (M 2 (n * (n + 1) / 2 + m) * T (n * n + n + m)),
          a.2.2.1.spherical.z
            + 2 * F.real (M 2 (n * (n + 1) / 2 + m) * Y (n * n + n + m) * F.I)
            * (m : K)⟩⟩ : M2P_acc K),
       (⟨a.2.2.2.TRG0 + 2 * F.real (M 3 (n * (n + 1) / 2 + m) * Y (n * n + n + m)),
         ⟨a.2.2.2.spherical.x - 2 * F.real (M 3 (n * (n + 1) / 2 + m) * Y (n * n + n + m)) / r
            * ((n : K) + 1),
          a.2.2.2.spherical.y + 2 * F.real (M 3 (n * (n + 1) / 2 + m) * T (n * n + n + m)),
          a.2.2.2.spherical.z
            + 2 * F.real (M 3 (n * (n + 1) / 2 + m) * Y (n * n + n + m) * F.I)
            * (m : K)⟩⟩ : M2P_acc K)) := by
  obtain ⟨h1, h2, h3, h4, h5, h6, h7⟩ := h
  unfold M2P_m
  refine ⟨?_, ?_, ?_, ?_, ?_, ?_, ?_⟩
  · show s.result.x + _ = _
    rw [h1]; ring
  · show s.result.y + _ = _
    rw [h2]; ring
  · show s.result.z + _ = _
    rw [h3]; ring
  · show (⟨_, _, _⟩ : vect K) = _
    rw [h4]
    simp only [vect.mk.injEq, and_true, true_and]
    ring_nf
  · show (⟨_, _, _⟩ : vect K) = _
    rw [h5]
    simp only [vect.mk.injEq, and_true, true_and]
    ring_nf
  · show (⟨_, _, _⟩ : vect K) = _
    rw [h6]
    simp only [vect.mk.injEq, and_true, true_and]
    ring_nf
  · show (⟨_, _, _⟩ : vect K) = _
    rw [h7]
    simp only [vect.mk.injEq, and_true, true_and]
    ring_nf

theorem for_range_tuple {A : Type} (lo hi : ℕ) (b0 b1 b2 b3 : ℕ → A → A) (a0 a1 a2 a3 : A) :
    for_range lo hi (fun i (t : A × A × A × A) => (b0 i t.1, b1 i t.2.1, b2 i t.2.2.1,
      b3 i t.2.2.2)) (a0, a1, a2, a3) =
    (for_range lo hi b0 a0, for_range lo hi b1 a1, for_range lo hi b2 a2,
      for_range lo hi b3 a3) := by
  have e0 := for_range_map (fun t : A × A × A × A => t.1) lo hi
    (fun i (t : A × A × A × A) => (b0 i t.1, b1 i t.2.1, b2 i t.2.2.1, b3 i t.2.2.2)) b0
    (fun _ _ _ _ => rfl) (a0, a1, a2, a3)
  have e1 := for_range_map (fun t : A × A × A × A => t.2.1) lo hi
    (fun i (t : A × A × A × A) => (b0 i t.1, b1 i t.2.1, b2 i t.2.2.1, b3 i t.2.2.2)) b1
    (fun _ _ _ _ => rfl) (a0, a1, a2, a3)
  have e2 := for_range_map (fun t : A × A × A × A => t.2.2.1) lo hi
    (fun i (t : A × A × A × A) => (b0 i t.1, b1 i t.2.1, b2 i t.2.2.1, b3 i t.2.2.2)) b2
    (fun _ _ _ _ => rfl) (a0, a1, a2, a3)
  have e3 := for_range_map (fun t : A × A × A × A => t.2.2.2) lo hi
    (fun i (t : A × A × A × A) => (b0 i t.1, b1 i t.2.1, b2 i t.2.2.1, b3 i t.2.2.2)) b3
    (fun _ _ _ _ => rfl) (a0, a1, a2, a3)
  exact Prod.ext e0 (Prod.ext e1 (Prod.ext e2 e3))

theorem M2P_n_rel {K C : Type} [LinearOrderedField K] [Field C] (F : cmath K C)
    (M : ℕ → ℕ → C) (Y T : ℕ → C) (r : K) (r0 : vect K) (c : K) (n : ℕ)
    (s : M2P_vars K) (a : M2P_acc K × M2P_acc K × M2P_acc K × M2P_acc K)
    (h : M2P_rel r0 c s a) :
    M2P_rel r0 c (M2P_n F M Y T r n s)
      (SphericalLaplaceKernel.M2P_n F (M 0) Y T r n a.1,
       SphericalLaplaceKernel.M2P_n F (M 1) Y T r n a.2.1,
       SphericalLaplaceKernel.M2P_n F (M 2) Y T r n a.2.2.1,
       SphericalLaplaceKernel.M2P_n F (M 3) Y T r n a.2.2.2) := by
  obtain ⟨h1, h2, h3, h4, h5, h6, h7⟩ := h
  unfold M2P_n SphericalLaplaceKernel.M2P_n
  dsimp only
  rw [← for_range_tuple]
  refine for_range_rel (M2P_rel r0 c) 1 (n + 1) _ _ ?_ _ _ ?_
  · intro m s' a' _ _ h'
    exact M2P_m_rel F M Y T r r0 c n m s' a' h'
  · refine ⟨?_, ?_, ?_, ?_, ?_, ?_, ?_⟩
    · show s.result.x + _ = _
      rw [h1]; ring
    · show s.result.y + _ = _
      rw [h2]; ring
    · show s.result.z + _ = _
      rw [h3]; ring
    · show (⟨_, _, _⟩ : vect K) = _
      rw [h4]
      simp only [vect.mk.injEq, and_true, true_and]
      ring_nf
    · show (⟨_, _, _⟩ : vect K) = _
      rw [h5]
      simp only [vect.mk.injEq, and_true, true_and]
      ring_nf
    · show (⟨_, _, _⟩ : vect K) = _
      rw [h6]
      simp only [vect.mk.injEq, and_true, true_and]
      ring_nf
    · show (⟨_, _, _⟩ : vect K) = _
      rw [h7]
      simp only [vect.mk.injEq, and_true, true_and]
      ring_nf

theorem M2P_loop_rel {K C : Type} [LinearOrderedField K] [Field C] (F : cmath K C)
    (M : ℕ → ℕ → C) (Y T : ℕ → C) (r : K) (r0 : vect K) (c : K) (P : ℕ) :
    M2P_rel r0 c
      (for_range 0 P (M2P_n F M Y T r) ⟨r0, ⟨0, 0, 0⟩, ⟨0, 0, 0⟩, ⟨0, 0, 0⟩, ⟨0, 0, 0⟩⟩)
      (for_range 0 P (SphericalLaplaceKernel.M2P_n F (M 0) Y T r) ⟨c, ⟨0, 0, 0⟩⟩,
       for_range 0 P (SphericalLaplaceKernel.M2P_n F (M 1) Y T r) ⟨c, ⟨0, 0, 0⟩⟩,
       for_range 0 P (SphericalLaplaceKernel.M2P_n F (M 2) Y T r) ⟨c, ⟨0, 0, 0⟩⟩,
       for_range 0 P (SphericalLaplaceKernel.M2P_n F (M 3) Y T r) ⟨c, ⟨0, 0, 0⟩⟩) := by
  have := for_range_tuple 0 P (SphericalLaplaceKernel.M2P_n F (M 0) Y T r)
    (SphericalLaplaceKernel.M2P_n F (M 1) Y T r) (SphericalLaplaceKernel.M2P_n F (M 2) Y T r)
    (SphericalLaplaceKernel.M2P_n F (M 3) Y T r)
    ⟨c, ⟨0, 0, 0⟩⟩ ⟨c, ⟨0, 0, 0⟩⟩ ⟨c, ⟨0, 0, 0⟩⟩ ⟨c, ⟨0, 0, 0⟩⟩
  rw [← this]
  refine for_range_rel (M2P_rel r0 c) 0 P _ _ ?_ _ _ ?_
  · intro n s a _ _ h
    exact M2P_n_rel F M Y T r r0 c n s a h
  · refine ⟨?_, ?_, ?_, rfl, rfl, rfl, rfl⟩ <;> simp

theorem vect_sub_zero {K : Type} [Field K] (a : vect K) : a.sub ⟨0, 0, 0⟩ = a := by
  cases a
  simp [vect.sub]

theorem M2P_increment_eq {K C : Type} [LinearOrderedField K] [Field C] (F : cmath K C)
    (EPS : K) (prefactor : ℕ → K) (P : ℕ) (Mi : ℕ → C) (center target : vect K) (w : K)
    (trg : vec4 K) :
    M2P_increment F EPS prefactor P Mi center ⟨target, w, trg⟩ =
      ⟨(for_range 0 P (SphericalLaplaceKernel.M2P_n F Mi
          (evalLocal F prefactor P (cart2sph F EPS (target.sub center)).1
            (cart2sph F EPS (target.sub center)).2.1 (cart2sph F EPS (target.sub center)).2.2
            (fun _ => 0) (fun _ => 0)).1
          (evalLocal F prefactor P (cart2sph F EPS (target.sub center)).1
            (cart2sph F EPS (target.sub center)).2.1 (cart2sph F EPS (target.sub center)).2.2
            (fun _ => 0) (fun _ => 0)).2
          (cart2sph F EPS (target.sub center)).1) ⟨trg.v0, ⟨0, 0, 0⟩⟩).TRG0 - trg.v0,
       (sph2cart F (cart2sph F EPS (target.sub center)).1
          (cart2sph F EPS (target.sub center)).2.1 (cart2sph F EPS (target.sub center)).2.2
          (for_range 0 P (SphericalLaplaceKernel.M2P_n F Mi
          (evalLocal F prefactor P (cart2sph F EPS (target.sub center)).1
            (cart2sph F EPS (target.sub center)).2.1 (cart2sph F EPS (target.sub center)).2.2
            (fun _ => 0) (fun _ => 0)).1
          (evalLocal F prefactor P (cart2sph F EPS (target.sub center)).1
            (cart2sph F EPS (target.sub center)).2.1 (cart2sph F EPS (target.sub center)).2.2
            (fun _ => 0) (fun _ => 0)).2
          (cart2sph F EPS (target.sub center)).1) ⟨trg.v0, ⟨0, 0, 0⟩⟩).spherical).x,
       (sph2cart F (cart2sph F EPS (target.sub center)).1
          (cart2sph F EPS (target.sub center)).2.1 (cart2sph F EPS (target.sub center)).2.2
          (for_range 0 P (SphericalLaplaceKernel.M2P_n F Mi
          (evalLocal F prefactor P (cart2sph F EPS (target.sub center)).1
            (cart2sph F EPS (target.sub center)).2.1 (cart2sph F EPS (target.sub center)).2.2
            (fun _ => 0) (fun _ => 0)).1
          (evalLocal F prefactor P (cart2sph F EPS (target.sub center)).1
            (cart2sph F EPS (target.sub center)).2.1 (cart2sph F EPS (target.sub center)).2.2
            (fun _ => 0) (fun _ => 0)).2
          (cart2sph F EPS (target.sub center)).1) ⟨trg.v0, ⟨0, 0, 0⟩⟩).spherical).y,
       (sph2cart F (cart2sph F EPS (target.sub center)).1
          (cart2sph F EPS (target.sub center)).2.1 (cart2sph F EPS (target.sub center)).2.2
          (for_range 0 P (SphericalLaplaceKernel.M2P_n F Mi
          (evalLocal F prefactor P (cart2sph F EPS (target.sub center)).1
            (cart2sph F EPS (target.sub center)).2.1 (cart2sph F EPS (target.sub center)).2.2
            (fun _ => 0) (fun _ => 0)).1
          (evalLocal F prefactor P (cart2sph F EPS (target.sub center)).1
            (cart2sph F EPS (target.sub center)).2.1 (cart2sph F EPS (target.sub center)).2.2
            (fun _ => 0) (fun _ => 0)).2
          (cart2sph F EPS (target.sub center)).1) ⟨trg.v0, ⟨0, 0, 0⟩⟩).spherical).z⟩ := by
  unfold M2P_increment SphericalLaplaceKernel.M2P
  simp only [M2P_loop, M2P_body, List.map_cons, List.map_nil, List.headD_cons, vect_sub_zero,
    add_sub_cancel_left]

/-- The result of the Stokes kernel `M2P` in terms of the increments of the Laplace kernel
`M2P` for the four arrays of the expansion. -/
theorem stokes_M2P_eq {K C : Type} [LinearOrderedField K] [Field C] (F : cmath K C)
    (EPS : K) (prefactor : ℕ → K) (P : ℕ) (M : ℕ → ℕ → C) (center target result : vect K)
    (w : K) (trg : vec4 K) :
    M2P F EPS prefactor P M center target result =
      ⟨result.x + 1 / 6 *
        ((M2P_increment F EPS prefactor P (M 0) center ⟨target, w, trg⟩).v0
          + (M2P_increment F EPS prefactor P (M 3) center ⟨target, w, trg⟩).v1
          - (target.x * (M2P_increment F EPS prefactor P (M 0) center ⟨target, w, trg⟩).v1
            + target.y * (M2P_increment F EPS prefactor P (M 1) center ⟨target, w, trg⟩).v1
            + target.z * (M2P_increment F EPS prefactor P (M 2) center ⟨target, w, trg⟩).v1)),
       result.y + 1 / 6 *
        ((M2P_increment F EPS prefactor P (M 1) center ⟨target, w, trg⟩).v0
          + (M2P_increment F EPS prefactor P (M 3) center ⟨target, w, trg⟩).v2
          - (target.x * (M2P_increment F EPS prefactor P (M 0) center ⟨target, w, trg⟩).v2
            + target.y * (M2P_increment F EPS prefactor P (M 1) center ⟨target, w, trg⟩).v2
            + target.z * (M2P_increment F EPS prefactor P (M 2) center ⟨target, w, trg⟩).v2)),
       result.z + 1 / 6 *
        ((M2P_increment F EPS prefactor P (M 2) center ⟨target, w, trg⟩).v0
          + (M2P_increment F EPS prefactor P (M 3) center ⟨target, w, trg⟩).v3
          - (target.x * (M2P_increment F EPS prefactor P (M 0) center ⟨target, w, trg⟩).v3
            + target.y * (M2P_increment F EPS prefactor P (M 1) center ⟨target, w, trg⟩).v3
            + target.z * (M2P_increment F EPS prefactor P (M 2) center ⟨target, w, trg⟩).v3))⟩ := by
  simp only [M2P_increment_eq]
  obtain ⟨h1, h2, h3, h4, h5, h6, h7⟩ := M2P_loop_rel F M
    (evalLocal F prefactor P (cart2sph F EPS (target.sub center)).1
      (cart2sph F EPS (target.sub center)).2.1 (cart2sph F EPS (target.sub center)).2.2
      (fun _ => 0) (fun _ => 0)).1
    (evalLocal F prefactor P (cart2sph F EPS (target.sub center)).1
      (cart2sph F EPS (target.sub center)).2.1 (cart2sph F EPS (target.sub center)).2.2
      (fun _ => 0) (fun _ => 0)).2
    (cart2sph F EPS (target.sub center)).1 result trg.v0 P
  unfold M2P
  simp only [vect.smul]
  rw [h1, h2, h3, h4, h5, h6, h7]
  simp only [vect.mk.injEq]
  refine ⟨?_, ?_, ?_⟩ <;> ring

/-- C28: the kernel `M2P` of `StokesSpherical` increases `result[j]`, `j = 0, 1, 2`, by
`(1/6) (Phi_j + G_3[j] - (t_0 G_0[j] + t_1 G_1[j] + t_2 G_2[j]))`, where `Phi_i` and
`G_i` are the amounts by which the kernel `M2P` of the Laplace kernel changes `TRG[0]`
and `TRG[1..3]` of a body at the target `t` for the expansion `M_i` with the same center
and `Xperiodic = 0`. -/
theorem M2P_combines_laplace {K C : Type} [LinearOrderedField K] [Field C] (F : cmath K C)
    (EPS : K) (prefactor : ℕ → K) (P : ℕ) (M : ℕ → ℕ → C) (center target result : vect K)
    (w : K) (trg : vec4 K) :
    M2P F EPS prefactor P M center target result =
      ⟨result.x + 1 / 6 *
        ((M2P_increment F EPS prefactor P (M 0) center ⟨target, w, trg⟩).v0
          + (M2P_increment F EPS prefactor P (M 3) center ⟨target, w, trg⟩).v1
          - (target.x * (M2P_increment F EPS prefactor P (M 0) center ⟨target, w, trg⟩).v1
            + target.y * (M2P_increment F EPS prefactor P (M 1) center ⟨target, w, trg⟩).v1
            + target.z * (M2P_increment F EPS prefactor P (M 2) center ⟨target, w, trg⟩).v1)),
       result.y + 1 / 6 *
        ((M2P_increment F EPS prefactor P (M 1) center ⟨target, w, trg⟩).v0
          + (M2P_increment F EPS prefactor P (M 3) center ⟨target, w, trg⟩).v2
          - (target.x * (M2P_increment F EPS prefactor P (M 0) center ⟨target, w, trg⟩).v2
            + target.y * (M2P_increment F EPS prefactor P (M 1) center ⟨target, w, trg⟩).v2
            + target.z * (M2P_increment F EPS prefactor P (M 2) center ⟨target, w, trg⟩).v2)),
       result.z + 1 / 6 *
        ((M2P_increment F EPS prefactor P (M 2) center ⟨target, w, trg⟩).v0
          + (M2P_increment F EPS prefactor P (M 3) center ⟨target, w, trg⟩).v3
          - (target.x * (M2P_increment F EPS prefactor P (M 0) center ⟨target, w, trg⟩).v3
            + target.y * (M2P_increment F EPS prefactor P (M 1) center ⟨target, w, trg⟩).v3
            + target.z * (M2P_increment F EPS prefactor P (M 2) center ⟨target, w, trg⟩).v3))⟩ :=
  stokes_M2P_eq F EPS prefactor P M center target result w trg

end StokesSpherical

namespace SphericalLaplaceKernel

/-! ## The radii `RMAX` and `RCRIT` -/

theorem foldl_max_spec {α K : Type} [LinearOrderedField K] (f : α → K) (l : List α) :
    ∀ r0 : K, r0 ≤ l.foldl (fun r b => max r (f b)) r0 ∧
      (∀ b ∈ l, f b ≤ l.foldl (fun r b => max r (f b)) r0) ∧
      (l.foldl (fun r b => max r (f b)) r0 = r0 ∨
        ∃ b ∈ l, l.foldl (fun r b => max r (f b)) r0 = f b) := by
  induction l with
  | nil =>
    intro r0
    simp
  | cons a rest ih =>
    intro r0
    obtain ⟨h1, h2, h3⟩ := ih (max r0 (f a))
    simp only [List.foldl_cons]
    refine ⟨le_trans (le_max_left _ _) h1, ?_, ?_⟩
    · intro b hb
      rcases List.mem_cons.1 hb with rfl | hb
      · exact le_trans (le_max_right _ _) h1
      · exact h2 b hb
    · rcases h3 with h3 | ⟨b, hb, h3⟩
      · rcases max_cases r0 (f a) with ⟨hm, _⟩ | ⟨hm, _⟩
        · left
          rw [h3, hm]
        · right
          exact ⟨a, List.mem_cons_self _ _, by rw [h3, hm]⟩
      · right
        exact ⟨b, List.mem_cons_of_mem _ hb, h3⟩

theorem P2M_fold_Rmax {K C : Type} [LinearOrderedField K] [Field C] (F : cmath K C)
    (EPS : K) (pref : ℕ → K) (P : ℕ) (Cj : Cell K C) (bodies : List (Body K)) :
    ∀ s : P2M_state K C, (bodies.foldl (P2M_body F EPS pref P Cj) s).Rmax =
      bodies.foldl (fun r B => max r (F.sqrt (norm (B.X.sub Cj.X)))) s.Rmax := by
  induction bodies with
  | nil =>
    intro s
    rfl
  | cons B rest ih =>
    intro s
    simp only [List.foldl_cons]
    rw [ih]
    congr 1
    show (if F.sqrt (norm (B.X.sub Cj.X)) > s.Rmax then F.sqrt (norm (B.X.sub Cj.X))
      else s.Rmax) = _
    rcases lt_or_ge s.Rmax (F.sqrt (norm (B.X.sub Cj.X))) with h | h
    · rw [if_pos h, max_eq_right h.le]
    · rw [if_neg (not_lt.2 h), max_eq_left h]

theorem M2M_fold_Rmax {K C : Type} [LinearOrderedField K] [Field C] (F : cmath K C)
    (EPS : K) (T : tables K C) (P : ℕ) (Ci : Cell K C) (children : List (Cell K C)) :
    ∀ s : M2M_state K C, (children.foldl (M2M_body F EPS T P Ci) s).Rmax =
      children.foldl (fun r Cj => max r (F.sqrt (norm (Ci.X.sub Cj.X)) + Cj.RCRIT))
        s.Rmax := by
  induction children with
  | nil =>
    intro s
    rfl
  | cons Cj rest ih =>
    intro s
    simp only [List.foldl_cons]
    rw [ih]
    congr 1
    show (if F.sqrt (norm (Ci.X.sub Cj.X)) + Cj.RCRIT > s.Rmax
      then F.sqrt (norm (Ci.X.sub Cj.X)) + Cj.RCRIT else s.Rmax) = _
    rcases lt_or_ge s.Rmax (F.sqrt (norm (Ci.X.sub Cj.X)) + Cj.RCRIT) with h | h
    · rw [if_pos h, max_eq_right h.le]
    · rw [if_neg (not_lt.2 h), max_eq_left h]

/-- C30: after `P2M` and after `M2M` the cell has `RCRIT = min(R, RMAX)`, so
`RCRIT ≤ R` and `RCRIT ≤ RMAX`. `P2M` sets `RMAX` to the largest of the distances
`|X_b - C|` of the bodies of the cell, and to 0 for a cell without bodies; `M2M` sets
`RMAX` to the largest of its value before the call and of the numbers
`|C_parent - C_child| + RCRIT_child` of the child cells, so it does not decrease
`RMAX`. -/
theorem RCRIT_is_min_of_R_and_RMAX (F : cmath ℝ ℂ) (hF : F.exact) (EPS : ℝ)
    (prefactor : ℕ → ℝ) (T : tables ℝ ℂ) (P : ℕ) (Cj : Cell ℝ ℂ) (bodies : List (Body ℝ))
    (Ci : Cell ℝ ℂ) (children : List (Cell ℝ ℂ)) :
    ((P2M F EPS prefactor P Cj bodies).R = Cj.R ∧
      (P2M F EPS prefactor P Cj bodies).RCRIT =
        min (P2M F EPS prefactor P Cj bodies).R (P2M F EPS prefactor P Cj bodies).RMAX ∧
      (P2M F EPS prefactor P Cj bodies).RCRIT ≤ (P2M F EPS prefactor P Cj bodies).R ∧
      (P2M F EPS prefactor P Cj bodies).RCRIT ≤ (P2M F EPS prefactor P Cj bodies).RMAX ∧
      (∀ B ∈ bodies, Real.sqrt (norm (B.X.sub Cj.X)) ≤
        (P2M F EPS prefactor P Cj bodies).RMAX) ∧
      (bodies = [] → (P2M F EPS prefactor P Cj bodies).RMAX = 0) ∧
      (bodies ≠ [] → ∃ B ∈ bodies,
        (P2M F EPS prefactor P Cj bodies).RMAX = Real.sqrt (norm (B.X.sub Cj.X)))) ∧
    ((M2M F EPS T P Ci children).R = Ci.R ∧
      (M2M F EPS T P Ci children).RCRIT =
        min (M2M F EPS T P Ci children).R (M2M F EPS T P Ci children).RMAX ∧
      (M2M F EPS T P Ci children).RCRIT ≤ (M2M F EPS T P Ci children).R ∧
      (M2M F EPS T P Ci children).RCRIT ≤ (M2M F EPS T P Ci children).RMAX ∧
      Ci.RMAX ≤ (M2M F EPS T P Ci children).RMAX ∧
      (∀ Cc ∈ children, Real.sqrt (norm (Ci.X.sub Cc.X)) + Cc.RCRIT ≤
        (M2M F EPS T P Ci children).RMAX) ∧
      ((M2M F EPS T P Ci children).RMAX = Ci.RMAX ∨ ∃ Cc ∈ children,
        (M2M F EPS T P Ci children).RMAX =
          Real.sqrt (norm (Ci.X.sub Cc.X)) + Cc.RCRIT)) := by
  obtain ⟨hsqrt, -⟩ := hF
  constructor
  · have hR : (P2M F EPS prefactor P Cj bodies).RMAX =
        bodies.foldl (fun r B => max r (Real.sqrt (norm (B.X.sub Cj.X)))) 0 := by
      show (bodies.foldl (P2M_body F EPS prefactor P Cj) _).Rmax = _
      rw [P2M_fold_Rmax, hsqrt]
    have hC : (P2M F EPS prefactor P Cj bodies).RCRIT =
        min Cj.R (P2M F EPS prefactor P Cj bodies).RMAX := rfl
    have hRR : (P2M F EPS prefactor P Cj bodies).R = Cj.R := rfl
    obtain ⟨h1, h2, h3⟩ := foldl_max_spec (fun B : Body ℝ => Real.sqrt (norm (B.X.sub Cj.X)))
      bodies 0
    refine ⟨hRR, by rw [hC, hRR], by rw [hC, hRR]; exact min_le_left _ _,
      by rw [hC]; exact min_le_right _ _, ?_, ?_, ?_⟩
    · intro B hB
      rw [hR]
      exact h2 B hB
    · intro hb
      rw [hR, hb]
      rfl
    · intro hb
      rw [hR]
      rcases h3 with h3 | h3
      · obtain ⟨B, hB⟩ := List.exists_mem_of_ne_nil bodies hb
        refine ⟨B, hB, ?_⟩
        rw [h3]
        exact le_antisymm (Real.sqrt_nonneg _) (by rw [← h3]; exact h2 B hB)
      · exact h3
  · have hR : (M2M F EPS T P Ci children).RMAX =
        children.foldl (fun r Cc => max r (Real.sqrt (norm (Ci.X.sub Cc.X)) + Cc.RCRIT))
          Ci.RMAX := by
      show (children.foldl (M2M_body F EPS T P Ci) _).Rmax = _
      rw [M2M_fold_Rmax, hsqrt]
    have hC : (M2M F EPS T P Ci children).RCRIT =
        min Ci.R (M2M F EPS T P Ci children).RMAX := rfl
    have hRR : (M2M F EPS T P Ci children).R = Ci.R := rfl
    obtain ⟨h1, h2, h3⟩ := foldl_max_spec
      (fun Cc : Cell ℝ ℂ => Real.sqrt (norm (Ci.X.sub Cc.X)) + Cc.RCRIT) children Ci.RMAX
    refine ⟨hRR, by rw [hC, hRR], by rw [hC, hRR]; exact min_le_left _ _,
      by rw [hC]; exact min_le_right _ _, by rw [hR]; exact h1, ?_, ?_⟩
    · intro Cc hCc
      rw [hR]
      exact h2 Cc hCc
    · rw [hR]
      exact h3

/-- An instance: a cell of radius 1 with one body at the distance 2 from its center has
`RMAX = 2` and `RCRIT = 1` after `P2M`. -/
theorem RCRIT_is_min_of_R_and_RMAX_witness :
    cmath.exact (⟨Real.sqrt, Real.cos, Real.sin, Real.arccos, Real.arctan, Real.pi,
        Complex.ofReal, starRingEnd ℂ, Complex.re, Complex.exp,
        fun (z : ℂ) (t : ℝ) => z ^ (t : ℂ), Complex.I⟩ : cmath ℝ ℂ) ∧
      (P2M (⟨Real.sqrt, Real.cos, Real.sin, Real.arccos, Real.arctan, Real.pi,
        Complex.ofReal, starRingEnd ℂ, Complex.re, Complex.exp,
        fun (z : ℂ) (t : ℝ) => z ^ (t : ℂ), Complex.I⟩ : cmath ℝ ℂ) (1 / 1000000)
        (fun _ => 1) 1 ⟨⟨0, 0, 0⟩, 1, 0, 0, fun _ => 0, fun _ => 0⟩
        [⟨⟨2, 0, 0⟩, 1, ⟨0, 0, 0, 0⟩⟩]).RCRIT ≤ 1 :=
  ⟨⟨rfl, rfl, rfl, rfl, rfl, rfl, rfl, rfl, rfl, rfl, rfl, rfl⟩,
    (RCRIT_is_min_of_R_and_RMAX _ ⟨rfl, rfl, rfl, rfl, rfl, rfl, rfl, rfl, rfl, rfl, rfl, rfl⟩
      (1 / 1000000) (fun _ => 1) ⟨fun _ => 0, fun _ => 0, fun _ => 0, fun _ => 0⟩ 1
      ⟨⟨0, 0, 0⟩, 1, 0, 0, fun _ => 0, fun _ => 0⟩ [⟨⟨2, 0, 0⟩, 1, ⟨0, 0, 0, 0⟩⟩]
      ⟨⟨0, 0, 0⟩, 1, 0, 0, fun _ => 0, fun _ => 0⟩ []).1.2.2.1⟩

/-! ## The kernel `M2M` -/

theorem for_int_sum_if {A : Type} [AddCommMonoid A] (lo hi : ℤ) (c : ℤ → Prop)
    [DecidablePred c] (t : ℤ → A) (a : A) :
    for_int lo hi (fun m acc => if c m then acc + t m else acc) a =
      a + ∑ m ∈ Finset.Icc lo hi, if c m then t m else 0 := by
  refine for_int_sum lo hi _ (fun m => if c m then t m else 0) ?_ a
  intro i b
  by_cases h : c i
  · simp only [if_pos h]
  · simp only [if_neg h, add_zero]

/-- The loops over `n` and `m` of `M2M` add the terms of the pairs `(n, m)` that pass
the tests of the two inner loops. -/
theorem M2M_jk_sum {K C : Type} [LinearOrderedField K] [Field C] (F : cmath K C)
    (Anm : ℕ → K) (M Ynm : ℕ → C) (j k : ℕ) :
    M2M_jk F Anm M Ynm j k =
      ∑ n ∈ Finset.range (j + 1),
        ((∑ m ∈ Finset.Icc (-(n : ℤ)) (min ((k : ℤ) - 1) n),
          if (j : ℤ) - n ≥ k - m then
            M ((((j : ℤ) - n) * (j - n + 1) / 2 + k - m).toNat)
              * F.pow F.I (((m - |m| : ℤ)) : K) * Ynm (((n : ℤ) * n + n + m).toNat)
              * F.ofReal (((ODDEVEN n : ℤ) : K) * Anm (((n : ℤ) * n + n + m).toNat)
                  * Anm ((((j : ℤ) - n) * (j - n) + j - n + k - m).toNat)
                  / Anm (j * j + j + k))
          else 0)
        + ∑ m ∈ Finset.Icc (k : ℤ) n,
          if (j : ℤ) - n ≥ m - k then
            F.conj (M ((((j : ℤ) - n) * (j - n + 1) / 2 - k + m).toNat))
              * Ynm (((n : ℤ) * n + n + m).toNat)
              * F.ofReal (((ODDEVEN ((k : ℤ) + n + m) : ℤ) : K)
                  * Anm (((n : ℤ) * n + n + m).toNat)
                  * Anm ((((j : ℤ) - n) * (j - n) + j - n + k - m).toNat)
                  / Anm (j * j + j + k))
          else 0) := by
  unfold M2M_jk
  dsimp only
  rw [for_range_sum 0 (j + 1) (Nat.zero_le _) _ (fun n =>
        ((∑ m ∈ Finset.Icc (-(n : ℤ)) (min ((k : ℤ) - 1) n),
          if (j : ℤ) - n ≥ k - m then
            M ((((j : ℤ) - n) * (j - n + 1) / 2 + k - m).toNat)
              * F.pow F.I (((m - |m| : ℤ)) : K) * Ynm (((n : ℤ) * n + n + m).toNat)
              * F.ofReal (((ODDEVEN n : ℤ) : K) * Anm (((n : ℤ) * n + n + m).toNat)
                  * Anm ((((j : ℤ) - n) * (j - n) + j - n + k - m).toNat)
                  / Anm (j * j + j + k))
          else 0)
        + ∑ m ∈ Finset.Icc (k : ℤ) n,
          if (j : ℤ) - n ≥ m - k then
            F.conj (M ((((j : ℤ) - n) * (j - n + 1) / 2 - k + m).toNat))
              * Ynm (((n : ℤ) * n + n + m).toNat)
              * F.ofReal (((ODDEVEN ((k : ℤ) + n + m) : ℤ) : K)
                  * Anm (((n : ℤ) * n + n + m).toNat)
                  * Anm ((((j : ℤ) - n) * (j - n) + j - n + k - m).toNat)
                  / Anm (j * j + j + k))
          else 0)) ?_ 0, zero_add, Finset.range_eq_Ico]
  intro n acc
  rw [for_int_sum_if, for_int_sum_if, add_assoc]

theorem M2M_single_M {K C : Type} [LinearOrderedField K] [Field C] (F : cmath K C)
    (EPS : K) (T : tables K C) (P : ℕ) (Ci Cj : Cell K C) (j k : ℕ) (hk : k ≤ j)
    (hj : j < P) :
    (M2M F EPS T P Ci [Cj]).M (j * (j + 1) / 2 + k) =
      Ci.M (j * (j + 1) / 2 + k) + M2M_jk F T.Anm Cj.M
        (evalMultipole F T.prefactor P (cart2sph F EPS (Ci.X.sub Cj.X)).1
          (cart2sph F EPS (Ci.X.sub Cj.X)).2.1 (-(cart2sph F EPS (Ci.X.sub Cj.X)).2.2)
          (fun _ => 0) (fun _ => 0)).1 j k * F.ofReal EPS := by
  unfold M2M
  simp only [List.foldl_cons, List.foldl_nil]
  unfold M2M_body
  exact (triangle_loops P (fun j k => M2M_jk F T.Anm Cj.M
        (evalMultipole F T.prefactor P (cart2sph F EPS (Ci.X.sub Cj.X)).1
          (cart2sph F EPS (Ci.X.sub Cj.X)).2.1 (-(cart2sph F EPS (Ci.X.sub Cj.X)).2.2)
          (fun _ => 0) (fun _ => 0)).1 j k * F.ofReal EPS) Ci.M).1 j k hk hj

theorem cart2sph_zero (F : cmath ℝ ℂ) (hF : F.exact) (EPS : ℝ) (hE : 0 < EPS) :
    cart2sph F EPS ⟨0, 0, 0⟩ = (EPS, Real.pi / 2, 0) := by
  obtain ⟨h1, -, -, h4, -⟩ := hF
  unfold cart2sph
  simp only [h1, h4, norm, mul_zero, add_zero, Real.sqrt_zero, zero_add, zero_div,
    Real.arccos_zero, abs_zero, if_pos hE]

theorem vect_sub_self {K : Type} [Field K] (a : vect K) : a.sub a = ⟨0, 0, 0⟩ := by
  simp [vect.sub]

theorem preCalculation_prefactor (F : cmath ℝ ℂ) (hF : F.exact) (EPS : ℝ) (P : ℕ)
    (raw T : tables ℝ ℂ) (h : preCalculation F EPS P raw = some T) (n m : ℕ) (hm : m ≤ n)
    (hn : n < 2 * P) :
    T.prefactor (n * n + n + m) =
      Real.sqrt ((((n - m).factorial : ℕ) : ℝ) / (((n + m).factorial : ℕ) : ℝ)) := by
  have hm' : |(m : ℤ)| ≤ (n : ℤ) := by
    rw [abs_of_nonneg (Int.natCast_nonneg m)]
    exact_mod_cast hm
  have := (preCalculation_Anm_loop F EPS P raw T h n (m : ℤ) hm' hn).2
  rw [nm_index_natCast] at this
  rw [this, hF.1, factorial_loop_eq, factorial_loop_eq, one_mul, one_mul,
    abs_of_nonneg (Int.natCast_nonneg m)]
  have e1 : ((n : ℤ) - (m : ℤ)).toNat = n - m := by omega
  have e2 : ((n : ℤ) + (m : ℤ)).toNat = n + m := by omega
  rw [e1, e2]

theorem equator_entry (F : cmath ℝ ℂ) (hF : F.exact) (EPS : ℝ) (P : ℕ)
    (raw T : tables ℝ ℂ) (h : preCalculation F EPS P raw = some T) (ρ β : ℝ)
    (n : ℕ) (m : ℤ) (hm : |m| ≤ n) (hn : n < P) :
    (evalMultipole F T.prefactor P ρ (Real.pi / 2) β (fun _ => 0) (fun _ => 0)).1
        (((n : ℤ) * n + n + m).toNat) =
      ((ρ ^ n * equator_harmonic Real.sqrt n m : ℝ) : ℂ)
        * Complex.exp (Complex.I * (m : ℂ) * (β : ℂ)) := by
  have hna : m.natAbs ≤ n := by
    rw [Int.abs_eq_natAbs] at hm
    exact_mod_cast hm
  rw [(evalMultipole_entry F hF T.prefactor P ρ (Real.pi / 2) β _ _ n m hm hn).1,
    Real.cos_pi_div_two, Real.sin_pi_div_two,
    preCalculation_prefactor F hF EPS P raw T h n m.natAbs hna (by omega)]
  unfold equator_harmonic
  rw [mul_assoc]

theorem M2M_term_alg (Mv pw : ℂ) (E y oe a a' a'' : ℝ) (hE : E ≠ 0) (ha : a'' ≠ 0) (n : ℕ) :
    Mv * pw * (((E ^ n * y : ℝ) : ℂ) * 1)
        * ((oe * (a / E) * (a' / E) / (a'' / E) : ℝ) : ℂ) * (E : ℂ) =
      (E : ℂ) ^ n * (Mv * pw * (y : ℂ) * ((oe * a * a' / a'' : ℝ) : ℂ)) := by
  have h : oe * (a / E) * (a' / E) / (a'' / E) * E = oe * a * a' / a'' := by
    field_simp
    ring
  have h2 : ((oe * (a / E) * (a' / E) / (a'' / E) : ℝ) : ℂ) * (E : ℂ)
      = ((oe * a * a' / a'' : ℝ) : ℂ) := by
    rw [← Complex.ofReal_mul, h]
  rw [mul_assoc _ _ (E : ℂ), h2]
  push_cast
  ring

theorem exp_azimuth_zero (m : ℤ) :
    Complex.exp (Complex.I * (m : ℂ) * (((-0 : ℝ)) : ℂ)) = 1 := by
  simp

/-- With the child cell at the center of the parent cell, `M2M` adds to the
coefficient `(j, k)` of the parent the terms of the translation sum at the radius `EPS`
that `cart2sph` returns for the distance zero. -/
theorem M2M_zero_translation_sum (F : cmath ℝ ℂ) (hF : F.exact) (EPS : ℝ) (hE : 0 < EPS)
    (P : ℕ) (raw T : tables ℝ ℂ) (h : preCalculation F EPS P raw = some T)
    (Ci Cj : Cell ℝ ℂ) (hX : Ci.X = Cj.X) (j k : ℕ) (hk : k ≤ j) (hj : j < P) :
    (M2M F EPS T P Ci [Cj]).M (j * (j + 1) / 2 + k) =
      Ci.M (j * (j + 1) / 2 + k)
        + ∑ n ∈ Finset.range (j + 1), (EPS : ℂ) ^ n * M2M_term F Cj.M j k n := by
  rw [M2M_single_M F EPS T P Ci Cj j k hk hj, M2M_jk_sum, hX, vect_sub_self,
    cart2sph_zero F hF EPS hE, Finset.sum_mul]
  congr 1
  apply Finset.sum_congr rfl
  intro n hn
  have hnj : n ≤ j := by
    rw [Finset.mem_range] at hn
    omega
  have hF' : F.exact := hF
  obtain ⟨hsqrt, -, -, -, -, -, hofReal, hconj, -, -, -, -⟩ := hF
  have hA3 : T.Anm (j * j + j + k) = a_nm Real.sqrt j k / EPS := by
    have := preCalculation_Anm F hF' EPS hE P raw T h j (k : ℤ)
      (by rw [abs_of_nonneg (Int.natCast_nonneg k)]; exact_mod_cast hk) (by omega)
    rwa [nm_index_natCast] at this
  have hA2 : ∀ m : ℤ, |(k : ℤ) - m| ≤ (j : ℤ) - n →
      T.Anm ((((j : ℤ) - n) * (j - n) + j - n + k - m).toNat) =
        a_nm Real.sqrt (j - n) (k - m) / EPS := by
    intro m hm
    have e : (((j : ℤ) - n) * (j - n) + j - n + k - m) =
        (((j - n : ℕ) : ℤ) * ((j - n : ℕ) : ℤ) + ((j - n : ℕ) : ℤ) + (k - m)) := by
      rw [Nat.cast_sub hnj]
      ring
    rw [e]
    exact preCalculation_Anm F hF' EPS hE P raw T h (j - n) (k - m)
      (by rw [Nat.cast_sub hnj]; exact hm) (by omega)
  have hA1 : ∀ m : ℤ, |m| ≤ (n : ℤ) →
      T.Anm (((n : ℤ) * n + n + m).toNat) = a_nm Real.sqrt n m / EPS := by
    intro m hm
    exact preCalculation_Anm F hF' EPS hE P raw T h n m hm (by omega)
  have hY : ∀ m : ℤ, |m| ≤ (n : ℤ) →
      (evalMultipole F T.prefactor P EPS (Real.pi / 2) (-0) (fun _ => 0) (fun _ => 0)).1
        (((n : ℤ) * n + n + m).toNat) =
      ((EPS ^ n * equator_harmonic Real.sqrt n m : ℝ) : ℂ) * 1 := by
    intro m hm
    rw [equator_entry F hF' EPS P raw T h EPS (-0) n m hm (by omega), exp_azimuth_zero]
  unfold M2M_term
  refine (add_mul _ _ _).trans ?_
  refine Eq.trans ?_ (mul_add _ _ _).symm
  congr 1
  · refine (Finset.sum_mul _ _ _).trans ?_
    refine Eq.trans ?_ (Finset.mul_sum _ _ _).symm
    apply Finset.sum_congr rfl
    intro m hm
    rw [Finset.mem_Icc] at hm
    by_cases hc : (j : ℤ) - n ≥ k - m
    · rw [if_pos hc, if_pos hc]
      have hm1 : |m| ≤ (n : ℤ) := abs_le.2 ⟨hm.1, le_trans hm.2 (min_le_right _ _)⟩
      have hm2 : |(k : ℤ) - m| ≤ (j : ℤ) - n := by
        have : m ≤ (k : ℤ) - 1 := le_trans hm.2 (min_le_left _ _)
        rw [abs_of_nonneg (by omega)]
        exact hc
      rw [hY m hm1, hA1 m hm1, hA2 m hm2, hA3, hofReal, hsqrt]
      exact M2M_term_alg _ _ EPS _ _ _ _ _ hE.ne' (a_nm_ne_zero j k) n
    · rw [if_neg hc, if_neg hc, zero_mul, mul_zero]
  · refine (Finset.sum_mul _ _ _).trans ?_
    refine Eq.trans ?_ (Finset.mul_sum _ _ _).symm
    apply Finset.sum_congr rfl
    intro m hm
    rw [Finset.mem_Icc] at hm
    by_cases hc : (j : ℤ) - n ≥ m - k
    · rw [if_pos hc, if_pos hc]
      have hm1 : |m| ≤ (n : ℤ) := abs_le.2 ⟨by omega, hm.2⟩
      have hm2 : |(k : ℤ) - m| ≤ (j : ℤ) - n := by
        rw [abs_of_nonpos (by omega)]
        omega
      rw [hY m hm1, hA1 m hm1, hA2 m hm2, hA3, hofReal, hsqrt]
      have := M2M_term_alg (F.conj (Cj.M ((((j : ℤ) - n) * (j - n + 1) / 2 - k + m).toNat))) 1
        EPS (equator_harmonic Real.sqrt n m) ((ODDEVEN ((k : ℤ) + n + m) : ℤ) : ℝ)
        (a_nm Real.sqrt n m) (a_nm Real.sqrt (j - n) (k - m)) (a_nm Real.sqrt j k)
        hE.ne' (a_nm_ne_zero j k) n
      simp only [mul_one] at this ⊢
      exact this
    · rw [if_neg hc, if_neg hc, zero_mul, mul_zero]

theorem triangle_toNat (j k : ℕ) :
    ((j : ℤ) * ((j : ℤ) + 1) / 2 + (k : ℤ)).toNat = j * (j + 1) / 2 + k := by
  have : ((j : ℤ) * ((j : ℤ) + 1) / 2 + (k : ℤ)) = ((j * (j + 1) / 2 + k : ℕ) : ℤ) := by
    push_cast
    rfl
  rw [this, Int.toNat_natCast]

theorem equator_harmonic_zero : equator_harmonic Real.sqrt 0 0 = 1 := by
  simp [equator_harmonic, legendre]

theorem a_nm_zero_zero : a_nm Real.sqrt 0 0 = 1 := by
  simp [a_nm]

theorem M2M_term_zero (F : cmath ℝ ℂ) (hF : F.exact) (M : ℕ → ℂ) (j k : ℕ) (hk : k ≤ j) :
    M2M_term F M j k 0 =
      if k = 0 then (starRingEnd ℂ) (M (j * (j + 1) / 2)) else M (j * (j + 1) / 2 + k) := by
  obtain ⟨hsqrt, -, -, -, -, -, hofReal, hconj, -, -, hpow, hI⟩ := hF
  unfold M2M_term
  rw [hsqrt, hofReal, hconj, hpow, hI]
  have hcoef : ∀ (o : ℝ), o = 1 →
      o * a_nm Real.sqrt 0 0 * a_nm Real.sqrt (j - 0) ((k : ℤ) - 0) / a_nm Real.sqrt j k = 1 := by
    intro o ho
    rw [ho, a_nm_zero_zero, Nat.sub_zero, sub_zero, one_mul, one_mul,
      div_self (a_nm_ne_zero j k)]
  rcases Nat.eq_zero_or_pos k with h0 | hpos
  · subst h0
    rw [if_pos rfl]
    have e1 : Finset.Icc (-((0 : ℕ) : ℤ)) (min (((0 : ℕ) : ℤ) - 1) ((0 : ℕ) : ℤ)) = ∅ := by
      decide
    have e2 : Finset.Icc (((0 : ℕ) : ℤ)) ((0 : ℕ) : ℤ) = {0} := by
      decide
    rw [e1, e2, Finset.sum_empty, zero_add, Finset.sum_singleton, if_pos (by simp)]
    have hc := hcoef (((ODDEVEN (((0 : ℕ) : ℤ) + ((0 : ℕ) : ℤ) + 0) : ℤ)) : ℝ)
      (by simp [ODDEVEN])
    rw [hc, equator_harmonic_zero]
    have hi : ((((j : ℤ) - ((0 : ℕ) : ℤ)) * ((j : ℤ) - ((0 : ℕ) : ℤ) + 1) / 2
        - ((0 : ℕ) : ℤ) + 0).toNat) = j * (j + 1) / 2 := by
      have := triangle_toNat j 0
      simpa using this
    rw [hi]
    simp
  · rw [if_neg (by omega)]
    have e1 : Finset.Icc (-((0 : ℕ) : ℤ)) (min ((k : ℤ) - 1) ((0 : ℕ) : ℤ)) = {0} := by
      have : min ((k : ℤ) - 1) ((0 : ℕ) : ℤ) = 0 := by
        rw [Nat.cast_zero]
        exact min_eq_right (by omega)
      rw [this]
      decide
    have e2 : Finset.Icc (k : ℤ) ((0 : ℕ) : ℤ) = ∅ := by
      apply Finset.Icc_eq_empty
      simp
      omega
    rw [e1, e2, Finset.sum_empty, add_zero, Finset.sum_singleton,
      if_pos (by simp; exact_mod_cast hk)]
    have hc := hcoef (((ODDEVEN ((0 : ℕ) : ℤ) : ℤ)) : ℝ) (by simp [ODDEVEN])
    rw [hc, equator_harmonic_zero]
    have hi : ((((j : ℤ) - ((0 : ℕ) : ℤ)) * ((j : ℤ) - ((0 : ℕ) : ℤ) + 1) / 2
        + (k : ℤ) - 0).toNat) = j * (j + 1) / 2 + k := by
      have := triangle_toNat j k
      simpa using this
    rw [hi]
    simp

theorem P2M_zero_order_real (F : cmath ℝ ℂ) (hF : F.exact) (EPS : ℝ) (pref : ℕ → ℝ)
    (P : ℕ) (Cj : Cell ℝ ℂ) (bodies : List (Body ℝ)) (n : ℕ) (hn : n < P)
    (hM : (starRingEnd ℂ) (Cj.M (n * (n + 1) / 2)) = Cj.M (n * (n + 1) / 2)) :
    (starRingEnd ℂ) ((P2M F EPS pref P Cj bodies).M (n * (n + 1) / 2)) =
      (P2M F EPS pref P Cj bodies).M (n * (n + 1) / 2) := by
  have h := (P2M_fold_M F hF EPS pref P Cj bodies ⟨0, fun _ => 0, fun _ => 0, Cj.M⟩).1 n 0
    (Nat.zero_le _) hn
  simp only [add_zero] at h
  have h' : (P2M F EPS pref P Cj bodies).M (n * (n + 1) / 2) = _ := h
  rw [h', map_add, hM]
  congr 1
  rw [map_list_sum, List.map_map]
  congr 1
  apply List.map_congr_left
  intro B _
  have e := (evalMultipole_entry F hF pref P (cart2sph F EPS (B.X.sub Cj.X)).1
    (cart2sph F EPS (B.X.sub Cj.X)).2.1 (-(cart2sph F EPS (B.X.sub Cj.X)).2.2)
    (fun _ => 0) (fun _ => 0) n 0 (by simp) hn).1
  have e0 : (((n : ℤ) * n + n + 0).toNat) = n * n + n := by
    have : ((n : ℤ) * n + n + 0) = ((n * n + n : ℕ) : ℤ) := by push_cast; ring
    rw [this, Int.toNat_natCast]
  rw [e0] at e
  simp only [Function.comp, e, map_mul, Complex.conj_ofReal]
  congr 1
  simp

theorem M2M_zero_child (F : cmath ℝ ℂ) (hF : F.exact) (EPS : ℝ) (hE : 0 < EPS)
    (P : ℕ) (raw T : tables ℝ ℂ) (h : preCalculation F EPS P raw = some T)
    (X : vect ℝ) (R RMAX RCRIT : ℝ) (L : ℕ → ℂ) (Rc RMAXc RCRITc : ℝ) (Lc : ℕ → ℂ)
    (bodies : List (Body ℝ)) (j k : ℕ) (hk : k ≤ j) (hj : j < P) :
    (M2M F EPS T P ⟨X, R, RMAX, RCRIT, fun _ => 0, L⟩
        [P2M F EPS T.prefactor P ⟨X, Rc, RMAXc, RCRITc, fun _ => 0, Lc⟩ bodies]).M
        (j * (j + 1) / 2 + k) =
      (P2M F EPS T.prefactor P ⟨X, Rc, RMAXc, RCRITc, fun _ => 0, Lc⟩ bodies).M
          (j * (j + 1) / 2 + k)
        + ∑ n ∈ Finset.Icc 1 j, (EPS : ℂ) ^ n *
            M2M_term F (P2M F EPS T.prefactor P ⟨X, Rc, RMAXc, RCRITc, fun _ => 0, Lc⟩
              bodies).M j k n := by
  rw [M2M_zero_translation_sum F hF EPS hE P raw T h
    ⟨X, R, RMAX, RCRIT, fun _ => 0, L⟩
    (P2M F EPS T.prefactor P ⟨X, Rc, RMAXc, RCRITc, fun _ => 0, Lc⟩ bodies) rfl j k hk hj]
  simp only [zero_add]
  rw [Finset.range_eq_Ico, Finset.sum_eq_sum_Ico_succ_bot (Nat.succ_pos j), pow_zero, one_mul,
    M2M_term_zero F hF _ j k hk, Nat.Ico_succ_right]
  congr 1
  by_cases h0 : k = 0
  · subst h0
    rw [if_pos rfl, add_zero]
    exact P2M_zero_order_real F hF EPS T.prefactor P _ bodies j hj (by simp)
  · rw [if_neg h0]

theorem equator_harmonic_one_one : equator_harmonic Real.sqrt 1 1 = -Real.sqrt (1 / 2) := by
  simp [equator_harmonic, legendre]

theorem M2M_term_one_one (F : cmath ℝ ℂ) (hF : F.exact) (M : ℕ → ℂ) :
    M2M_term F M 1 1 1 = (starRingEnd ℂ) (M 0) * ((Real.sqrt (1 / 2) : ℝ) : ℂ) := by
  obtain ⟨hsqrt, -, -, -, -, -, hofReal, hconj, -, -, hpow, hI⟩ := hF
  unfold M2M_term
  rw [hsqrt, hofReal, hconj, hpow, hI]
  have e1 : Finset.Icc (-((1 : ℕ) : ℤ)) (min (((1 : ℕ) : ℤ) - 1) ((1 : ℕ) : ℤ)) = {-1, 0} := by
    decide
  have e2 : Finset.Icc (((1 : ℕ) : ℤ)) ((1 : ℕ) : ℤ) = {1} := by
    decide
  rw [e1, e2, Finset.sum_singleton, Finset.sum_pair (by decide)]
  rw [if_neg (by decide), if_neg (by decide), if_pos (by decide), add_zero, zero_add]
  have hcoef : ((ODDEVEN (((1 : ℕ) : ℤ) + ((1 : ℕ) : ℤ) + 1) : ℤ) : ℝ) * a_nm Real.sqrt 1 1
      * a_nm Real.sqrt (1 - 1) (((1 : ℕ) : ℤ) - 1) / a_nm Real.sqrt 1 ((1 : ℕ) : ℤ) = -1 := by
    have h3 : ODDEVEN (((1 : ℕ) : ℤ) + ((1 : ℕ) : ℤ) + 1) = -1 := by decide
    have h00 : a_nm Real.sqrt (1 - 1) (((1 : ℕ) : ℤ) - 1) = 1 := by
      simpa using a_nm_zero_zero
    rw [h3, h00, mul_one]
    have hne := a_nm_ne_zero 1 1
    simp only [Nat.cast_one]
    rw [mul_div_assoc, div_self hne]
    simp
  have hidx : ((((1 : ℕ) : ℤ) - ((1 : ℕ) : ℤ)) * (((1 : ℕ) : ℤ) - ((1 : ℕ) : ℤ) + 1) / 2
      - ((1 : ℕ) : ℤ) + 1).toNat = 0 := by decide
  rw [hcoef, hidx, equator_harmonic_one_one]
  push_cast
  ring

theorem P2M_center_monopole (F : cmath ℝ ℂ) (hF : F.exact) (EPS : ℝ) (P : ℕ) (hP : 1 ≤ P)
    (raw T : tables ℝ ℂ) (h : preCalculation F EPS P raw = some T) (Cj : Cell ℝ ℂ)
    (B : Body ℝ) :
    (P2M F EPS T.prefactor P Cj [B]).M 0 = Cj.M 0 + (B.SRC : ℂ) := by
  have h1 := (P2M_fold_M F hF EPS T.prefactor P Cj [B] ⟨0, fun _ => 0, fun _ => 0, Cj.M⟩).1
    0 0 (le_refl 0) (by omega)
  have h' : (P2M F EPS T.prefactor P Cj [B]).M 0 = _ := h1
  rw [h']
  simp only [List.map_cons, List.map_nil, List.sum_cons, List.sum_nil, add_zero]
  have e := (evalMultipole_entry F hF T.prefactor P (cart2sph F EPS (B.X.sub Cj.X)).1
    (cart2sph F EPS (B.X.sub Cj.X)).2.1 (-(cart2sph F EPS (B.X.sub Cj.X)).2.2)
    (fun _ => 0) (fun _ => 0) 0 0 (by simp) (by omega)).1
  have hp := preCalculation_prefactor F hF EPS P raw T h 0 0 (le_refl 0) (by omega)
  simp only [Nat.cast_zero, mul_zero, add_zero, Int.toNat_zero, pow_zero, Int.natAbs_zero,
    Nat.sub_zero, one_mul, zero_mul, Complex.exp_zero, mul_one] at e
  simp only [mul_zero, add_zero] at hp ⊢
  rw [e, hp]
  simp [legendre]

theorem M2M_dipole_shift (F : cmath ℝ ℂ) (hF : F.exact) (EPS : ℝ) (hE : 0 < EPS)
    (raw T : tables ℝ ℂ) (hT : preCalculation F EPS 2 raw = some T) :
    (M2M F EPS T 2 ⟨⟨0, 0, 0⟩, 0, 0, 0, fun _ => 0, fun _ => 0⟩
        [P2M F EPS T.prefactor 2 ⟨⟨0, 0, 0⟩, 0, 0, 0, fun _ => 0, fun _ => 0⟩
          [⟨⟨0, 0, 0⟩, 1, ⟨0, 0, 0, 0⟩⟩]]).M 2 =
      (P2M F EPS T.prefactor 2 ⟨⟨0, 0, 0⟩, 0, 0, 0, fun _ => 0, fun _ => 0⟩
          [⟨⟨0, 0, 0⟩, 1, ⟨0, 0, 0, 0⟩⟩]).M 2 + ((EPS * Real.sqrt (1 / 2) : ℝ) : ℂ) ∧
    (M2M F EPS T 2 ⟨⟨0, 0, 0⟩, 0, 0, 0, fun _ => 0, fun _ => 0⟩
        [P2M F EPS T.prefactor 2 ⟨⟨0, 0, 0⟩, 0, 0, 0, fun _ => 0, fun _ => 0⟩
          [⟨⟨0, 0, 0⟩, 1, ⟨0, 0, 0, 0⟩⟩]]).M 2 ≠
      (P2M F EPS T.prefactor 2 ⟨⟨0, 0, 0⟩, 0, 0, 0, fun _ => 0, fun _ => 0⟩
          [⟨⟨0, 0, 0⟩, 1, ⟨0, 0, 0, 0⟩⟩]).M 2 := by
  have key := M2M_zero_child F hF EPS hE 2 raw T hT ⟨0, 0, 0⟩ 0 0 0
    (fun _ => 0) 0 0 0 (fun _ => 0) [⟨⟨0, 0, 0⟩, 1, ⟨0, 0, 0, 0⟩⟩] 1 1 (le_refl 1) (by norm_num)
  have hM0 := P2M_center_monopole F hF EPS 2 (by norm_num) raw T hT
    ⟨⟨0, 0, 0⟩, 0, 0, 0, fun _ => 0, fun _ => 0⟩ ⟨⟨0, 0, 0⟩, 1, ⟨0, 0, 0, 0⟩⟩
  rw [Finset.Icc_self, Finset.sum_singleton, pow_one, M2M_term_one_one F hF, hM0] at key
  have key2 : (M2M F EPS T 2 ⟨⟨0, 0, 0⟩, 0, 0, 0, fun _ => 0, fun _ => 0⟩
        [P2M F EPS T.prefactor 2 ⟨⟨0, 0, 0⟩, 0, 0, 0, fun _ => 0, fun _ => 0⟩
          [⟨⟨0, 0, 0⟩, 1, ⟨0, 0, 0, 0⟩⟩]]).M 2 =
      (P2M F EPS T.prefactor 2 ⟨⟨0, 0, 0⟩, 0, 0, 0, fun _ => 0, fun _ => 0⟩
          [⟨⟨0, 0, 0⟩, 1, ⟨0, 0, 0, 0⟩⟩]).M 2 + ((EPS * Real.sqrt (1 / 2) : ℝ) : ℂ) := by
    refine key.trans ?_
    congr 1
    simp
  refine ⟨key2, ?_⟩
  rw [key2]
  intro hcon
  have hz : ((EPS * Real.sqrt (1 / 2) : ℝ) : ℂ) = 0 := by
    have := congrArg (fun z => z - (P2M F EPS T.prefactor 2
      ⟨⟨0, 0, 0⟩, 0, 0, 0, fun _ => 0, fun _ => 0⟩ [⟨⟨0, 0, 0⟩, 1, ⟨0, 0, 0, 0⟩⟩]).M 2) hcon
    simpa using this
  have hpos : (0 : ℝ) < EPS * Real.sqrt (1 / 2) :=
    mul_pos hE (Real.sqrt_pos.2 (by norm_num))
  have : (EPS * Real.sqrt (1 / 2) : ℝ) = 0 := by exact_mod_cast hz
  linarith

/-- C29, as stated, fails: for `P = 2` and `EPS = 1e-6`, with the child cell at the
center of the parent cell and one body of weight 1 at that center, `M2M` on the
zero-initialised parent gives the coefficient `M[2]`, `(j, k) = (1, 1)`, of the child
plus `EPS sqrt(1/2)`, which is not the coefficient of the child. -/
theorem M2M_identity_moves_dipole :
    ∃ T, preCalculation (⟨Real.sqrt, Real.cos, Real.sin, Real.arccos, Real.arctan, Real.pi,
          Complex.ofReal, starRingEnd ℂ, Complex.re, Complex.exp,
          fun (z : ℂ) (t : ℝ) => z ^ (t : ℂ), Complex.I⟩ : cmath ℝ ℂ)
        (1 / 1000000) 2 ⟨fun _ => 0, fun _ => 0, fun _ => 0, fun _ => 0⟩ = some T ∧
      (M2M (⟨Real.sqrt, Real.cos, Real.sin, Real.arccos, Real.arctan, Real.pi,
          Complex.ofReal, starRingEnd ℂ, Complex.re, Complex.exp,
          fun (z : ℂ) (t : ℝ) => z ^ (t : ℂ), Complex.I⟩ : cmath ℝ ℂ) (1 / 1000000) T 2
        ⟨⟨0, 0, 0⟩, 0, 0, 0, fun _ => 0, fun _ => 0⟩
        [P2M (⟨Real.sqrt, Real.cos, Real.sin, Real.arccos, Real.arctan, Real.pi,
          Complex.ofReal, starRingEnd ℂ, Complex.re, Complex.exp,
          fun (z : ℂ) (t : ℝ) => z ^ (t : ℂ), Complex.I⟩ : cmath ℝ ℂ) (1 / 1000000)
          T.prefactor 2 ⟨⟨0, 0, 0⟩, 0, 0, 0, fun _ => 0, fun _ => 0⟩
          [⟨⟨0, 0, 0⟩, 1, ⟨0, 0, 0, 0⟩⟩]]).M 2 =
      (P2M (⟨Real.sqrt, Real.cos, Real.sin, Real.arccos, Real.arctan, Real.pi,
          Complex.ofReal, starRingEnd ℂ, Complex.re, Complex.exp,
          fun (z : ℂ) (t : ℝ) => z ^ (t : ℂ), Complex.I⟩ : cmath ℝ ℂ) (1 / 1000000)
          T.prefactor 2 ⟨⟨0, 0, 0⟩, 0, 0, 0, fun _ => 0, fun _ => 0⟩
          [⟨⟨0, 0, 0⟩, 1, ⟨0, 0, 0, 0⟩⟩]).M 2
        + ((1 / 1000000 * Real.sqrt (1 / 2) : ℝ) : ℂ) ∧
      (M2M (⟨Real.sqrt, Real.cos, Real.sin, Real.arccos, Real.arctan, Real.pi,
          Complex.ofReal, starRingEnd ℂ, Complex.re, Complex.exp,
          fun (z : ℂ) (t : ℝ) => z ^ (t : ℂ), Complex.I⟩ : cmath ℝ ℂ) (1 / 1000000) T 2
        ⟨⟨0, 0, 0⟩, 0, 0, 0, fun _ => 0, fun _ => 0⟩
        [P2M (⟨Real.sqrt, Real.cos, Real.sin, Real.arccos, Real.arctan, Real.pi,
          Complex.ofReal, starRingEnd ℂ, Complex.re, Complex.exp,
          fun (z : ℂ) (t : ℝ) => z ^ (t : ℂ), Complex.I⟩ : cmath ℝ ℂ) (1 / 1000000)
          T.prefactor 2 ⟨⟨0, 0, 0⟩, 0, 0, 0, fun _ => 0, fun _ => 0⟩
          [⟨⟨0, 0, 0⟩, 1, ⟨0, 0, 0, 0⟩⟩]]).M 2 ≠
      (P2M (⟨Real.sqrt, Real.cos, Real.sin, Real.arccos, Real.arctan, Real.pi,
          Complex.ofReal, starRingEnd ℂ, Complex.re, Complex.exp,
          fun (z : ℂ) (t : ℝ) => z ^ (t : ℂ), Complex.I⟩ : cmath ℝ ℂ) (1 / 1000000)
          T.prefactor 2 ⟨⟨0, 0, 0⟩, 0, 0, 0, fun _ => 0, fun _ => 0⟩
          [⟨⟨0, 0, 0⟩, 1, ⟨0, 0, 0, 0⟩⟩]).M 2 := by
  obtain ⟨T, hT⟩ := preCalculation_some
    (⟨Real.sqrt, Real.cos, Real.sin, Real.arccos, Real.arctan, Real.pi,
      Complex.ofReal, starRingEnd ℂ, Complex.re, Complex.exp,
      fun (z : ℂ) (t : ℝ) => z ^ (t : ℂ), Complex.I⟩ : cmath ℝ ℂ)
    (1 / 1000000) 2 (by norm_num) ⟨fun _ => 0, fun _ => 0, fun _ => 0, fun _ => 0⟩
  obtain ⟨h1, h2⟩ := M2M_dipole_shift _ ⟨rfl, rfl, rfl, rfl, rfl, rfl, rfl, rfl, rfl, rfl,
    rfl, rfl⟩ (1 / 1000000) (by norm_num) _ T hT
  exact ⟨T, hT, h1, h2⟩

/-- C29, amended: with the child cell at the center of the parent cell, `EPS > 0` and a
child multipole that `P2M` produced, `M2M` on a zero-initialised parent gives for
`0 ≤ k ≤ j < P` the coefficient `M[j(j+1)/2+k]` of the child plus the terms of the
degrees `n = 1, ..., j` of the translation sum, the term of degree `n` with the factor
`EPS^n` (`cart2sph` returns the radius `EPS` for the distance zero); the coefficient
`M[0]` is the one of the child. -/
theorem M2M_zero_translation (F : cmath ℝ ℂ) (hF : F.exact) (EPS : ℝ) (hE : 0 < EPS)
    (P : ℕ) (raw : tables ℝ ℂ) (X : vect ℝ) (R RMAX RCRIT : ℝ) (L : ℕ → ℂ)
    (Rc RMAXc RCRITc : ℝ) (Lc : ℕ → ℂ) (bodies : List (Body ℝ)) (j k : ℕ) (hk : k ≤ j)
    (hj : j < P) :
    ∃ T, preCalculation F EPS P raw = some T ∧
      (M2M F EPS T P ⟨X, R, RMAX, RCRIT, fun _ => 0, L⟩
          [P2M F EPS T.prefactor P ⟨X, Rc, RMAXc, RCRITc, fun _ => 0, Lc⟩ bodies]).M
          (j * (j + 1) / 2 + k) =
        (P2M F EPS T.prefactor P ⟨X, Rc, RMAXc, RCRITc, fun _ => 0, Lc⟩ bodies).M
            (j * (j + 1) / 2 + k)
          + ∑ n ∈ Finset.Icc 1 j, (EPS : ℂ) ^ n *
              M2M_term F (P2M F EPS T.prefactor P ⟨X, Rc, RMAXc, RCRITc, fun _ => 0, Lc⟩
                bodies).M j k n ∧
      (M2M F EPS T P ⟨X, R, RMAX, RCRIT, fun _ => 0, L⟩
          [P2M F EPS T.prefactor P ⟨X, Rc, RMAXc, RCRITc, fun _ => 0, Lc⟩ bodies]).M 0 =
        (P2M F EPS T.prefactor P ⟨X, Rc, RMAXc, RCRITc, fun _ => 0, Lc⟩ bodies).M 0 := by
  obtain ⟨T, hT⟩ := preCalculation_some F EPS P (by omega) raw
  refine ⟨T, hT, M2M_zero_child F hF EPS hE P raw T hT X R RMAX RCRIT L Rc RMAXc RCRITc Lc
    bodies j k hk hj, ?_⟩
  have := M2M_zero_child F hF EPS hE P raw T hT X R RMAX RCRIT L Rc RMAXc RCRITc Lc
    bodies 0 0 (le_refl 0) (by omega)
  simpa using this

/-- An instance: `P = 2`, `EPS = 1e-6`, one body of weight 1 at the common center and
the coefficient `(j, k) = (1, 1)`. -/
theorem M2M_zero_translation_witness :
    cmath.exact (⟨Real.sqrt, Real.cos, Real.sin, Real.arccos, Real.arctan, Real.pi,
        Complex.ofReal, starRingEnd ℂ, Complex.re, Complex.exp,
        fun (z : ℂ) (t : ℝ) => z ^ (t : ℂ), Complex.I⟩ : cmath ℝ ℂ) ∧
      (0 : ℝ) < 1 / 1000000 ∧ 1 ≤ 1 ∧ 1 < 2 ∧
      ∃ T, preCalculation (⟨Real.sqrt, Real.cos, Real.sin, Real.arccos, Real.arctan, Real.pi,
          Complex.ofReal, starRingEnd ℂ, Complex.re, Complex.exp,
          fun (z : ℂ) (t : ℝ) => z ^ (t : ℂ), Complex.I⟩ : cmath ℝ ℂ)
        (1 / 1000000) 2 ⟨fun _ => 0, fun _ => 0, fun _ => 0, fun _ => 0⟩ = some T ∧
      (M2M (⟨Real.sqrt, Real.cos, Real.sin, Real.arccos, Real.arctan, Real.pi,
          Complex.ofReal, starRingEnd ℂ, Complex.re, Complex.exp,
          fun (z : ℂ) (t : ℝ) => z ^ (t : ℂ), Complex.I⟩ : cmath ℝ ℂ) (1 / 1000000) T 2
        ⟨⟨0, 0, 0⟩, 0, 0, 0, fun _ => 0, fun _ => 0⟩
        [P2M (⟨Real.sqrt, Real.cos, Real.sin, Real.arccos, Real.arctan, Real.pi,
          Complex.ofReal, starRingEnd ℂ, Complex.re, Complex.exp,
          fun (z : ℂ) (t : ℝ) => z ^ (t : ℂ), Complex.I⟩ : cmath ℝ ℂ) (1 / 1000000)
          T.prefactor 2 ⟨⟨0, 0, 0⟩, 0, 0, 0, fun _ => 0, fun _ => 0⟩
          [⟨⟨0, 0, 0⟩, 1, ⟨0, 0, 0, 0⟩⟩]]).M 0 =
      (P2M (⟨Real.sqrt, Real.cos, Real.sin, Real.arccos, Real.arctan, Real.pi,
          Complex.ofReal, starRingEnd ℂ, Complex.re, Complex.exp,
          fun (z : ℂ) (t : ℝ) => z ^ (t : ℂ), Complex.I⟩ : cmath ℝ ℂ) (1 / 1000000)
          T.prefactor 2 ⟨⟨0, 0, 0⟩, 0, 0, 0, fun _ => 0, fun _ => 0⟩
          [⟨⟨0, 0, 0⟩, 1, ⟨0, 0, 0, 0⟩⟩]).M 0 := by
  refine ⟨⟨rfl, rfl, rfl, rfl, rfl, rfl, rfl, rfl, rfl, rfl, rfl, rfl⟩, by norm_num,
    le_refl 1, by norm_num, ?_⟩
  obtain ⟨T, hT, -, h0⟩ := M2M_zero_translation
    (⟨Real.sqrt, Real.cos, Real.sin, Real.arccos, Real.arctan, Real.pi,
      Complex.ofReal, starRingEnd ℂ, Complex.re, Complex.exp,
      fun (z : ℂ) (t : ℝ) => z ^ (t : ℂ), Complex.I⟩ : cmath ℝ ℂ)
    ⟨rfl, rfl, rfl, rfl, rfl, rfl, rfl, rfl, rfl, rfl, rfl, rfl⟩ (1 / 1000000)
    (by norm_num) 2 ⟨fun _ => 0, fun _ => 0, fun _ => 0, fun _ => 0⟩ ⟨0, 0, 0⟩ 0 0 0
    (fun _ => 0) 0 0 0 (fun _ => 0) [⟨⟨0, 0, 0⟩, 1, ⟨0, 0, 0, 0⟩⟩] 1 1 (le_refl 1)
    (by norm_num)
  exact ⟨T, hT, h0⟩

/-! ## The kernels on the axis of the first coordinate -/

theorem P2M_single_entry (F : cmath ℝ ℂ) (hF : F.exact) (EPS : ℝ) (pref : ℕ → ℝ) (P : ℕ)
    (X : vect ℝ) (R RMAX RCRIT : ℝ) (L : ℕ → ℂ) (B : Body ℝ) (n m : ℕ) (hm : m ≤ n)
    (hn : n < P) :
    (P2M F EPS pref P ⟨X, R, RMAX, RCRIT, fun _ => 0, L⟩ [B]).M (n * (n + 1) / 2 + m) =
      (B.SRC : ℂ) * (evalMultipole F pref P (cart2sph F EPS (B.X.sub X)).1
        (cart2sph F EPS (B.X.sub X)).2.1 (-(cart2sph F EPS (B.X.sub X)).2.2)
        (fun _ => 0) (fun _ => 0)).1 (n * n + n + m) := by
  have h := (P2M_fold_M F hF EPS pref P ⟨X, R, RMAX, RCRIT, fun _ => 0, L⟩ [B]
    ⟨0, fun _ => 0, fun _ => 0, fun _ => 0⟩).1 n m hm hn
  have h' : (P2M F EPS pref P ⟨X, R, RMAX, RCRIT, fun _ => 0, L⟩ [B]).M
      (n * (n + 1) / 2 + m) = _ := h
  rw [h']
  simp

theorem cart2sph_pos_x (F : cmath ℝ ℂ) (hF : F.exact) (EPS a : ℝ) (hE : 0 < EPS)
    (ha : EPS ≤ a) : cart2sph F EPS ⟨a, 0, 0⟩ = (a + EPS, Real.pi / 2, 0) := by
  obtain ⟨h1, -, -, h4, h5, -⟩ := hF
  have ha0 : 0 < a := lt_of_lt_of_le hE ha
  unfold cart2sph
  have hn : norm (⟨a, 0, 0⟩ : vect ℝ) = a * a := by simp [norm]
  simp only [h1, h4, h5, hn, Real.sqrt_mul_self ha0.le, zero_div, Real.arccos_zero, abs_zero,
    add_zero, abs_of_pos ha0, if_neg (not_lt.2 ha), gt_iff_lt, if_pos ha0, Real.arctan_zero]

theorem cart2sph_neg_x (F : cmath ℝ ℂ) (hF : F.exact) (EPS a : ℝ) (hE : 0 < EPS)
    (ha : EPS ≤ a) : cart2sph F EPS ⟨-a, 0, 0⟩ = (a + EPS, Real.pi / 2, Real.pi) := by
  obtain ⟨h1, -, -, h4, h5, h6, -⟩ := hF
  have ha0 : 0 < a := lt_of_lt_of_le hE ha
  unfold cart2sph
  have hn : norm (⟨-a, 0, 0⟩ : vect ℝ) = a * a := by simp [norm]
  have hneg : ¬ (-a > 0) := by
    simp only [gt_iff_lt, not_lt]
    linarith
  simp only [h1, h4, h5, h6, hn, Real.sqrt_mul_self ha0.le, zero_div, Real.arccos_zero, abs_zero,
    add_zero, abs_neg, abs_of_pos ha0, if_neg (not_lt.2 ha), if_neg hneg, Real.arctan_zero,
    zero_add]

theorem evalMultipole_equator (F : cmath ℝ ℂ) (hF : F.exact) (EPS : ℝ) (P : ℕ)
    (raw T : tables ℝ ℂ) (h : preCalculation F EPS P raw = some T) (ρ β : ℝ)
    (n m : ℕ) (hm : m ≤ n) (hn : n < P) :
    (evalMultipole F T.prefactor P ρ (Real.pi / 2) β (fun _ => 0) (fun _ => 0)).1
        (n * n + n + m) =
      ((ρ ^ n * equator_harmonic Real.sqrt n m : ℝ) : ℂ)
        * Complex.exp (Complex.I * (m : ℂ) * (β : ℂ)) := by
  have e := equator_entry F hF EPS P raw T h ρ β n (m : ℤ)
    (by rw [abs_of_nonneg (Int.natCast_nonneg m)]; exact_mod_cast hm) hn
  have e0 : (((n : ℤ) * n + n + (m : ℤ)).toNat) = n * n + n + m := by
    have : ((n : ℤ) * n + n + (m : ℤ)) = ((n * n + n + m : ℕ) : ℤ) := by push_cast; ring
    rw [this, Int.toNat_natCast]
  rw [e0] at e
  rw [e]
  simp

theorem evalLocal_equator (F : cmath ℝ ℂ) (hF : F.exact) (EPS : ℝ) (P : ℕ)
    (raw T : tables ℝ ℂ) (h : preCalculation F EPS P raw = some T) (ρ β : ℝ)
    (n m : ℕ) (hm : m ≤ n) (hn : n < 2 * P) :
    (evalLocal F T.prefactor P ρ (Real.pi / 2) β (fun _ => 0) (fun _ => 0)).1
        (n * n + n + m) =
      ((1 / ρ / ρ ^ n * equator_harmonic Real.sqrt n m : ℝ) : ℂ)
        * Complex.exp (Complex.I * (m : ℂ) * (β : ℂ)) ∧
    (evalLocal F T.prefactor P ρ (Real.pi / 2) β (fun _ => 0) (fun _ => 0)).2
        (n * n + n + m) =
      ((1 / ρ / ρ ^ n * ((((n : ℝ) - m + 1) * legendre 0 1 m (n - m + 1))
          * Real.sqrt ((((n - m).factorial : ℕ) : ℝ) / (((n + m).factorial : ℕ) : ℝ))) : ℝ) : ℂ)
        * Complex.exp (Complex.I * (m : ℂ) * (β : ℂ)) := by
  obtain ⟨s1, -, s3⟩ := evalLocal_stored F hF T.prefactor P ρ (Real.pi / 2) β
    (fun _ => 0) (fun _ => 0) m n hm hn
  have hp := preCalculation_prefactor F hF EPS P raw T h n m hm hn
  obtain ⟨-, hcos, hsin, -, -, -, hofReal, -, -, hexp, -, hI⟩ := hF
  constructor
  · rw [s1]
    unfold inner_value equator_harmonic
    rw [hcos, hsin, hofReal, hexp, hI, Real.cos_pi_div_two, Real.sin_pi_div_two, hp]
    simp only [Int.natAbs_ofNat]
    push_cast
    ring_nf
  · rw [s3]
    unfold theta_value
    rw [hcos, hsin, hofReal, hexp, hI, Real.cos_pi_div_two, Real.sin_pi_div_two, hp]
    push_cast
    ring_nf

theorem re_pair (a b : ℝ) (m : ℕ) (β₁ β₂ : ℝ) :
    Complex.re (((a : ℂ) * Complex.exp (Complex.I * (m : ℂ) * (β₁ : ℂ)))
        * ((b : ℂ) * Complex.exp (Complex.I * (m : ℂ) * (β₂ : ℂ)))) =
      a * b * Real.cos (m * (β₁ + β₂)) ∧
    Complex.re (((a : ℂ) * Complex.exp (Complex.I * (m : ℂ) * (β₁ : ℂ)))
        * ((b : ℂ) * Complex.exp (Complex.I * (m : ℂ) * (β₂ : ℂ))) * Complex.I) =
      -(a * b * Real.sin (m * (β₁ + β₂))) := by
  have e : ((a : ℂ) * Complex.exp (Complex.I * (m : ℂ) * (β₁ : ℂ)))
        * ((b : ℂ) * Complex.exp (Complex.I * (m : ℂ) * (β₂ : ℂ))) =
      ((a * b : ℝ) : ℂ) * Complex.exp (((m * (β₁ + β₂) : ℝ) : ℂ) * Complex.I) := by
    have : Complex.exp (Complex.I * (m : ℂ) * (β₁ : ℂ)) *
        Complex.exp (Complex.I * (m : ℂ) * (β₂ : ℂ)) =
        Complex.exp (((m * (β₁ + β₂) : ℝ) : ℂ) * Complex.I) := by
      rw [← Complex.exp_add]
      congr 1
      push_cast
      ring
    rw [← this]
    push_cast
    ring
  rw [e]
  constructor
  · rw [Complex.re_ofReal_mul, Complex.exp_ofReal_mul_I_re]
  · rw [mul_assoc, Complex.re_ofReal_mul, Complex.mul_I_re, Complex.exp_ofReal_mul_I_im]
    ring

theorem equator_harmonic_sq :
    equator_harmonic Real.sqrt 0 0 ^ 2 = 1 ∧
    equator_harmonic Real.sqrt 1 0 ^ 2 = 0 ∧ equator_harmonic Real.sqrt 1 1 ^ 2 = 1 / 2 ∧
    equator_harmonic Real.sqrt 2 0 ^ 2 = 1 / 4 ∧ equator_harmonic Real.sqrt 2 1 ^ 2 = 0 ∧
    equator_harmonic Real.sqrt 2 2 ^ 2 = 3 / 8 ∧
    equator_harmonic Real.sqrt 3 0 ^ 2 = 0 ∧ equator_harmonic Real.sqrt 3 1 ^ 2 = 3 / 16 ∧
    equator_harmonic Real.sqrt 3 2 ^ 2 = 0 ∧ equator_harmonic Real.sqrt 3 3 ^ 2 = 5 / 16 ∧
    equator_harmonic Real.sqrt 4 0 ^ 2 = 9 / 64 ∧ equator_harmonic Real.sqrt 4 1 ^ 2 = 0 ∧
    equator_harmonic Real.sqrt 4 2 ^ 2 = 5 / 32 ∧ equator_harmonic Real.sqrt 4 3 ^ 2 = 0 ∧
    equator_harmonic Real.sqrt 4 4 ^ 2 = 35 / 128 := by
  have key : ∀ (n : ℕ) (m : ℕ), equator_harmonic Real.sqrt n (m : ℤ) ^ 2 =
      legendre (0 : ℝ) 1 m (n - m) ^ 2
        * ((((n - m).factorial : ℕ) : ℝ) / (((n + m).factorial : ℕ) : ℝ)) := by
    intro n m
    unfold equator_harmonic
    rw [mul_pow, Real.sq_sqrt (by positivity)]
    rfl
  refine ⟨?_, ?_, ?_, ?_, ?_, ?_, ?_, ?_, ?_, ?_, ?_, ?_, ?_, ?_, ?_⟩
  · have := key 0 0; norm_num [legendre, Nat.factorial, Nat.doubleFactorial] at this; simpa using this
  · have := key 1 0; norm_num [legendre, Nat.factorial, Nat.doubleFactorial] at this; simpa using this
  · have := key 1 1; norm_num [legendre, Nat.factorial, Nat.doubleFactorial] at this; simpa using this
  · have := key 2 0; norm_num [legendre, Nat.factorial, Nat.doubleFactorial] at this; simpa using this
  · have := key 2 1; norm_num [legendre, Nat.factorial, Nat.doubleFactorial] at this; simpa using this
  · have := key 2 2; norm_num [legendre, Nat.factorial, Nat.doubleFactorial] at this; simpa using this
  · have := key 3 0; norm_num [legendre, Nat.factorial, Nat.doubleFactorial] at this; simpa using this
  · have := key 3 1; norm_num [legendre, Nat.factorial, Nat.doubleFactorial] at this; simpa using this
  · have := key 3 2; norm_num [legendre, Nat.factorial, Nat.doubleFactorial] at this; simpa using this
  · have := key 3 3; norm_num [legendre, Nat.factorial, Nat.doubleFactorial] at this; simpa using this
  · have := key 4 0; norm_num [legendre, Nat.factorial, Nat.doubleFactorial] at this; simpa using this
  · have := key 4 1; norm_num [legendre, Nat.factorial, Nat.doubleFactorial] at this; simpa using this
  · have := key 4 2; norm_num [legendre, Nat.factorial, Nat.doubleFactorial] at this; simpa using this
  · have := key 4 3; norm_num [legendre, Nat.factorial, Nat.doubleFactorial] at this; simpa using this
  · have := key 4 4; norm_num [legendre, Nat.factorial, Nat.doubleFactorial] at this; simpa using this

theorem M2P_potential_five (F : cmath ℝ ℂ) (M Y : ℕ → ℂ) (A : ℕ → ℝ) (s : ℝ)
    (hs : s ^ 2 = 1)
    (hre : ∀ n m : ℕ, m ≤ n → n < 5 → F.real (M (n * (n + 1) / 2 + m) * Y (n * n + n + m)) =
      A n * equator_harmonic Real.sqrt n (m : ℤ) ^ 2 * s ^ m) :
    M2P_potential F M Y 5 = A 0 + s * A 1 + A 2 + s * A 3 + A 4 := by
  obtain ⟨q00, q10, q11, q20, q21, q22, q30, q31, q32, q33, q40, q41, q42, q43, q44⟩ :=
    equator_harmonic_sq
  have h00 := hre 0 0 (by norm_num) (by norm_num)
  have h10 := hre 1 0 (by norm_num) (by norm_num)
  have h11 := hre 1 1 (by norm_num) (by norm_num)
  have h20 := hre 2 0 (by norm_num) (by norm_num)
  have h21 := hre 2 1 (by norm_num) (by norm_num)
  have h22 := hre 2 2 (by norm_num) (by norm_num)
  have h30 := hre 3 0 (by norm_num) (by norm_num)
  have h31 := hre 3 1 (by norm_num) (by norm_num)
  have h32 := hre 3 2 (by norm_num) (by norm_num)
  have h33 := hre 3 3 (by norm_num) (by norm_num)
  have h40 := hre 4 0 (by norm_num) (by norm_num)
  have h41 := hre 4 1 (by norm_num) (by norm_num)
  have h42 := hre 4 2 (by norm_num) (by norm_num)
  have h43 := hre 4 3 (by norm_num) (by norm_num)
  have h44 := hre 4 4 (by norm_num) (by norm_num)
  simp only [Nat.cast_zero, Nat.cast_one, Nat.cast_ofNat, q00, q10, q11, q20, q21, q22, q30,
    q31, q32, q33, q40, q41, q42, q43, q44] at h00 h10 h11 h20 h21 h22 h30 h31
  simp only [Nat.cast_zero, Nat.cast_one, Nat.cast_ofNat, q00, q10, q11, q20, q21, q22, q30,
    q31, q32, q33, q40, q41, q42, q43, q44] at h32 h33 h40 h41 h42 h43 h44
  norm_num at h00 h10 h11 h20 h21 h22 h30 h31
  norm_num at h32 h33 h40 h41 h42 h43 h44
  unfold M2P_potential
  have e2 : Finset.Icc 1 2 = ({1, 2} : Finset ℕ) := by decide
  have e3 : Finset.Icc 1 3 = ({1, 2, 3} : Finset ℕ) := by decide
  have e4 : Finset.Icc 1 4 = ({1, 2, 3, 4} : Finset ℕ) := by decide
  simp only [Finset.sum_range_succ, Finset.sum_range_zero, Finset.Icc_self,
    Finset.sum_singleton, zero_add]
  norm_num
  rw [e2, e3, e4]
  rw [Finset.sum_insert (by decide), Finset.sum_insert (by decide), Finset.sum_insert (by decide),
    Finset.sum_insert (by decide), Finset.sum_insert (by decide), Finset.sum_insert (by decide)]
  simp only [Finset.sum_singleton, Nat.reduceAdd]
  simp only [h00, h10, h11, h20, h21, h22, h30, h31, h32, h33, h40, h41, h42, h43, h44]
  linear_combination (A 2 * (3 / 4) + 5 / 8 * A 3 * s + A 4 * (5 / 16 + 35 / 64 * (s ^ 2 + 1)))
    * hs

/-! ## The single-level test -/

theorem single_level_multipole (F : cmath ℝ ℂ) (hF : F.exact) (EPS : ℝ) (hE : 0 < EPS)
    (hE6 : EPS ≤ 1 / 1000000) (P : ℕ) (raw T : tables ℝ ℂ)
    (h : preCalculation F EPS P raw = some T) (R RMAX RCRIT : ℝ) (L : ℕ → ℂ) (trg : vec4 ℝ)
    (n m : ℕ) (hm : m ≤ n) (hn : n < P) :
    (P2M F EPS T.prefactor P ⟨⟨1 / 8, 0, 0⟩, R, RMAX, RCRIT, fun _ => 0, L⟩
        [⟨⟨0, 0, 0⟩, 1, trg⟩]).M (n * (n + 1) / 2 + m) =
      (((1 / 8 + EPS) ^ n * equator_harmonic Real.sqrt n m : ℝ) : ℂ)
        * Complex.exp (Complex.I * (m : ℂ) * ((-Real.pi : ℝ) : ℂ)) := by
  rw [P2M_single_entry F hF EPS T.prefactor P _ R RMAX RCRIT L _ n m hm hn]
  have hd : (⟨0, 0, 0⟩ : vect ℝ).sub ⟨1 / 8, 0, 0⟩ = ⟨-(1 / 8), 0, 0⟩ := by
    simp [vect.sub]
  simp only [hd]
  rw [cart2sph_neg_x F hF EPS (1 / 8) hE (by linarith)]
  simp only
  rw [evalMultipole_equator F hF EPS P raw T h _ _ n m hm hn]
  simp

theorem single_level_M2P_phi (F : cmath ℝ ℂ) (hF : F.exact) (EPS : ℝ) (hE : 0 < EPS)
    (hE6 : EPS ≤ 1 / 1000000) (raw T : tables ℝ ℂ)
    (h : preCalculation F EPS 5 raw = some T) (R RMAX RCRIT : ℝ) (L : ℕ → ℂ) (trg : vec4 ℝ)
    (B : Body ℝ) (hB : B.X = ⟨9 / 10, 0, 0⟩) :
    M2P_phi F EPS ⟨0, 0, 0⟩ T.prefactor 5
        (P2M F EPS T.prefactor 5 ⟨⟨1 / 8, 0, 0⟩, R, RMAX, RCRIT, fun _ => 0, L⟩
          [⟨⟨0, 0, 0⟩, 1, trg⟩]) B =
      1 / (31 / 40 + EPS)
        - (1 / 8 + EPS) / (31 / 40 + EPS) ^ 2
        + (1 / 8 + EPS) ^ 2 / (31 / 40 + EPS) ^ 3
        - (1 / 8 + EPS) ^ 3 / (31 / 40 + EPS) ^ 4
        + (1 / 8 + EPS) ^ 4 / (31 / 40 + EPS) ^ 5 := by
  unfold M2P_phi
  have hd : (B.X.sub (P2M F EPS T.prefactor 5 ⟨⟨1 / 8, 0, 0⟩, R, RMAX, RCRIT, fun _ => 0, L⟩
      [⟨⟨0, 0, 0⟩, 1, trg⟩]).X).sub ⟨0, 0, 0⟩ = ⟨31 / 40, 0, 0⟩ := by
    rw [hB]
    show ((⟨9 / 10, 0, 0⟩ : vect ℝ).sub ⟨1 / 8, 0, 0⟩).sub ⟨0, 0, 0⟩ = _
    simp only [vect.sub, vect.mk.injEq]
    norm_num
  simp only [hd]
  rw [cart2sph_pos_x F hF EPS (31 / 40) hE (by linarith)]
  simp only
  have hr : (0 : ℝ) < 31 / 40 + EPS := by linarith
  rw [M2P_potential_five F _ _ (fun n => (1 / 8 + EPS) ^ n * (1 / (31 / 40 + EPS)
    / (31 / 40 + EPS) ^ n)) (-1) (by norm_num) ?_]
  · field_simp
    ring
  · intro n m hm hn
    rw [single_level_multipole F hF EPS hE hE6 5 raw T h R RMAX RCRIT L trg n m hm hn,
      (evalLocal_equator F hF EPS 5 raw T h (31 / 40 + EPS) 0 n m hm (by omega)).1,
      hF.2.2.2.2.2.2.2.2.1, (re_pair _ _ m _ _).1, add_zero]
    have hc : Real.cos ((m : ℝ) * -Real.pi) = (-1) ^ m := by
      rw [mul_neg, Real.cos_neg]
      have := Real.cos_nat_mul_pi_sub 0 m
      simpa using this
    rw [hc]
    ring

theorem alternating_sum_bound (r ρ : ℝ) (hr0 : 0 < r) (hρ0 : 0 ≤ ρ) (hρr : ρ ≤ r / 4)
    (h1 : 9 / 10 ≤ r + ρ) (h2 : r + ρ ≤ 900003 / 1000000) :
    |1 / r - ρ / r ^ 2 + ρ ^ 2 / r ^ 3 - ρ ^ 3 / r ^ 4 + ρ ^ 4 / r ^ 5 - 1 / (9 / 10)|
        / |(1 : ℝ) / (9 / 10)| ≤ 1 / 1000 := by
  have hsum : 1 / r - ρ / r ^ 2 + ρ ^ 2 / r ^ 3 - ρ ^ 3 / r ^ 4 + ρ ^ 4 / r ^ 5 =
      (r ^ 5 + ρ ^ 5) / ((r + ρ) * r ^ 5) := by
    have hrρ : r + ρ ≠ 0 := by linarith
    field_simp
    ring
  rw [hsum]
  have h910 : |(1 : ℝ) / (9 / 10)| = 10 / 9 := by
    rw [abs_of_pos (by norm_num)]
    norm_num
  have hr5 : 0 < r ^ 5 := by positivity
  have hden : 0 < (r + ρ) * r ^ 5 := mul_pos (by linarith) hr5
  have hρ5 : ρ ^ 5 ≤ (r / 4) ^ 5 := pow_le_pow_left₀ hρ0 hρr 5
  have hρ5' : 0 ≤ ρ ^ 5 := by positivity
  have k1 : (r + ρ) * r ^ 5 ≤ 900003 / 1000000 * r ^ 5 := mul_le_mul_of_nonneg_right h2 hr5.le
  have k2 : 9 / 10 * r ^ 5 ≤ (r + ρ) * r ^ 5 := mul_le_mul_of_nonneg_right h1 hr5.le
  have h4 : (r / 4) ^ 5 = r ^ 5 / 1024 := by ring
  rw [h4] at hρ5
  rw [h910, div_le_iff₀ (by norm_num), abs_le]
  constructor
  · rw [le_sub_iff_add_le, le_div_iff₀ hden]
    have e : (-(1 / 1000 * (10 / 9)) + 1 / (9 / 10) : ℝ) = 999 / 900 := by norm_num
    rw [e]
    linarith
  · rw [sub_le_iff_le_add, div_le_iff₀ hden]
    have e : (1 / 1000 * (10 / 9) + 1 / (9 / 10) : ℝ) = 1001 / 900 := by norm_num
    rw [e]
    linarith

theorem single_level_M2P_value (F : cmath ℝ ℂ) (hF : F.exact) (EPS : ℝ) (hE : 0 < EPS)
    (hE6 : EPS ≤ 1 / 1000000) (raw T : tables ℝ ℂ) (hT : preCalculation F EPS 5 raw = some T)
    (R RMAX RCRIT : ℝ) (L : ℕ → ℂ) (trg : vec4 ℝ) (w : ℝ) :
    ∃ B, M2P F EPS ⟨0, 0, 0⟩ T.prefactor 5 [⟨⟨9 / 10, 0, 0⟩, w, ⟨0, 0, 0, 0⟩⟩]
        (P2M F EPS T.prefactor 5 ⟨⟨1 / 8, 0, 0⟩, R, RMAX, RCRIT, fun _ => 0, L⟩
          [⟨⟨0, 0, 0⟩, 1, trg⟩]) = [B] ∧
      |B.TRG.v0 - 1 / (9 / 10)| / |(1 : ℝ) / (9 / 10)| ≤ 1 / 1000 := by
  rw [M2P_eq_map F hF]
  refine ⟨_, rfl, ?_⟩
  simp only [zero_add]
  rw [single_level_M2P_phi F hF EPS hE hE6 raw T hT R RMAX RCRIT L trg _ rfl]
  exact alternating_sum_bound (31 / 40 + EPS) (1 / 8 + EPS) (by linarith) (by linarith)
    (by linarith) (by linarith) (by linarith)

/-- C23: in the configuration of the single-level test, a unit charge at `(0,0,0)`, the
multipole center `(0.125,0,0)`, the target `(0.9,0,0)`, `P = 5` and `0 < EPS ≤ 1e-6`,
the potential that `M2P` adds to the zero potential of the target from the multipole of
`P2M` differs from the direct potential `1/0.9` by a relative error of at most `1e-3`,
in exact arithmetic. -/
theorem single_level_M2P (F : cmath ℝ ℂ) (hF : F.exact) (EPS : ℝ) (hE : 0 < EPS)
    (hE6 : EPS ≤ 1 / 1000000) (raw : tables ℝ ℂ) (R RMAX RCRIT : ℝ) (L : ℕ → ℂ)
    (trg : vec4 ℝ) (w : ℝ) :
    ∃ T, preCalculation F EPS 5 raw = some T ∧
      ∃ B, M2P F EPS ⟨0, 0, 0⟩ T.prefactor 5 [⟨⟨9 / 10, 0, 0⟩, w, ⟨0, 0, 0, 0⟩⟩]
          (P2M F EPS T.prefactor 5 ⟨⟨1 / 8, 0, 0⟩, R, RMAX, RCRIT, fun _ => 0, L⟩
            [⟨⟨0, 0, 0⟩, 1, trg⟩]) = [B] ∧
        |B.TRG.v0 - 1 / (9 / 10)| / |(1 : ℝ) / (9 / 10)| ≤ 1 / 1000 := by
  obtain ⟨T, hT⟩ := preCalculation_some F EPS 5 (by norm_num) raw
  exact ⟨T, hT, single_level_M2P_value F hF EPS hE hE6 raw T hT R RMAX RCRIT L trg w⟩

/-- An instance: `EPS = 1e-6`. -/
theorem single_level_M2P_witness :
    cmath.exact (⟨Real.sqrt, Real.cos, Real.sin, Real.arccos, Real.arctan, Real.pi,
        Complex.ofReal, starRingEnd ℂ, Complex.re, Complex.exp,
        fun (z : ℂ) (t : ℝ) => z ^ (t : ℂ), Complex.I⟩ : cmath ℝ ℂ) ∧
      (0 : ℝ) < 1 / 1000000 ∧ (1 : ℝ) / 1000000 ≤ 1 / 1000000 ∧
      ∃ T, preCalculation (⟨Real.sqrt, Real.cos, Real.sin, Real.arccos, Real.arctan, Real.pi,
          Complex.ofReal, starRingEnd ℂ, Complex.re, Complex.exp,
          fun (z : ℂ) (t : ℝ) => z ^ (t : ℂ), Complex.I⟩ : cmath ℝ ℂ)
        (1 / 1000000) 5 ⟨fun _ => 0, fun _ => 0, fun _ => 0, fun _ => 0⟩ = some T ∧
      ∃ B, M2P (⟨Real.sqrt, Real.cos, Real.sin, Real.arccos, Real.arctan, Real.pi,
          Complex.ofReal, starRingEnd ℂ, Complex.re, Complex.exp,
          fun (z : ℂ) (t : ℝ) => z ^ (t : ℂ), Complex.I⟩ : cmath ℝ ℂ) (1 / 1000000)
          ⟨0, 0, 0⟩ T.prefactor 5 [⟨⟨9 / 10, 0, 0⟩, 0, ⟨0, 0, 0, 0⟩⟩]
          (P2M (⟨Real.sqrt, Real.cos, Real.sin, Real.arccos, Real.arctan, Real.pi,
            Complex.ofReal, starRingEnd ℂ, Complex.re, Complex.exp,
            fun (z : ℂ) (t : ℝ) => z ^ (t : ℂ), Complex.I⟩ : cmath ℝ ℂ) (1 / 1000000)
            T.prefactor 5 ⟨⟨1 / 8, 0, 0⟩, 1, 0, 0, fun _ => 0, fun _ => 0⟩
            [⟨⟨0, 0, 0⟩, 1, ⟨0, 0, 0, 0⟩⟩]) = [B] ∧
        |B.TRG.v0 - 1 / (9 / 10)| / |(1 : ℝ) / (9 / 10)| ≤ 1 / 1000 :=
  ⟨⟨rfl, rfl, rfl, rfl, rfl, rfl, rfl, rfl, rfl, rfl, rfl, rfl⟩, by norm_num, le_refl _,
    single_level_M2P
      (⟨Real.sqrt, Real.cos, Real.sin, Real.arccos, Real.arctan, Real.pi,
        Complex.ofReal, starRingEnd ℂ, Complex.re, Complex.exp,
        fun (z : ℂ) (t : ℝ) => z ^ (t : ℂ), Complex.I⟩ : cmath ℝ ℂ)
      ⟨rfl, rfl, rfl, rfl, rfl, rfl, rfl, rfl, rfl, rfl, rfl, rfl⟩ (1 / 1000000)
      (by norm_num) (le_refl _) ⟨fun _ => 0, fun _ => 0, fun _ => 0, fun _ => 0⟩ 1 0 0
      (fun _ => 0) ⟨0, 0, 0, 0⟩ 0⟩

theorem legendre_equator_odd (m : ℕ) : ∀ k : ℕ, legendre (0 : ℝ) 1 m (2 * k + 1) = 0 := by
  intro k
  induction k with
  | zero => simp [legendre]
  | succ k ih =>
    have e : 2 * (k + 1) + 1 = (2 * k + 1) + 2 := by ring
    rw [e, legendre, ih]
    simp

theorem legendre_equator_consecutive (m k : ℕ) :
    legendre (0 : ℝ) 1 m k * legendre (0 : ℝ) 1 m (k + 1) = 0 := by
  rcases Nat.even_or_odd' k with ⟨t, rfl | rfl⟩
  · rw [legendre_equator_odd m t, mul_zero]
  · rw [legendre_equator_odd m t, zero_mul]

theorem five_sum (f : ℕ → ℕ → ℝ) (A g : ℕ → ℝ) (s : ℝ) (hs : s ^ 2 = 1)
    (hf : ∀ n m : ℕ, m ≤ n → n < 5 →
      f n m = A n * equator_harmonic Real.sqrt n (m : ℤ) ^ 2 * s ^ m) :
    ∑ n ∈ Finset.range 5, (g n * f n 0 + ∑ m ∈ Finset.Icc 1 n, g n * (2 * f n m)) =
      g 0 * A 0 + s * (g 1 * A 1) + g 2 * A 2 + s * (g 3 * A 3) + g 4 * A 4 := by
  obtain ⟨q00, q10, q11, q20, q21, q22, q30, q31, q32, q33, q40, q41, q42, q43, q44⟩ :=
    equator_harmonic_sq
  have h00 := hf 0 0 (by norm_num) (by norm_num)
  have h10 := hf 1 0 (by norm_num) (by norm_num)
  have h11 := hf 1 1 (by norm_num) (by norm_num)
  have h20 := hf 2 0 (by norm_num) (by norm_num)
  have h21 := hf 2 1 (by norm_num) (by norm_num)
  have h22 := hf 2 2 (by norm_num) (by norm_num)
  have h30 := hf 3 0 (by norm_num) (by norm_num)
  have h31 := hf 3 1 (by norm_num) (by norm_num)
  have h32 := hf 3 2 (by norm_num) (by norm_num)
  have h33 := hf 3 3 (by norm_num) (by norm_num)
  have h40 := hf 4 0 (by norm_num) (by norm_num)
  have h41 := hf 4 1 (by norm_num) (by norm_num)
  have h42 := hf 4 2 (by norm_num) (by norm_num)
  have h43 := hf 4 3 (by norm_num) (by norm_num)
  have h44 := hf 4 4 (by norm_num) (by norm_num)
  simp only [Nat.cast_zero, Nat.cast_one, Nat.cast_ofNat, q00, q10, q11, q20, q21, q22, q30,
    q31, q32, q33, q40, q41, q42, q43, q44] at h00 h10 h11 h20 h21 h22 h30 h31
  simp only [Nat.cast_zero, Nat.cast_one, Nat.cast_ofNat, q00, q10, q11, q20, q21, q22, q30,
    q31, q32, q33, q40, q41, q42, q43, q44] at h32 h33 h40 h41 h42 h43 h44
  have e2 : Finset.Icc 1 2 = ({1, 2} : Finset ℕ) := by decide
  have e3 : Finset.Icc 1 3 = ({1, 2, 3} : Finset ℕ) := by decide
  have e4 : Finset.Icc 1 4 = ({1, 2, 3, 4} : Finset ℕ) := by decide
  have e0 : Finset.Icc 1 0 = (∅ : Finset ℕ) := by decide
  simp only [Finset.sum_range_succ, Finset.sum_range_zero, Finset.Icc_self,
    Finset.sum_singleton, zero_add, e0, e2, e3, e4, Finset.sum_empty]
  rw [Finset.sum_insert (by decide), Finset.sum_insert (by decide), Finset.sum_insert (by decide),
    Finset.sum_insert (by decide), Finset.sum_insert (by decide), Finset.sum_insert (by decide)]
  simp only [Finset.sum_singleton]
  rw [h00, h10, h11, h20, h21, h22, h30, h31, h32, h33, h40, h41, h42, h43, h44]
  linear_combination (g 2 * A 2 * (3 / 4) + 5 / 8 * g 3 * A 3 * s
    + g 4 * A 4 * (5 / 16 + 35 / 64 * (s ^ 2 + 1))) * hs

end SphericalLaplaceKernel

namespace StokesSpherical

open SphericalLaplaceKernel

/-! ## The Stokes kernels on the configuration S4 -/

theorem M2P_increment_spec (F : cmath ℝ ℂ) (hF : F.exact) (EPS : ℝ) (pref : ℕ → ℝ) (P : ℕ)
    (Mi : ℕ → ℂ) (center target : vect ℝ) (w : ℝ) (trg : vec4 ℝ) :
    M2P_increment F EPS pref P Mi center ⟨target, w, trg⟩ =
      ⟨M2P_phi F EPS ⟨0, 0, 0⟩ pref P ⟨center, 0, 0, 0, Mi, fun _ => 0⟩ ⟨target, w, trg⟩,
       (M2P_cartesian F EPS ⟨0, 0, 0⟩ pref P ⟨center, 0, 0, 0, Mi, fun _ => 0⟩
          ⟨target, w, trg⟩).x,
       (M2P_cartesian F EPS ⟨0, 0, 0⟩ pref P ⟨center, 0, 0, 0, Mi, fun _ => 0⟩
          ⟨target, w, trg⟩).y,
       (M2P_cartesian F EPS ⟨0, 0, 0⟩ pref P ⟨center, 0, 0, 0, Mi, fun _ => 0⟩
          ⟨target, w, trg⟩).z⟩ := by
  unfold M2P_increment
  rw [M2P_eq_map F hF]
  simp only [List.map_cons, List.map_nil, List.headD_cons, add_sub_cancel_left]

theorem M2P_sums_zero (F : cmath ℝ ℂ) (hF : F.exact) (M Y T : ℕ → ℂ) (r : ℝ) (P : ℕ)
    (hM : ∀ n m, m ≤ n → n < P → M (n * (n + 1) / 2 + m) = 0) :
    M2P_potential F M Y P = 0 ∧ M2P_spherical F M Y T r P = ⟨0, 0, 0⟩ := by
  have hre : F.real = Complex.re := hF.2.2.2.2.2.2.2.2.1
  have h0 : ∀ n, n < P → M (n * (n + 1) / 2) = 0 := fun n hn => by
    have := hM n 0 (Nat.zero_le _) hn
    simpa using this
  unfold M2P_potential M2P_spherical
  refine ⟨?_, ?_⟩
  · apply Finset.sum_eq_zero
    intro n hn
    rw [Finset.mem_range] at hn
    rw [h0 n hn, zero_mul, hre, Complex.zero_re, zero_add]
    apply Finset.sum_eq_zero
    intro m hm
    rw [Finset.mem_Icc] at hm
    rw [hM n m hm.2 hn, zero_mul, Complex.zero_re, mul_zero]
  · simp only [vect.mk.injEq]
    refine ⟨?_, ?_, ?_⟩
    · apply Finset.sum_eq_zero
      intro n hn
      rw [Finset.mem_range] at hn
      rw [h0 n hn, zero_mul, hre, Complex.zero_re, zero_div, zero_mul, neg_zero, zero_add]
      apply Finset.sum_eq_zero
      intro m hm
      rw [Finset.mem_Icc] at hm
      rw [hM n m hm.2 hn, zero_mul, Complex.zero_re, mul_zero, zero_div, zero_mul, neg_zero]
    · apply Finset.sum_eq_zero
      intro n hn
      rw [Finset.mem_range] at hn
      rw [h0 n hn, zero_mul, hre, Complex.zero_re, zero_add]
      apply Finset.sum_eq_zero
      intro m hm
      rw [Finset.mem_Icc] at hm
      rw [hM n m hm.2 hn, zero_mul, Complex.zero_re, mul_zero]
    · apply Finset.sum_eq_zero
      intro n hn
      rw [Finset.mem_range] at hn
      apply Finset.sum_eq_zero
      intro m hm
      rw [Finset.mem_Icc] at hm
      rw [hM n m hm.2 hn, zero_mul, zero_mul, hre, Complex.zero_re, mul_zero, zero_mul]

theorem M2P_increment_zero (F : cmath ℝ ℂ) (hF : F.exact) (EPS : ℝ) (pref : ℕ → ℝ) (P : ℕ)
    (Mi : ℕ → ℂ) (center target : vect ℝ) (w : ℝ) (trg : vec4 ℝ)
    (hM : ∀ n m, m ≤ n → n < P → Mi (n * (n + 1) / 2 + m) = 0) :
    M2P_increment F EPS pref P Mi center ⟨target, w, trg⟩ = ⟨0, 0, 0, 0⟩ := by
  rw [M2P_increment_spec F hF]
  unfold M2P_phi M2P_cartesian
  simp only
  obtain ⟨h1, h2⟩ := M2P_sums_zero F hF Mi
    (evalLocal F pref P (cart2sph F EPS ((target.sub center).sub ⟨0, 0, 0⟩)).1
      (cart2sph F EPS ((target.sub center).sub ⟨0, 0, 0⟩)).2.1
      (cart2sph F EPS ((target.sub center).sub ⟨0, 0, 0⟩)).2.2 (fun _ => 0) (fun _ => 0)).1
    (evalLocal F pref P (cart2sph F EPS ((target.sub center).sub ⟨0, 0, 0⟩)).1
      (cart2sph F EPS ((target.sub center).sub ⟨0, 0, 0⟩)).2.1
      (cart2sph F EPS ((target.sub center).sub ⟨0, 0, 0⟩)).2.2 (fun _ => 0) (fun _ => 0)).2
    (cart2sph F EPS ((target.sub center).sub ⟨0, 0, 0⟩)).1 P hM
  rw [h1, h2]
  simp [sph2cart]

end StokesSpherical

namespace SphericalLaplaceKernel

theorem M2P_equator_five (F : cmath ℝ ℂ) (M Y YT : ℕ → ℂ) (A : ℕ → ℝ) (r s : ℝ)
    (hs : s ^ 2 = 1)
    (hre : ∀ n m : ℕ, m ≤ n → n < 5 → F.real (M (n * (n + 1) / 2 + m) * Y (n * n + n + m)) =
      A n * equator_harmonic Real.sqrt n (m : ℤ) ^ 2 * s ^ m)
    (hT : ∀ n m : ℕ, m ≤ n → n < 5 →
      F.real (M (n * (n + 1) / 2 + m) * YT (n * n + n + m)) = 0)
    (hI : ∀ n m : ℕ, m ≤ n → n < 5 →
      F.real (M (n * (n + 1) / 2 + m) * Y (n * n + n + m) * F.I) = 0) :
    M2P_spherical F M Y YT r 5 =
      ⟨-(1 / r) * A 0 + s * (-(2 / r) * A 1) + -(3 / r) * A 2 + s * (-(4 / r) * A 3)
        + -(5 / r) * A 4, 0, 0⟩ := by
  have hx := five_sum (fun n m => F.real (M (n * (n + 1) / 2 + m) * Y (n * n + n + m))) A
    (fun n => -(((n : ℝ) + 1) / r)) s hs hre
  unfold M2P_spherical
  simp only [vect.mk.injEq]
  refine ⟨?_, ?_, ?_⟩
  · have e : ∀ n ∈ Finset.range 5,
        (-(F.real (M (n * (n + 1) / 2) * Y (n * n + n)) / r * ((n : ℝ) + 1))
          + ∑ m ∈ Finset.Icc 1 n,
            -(2 * F.real (M (n * (n + 1) / 2 + m) * Y (n * n + n + m)) / r
                * ((n : ℝ) + 1))) =
        (-(((n : ℝ) + 1) / r) * F.real (M (n * (n + 1) / 2 + 0) * Y (n * n + n + 0))
          + ∑ m ∈ Finset.Icc 1 n, -(((n : ℝ) + 1) / r) *
            (2 * F.real (M (n * (n + 1) / 2 + m) * Y (n * n + n + m)))) := by
      intro n _
      congr 1
      · rw [add_zero, add_zero]
        ring
      · apply Finset.sum_congr rfl
        intro m _
        ring
    rw [Finset.sum_congr rfl e]
    rw [hx]
    norm_num
  · apply Finset.sum_eq_zero
    intro n hn
    rw [Finset.mem_range] at hn
    have h0 := hT n 0 (Nat.zero_le _) hn
    rw [add_zero, add_zero] at h0
    rw [h0, zero_add]
    apply Finset.sum_eq_zero
    intro m hm
    rw [Finset.mem_Icc] at hm
    rw [hT n m hm.2 hn, mul_zero]
  · apply Finset.sum_eq_zero
    intro n hn
    rw [Finset.mem_range] at hn
    apply Finset.sum_eq_zero
    intro m hm
    rw [Finset.mem_Icc] at hm
    rw [hI n m hm.2 hn, mul_zero, zero_mul]

end SphericalLaplaceKernel

namespace StokesSpherical

open SphericalLaplaceKernel

theorem stokes_S4_multipole (F : cmath ℝ ℂ) (hF : F.exact) (EPS : ℝ) (hE : 0 < EPS) (P : ℕ)
    (raw T : tables ℝ ℂ) (h : preCalculation F EPS P raw = some T) (n m : ℕ) (hm : m ≤ n)
    (hn : n < P) :
    P2M F EPS T.prefactor P ⟨0, 0, 0⟩ ⟨1, 0, 0⟩ ⟨0, 0, 0⟩ (fun _ _ => 0) 0
        (n * (n + 1) / 2 + m) =
      ((EPS ^ n * equator_harmonic Real.sqrt n m : ℝ) : ℂ)
        * Complex.exp (Complex.I * (m : ℂ) * ((0 : ℝ) : ℂ)) ∧
    ∀ i, 1 ≤ i → i < 4 →
      P2M F EPS T.prefactor P ⟨0, 0, 0⟩ ⟨1, 0, 0⟩ ⟨0, 0, 0⟩ (fun _ _ => 0) i
        (n * (n + 1) / 2 + m) = 0 := by
  have key : ∀ i, i < 4 →
      P2M F EPS T.prefactor P ⟨0, 0, 0⟩ ⟨1, 0, 0⟩ ⟨0, 0, 0⟩ (fun _ _ => 0) i
        (n * (n + 1) / 2 + m) =
      ((P2M_weight (⟨1, 0, 0⟩ : vect ℝ) ⟨0, 0, 0⟩ i : ℝ) : ℂ) *
        (((EPS ^ n * equator_harmonic Real.sqrt n m : ℝ) : ℂ)
          * Complex.exp (Complex.I * (m : ℂ) * ((0 : ℝ) : ℂ))) := by
    intro i hi
    rw [stokes_P2M_entry F hF EPS T.prefactor P _ _ _ _ i n m hi hm hn]
    rw [vect_sub_self, cart2sph_zero F hF EPS hE]
    simp only
    rw [evalMultipole_equator F hF EPS P raw T h _ _ n m hm hn]
    simp
  refine ⟨?_, ?_⟩
  · rw [key 0 (by norm_num)]
    simp [P2M_weight]
  · intro i h1 h4
    rw [key i h4]
    have hw : P2M_weight (⟨1, 0, 0⟩ : vect ℝ) ⟨0, 0, 0⟩ i = 0 := by
      interval_cases i <;> simp [P2M_weight]
    rw [hw]
    simp

theorem stokes_S4_laplace (F : cmath ℝ ℂ) (hF : F.exact) (EPS : ℝ) (hE : 0 < EPS)
    (hE6 : EPS ≤ 1 / 1000000) (raw T : tables ℝ ℂ)
    (h : preCalculation F EPS 5 raw = some T) (w : ℝ) (trg : vec4 ℝ) (A : ℕ → ℝ)
    (hA : ∀ n, A n = EPS ^ n * (1 / (1 + EPS) / (1 + EPS) ^ n)) :
    M2P_increment F EPS T.prefactor 5
        (P2M F EPS T.prefactor 5 ⟨0, 0, 0⟩ ⟨1, 0, 0⟩ ⟨0, 0, 0⟩ (fun _ _ => 0) 0) ⟨0, 0, 0⟩
        ⟨⟨1, 0, 0⟩, w, trg⟩ =
      ⟨A 0 + A 1 + A 2 + A 3 + A 4,
       -(1 / (1 + EPS)) * (A 0 + 2 * A 1 + 3 * A 2 + 4 * A 3 + 5 * A 4), 0, 0⟩ := by
  obtain ⟨-, hcos, hsin, -, -, -, -, -, hre, -, -, hI⟩ := id hF
  rw [M2P_increment_spec F hF]
  unfold M2P_phi M2P_cartesian
  have hd : ((⟨1, 0, 0⟩ : vect ℝ).sub ⟨0, 0, 0⟩).sub ⟨0, 0, 0⟩ = ⟨1, 0, 0⟩ := by
    simp [vect.sub]
  simp only [hd]
  rw [cart2sph_pos_x F hF EPS 1 hE (by linarith)]
  simp only
  have hprod : ∀ n m : ℕ, m ≤ n → n < 5 →
      F.real (P2M F EPS T.prefactor 5 ⟨0, 0, 0⟩ ⟨1, 0, 0⟩ ⟨0, 0, 0⟩ (fun _ _ => 0) 0
          (n * (n + 1) / 2 + m) *
        (evalLocal F T.prefactor 5 (1 + EPS) (Real.pi / 2) 0 (fun _ => 0) (fun _ => 0)).1
          (n * n + n + m)) =
      A n * equator_harmonic Real.sqrt n (m : ℤ) ^ 2 * 1 ^ m := by
    intro n m hm hn
    rw [(stokes_S4_multipole F hF EPS hE 5 raw T h n m hm hn).1,
      (evalLocal_equator F hF EPS 5 raw T h (1 + EPS) 0 n m hm (by omega)).1,
      hre, (re_pair _ _ m _ _).1, add_zero, mul_zero, Real.cos_zero, hA n]
    ring
  have hT : ∀ n m : ℕ, m ≤ n → n < 5 →
      F.real (P2M F EPS T.prefactor 5 ⟨0, 0, 0⟩ ⟨1, 0, 0⟩ ⟨0, 0, 0⟩ (fun _ _ => 0) 0
          (n * (n + 1) / 2 + m) *
        (evalLocal F T.prefactor 5 (1 + EPS) (Real.pi / 2) 0 (fun _ => 0) (fun _ => 0)).2
          (n * n + n + m)) = 0 := by
    intro n m hm hn
    rw [(stokes_S4_multipole F hF EPS hE 5 raw T h n m hm hn).1,
      (evalLocal_equator F hF EPS 5 raw T h (1 + EPS) 0 n m hm (by omega)).2,
      hre, (re_pair _ _ m _ _).1]
    unfold equator_harmonic
    rw [Int.natAbs_ofNat]
    have hz := legendre_equator_consecutive m (n - m)
    have e : EPS ^ n * (legendre 0 1 m (n - m)
          * Real.sqrt ((((n - m).factorial : ℕ) : ℝ) / (((n + m).factorial : ℕ) : ℝ)))
        * (1 / (1 + EPS) / (1 + EPS) ^ n * ((((n : ℝ) - m + 1) * legendre 0 1 m (n - m + 1))
          * Real.sqrt ((((n - m).factorial : ℕ) : ℝ) / (((n + m).factorial : ℕ) : ℝ)))) =
        (legendre 0 1 m (n - m) * legendre 0 1 m (n - m + 1))
          * (EPS ^ n * Real.sqrt ((((n - m).factorial : ℕ) : ℝ) / (((n + m).factorial : ℕ) : ℝ))
            * (1 / (1 + EPS) / (1 + EPS) ^ n * (((n : ℝ) - m + 1)
              * Real.sqrt ((((n - m).factorial : ℕ) : ℝ)
                / (((n + m).factorial : ℕ) : ℝ))))) := by
      ring
    rw [e, hz, zero_mul, zero_mul]
  have hIm : ∀ n m : ℕ, m ≤ n → n < 5 →
      F.real (P2M F EPS T.prefactor 5 ⟨0, 0, 0⟩ ⟨1, 0, 0⟩ ⟨0, 0, 0⟩ (fun _ _ => 0) 0
          (n * (n + 1) / 2 + m) *
        (evalLocal F T.prefactor 5 (1 + EPS) (Real.pi / 2) 0 (fun _ => 0) (fun _ => 0)).1
          (n * n + n + m) * F.I) = 0 := by
    intro n m hm hn
    rw [(stokes_S4_multipole F hF EPS hE 5 raw T h n m hm hn).1,
      (evalLocal_equator F hF EPS 5 raw T h (1 + EPS) 0 n m hm (by omega)).1,
      hre, hI, (re_pair _ _ m _ _).2, add_zero, mul_zero, Real.sin_zero, mul_zero, neg_zero]
  rw [M2P_potential_five F _ _ A 1 (by norm_num) hprod,
    M2P_equator_five F _ _ _ A (1 + EPS) 1 (by norm_num) hprod hT hIm]
  simp only [sph2cart, hcos, hsin, Real.sin_pi_div_two, Real.cos_pi_div_two, Real.cos_zero,
    Real.sin_zero, vec4.mk.injEq]
  refine ⟨by ring, by ring, by ring, by ring⟩

theorem stokes_S4_bound (ε : ℝ) (h0 : 0 < ε) (h6 : ε ≤ 1 / 1000000) (A : ℕ → ℝ)
    (hA : ∀ n, A n = ε ^ n * (1 / (1 + ε) / (1 + ε) ^ n)) :
    |1 / 6 * (A 0 + A 1 + A 2 + A 3 + A 4
        - 1 * (-(1 / (1 + ε)) * (A 0 + 2 * A 1 + 3 * A 2 + 4 * A 3 + 5 * A 4))) - 1 / 3|
      ≤ 3 * ε := by
  have hr : (1 : ℝ) ≤ 1 + ε := by linarith
  have hr0 : (0 : ℝ) < 1 + ε := by linarith
  have hu1 : 1 / (1 + ε) ≤ 1 := by
    rw [div_le_one hr0]
    exact hr
  have hu0 : 0 < 1 / (1 + ε) := by positivity
  have hu2 : 1 - ε ≤ 1 / (1 + ε) := by
    rw [le_div_iff₀ hr0]
    nlinarith
  have hA0 : A 0 = 1 / (1 + ε) := by
    rw [hA 0]
    simp
  have hn0 : ∀ n, 0 ≤ A n := by
    intro n
    rw [hA n]
    positivity
  have hle : ∀ n, 1 ≤ n → A n ≤ ε := by
    intro n hn
    rw [hA n]
    have e1 : ε ^ n ≤ ε := by
      have := pow_le_pow_of_le_one h0.le (by linarith : ε ≤ 1) hn
      simpa using this
    have e2 : 1 / (1 + ε) / (1 + ε) ^ n ≤ 1 := by
      rw [div_le_one (by positivity)]
      exact hu1.trans (one_le_pow₀ hr)
    calc ε ^ n * (1 / (1 + ε) / (1 + ε) ^ n) ≤ ε * 1 :=
          mul_le_mul e1 e2 (by positivity) h0.le
      _ = ε := mul_one ε
  have a1 := hle 1 (by norm_num)
  have a2 := hle 2 (by norm_num)
  have a3 := hle 3 (by norm_num)
  have a4 := hle 4 (by norm_num)
  have b1 := hn0 1
  have b2 := hn0 2
  have b3 := hn0 3
  have b4 := hn0 4
  rw [hA0]
  generalize 1 / (1 + ε) = u at hu0 hu1 hu2
  generalize A 1 = x1 at a1 b1
  generalize A 2 = x2 at a2 b2
  generalize A 3 = x3 at a3 b3
  generalize A 4 = x4 at a4 b4
  have hX0 : 0 ≤ 2 * x1 + 3 * x2 + 4 * x3 + 5 * x4 := by linarith
  have k1 : 0 ≤ u * (2 * x1 + 3 * x2 + 4 * x3 + 5 * x4) := mul_nonneg hu0.le hX0
  have k2 : u * (2 * x1 + 3 * x2 + 4 * x3 + 5 * x4) ≤ 2 * x1 + 3 * x2 + 4 * x3 + 5 * x4 :=
    mul_le_of_le_one_left hX0 hu1
  have k3 : u * u ≤ 1 := by nlinarith
  have k4 : 1 - 2 * ε ≤ u * u := by nlinarith
  have e : 1 / 6 * (u + x1 + x2 + x3 + x4
        - 1 * (-u * (u + 2 * x1 + 3 * x2 + 4 * x3 + 5 * x4))) - 1 / 3 =
      1 / 6 * (u + u * u + (x1 + x2 + x3 + x4)
        + u * (2 * x1 + 3 * x2 + 4 * x3 + 5 * x4)) - 1 / 3 := by ring
  rw [e, abs_le]
  constructor <;> linarith

theorem stokes_S4_direct :
    P2P Real.sqrt [(⟨0, 0, 0⟩, ⟨1, 0, 0⟩)] [(⟨1, 0, 0⟩, ⟨0, 0, 0⟩)] = [⟨2, 0, 0⟩] := by
  unfold P2P
  simp only [List.map_cons, List.map_nil, List.foldl_cons, List.foldl_nil]
  rw [stokes_pair_eq]
  unfold stokeslet
  have hn : SphericalLaplaceKernel.norm ((⟨1, 0, 0⟩ : vect ℝ).sub ⟨0, 0, 0⟩) = 1 := by
    simp [SphericalLaplaceKernel.norm, vect.sub]
  rw [hn, if_neg (by norm_num)]
  simp [vect.add, vect.sub]
  norm_num

theorem stokes_S4_velocity (F : cmath ℝ ℂ) (hF : F.exact) (EPS : ℝ) (hE : 0 < EPS)
    (hE6 : EPS ≤ 1 / 1000000) (raw T : tables ℝ ℂ)
    (h : preCalculation F EPS 5 raw = some T) :
    (M2P F EPS T.prefactor 5
        (P2M F EPS T.prefactor 5 ⟨0, 0, 0⟩ ⟨1, 0, 0⟩ ⟨0, 0, 0⟩ (fun _ _ => 0))
        ⟨0, 0, 0⟩ ⟨1, 0, 0⟩ ⟨0, 0, 0⟩).y = 0 ∧
    (M2P F EPS T.prefactor 5
        (P2M F EPS T.prefactor 5 ⟨0, 0, 0⟩ ⟨1, 0, 0⟩ ⟨0, 0, 0⟩ (fun _ _ => 0))
        ⟨0, 0, 0⟩ ⟨1, 0, 0⟩ ⟨0, 0, 0⟩).z = 0 ∧
    |(M2P F EPS T.prefactor 5
        (P2M F EPS T.prefactor 5 ⟨0, 0, 0⟩ ⟨1, 0, 0⟩ ⟨0, 0, 0⟩ (fun _ _ => 0))
        ⟨0, 0, 0⟩ ⟨1, 0, 0⟩ ⟨0, 0, 0⟩).x - 1 / 3| ≤ 3 * EPS := by
  have hz : ∀ i, 1 ≤ i → i < 4 →
      M2P_increment F EPS T.prefactor 5
        (P2M F EPS T.prefactor 5 ⟨0, 0, 0⟩ ⟨1, 0, 0⟩ ⟨0, 0, 0⟩ (fun _ _ => 0) i) ⟨0, 0, 0⟩
        ⟨⟨1, 0, 0⟩, 0, ⟨0, 0, 0, 0⟩⟩ = ⟨0, 0, 0, 0⟩ := by
    intro i h1 h4
    apply M2P_increment_zero F hF
    intro n m hm hn
    exact (stokes_S4_multipole F hF EPS hE 5 raw T h n m hm hn).2 i h1 h4
  have h0 := stokes_S4_laplace F hF EPS hE hE6 raw T h 0 ⟨0, 0, 0, 0⟩
    (fun n => EPS ^ n * (1 / (1 + EPS) / (1 + EPS) ^ n)) (fun _ => rfl)
  have hb := stokes_S4_bound EPS hE hE6
    (fun n => EPS ^ n * (1 / (1 + EPS) / (1 + EPS) ^ n)) (fun _ => rfl)
  rw [stokes_M2P_eq F EPS T.prefactor 5 _ ⟨0, 0, 0⟩ ⟨1, 0, 0⟩ ⟨0, 0, 0⟩ 0 ⟨0, 0, 0, 0⟩]
  rw [hz 1 (by norm_num) (by norm_num), hz 2 (by norm_num) (by norm_num),
    hz 3 (by norm_num) (by norm_num), h0]
  refine ⟨by simp, by simp, ?_⟩
  simp only [zero_add, add_zero, mul_zero, zero_mul] at hb ⊢
  exact hb

/-- C26: on the configuration S4 with the expansion centred on the source, the charge
`(1,0,0)`, the source and the center `(0,0,0)`, the target `(1,0,0)`, `P = 5` and
`0 < EPS ≤ 1e-6`, the tables are built and `P2M` followed by `M2P`, from zero arrays and
a zero result, gives a velocity whose components `y` and `z` are zero and whose
component `x` is within `3 EPS` of `1/3`, in exact arithmetic, while `P2P` gives
`(2,0,0)`: the relative error `|x - 2| / 2` exceeds `1e-3`, it is above `0.83`. -/
theorem P2M_M2P_sixth_of_P2P (F : cmath ℝ ℂ) (hF : F.exact) (EPS : ℝ) (hE : 0 < EPS)
    (hE6 : EPS ≤ 1 / 1000000) (raw : tables ℝ ℂ) :
    ∃ T, preCalculation F EPS 5 raw = some T ∧
      ∃ v, M2P F EPS T.prefactor 5
          (P2M F EPS T.prefactor 5 ⟨0, 0, 0⟩ ⟨1, 0, 0⟩ ⟨0, 0, 0⟩ (fun _ _ => 0))
          ⟨0, 0, 0⟩ ⟨1, 0, 0⟩ ⟨0, 0, 0⟩ = v ∧
        v.y = 0 ∧ v.z = 0 ∧ |v.x - 1 / 3| ≤ 3 * EPS ∧
        83 / 100 < |v.x - 2| / |(2 : ℝ)| ∧ ¬ (|v.x - 2| / |(2 : ℝ)| ≤ 1 / 1000) ∧
        P2P Real.sqrt [(⟨0, 0, 0⟩, ⟨1, 0, 0⟩)] [(⟨1, 0, 0⟩, ⟨0, 0, 0⟩)] = [⟨2, 0, 0⟩] := by
  obtain ⟨T, hT⟩ := preCalculation_some F EPS 5 (by norm_num) raw
  obtain ⟨hy, hz, hx⟩ := stokes_S4_velocity F hF EPS hE hE6 raw T hT
  refine ⟨T, hT, _, rfl, hy, hz, hx, ?_, ?_, stokes_S4_direct⟩
  · rw [abs_le] at hx
    rw [abs_of_pos (by norm_num : (0 : ℝ) < 2), lt_div_iff₀ (by norm_num), abs_of_neg
      (by linarith)]
    linarith
  · rw [abs_le] at hx
    rw [abs_of_pos (by norm_num : (0 : ℝ) < 2), not_le, lt_div_iff₀ (by norm_num), abs_of_neg
      (by linarith)]
    linarith

/-- An instance: `EPS = 1e-6`. -/
theorem P2M_M2P_sixth_of_P2P_witness :
    cmath.exact (⟨Real.sqrt, Real.cos, Real.sin, Real.arccos, Real.arctan, Real.pi,
        Complex.ofReal, starRingEnd ℂ, Complex.re, Complex.exp,
        fun (z : ℂ) (t : ℝ) => z ^ (t : ℂ), Complex.I⟩ : cmath ℝ ℂ) ∧
      (0 : ℝ) < 1 / 1000000 ∧ (1 : ℝ) / 1000000 ≤ 1 / 1000000 ∧
      ∃ T, preCalculation (⟨Real.sqrt, Real.cos, Real.sin, Real.arccos, Real.arctan, Real.pi,
          Complex.ofReal, starRingEnd ℂ, Complex.re, Complex.exp,
          fun (z : ℂ) (t : ℝ) => z ^ (t : ℂ), Complex.I⟩ : cmath ℝ ℂ)
        (1 / 1000000) 5 ⟨fun _ => 0, fun _ => 0, fun _ => 0, fun _ => 0⟩ = some T ∧
      ∃ v, M2P (⟨Real.sqrt, Real.cos, Real.sin, Real.arccos, Real.arctan, Real.pi,
          Complex.ofReal, starRingEnd ℂ, Complex.re, Complex.exp,
          fun (z : ℂ) (t : ℝ) => z ^ (t : ℂ), Complex.I⟩ : cmath ℝ ℂ) (1 / 1000000)
          T.prefactor 5
          (P2M (⟨Real.sqrt, Real.cos, Real.sin, Real.arccos, Real.arctan, Real.pi,
            Complex.ofReal, starRingEnd ℂ, Complex.re, Complex.exp,
            fun (z : ℂ) (t : ℝ) => z ^ (t : ℂ), Complex.I⟩ : cmath ℝ ℂ) (1 / 1000000)
            T.prefactor 5 ⟨0, 0, 0⟩ ⟨1, 0, 0⟩ ⟨0, 0, 0⟩ (fun _ _ => 0))
          ⟨0, 0, 0⟩ ⟨1, 0, 0⟩ ⟨0, 0, 0⟩ = v ∧
        v.y = 0 ∧ v.z = 0 ∧ |v.x - 1 / 3| ≤ 3 * (1 / 1000000) ∧
        83 / 100 < |v.x - 2| / |(2 : ℝ)| ∧ ¬ (|v.x - 2| / |(2 : ℝ)| ≤ 1 / 1000) ∧
        P2P Real.sqrt [(⟨0, 0, 0⟩, ⟨1, 0, 0⟩)] [(⟨1, 0, 0⟩, ⟨0, 0, 0⟩)] = [⟨2, 0, 0⟩] :=
  ⟨⟨rfl, rfl, rfl, rfl, rfl, rfl, rfl, rfl, rfl, rfl, rfl, rfl⟩, by norm_num, le_refl _,
    P2M_M2P_sixth_of_P2P
      (⟨Real.sqrt, Real.cos, Real.sin, Real.arccos, Real.arctan, Real.pi,
        Complex.ofReal, starRingEnd ℂ, Complex.re, Complex.exp,
        fun (z : ℂ) (t : ℝ) => z ^ (t : ℂ), Complex.I⟩ : cmath ℝ ℂ)
      ⟨rfl, rfl, rfl, rfl, rfl, rfl, rfl, rfl, rfl, rfl, rfl, rfl⟩ (1 / 1000000)
      (by norm_num) (le_refl _) ⟨fun _ => 0, fun _ => 0, fun _ => 0, fun _ => 0⟩⟩

end StokesSpherical

namespace SphericalLaplaceKernel

/-! ## The single-level test through `M2L` and `L2P` -/

theorem legendre_cast (m : ℕ) : ∀ k : ℕ,
    ((legendre (0 : ℚ) 1 m k : ℚ) : ℝ) = legendre (0 : ℝ) 1 m k := by
  intro k
  induction k using Nat.twoStepInduction with
  | zero => simp [legendre]
  | one => simp [legendre]
  | more k ih1 ih2 =>
    rw [legendre, legendre]
    push_cast
    rw [ih1, ih2]

theorem coupling_Q_cast (j n : ℕ) :
    ((coupling_Q (K := ℚ) j n : ℚ) : ℝ) = coupling_Q (K := ℝ) j n := by
  unfold coupling_Q coupling_q coupling_A coupling_B coupling_sign
  push_cast
  simp only [legendre_cast]
  congr 1
  · apply Finset.sum_congr rfl
    intro m _
    split_ifs <;> simp
  · apply Finset.sum_congr rfl
    intro k _
    congr 1
    apply Finset.sum_congr rfl
    intro m _
    split_ifs <;> simp

set_option maxRecDepth 100000 in
theorem coupling_Q_rat : ∀ j < 5, ∀ n < 5,
    coupling_Q (K := ℚ) j n = (-1) ^ (j + n) * ((j + n).choose j : ℚ) := by
  decide!

theorem coupling_Q_eq (j n : ℕ) (hj : j < 5) (hn : n < 5) :
    coupling_Q (K := ℝ) j n = (-1) ^ (j + n) * ((j + n).choose j : ℝ) := by
  rw [← coupling_Q_cast, coupling_Q_rat j hj n hn]
  push_cast
  rfl

theorem L2P_n_TRG0 (F : cmath ℝ ℂ) (L Y T : ℕ → ℂ) (r : ℝ) (n : ℕ) (s t : M2P_acc ℝ)
    (h : s.TRG0 = t.TRG0) :
    (L2P_n F L Y T r n s).TRG0 = (M2P_n F L Y T r n t).TRG0 := by
  unfold L2P_n M2P_n
  apply for_range_rel (fun (s t : M2P_acc ℝ) => s.TRG0 = t.TRG0)
  · intro i s t _ _ hst
    show s.TRG0 + _ = t.TRG0 + _
    rw [hst]
  · show s.TRG0 + _ = t.TRG0 + _
    rw [h]

theorem L2P_loop_TRG0 (F : cmath ℝ ℂ) (L Y T : ℕ → ℂ) (r : ℝ) (P : ℕ) (a : M2P_acc ℝ) :
    (for_range 0 P (L2P_n F L Y T r) a).TRG0 = a.TRG0 + M2P_potential F L Y P := by
  have h := for_range_rel (fun (s t : M2P_acc ℝ) => s.TRG0 = t.TRG0) 0 P
    (L2P_n F L Y T r) (M2P_n F L Y T r)
    (fun i s t _ _ hst => L2P_n_TRG0 F L Y T r i s t hst) a ⟨a.TRG0, ⟨0, 0, 0⟩⟩ rfl
  have h' : (for_range 0 P (L2P_n F L Y T r) a).TRG0 =
      (for_range 0 P (M2P_n F L Y T r) ⟨a.TRG0, ⟨0, 0, 0⟩⟩).TRG0 := h
  rw [h', M2P_loop_n]

theorem L2P_single_potential (F : cmath ℝ ℂ) (EPS : ℝ) (pref : ℕ → ℝ) (P : ℕ)
    (Ci : Cell ℝ ℂ) (B : Body ℝ) :
    ∃ B', L2P F EPS pref P Ci [B] = [B'] ∧
      B'.TRG.v0 = B.TRG.v0 + M2P_potential F Ci.L
        (evalMultipole F pref P (cart2sph F EPS (B.X.sub Ci.X)).1
          (cart2sph F EPS (B.X.sub Ci.X)).2.1 (cart2sph F EPS (B.X.sub Ci.X)).2.2
          (fun _ => 0) (fun _ => 0)).1 P := by
  refine ⟨_, rfl, ?_⟩
  show (for_range 0 P (L2P_n F Ci.L _ _ _) ⟨B.TRG.v0, ⟨0, 0, 0⟩⟩).TRG0 = _
  rw [L2P_loop_TRG0]

theorem evalLocal_equator_int (F : cmath ℝ ℂ) (hF : F.exact) (EPS : ℝ) (P : ℕ)
    (raw T : tables ℝ ℂ) (h : preCalculation F EPS P raw = some T) (ρ β : ℝ)
    (n : ℕ) (m : ℤ) (hm : |m| ≤ n) (hn : n < 2 * P) :
    (evalLocal F T.prefactor P ρ (Real.pi / 2) β (fun _ => 0) (fun _ => 0)).1
        (nm_index n m) =
      ((1 / ρ / ρ ^ n * equator_harmonic Real.sqrt n m : ℝ) : ℂ)
        * Complex.exp (Complex.I * (m : ℂ) * (β : ℂ)) := by
  have hna : m.natAbs ≤ n := by
    rw [Int.abs_eq_natAbs] at hm
    exact_mod_cast hm
  have hs := evalLocal_stored F hF T.prefactor P ρ (Real.pi / 2) β (fun _ => 0) (fun _ => 0)
    m.natAbs n hna hn
  have e := stored_entry F hF T.prefactor (fun k => 1 / ρ / ρ ^ k) (F.cos (Real.pi / 2))
    (F.sin (Real.pi / 2)) β _ _ n m hm hs
  rw [hF.2.1, hF.2.2.1, Real.cos_pi_div_two, Real.sin_pi_div_two,
    preCalculation_prefactor F hF EPS P raw T h n m.natAbs hna hn] at e
  unfold nm_index
  rw [e]
  unfold equator_harmonic
  rw [mul_assoc]

theorem exp_neg_pi (k : ℕ) :
    Complex.exp (Complex.I * (k : ℂ) * ((-Real.pi : ℝ) : ℂ)) = (-1) ^ k := by
  have e : Complex.I * (k : ℂ) * ((-Real.pi : ℝ) : ℂ) = (k : ℂ) * (-(Real.pi * Complex.I)) := by
    push_cast
    ring
  rw [e, Complex.exp_nat_mul, Complex.exp_neg, Complex.exp_pi_mul_I]
  norm_num

theorem coupling_sign_I (k : ℕ) (m : ℤ) :
    Complex.I ^ (|(k : ℤ) - m| - |(k : ℤ)| - |m|) = ((coupling_sign k m : ℝ) : ℂ) := by
  unfold coupling_sign
  rcases lt_or_le m 0 with h | h
  · rw [if_pos h]
    have e : |(k : ℤ) - m| - |(k : ℤ)| - |m| = 0 := by
      rw [abs_of_nonneg (by omega : (0 : ℤ) ≤ (k : ℤ) - m), abs_of_nonneg (by omega : (0 : ℤ) ≤ k),
        abs_of_neg h]
      ring
    rw [e]
    simp
  · rw [if_neg (by omega)]
    obtain ⟨t, rfl⟩ := Int.eq_ofNat_of_zero_le h
    have e : |(k : ℤ) - (t : ℤ)| - |(k : ℤ)| - |(t : ℤ)| = -((2 * min k t : ℕ) : ℤ) := by
      rw [abs_of_nonneg (by omega : (0 : ℤ) ≤ k), abs_of_nonneg (by omega : (0 : ℤ) ≤ (t : ℤ))]
      rcases le_total k t with hkt | hkt
      · rw [min_eq_left hkt, abs_of_nonpos (by omega)]
        push_cast
        ring
      · rw [min_eq_right hkt, abs_of_nonneg (by omega)]
        push_cast
        ring
    rw [e, zpow_neg, zpow_natCast, pow_mul, Complex.I_sq, Int.toNat_natCast]
    push_cast
    rw [← inv_pow]
    norm_num

theorem sqrt_quotients (l p sx sy x y : ℝ) (hsx : sx ≠ 0) (hsy : sy ≠ 0)
    (hx : sx * sx = x) (hy : sy * sy = y) (hp : p * p = 1) :
    l * (sx / sy) * (p / (sx * sy)) = p * l / y ∧
    l * (sx / sy) / (p / (sx * sy)) = p * l * x := by
  subst hx hy
  have hp0 : p ≠ 0 := by
    intro h
    rw [h] at hp
    norm_num at hp
  constructor
  · field_simp
    ring
  · field_simp
    linear_combination (-(l * sx * sx * sy)) * hp

theorem equator_mul_a (n : ℕ) (m : ℤ) (hm : |m| ≤ n) :
    equator_harmonic Real.sqrt n m * a_nm Real.sqrt n m = coupling_A n m.natAbs ∧
    equator_harmonic Real.sqrt n m / a_nm Real.sqrt n m = coupling_B n m.natAbs := by
  have hna : m.natAbs ≤ n := by
    rw [Int.abs_eq_natAbs] at hm
    exact_mod_cast hm
  have hx : (0 : ℝ) < (((n - m.natAbs).factorial : ℕ) : ℝ) := by
    exact_mod_cast Nat.factorial_pos _
  have hy : (0 : ℝ) < (((n + m.natAbs).factorial : ℕ) : ℝ) := by
    exact_mod_cast Nat.factorial_pos _
  have hprod : ((((n : ℤ) - m).toNat.factorial : ℕ) : ℝ) * ((((n : ℤ) + m).toNat.factorial : ℕ) : ℝ)
      = (((n - m.natAbs).factorial : ℕ) : ℝ) * (((n + m.natAbs).factorial : ℕ) : ℝ) := by
    rcases le_or_lt 0 m with h0 | h0
    · have e1 : ((n : ℤ) - m).toNat = n - m.natAbs := by omega
      have e2 : ((n : ℤ) + m).toNat = n + m.natAbs := by omega
      rw [e1, e2]
    · have e1 : ((n : ℤ) - m).toNat = n + m.natAbs := by omega
      have e2 : ((n : ℤ) + m).toNat = n - m.natAbs := by omega
      rw [e1, e2, mul_comm]
  unfold equator_harmonic a_nm coupling_A coupling_B
  rw [hprod, Real.sqrt_div hx.le, Real.sqrt_mul hx.le]
  exact sqrt_quotients _ _ _ _ _ _ (Real.sqrt_pos.mpr hx).ne' (Real.sqrt_pos.mpr hy).ne'
    (Real.mul_self_sqrt hx.le) (Real.mul_self_sqrt hy.le)
    (by rw [← mul_pow]; norm_num)

theorem M2L_entry_sum {K C : Type} [LinearOrderedField K] [Field C]
    (F : cmath K C) (EPS : K) (Xperiodic : vect K) (P : ℕ) (raw T : tables K C)
    (hT : preCalculation F EPS P raw = some T)
    (Ci Cj : Cell K C) (j k : ℕ) (hk : k ≤ j) (hj : j < P) :
    (M2L F EPS Xperiodic T P Ci Cj).L (j * (j + 1) / 2 + k) =
      Ci.L (j * (j + 1) / 2 + k) +
        ∑ n ∈ Finset.range P, ∑ m ∈ Finset.Icc (-(n : ℤ)) n,
          M_two_sided F Cj.M n m * Cnm_entry F EPS T.Anm j k n m
            * (evalLocal F T.prefactor P
                (cart2sph F EPS ((Ci.X.sub Cj.X).sub Xperiodic)).1
                (cart2sph F EPS ((Ci.X.sub Cj.X).sub Xperiodic)).2.1
                (cart2sph F EPS ((Ci.X.sub Cj.X).sub Xperiodic)).2.2
                (fun _ => 0) (fun _ => 0)).1 (nm_index (j + n) (m - k)) := by
  have hkj : |(k : ℤ)| ≤ (j : ℤ) := by rw [abs_of_nonneg (by omega)]; exact_mod_cast hk
  have hC : ∀ (n : ℕ) (m : ℤ), |m| ≤ n → n < P →
      T.Cnm (nm_index j k * (P * P) + nm_index n m) = Cnm_entry F EPS T.Anm j k n m :=
    fun n m hm hn => preCalculation_Cnm F EPS P raw T hT j k n m hkj hj hm hn
  have h := (triangle_loops P (fun j k => M2L_jk F T.Cnm P Cj.M
    (evalLocal F T.prefactor P
      (cart2sph F EPS ((Ci.X.sub Cj.X).sub Xperiodic)).1
      (cart2sph F EPS ((Ci.X.sub Cj.X).sub Xperiodic)).2.1
      (cart2sph F EPS ((Ci.X.sub Cj.X).sub Xperiodic)).2.2
      (fun _ => 0) (fun _ => 0)).1 j k) Ci.L).1 j k hk hj
  refine h.trans ?_
  congr 1
  rw [M2L_jk_sum]
  apply Finset.sum_congr rfl
  intro n hn
  rw [Finset.mem_range] at hn
  apply Finset.sum_congr rfl
  intro m hm
  rw [Finset.mem_Icc] at hm
  rw [hC n m (abs_le.mpr hm) hn]

theorem single_level_two_sided (F : cmath ℝ ℂ) (hF : F.exact) (EPS : ℝ) (hE : 0 < EPS)
    (hE6 : EPS ≤ 1 / 1000000) (P : ℕ) (raw T : tables ℝ ℂ)
    (h : preCalculation F EPS P raw = some T) (R RMAX RCRIT : ℝ) (L : ℕ → ℂ) (trg : vec4 ℝ)
    (n : ℕ) (m : ℤ) (hm : |m| ≤ n) (hn : n < P) :
    M_two_sided F (P2M F EPS T.prefactor P ⟨⟨1 / 8, 0, 0⟩, R, RMAX, RCRIT, fun _ => 0, L⟩
        [⟨⟨0, 0, 0⟩, 1, trg⟩]).M n m =
      (((1 / 8 + EPS) ^ n * equator_harmonic Real.sqrt n m * (-1) ^ m.natAbs : ℝ) : ℂ) := by
  have hna : m.natAbs ≤ n := by
    rw [Int.abs_eq_natAbs] at hm
    exact_mod_cast hm
  have hidx : ∀ t : ℕ, ((n : ℤ) * ((n : ℤ) + 1) / 2 + (t : ℤ)).toNat = n * (n + 1) / 2 + t := by
    intro t
    have : ((n : ℤ) * ((n : ℤ) + 1) / 2 + (t : ℤ)) = ((n * (n + 1) / 2 + t : ℕ) : ℤ) := by
      push_cast
      rfl
    rw [this, Int.toNat_natCast]
  have hval := single_level_multipole F hF EPS hE hE6 P raw T h R RMAX RCRIT L trg n
    m.natAbs hna hn
  rw [exp_neg_pi] at hval
  have heq : equator_harmonic Real.sqrt n ((m.natAbs : ℕ) : ℤ) = equator_harmonic Real.sqrt n m := by
    unfold equator_harmonic
    rw [Int.natAbs_ofNat]
  rw [heq] at hval
  unfold M_two_sided
  rcases lt_or_le m 0 with h0 | h0
  · rw [if_pos h0]
    have e : ((n : ℤ) * ((n : ℤ) + 1) / 2 - m) = (n : ℤ) * ((n : ℤ) + 1) / 2 + (m.natAbs : ℤ) := by
      omega
    rw [e, hidx, hval, hF.2.2.2.2.2.2.2.1]
    rw [map_mul, Complex.conj_ofReal, map_pow, map_neg, map_one]
    push_cast
    ring
  · rw [if_neg (by omega)]
    have e : ((n : ℤ) * ((n : ℤ) + 1) / 2 + m) = (n : ℤ) * ((n : ℤ) + 1) / 2 + (m.natAbs : ℤ) := by
      omega
    rw [e, hidx, hval]
    push_cast
    ring

theorem single_level_term (F : cmath ℝ ℂ) (hF : F.exact) (EPS : ℝ) (hE : 0 < EPS)
    (hE6 : EPS ≤ 1 / 1000000) (raw T : tables ℝ ℂ)
    (h : preCalculation F EPS 5 raw = some T) (R RMAX RCRIT : ℝ) (L : ℕ → ℂ) (trg : vec4 ℝ)
    (j k n : ℕ) (m : ℤ) (hk : k ≤ j) (hj : j < 5) (hm : |m| ≤ n) (hn : n < 5) :
    M_two_sided F (P2M F EPS T.prefactor 5 ⟨⟨1 / 8, 0, 0⟩, R, RMAX, RCRIT, fun _ => 0, L⟩
        [⟨⟨0, 0, 0⟩, 1, trg⟩]).M n m * Cnm_entry F EPS T.Anm j k n m
      * (evalLocal F T.prefactor 5 (3 / 4 + EPS) (Real.pi / 2) 0 (fun _ => 0) (fun _ => 0)).1
          (nm_index (j + n) (m - k))
      * (evalMultipole F T.prefactor 5 (1 / 40 + EPS) (Real.pi / 2) 0 (fun _ => 0)
          (fun _ => 0)).1 (j * j + j + k) =
      (((1 / 40 + EPS) ^ j * (1 / 8 + EPS) ^ n * (1 / (3 / 4 + EPS) / (3 / 4 + EPS) ^ (j + n))
        * coupling_q j k n m : ℝ) : ℂ) := by
  have hkj : |(k : ℤ)| ≤ (j : ℤ) := by rw [abs_of_nonneg (by omega)]; exact_mod_cast hk
  have hmk : |m - (k : ℤ)| ≤ ((j + n : ℕ) : ℤ) := by
    have h2 := abs_le.mp hm
    rw [abs_le]
    push_cast
    omega
  rw [single_level_two_sided F hF EPS hE hE6 5 raw T h R RMAX RCRIT L trg n m hm hn,
    (Cnm_entry_exact F hF EPS hE 5 raw T h j k n m hkj hj hm hn).2, coupling_sign_I,
    evalLocal_equator_int F hF EPS 5 raw T h (3 / 4 + EPS) 0 (j + n) (m - k) hmk (by omega),
    evalMultipole_equator F hF EPS 5 raw T h (1 / 40 + EPS) 0 j k hk hj]
  have q1 := (equator_mul_a n m hm).1
  have q2 := (equator_mul_a j (k : ℤ) hkj).1
  have q3 := (equator_mul_a (j + n) (m - k) hmk).2
  rw [Int.natAbs_ofNat] at q2
  unfold coupling_q
  rw [← q1, ← q2, ← q3]
  simp only [Complex.ofReal_zero, mul_zero, Complex.exp_zero, mul_one]
  push_cast
  ring

theorem single_level_local_re (F : cmath ℝ ℂ) (hF : F.exact) (EPS : ℝ) (hE : 0 < EPS)
    (hE6 : EPS ≤ 1 / 1000000) (raw T : tables ℝ ℂ)
    (h : preCalculation F EPS 5 raw = some T) (R RMAX RCRIT : ℝ) (L : ℕ → ℂ) (trg : vec4 ℝ)
    (R' RMAX' RCRIT' : ℝ) (M' : ℕ → ℂ) (j k : ℕ) (hk : k ≤ j) (hj : j < 5) :
    F.real ((M2L F EPS ⟨0, 0, 0⟩ T 5 ⟨⟨7 / 8, 0, 0⟩, R', RMAX', RCRIT', M', fun _ => 0⟩
        (P2M F EPS T.prefactor 5 ⟨⟨1 / 8, 0, 0⟩, R, RMAX, RCRIT, fun _ => 0, L⟩
          [⟨⟨0, 0, 0⟩, 1, trg⟩])).L (j * (j + 1) / 2 + k)
      * (evalMultipole F T.prefactor 5 (1 / 40 + EPS) (Real.pi / 2) 0 (fun _ => 0)
          (fun _ => 0)).1 (j * j + j + k)) =
      ∑ n ∈ Finset.range 5, ∑ m ∈ Finset.Icc (-(n : ℤ)) n,
        (1 / 40 + EPS) ^ j * (1 / 8 + EPS) ^ n * (1 / (3 / 4 + EPS) / (3 / 4 + EPS) ^ (j + n))
          * coupling_q j k n m := by
  rw [M2L_entry_sum F EPS ⟨0, 0, 0⟩ 5 raw T h _ _ j k hk hj]
  have hd : ((⟨7 / 8, 0, 0⟩ : vect ℝ).sub (P2M F EPS T.prefactor 5
      ⟨⟨1 / 8, 0, 0⟩, R, RMAX, RCRIT, fun _ => 0, L⟩ [⟨⟨0, 0, 0⟩, 1, trg⟩]).X).sub ⟨0, 0, 0⟩ =
      ⟨3 / 4, 0, 0⟩ := by
    show ((⟨7 / 8, 0, 0⟩ : vect ℝ).sub ⟨1 / 8, 0, 0⟩).sub ⟨0, 0, 0⟩ = _
    simp only [vect.sub, vect.mk.injEq]
    norm_num
  simp only [hd]
  rw [cart2sph_pos_x F hF EPS (3 / 4) hE (by linarith)]
  simp only [zero_add]
  rw [Finset.sum_mul, hF.2.2.2.2.2.2.2.2.1, Complex.re_sum]
  apply Finset.sum_congr rfl
  intro n hn
  rw [Finset.mem_range] at hn
  rw [Finset.sum_mul, Complex.re_sum]
  apply Finset.sum_congr rfl
  intro m hm
  rw [Finset.mem_Icc] at hm
  rw [single_level_term F hF EPS hE hE6 raw T h R RMAX RCRIT L trg j k n m hk hj
    (abs_le.mpr hm) hn, Complex.ofReal_re]

theorem weighted_sum_comm (c : ℕ → ℝ) (q : ℕ → ℕ → ℤ → ℝ) (j : ℕ) :
    ∑ n ∈ Finset.range 5, ∑ m ∈ Finset.Icc (-(n : ℤ)) n, c n * q 0 n m
      + ∑ k ∈ Finset.Icc 1 j, 2 * ∑ n ∈ Finset.range 5, ∑ m ∈ Finset.Icc (-(n : ℤ)) n,
          c n * q k n m =
    ∑ n ∈ Finset.range 5, c n * (∑ m ∈ Finset.Icc (-(n : ℤ)) n, q 0 n m
      + ∑ k ∈ Finset.Icc 1 j, 2 * ∑ m ∈ Finset.Icc (-(n : ℤ)) n, q k n m) := by
  have e : ∀ n, c n * (∑ m ∈ Finset.Icc (-(n : ℤ)) n, q 0 n m
      + ∑ k ∈ Finset.Icc 1 j, 2 * ∑ m ∈ Finset.Icc (-(n : ℤ)) n, q k n m) =
      ∑ m ∈ Finset.Icc (-(n : ℤ)) n, c n * q 0 n m
        + ∑ k ∈ Finset.Icc 1 j, 2 * ∑ m ∈ Finset.Icc (-(n : ℤ)) n, c n * q k n m := by
    intro n
    rw [mul_add, Finset.mul_sum, Finset.mul_sum]
    congr 1
    apply Finset.sum_congr rfl
    intro k _
    rw [Finset.mul_sum, Finset.mul_sum, Finset.mul_sum]
    apply Finset.sum_congr rfl
    intro m _
    ring
  simp only [e]
  rw [Finset.sum_add_distrib]
  congr 1
  rw [Finset.sum_comm]
  apply Finset.sum_congr rfl
  intro k _
  rw [Finset.mul_sum]

theorem single_level_L2P_phi (F : cmath ℝ ℂ) (hF : F.exact) (EPS : ℝ) (hE : 0 < EPS)
    (hE6 : EPS ≤ 1 / 1000000) (raw T : tables ℝ ℂ)
    (h : preCalculation F EPS 5 raw = some T) (R RMAX RCRIT : ℝ) (L : ℕ → ℂ) (trg : vec4 ℝ)
    (R' RMAX' RCRIT' : ℝ) (M' : ℕ → ℂ) :
    M2P_potential F (M2L F EPS ⟨0, 0, 0⟩ T 5 ⟨⟨7 / 8, 0, 0⟩, R', RMAX', RCRIT', M', fun _ => 0⟩
        (P2M F EPS T.prefactor 5 ⟨⟨1 / 8, 0, 0⟩, R, RMAX, RCRIT, fun _ => 0, L⟩
          [⟨⟨0, 0, 0⟩, 1, trg⟩])).L
      (evalMultipole F T.prefactor 5 (1 / 40 + EPS) (Real.pi / 2) 0 (fun _ => 0)
          (fun _ => 0)).1 5 =
      ∑ j ∈ Finset.range 5, ∑ n ∈ Finset.range 5,
        (1 / 40 + EPS) ^ j * (1 / 8 + EPS) ^ n * (1 / (3 / 4 + EPS) / (3 / 4 + EPS) ^ (j + n))
          * ((-1) ^ (j + n) * ((j + n).choose j : ℝ)) := by
  unfold M2P_potential
  apply Finset.sum_congr rfl
  intro j hj
  rw [Finset.mem_range] at hj
  have h0 := single_level_local_re F hF EPS hE hE6 raw T h R RMAX RCRIT L trg R' RMAX' RCRIT'
    M' j 0 (Nat.zero_le _) hj
  rw [add_zero, add_zero] at h0
  rw [h0]
  have hk : ∀ k ∈ Finset.Icc 1 j, 2 * F.real ((M2L F EPS ⟨0, 0, 0⟩ T 5
        ⟨⟨7 / 8, 0, 0⟩, R', RMAX', RCRIT', M', fun _ => 0⟩
        (P2M F EPS T.prefactor 5 ⟨⟨1 / 8, 0, 0⟩, R, RMAX, RCRIT, fun _ => 0, L⟩
          [⟨⟨0, 0, 0⟩, 1, trg⟩])).L (j * (j + 1) / 2 + k)
      * (evalMultipole F T.prefactor 5 (1 / 40 + EPS) (Real.pi / 2) 0 (fun _ => 0)
          (fun _ => 0)).1 (j * j + j + k)) =
      2 * ∑ n ∈ Finset.range 5, ∑ m ∈ Finset.Icc (-(n : ℤ)) n,
        (1 / 40 + EPS) ^ j * (1 / 8 + EPS) ^ n * (1 / (3 / 4 + EPS) / (3 / 4 + EPS) ^ (j + n))
          * coupling_q j k n m := by
    intro k hk
    rw [Finset.mem_Icc] at hk
    rw [single_level_local_re F hF EPS hE hE6 raw T h R RMAX RCRIT L trg R' RMAX' RCRIT'
      M' j k hk.2 hj]
  rw [Finset.sum_congr rfl hk]
  rw [weighted_sum_comm (fun n => (1 / 40 + EPS) ^ j * (1 / 8 + EPS) ^ n
    * (1 / (3 / 4 + EPS) / (3 / 4 + EPS) ^ (j + n))) (fun k n m => coupling_q j k n m) j]
  apply Finset.sum_congr rfl
  intro n hn
  rw [Finset.mem_range] at hn
  have hQ := coupling_Q_eq j n hj hn
  unfold coupling_Q at hQ
  rw [hQ]

theorem double_series_bound (t s r : ℝ) (ht1 : 1 / 40 ≤ t) (ht2 : t ≤ 25001 / 1000000)
    (hs1 : 1 / 8 ≤ s) (hs2 : s ≤ 125001 / 1000000) (hr1 : 3 / 4 ≤ r)
    (hr2 : r ≤ 750001 / 1000000) :
    |∑ j ∈ Finset.range 5, ∑ n ∈ Finset.range 5,
        t ^ j * s ^ n * (1 / r / r ^ (j + n)) * ((-1) ^ (j + n) * ((j + n).choose j : ℝ))
      - 1 / (9 / 10)| / |(1 : ℝ) / (9 / 10)| ≤ 1 / 1000 := by
  have hr0 : 0 < r := by linarith
  have hu1 : 133333 / 100000 ≤ 1 / r := by
    rw [le_div_iff₀ hr0]
    linarith
  have hu2 : 1 / r ≤ 4 / 3 := by
    rw [div_le_iff₀ hr0]
    linarith
  have hpow : ∀ N : ℕ, 1 / r / r ^ N = (1 / r) ^ (N + 1) := by
    intro N
    rw [one_div_pow, pow_succ, div_div, mul_comm]
  simp only [hpow]
  generalize 1 / r = u at hu1 hu2
  have ht0 : (0 : ℝ) ≤ t := by linarith
  have hs0 : (0 : ℝ) ≤ s := by linarith
  have hu0 : (0 : ℝ) ≤ u := by linarith
  have mlo : ∀ j n k : ℕ,
      ((1 : ℝ) / 40) ^ j * (1 / 8) ^ n * (133333 / 100000) ^ k ≤ t ^ j * s ^ n * u ^ k := by
    intro j n k
    have h1 : ((1 : ℝ) / 40) ^ j ≤ t ^ j := pow_le_pow_left₀ (by norm_num) ht1 j
    have h2 : ((1 : ℝ) / 8) ^ n ≤ s ^ n := pow_le_pow_left₀ (by norm_num) hs1 n
    have h3 : ((133333 : ℝ) / 100000) ^ k ≤ u ^ k := pow_le_pow_left₀ (by norm_num) hu1 k
    exact mul_le_mul (mul_le_mul h1 h2 (by positivity) (by positivity)) h3 (by positivity)
      (by positivity)
  have mhi : ∀ j n k : ℕ,
      t ^ j * s ^ n * u ^ k ≤ ((25001 : ℝ) / 1000000) ^ j * (125001 / 1000000) ^ n
        * (4 / 3) ^ k := by
    intro j n k
    have h1 : t ^ j ≤ ((25001 : ℝ) / 1000000) ^ j := pow_le_pow_left₀ ht0 ht2 j
    have h2 : s ^ n ≤ ((125001 : ℝ) / 1000000) ^ n := pow_le_pow_left₀ hs0 hs2 n
    have h3 : u ^ k ≤ ((4 : ℝ) / 3) ^ k := pow_le_pow_left₀ hu0 hu2 k
    exact mul_le_mul (mul_le_mul h1 h2 (by positivity) (by positivity)) h3 (by positivity)
      (by positivity)
  have hsum : ∑ j ∈ Finset.range 5, ∑ n ∈ Finset.range 5,
        t ^ j * s ^ n * u ^ (j + n + 1) * ((-1) ^ (j + n) * ((j + n).choose j : ℝ)) =
      (1 * t ^ 0 * s ^ 0 * u ^ 1 + 1 * t ^ 0 * s ^ 2 * u ^ 3
      + 1 * t ^ 0 * s ^ 4 * u ^ 5 + 2 * t ^ 1 * s ^ 1 * u ^ 3
      + 4 * t ^ 1 * s ^ 3 * u ^ 5 + 1 * t ^ 2 * s ^ 0 * u ^ 3
      + 6 * t ^ 2 * s ^ 2 * u ^ 5 + 15 * t ^ 2 * s ^ 4 * u ^ 7
      + 4 * t ^ 3 * s ^ 1 * u ^ 5 + 20 * t ^ 3 * s ^ 3 * u ^ 7
      + 1 * t ^ 4 * s ^ 0 * u ^ 5 + 15 * t ^ 4 * s ^ 2 * u ^ 7
      + 70 * t ^ 4 * s ^ 4 * u ^ 9)
      - (1 * t ^ 0 * s ^ 1 * u ^ 2 + 1 * t ^ 0 * s ^ 3 * u ^ 4
      + 1 * t ^ 1 * s ^ 0 * u ^ 2 + 3 * t ^ 1 * s ^ 2 * u ^ 4
      + 5 * t ^ 1 * s ^ 4 * u ^ 6 + 3 * t ^ 2 * s ^ 1 * u ^ 4
      + 10 * t ^ 2 * s ^ 3 * u ^ 6 + 1 * t ^ 3 * s ^ 0 * u ^ 4
      + 10 * t ^ 3 * s ^ 2 * u ^ 6 + 35 * t ^ 3 * s ^ 4 * u ^ 8
      + 5 * t ^ 4 * s ^ 1 * u ^ 6 + 35 * t ^ 4 * s ^ 3 * u ^ 8) := by
    simp only [Finset.sum_range_succ, Finset.sum_range_zero, Nat.choose]
    norm_num
    ring
  have h910 : |(1 : ℝ) / (9 / 10)| = 10 / 9 := by
    rw [abs_of_pos (by norm_num)]
    norm_num
  rw [hsum, h910, div_le_iff₀ (by norm_num), abs_le]
  constructor
  · linarith [mlo 0 0 1, mlo 0 2 3, mlo 0 4 5, mlo 1 1 3, mlo 1 3 5, mlo 2 0 3, mlo 2 2 5,
      mlo 2 4 7, mlo 3 1 5, mlo 3 3 7, mlo 4 0 5, mlo 4 2 7, mlo 4 4 9, mhi 0 1 2,
      mhi 0 3 4, mhi 1 0 2, mhi 1 2 4, mhi 1 4 6, mhi 2 1 4, mhi 2 3 6, mhi 3 0 4,
      mhi 3 2 6, mhi 3 4 8, mhi 4 1 6, mhi 4 3 8]
  · linarith [mhi 0 0 1, mhi 0 2 3, mhi 0 4 5, mhi 1 1 3, mhi 1 3 5, mhi 2 0 3, mhi 2 2 5,
      mhi 2 4 7, mhi 3 1 5, mhi 3 3 7, mhi 4 0 5, mhi 4 2 7, mhi 4 4 9, mlo 0 1 2,
      mlo 0 3 4, mlo 1 0 2, mlo 1 2 4, mlo 1 4 6, mlo 2 1 4, mlo 2 3 6, mlo 3 0 4,
      mlo 3 2 6, mlo 3 4 8, mlo 4 1 6, mlo 4 3 8]

theorem single_level_L2P_value (F : cmath ℝ ℂ) (hF : F.exact) (EPS : ℝ) (hE : 0 < EPS)
    (hE6 : EPS ≤ 1 / 1000000) (raw T : tables ℝ ℂ)
    (hT : preCalculation F EPS 5 raw = some T) (R RMAX RCRIT : ℝ) (L : ℕ → ℂ) (trg : vec4 ℝ)
    (R' RMAX' RCRIT' : ℝ) (M' : ℕ → ℂ) (w : ℝ) :
    ∃ B, L2P F EPS T.prefactor 5
        (M2L F EPS ⟨0, 0, 0⟩ T 5 ⟨⟨7 / 8, 0, 0⟩, R', RMAX', RCRIT', M', fun _ => 0⟩
          (P2M F EPS T.prefactor 5 ⟨⟨1 / 8, 0, 0⟩, R, RMAX, RCRIT, fun _ => 0, L⟩
            [⟨⟨0, 0, 0⟩, 1, trg⟩]))
        [⟨⟨9 / 10, 0, 0⟩, w, ⟨0, 0, 0, 0⟩⟩] = [B] ∧
      |B.TRG.v0 - 1 / (9 / 10)| / |(1 : ℝ) / (9 / 10)| ≤ 1 / 1000 := by
  obtain ⟨B, hB, hv⟩ := L2P_single_potential F EPS T.prefactor 5
    (M2L F EPS ⟨0, 0, 0⟩ T 5 ⟨⟨7 / 8, 0, 0⟩, R', RMAX', RCRIT', M', fun _ => 0⟩
      (P2M F EPS T.prefactor 5 ⟨⟨1 / 8, 0, 0⟩, R, RMAX, RCRIT, fun _ => 0, L⟩
        [⟨⟨0, 0, 0⟩, 1, trg⟩]))
    ⟨⟨9 / 10, 0, 0⟩, w, ⟨0, 0, 0, 0⟩⟩
  refine ⟨B, hB, ?_⟩
  have hd : (⟨9 / 10, 0, 0⟩ : vect ℝ).sub
      (M2L F EPS ⟨0, 0, 0⟩ T 5 ⟨⟨7 / 8, 0, 0⟩, R', RMAX', RCRIT', M', fun _ => 0⟩
        (P2M F EPS T.prefactor 5 ⟨⟨1 / 8, 0, 0⟩, R, RMAX, RCRIT, fun _ => 0, L⟩
          [⟨⟨0, 0, 0⟩, 1, trg⟩])).X = ⟨1 / 40, 0, 0⟩ := by
    show (⟨9 / 10, 0, 0⟩ : vect ℝ).sub ⟨7 / 8, 0, 0⟩ = _
    simp only [vect.sub, vect.mk.injEq]
    norm_num
  simp only [hd] at hv
  rw [cart2sph_pos_x F hF EPS (1 / 40) hE (by linarith)] at hv
  simp only [zero_add] at hv
  rw [hv, single_level_L2P_phi F hF EPS hE hE6 raw T hT R RMAX RCRIT L trg R' RMAX' RCRIT' M']
  exact double_series_bound (1 / 40 + EPS) (1 / 8 + EPS) (3 / 4 + EPS) (by linarith)
    (by linarith) (by linarith) (by linarith) (by linarith) (by linarith)

/-- C24: in the configuration of the single-level test, a unit charge at `(0,0,0)`, the
multipole center `(0.125,0,0)`, the local center `(0.875,0,0)` with a zero local
expansion, the target `(0.9,0,0)` with a zero potential, `P = 5` and `0 < EPS ≤ 1e-6`,
the tables are built and the potential that `L2P` gives the target from the local
expansion of `M2L`, whose translation is `(0.75,0,0)`, applied to the multipole of `P2M`
differs from the direct potential `1/0.9` by a relative error of at most `1e-3`, in
exact arithmetic. -/
theorem single_level_M2L_L2P (F : cmath ℝ ℂ) (hF : F.exact) (EPS : ℝ) (hE : 0 < EPS)
    (hE6 : EPS ≤ 1 / 1000000) (raw : tables ℝ ℂ) (R RMAX RCRIT : ℝ) (L : ℕ → ℂ)
    (trg : vec4 ℝ) (R' RMAX' RCRIT' : ℝ) (M' : ℕ → ℂ) (w : ℝ) :
    ∃ T, preCalculation F EPS 5 raw = some T ∧
      ((⟨7 / 8, 0, 0⟩ : vect ℝ).sub ⟨1 / 8, 0, 0⟩).sub ⟨0, 0, 0⟩ = ⟨3 / 4, 0, 0⟩ ∧
      ∃ B, L2P F EPS T.prefactor 5
          (M2L F EPS ⟨0, 0, 0⟩ T 5 ⟨⟨7 / 8, 0, 0⟩, R', RMAX', RCRIT', M', fun _ => 0⟩
            (P2M F EPS T.prefactor 5 ⟨⟨1 / 8, 0, 0⟩, R, RMAX, RCRIT, fun _ => 0, L⟩
              [⟨⟨0, 0, 0⟩, 1, trg⟩]))
          [⟨⟨9 / 10, 0, 0⟩, w, ⟨0, 0, 0, 0⟩⟩] = [B] ∧
        |B.TRG.v0 - 1 / (9 / 10)| / |(1 : ℝ) / (9 / 10)| ≤ 1 / 1000 := by
  obtain ⟨T, hT⟩ := preCalculation_some F EPS 5 (by norm_num) raw
  refine ⟨T, hT, ?_, single_level_L2P_value F hF EPS hE hE6 raw T hT R RMAX RCRIT L trg
    R' RMAX' RCRIT' M' w⟩
  simp only [vect.sub, vect.mk.injEq]
  norm_num

/-- An instance: `EPS = 1e-6`. -/
theorem single_level_M2L_L2P_witness :
    cmath.exact (⟨Real.sqrt, Real.cos, Real.sin, Real.arccos, Real.arctan, Real.pi,
        Complex.ofReal, starRingEnd ℂ, Complex.re, Complex.exp,
        fun (z : ℂ) (t : ℝ) => z ^ (t : ℂ), Complex.I⟩ : cmath ℝ ℂ) ∧
      (0 : ℝ) < 1 / 1000000 ∧ (1 : ℝ) / 1000000 ≤ 1 / 1000000 ∧
      ∃ T, preCalculation (⟨Real.sqrt, Real.cos, Real.sin, Real.arccos, Real.arctan, Real.pi,
          Complex.ofReal, starRingEnd ℂ, Complex.re, Complex.exp,
          fun (z : ℂ) (t : ℝ) => z ^ (t : ℂ), Complex.I⟩ : cmath ℝ ℂ)
        (1 / 1000000) 5 ⟨fun _ => 0, fun _ => 0, fun _ => 0, fun _ => 0⟩ = some T ∧
      ((⟨7 / 8, 0, 0⟩ : vect ℝ).sub ⟨1 / 8, 0, 0⟩).sub ⟨0, 0, 0⟩ = ⟨3 / 4, 0, 0⟩ ∧
      ∃ B, L2P (⟨Real.sqrt, Real.cos, Real.sin, Real.arccos, Real.arctan, Real.pi,
          Complex.ofReal, starRingEnd ℂ, Complex.re, Complex.exp,
          fun (z : ℂ) (t : ℝ) => z ^ (t : ℂ), Complex.I⟩ : cmath ℝ ℂ) (1 / 1000000)
          T.prefactor 5
          (M2L (⟨Real.sqrt, Real.cos, Real.sin, Real.arccos, Real.arctan, Real.pi,
            Complex.ofReal, starRingEnd ℂ, Complex.re, Complex.exp,
            fun (z : ℂ) (t : ℝ) => z ^ (t : ℂ), Complex.I⟩ : cmath ℝ ℂ) (1 / 1000000)
            ⟨0, 0, 0⟩ T 5 ⟨⟨7 / 8, 0, 0⟩, 1, 0, 0, fun _ => 0, fun _ => 0⟩
            (P2M (⟨Real.sqrt, Real.cos, Real.sin, Real.arccos, Real.arctan, Real.pi,
              Complex.ofReal, starRingEnd ℂ, Complex.re, Complex.exp,
              fun (z : ℂ) (t : ℝ) => z ^ (t : ℂ), Complex.I⟩ : cmath ℝ ℂ) (1 / 1000000)
              T.prefactor 5 ⟨⟨1 / 8, 0, 0⟩, 1, 0, 0, fun _ => 0, fun _ => 0⟩
              [⟨⟨0, 0, 0⟩, 1, ⟨0, 0, 0, 0⟩⟩]))
          [⟨⟨9 / 10, 0, 0⟩, 0, ⟨0, 0, 0, 0⟩⟩] = [B] ∧
        |B.TRG.v0 - 1 / (9 / 10)| / |(1 : ℝ) / (9 / 10)| ≤ 1 / 1000 :=
  ⟨⟨rfl, rfl, rfl, rfl, rfl, rfl, rfl, rfl, rfl, rfl, rfl, rfl⟩, by norm_num, le_refl _,
    single_level_M2L_L2P
      (⟨Real.sqrt, Real.cos, Real.sin, Real.arccos, Real.arctan, Real.pi,
        Complex.ofReal, starRingEnd ℂ, Complex.re, Complex.exp,
        fun (z : ℂ) (t : ℝ) => z ^ (t : ℂ), Complex.I⟩ : cmath ℝ ℂ)
      ⟨rfl, rfl, rfl, rfl, rfl, rfl, rfl, rfl, rfl, rfl, rfl, rfl⟩ (1 / 1000000)
      (by norm_num) (le_refl _) ⟨fun _ => 0, fun _ => 0, fun _ => 0, fun _ => 0⟩ 1 0 0
      (fun _ => 0) ⟨0, 0, 0, 0⟩ 1 0 0 (fun _ => 0) 0⟩

end SphericalLaplaceKernel

namespace Octree

/-! ## The member `levels` -/

theorem levels_eq_last_level {α : Type} [Inhabited α] (contains : α → Bool) (code : α → Nat)
    (pts : List α) (h30 : ∀ p ∈ pts, code p < 2 ^ 30) (fuel : Nat) (t : Octree α)
    (h : construct_tree contains code pts fuel = .ok t) :
    0 < t.box_data_.length ∧
    levels t = (t.box_data_.getD (t.box_data_.length - 1) default).level + 1 ∧
    ∀ i, i < t.box_data_.length →
      (t.box_data_.getD i default).level ≤
        (t.box_data_.getD (t.box_data_.length - 1) default).level := by
  obtain ⟨offs, ho, -, -, -, hlv⟩ := construct_tree_loop_inv contains code pts h30 fuel t h
  obtain ⟨h0, hmono, -, hlen, -⟩ := hlv
  simp only [List.length_map] at h0 hmono hlen
  have hlast := map_level_getD t.box_data_ (t.box_data_.length - 1) (by omega)
  refine ⟨h0, ?_, ?_⟩
  · unfold levels
    rw [ho, List.length_append, List.length_singleton, hlen, hlast]
    omega
  · intro i hi
    have := hmono i (t.box_data_.length - 1) (by omega) (by omega)
    rwa [map_level_getD t.box_data_ i hi, hlast] at this

/-- C31, amended: in every tree that `construct_tree` returns on points with 30-bit
codes, every box has a level below `levels()` and some box has the level
`levels() - 1`: `levels()` is the number of levels, the maximum level of a box plus one,
and not the maximum level. -/
theorem levels_is_max_level_plus_one {α : Type} [Inhabited α] (contains : α → Bool)
    (code : α → Nat) (pts : List α) (h30 : ∀ p ∈ pts, code p < 2 ^ 30) (fuel : Nat)
    (t : Octree α) (h : construct_tree contains code pts fuel = .ok t) :
    (∀ b ∈ t.box_data_, b.level < levels t) ∧
    (∃ b ∈ t.box_data_, levels t = b.level + 1) ∧
    ¬ (∃ b ∈ t.box_data_, levels t = b.level) := by
  obtain ⟨h0, hl, hle⟩ := levels_eq_last_level contains code pts h30 fuel t h
  have hall : ∀ b ∈ t.box_data_, b.level < levels t := by
    intro b hb
    obtain ⟨i, hi, rfl⟩ := List.getElem_of_mem hb
    have := hle i hi
    rw [List.getD_eq_getElem _ _ hi] at this
    omega
  refine ⟨hall, ⟨t.box_data_.getD (t.box_data_.length - 1) default, ?_, hl⟩, ?_⟩
  · rw [List.getD_eq_getElem _ _ (by omega)]
    exact List.getElem_mem _
  · rintro ⟨b, hb, e⟩
    have := hall b hb
    omega

/-- An instance: the tree of three points in three octants of the root has the boxes of
the levels 0 and 1, and `levels()` is 2. -/
theorem levels_is_max_level_plus_one_witness :
    (∀ p ∈ [5 * 2 ^ 27, 3 * 2 ^ 27, 2 ^ 27], (fun c : Nat => c) p < 2 ^ 30) ∧
    construct_tree (fun _ => true) (fun c : Nat => c) [5 * 2 ^ 27, 3 * 2 ^ 27, 2 ^ 27] 41 =
      .ok tree_5_3_1 ∧
    levels tree_5_3_1 = 2 ∧
    (∀ b ∈ tree_5_3_1.box_data_, b.level < levels tree_5_3_1) ∧
    (∃ b ∈ tree_5_3_1.box_data_, levels tree_5_3_1 = b.level + 1) ∧
    ¬ (∃ b ∈ tree_5_3_1.box_data_, levels tree_5_3_1 = b.level) :=
  ⟨by decide, construct_tree_5_3_1, rfl,
    levels_is_max_level_plus_one (fun _ => true) (fun c : Nat => c)
      [5 * 2 ^ 27, 3 * 2 ^ 27, 2 ^ 27] (by decide) 41 tree_5_3_1 construct_tree_5_3_1⟩

/-! ## Points that share a Morton code -/

theorem stuck_at_root : stuck_at 0 1 10 := by
  refine ⟨by decide, le_refl _, by decide, ?_⟩
  intro s hs
  interval_cases s <;> decide

theorem doomed_0_0 : doomed [0, 0] 0 [⟨1, 0, 0, 2⟩] := by
  refine ⟨0, le_refl _, by simp, ?_⟩
  refine ⟨by decide, by decide, 0, by decide, ?_, ⟨10, stuck_at_root⟩, 1, by decide, 10, ?_⟩
  · intro i h1 h2
    have h3 : i < 2 := h2
    interval_cases i <;> rfl
  · have e : (((2 ^ 30 + 0) <<< 3) % word) ||| 1 = 1 := by decide
    rw [e]
    exact stuck_at_root

theorem sorted_mc_0_0 : sorted_mc [0, 0] := by
  intro i j _ hj
  have h2 : j < 2 := hj
  interval_cases j <;> interval_cases i <;> simp

theorem box_loop_0_0 (fuel : Nat) :
    box_loop [0, 0] fuel fuel 0 ([⟨1, 0, 0, 2⟩], [0]) = none := by
  rcases Nat.lt_or_ge 10 fuel with h | h
  · exact doomed_diverges fuel [0, 0] sorted_mc_0_0 h fuel 0 _ doomed_0_0
  · interval_cases fuel <;> rfl

/-- C36: on two points inside the bounding box that share the Morton code 0,
`construct_tree` does not return, whatever the fuel of the loops; and in the tree of two
points that share the Morton code 9 the box of index 10 has the level 10 and is split:
the shift `key_ << 3` of its key `2^30 + 9` leaves the 32-bit word, and the eight child
keys that the code forms are `72 + oct`, keys of the level 2, and not
`8 * key_ + oct`. -/
theorem shared_code_build_fails :
    (∀ fuel, construct_tree (fun _ => true) (fun c : Nat => c) [0, 0] fuel = .error .fuel) ∧
    construct_tree (fun _ => true) (fun c : Nat => c) [9, 9] 20 = .ok tree_9_9 ∧
    (tree_9_9.box_data_.getD 10 default).level = 10 ∧
    (tree_9_9.box_data_.getD 10 default).is_leaf = false ∧
    word ≤ (tree_9_9.box_data_.getD 10 default).key_ <<< 3 ∧
    ∀ oct, oct < 8 →
      (((tree_9_9.box_data_.getD 10 default).key_ <<< 3) % word) ||| oct = 72 + oct := by
  refine ⟨?_, construct_tree_9_9, by decide, by decide, by decide, ?_⟩
  · intro fuel
    have h := box_loop_0_0 fuel
    unfold construct_tree
    have hc : collect (fun _ => true) (fun c : Nat => c) [0, 0] 0 [] [] =
        .ok ([0, 0], [(0, 0), (0, 1)]) := rfl
    rw [hc]
    have hs : List.insertionSort pair_le [((0 : Nat), (0 : Nat)), (0, 1)] = [(0, 0), (0, 1)] := by
      decide
    simp only [hs, List.map_cons, List.map_nil, List.length_cons, List.length_nil]
    rw [h]
  · intro oct ho
    interval_cases oct <;> decide

/-! ## The Morton ranges of the octants of a box -/

theorem lower_loop_short (d : Nat) : ∀ (L key fuel : Nat), L + d = 10 → valid_key L key →
    fuel ≤ d → lower_loop fuel key = none := by
  induction d with
  | zero =>
    intro L key fuel _ _ hf
    have : fuel = 0 := by omega
    subst this
    rfl
  | succ d ih =>
    intro L key fuel hd hv hf
    cases fuel with
    | zero => rfl
    | succ f =>
      have hs := valid_key_small L key hv (by omega)
      rw [lower_loop, if_neg (marker_clear key (by omega)), shift3 key (by omega)]
      have hc := valid_key_child L key 0 hv (by omega) (by omega)
      rw [Nat.add_zero] at hc
      exact ih (L + 1) (key * 8) f (by omega) hc (by omega)

theorem upper_loop_short (d : Nat) : ∀ (L key fuel : Nat), L + d = 10 → valid_key L key →
    fuel ≤ d → upper_loop fuel key = none := by
  induction d with
  | zero =>
    intro L key fuel _ _ hf
    have : fuel = 0 := by omega
    subst this
    rfl
  | succ d ih =>
    intro L key fuel hd hv hf
    cases fuel with
    | zero => rfl
    | succ f =>
      have hs := valid_key_small L key hv (by omega)
      rw [upper_loop, if_neg (marker_clear key (by omega)), shift3 key (by omega),
        or_octant key 7 (by omega)]
      exact ih (L + 1) (key * 8 + 7) f (by omega)
        (valid_key_child L key 7 hv (by omega) (by omega)) (by omega)

theorem bound_loops_iterations (L key fuel : Nat) (hv : valid_key L key) :
    ((lower_loop fuel key).isSome ↔ 10 - L < fuel) ∧
    ((upper_loop fuel key).isSome ↔ 10 - L < fuel) := by
  have hL := hv.1
  rcases Nat.lt_or_ge (10 - L) fuel with h | h
  · rw [lower_loop_valid (10 - L) L key fuel (by omega) hv h,
      upper_loop_valid (10 - L) L key fuel (by omega) hv h]
    simp [h]
  · rw [lower_loop_short (10 - L) L key fuel (by omega) hv h,
      upper_loop_short (10 - L) L key fuel (by omega) hv h]
    simp
    omega

theorem child_key_valid (L key oct : Nat) (hv : valid_key L key) (hL : L < 10)
    (ho : oct < 8) : ((key <<< 3) % word) ||| oct = 8 * key + oct := by
  have hs := valid_key_small L key hv hL
  rw [shift3 key (by omega), or_octant key oct ho, Nat.mul_comm]

theorem lo_of_first_child (L key : Nat) (_hv : valid_key L key) (hL : L < 10) :
    lo_of (L + 1) (key * 8) = lo_of L key := by
  unfold lo_of
  have e : 10 - L = (10 - (L + 1)) + 1 := by omega
  rw [e, pow_succ]
  congr 1
  ring

theorem hi_of_last_child (L key : Nat) (_hv : valid_key L key) (hL : L < 10) :
    hi_of (L + 1) (key * 8 + 7) = hi_of L key := by
  unfold hi_of
  have e : 10 - L = (10 - (L + 1)) + 1 := by omega
  rw [e, pow_succ]
  congr 2
  ring

/-- C37: for a key of depth `L < 10` without leaf bit the eight child keys
`(key << 3) | oct` are `8 * key + oct`; each bound loop on a child key returns exactly
when it is given more than `9 - L` passes, so that it makes `9 - L` shifts; and with the
bounds of the parent, which take `10 - L` shifts, the lower bound of the octant 0 is the
lower bound of the parent, the upper bound of the octant 7 is the upper bound of the
parent, and the upper bound of an octant `oct < 7` plus one is the lower bound of the
octant `oct + 1`. -/
theorem octant_ranges_tile (L key : Nat) (hv : valid_key L key) (hL : L < 10)
    (p cb ce k : Nat) :
    (∀ oct, oct < 8 → ((key <<< 3) % word) ||| oct = 8 * key + oct) ∧
    (∀ oct fuel, oct < 8 →
      (((lower_loop fuel (8 * key + oct)).isSome ↔ 9 - L < fuel) ∧
        ((upper_loop fuel (8 * key + oct)).isSome ↔ 9 - L < fuel))) ∧
    ∀ fuel, 10 - L < fuel →
      (∃ lo, (⟨key, p, cb, ce⟩ : box_data).get_mc_lower_bound fuel = some lo ∧
        (⟨8 * key + 0, k, 0, 0⟩ : box_data).get_mc_lower_bound fuel = some lo) ∧
      (∃ hi, (⟨key, p, cb, ce⟩ : box_data).get_mc_upper_bound fuel = some hi ∧
        (⟨8 * key + 7, k, 0, 0⟩ : box_data).get_mc_upper_bound fuel = some hi) ∧
      ∀ oct, oct < 7 →
        ∃ hi, (⟨8 * key + oct, k, 0, 0⟩ : box_data).get_mc_upper_bound fuel = some hi ∧
          (⟨8 * key + (oct + 1), k, 0, 0⟩ : box_data).get_mc_lower_bound fuel =
            some (hi + 1) := by
  have bnd : ∀ (L' key' fuel p' cb' ce' : Nat), valid_key L' key' → 10 - L' < fuel →
      (⟨key', p', cb', ce'⟩ : box_data).get_mc_lower_bound fuel = some (lo_of L' key') ∧
        (⟨key', p', cb', ce'⟩ : box_data).get_mc_upper_bound fuel = some (hi_of L' key') := by
    intro L' key' fuel p' cb' ce' h hf
    have hL' := h.1
    obtain ⟨s1, s2⟩ := valid_key_scaled L' key' h
    have hpos : 0 < 8 ^ (10 - L') := Nat.pow_pos (by omega)
    have hlt : key' * 8 ^ (10 - L') < (key' + 1) * 8 ^ (10 - L') :=
      Nat.mul_lt_mul_of_pos_right (by omega) hpos
    constructor
    · simp only [box_data.get_mc_lower_bound]
      rw [lower_loop_valid (10 - L') L' key' fuel (by omega) h (by omega)]
      simp only [Option.map_some', lo_of]
      rw [clear_marker _ s1 (by omega)]
    · simp only [box_data.get_mc_upper_bound]
      rw [upper_loop_valid (10 - L') L' key' fuel (by omega) h (by omega)]
      simp only [Option.map_some', hi_of]
      rw [clear_marker _ (by omega) (by omega)]
  have hch : ∀ oct, oct < 8 → valid_key (L + 1) (8 * key + oct) := by
    intro oct ho
    rw [Nat.mul_comm]
    exact valid_key_child L key oct hv hL ho
  refine ⟨fun oct ho => child_key_valid L key oct hv hL ho, ?_, ?_⟩
  · intro oct fuel ho
    have := bound_loops_iterations (L + 1) (8 * key + oct) fuel (hch oct ho)
    have e : 10 - (L + 1) = 9 - L := by omega
    rw [e] at this
    exact this
  · intro fuel hf
    refine ⟨⟨lo_of L key, (bnd L key fuel p cb ce hv hf).1, ?_⟩,
      ⟨hi_of L key, (bnd L key fuel p cb ce hv hf).2, ?_⟩, ?_⟩
    · rw [(bnd (L + 1) (8 * key + 0) fuel k 0 0 (hch 0 (by omega)) (by omega)).1]
      have e : lo_of (L + 1) (8 * key + 0) = lo_of L key := by
        show lo_of (L + 1) (8 * key) = lo_of L key
        rw [Nat.mul_comm, lo_of_first_child L key hv hL]
      rw [e]
    · rw [(bnd (L + 1) (8 * key + 7) fuel k 0 0 (hch 7 (by omega)) (by omega)).2,
        Nat.mul_comm, hi_of_last_child L key hv hL]
    · intro oct ho
      refine ⟨hi_of (L + 1) (8 * key + oct),
        (bnd (L + 1) (8 * key + oct) fuel k 0 0 (hch oct (by omega)) (by omega)).2, ?_⟩
      rw [(bnd (L + 1) (8 * key + (oct + 1)) fuel k 0 0 (hch (oct + 1) (by omega))
        (by omega)).1]
      have e : lo_of (L + 1) (8 * key + (oct + 1)) = hi_of (L + 1) (8 * key + oct) + 1 := by
        rw [Nat.mul_comm, hi_of_child L key oct hv hL, lo_of_child L key (oct + 1) hv hL]
      rw [e]

/-- An instance: the root key 1 of depth 0; the bound loops on its child keys make 9
shifts. -/
theorem octant_ranges_tile_witness :
    valid_key 0 1 ∧ 0 < 10 ∧
    (∀ oct, oct < 8 → ((1 <<< 3) % word) ||| oct = 8 * 1 + oct) ∧
    (∀ oct fuel, oct < 8 →
      (((lower_loop fuel (8 * 1 + oct)).isSome ↔ 9 - 0 < fuel) ∧
        ((upper_loop fuel (8 * 1 + oct)).isSome ↔ 9 - 0 < fuel))) ∧
    ∀ fuel, 10 - 0 < fuel →
      (∃ lo, (⟨1, 0, 0, 2⟩ : box_data).get_mc_lower_bound fuel = some lo ∧
        (⟨8 * 1 + 0, 0, 0, 0⟩ : box_data).get_mc_lower_bound fuel = some lo) ∧
      (∃ hi, (⟨1, 0, 0, 2⟩ : box_data).get_mc_upper_bound fuel = some hi ∧
        (⟨8 * 1 + 7, 0, 0, 0⟩ : box_data).get_mc_upper_bound fuel = some hi) ∧
      ∀ oct, oct < 7 →
        ∃ hi, (⟨8 * 1 + oct, 0, 0, 0⟩ : box_data).get_mc_upper_bound fuel = some hi ∧
          (⟨8 * 1 + (oct + 1), 0, 0, 0⟩ : box_data).get_mc_lower_bound fuel =
            some (hi + 1) :=
  ⟨by unfold valid_key; decide, by decide,
    octant_ranges_tile 0 1 (by unfold valid_key; decide) (by decide) 0 0 2 0⟩

/-! ## The Morton bounds of a leaf -/

theorem or_leaf_bit (key : Nat) (hk : key < 2 ^ 31) : key ||| leaf_bit = 2 ^ 31 + key := by
  have h := Nat.mul_add_lt_is_or hk 1
  rw [Nat.mul_one] at h
  rw [h, Nat.or_comm, leaf_bit]

theorem leaf_shift (key : Nat) (hk : key < 2 ^ 28) :
    ((2 ^ 31 + key) <<< 3) % word = key * 8 := by
  rw [shift_mod]
  simp only [word]
  omega

theorem leaf_loops_shallow (L key fuel : Nat) (hv : valid_key L key) (hL : L < 10) :
    lower_loop fuel (key ||| leaf_bit) = lower_loop fuel key ∧
    upper_loop fuel (key ||| leaf_bit) = upper_loop fuel key := by
  have hs := valid_key_small L key hv hL
  rw [or_leaf_bit key (by omega)]
  cases fuel with
  | zero => exact ⟨rfl, rfl⟩
  | succ f =>
    have hm : ¬ ((2 ^ 31 + key) &&& max_marker_bit ≠ 0) := by
      rw [marker_test]
      omega
    constructor
    · rw [lower_loop, if_neg hm, leaf_shift key hs, lower_loop,
        if_neg (marker_clear key (by omega)), shift3 key (by omega)]
    · rw [upper_loop, if_neg hm, leaf_shift key hs, upper_loop,
        if_neg (marker_clear key (by omega)), shift3 key (by omega)]

theorem leaf_mask_deep (key : Nat) (h1 : 2 ^ 30 ≤ key) (h2 : key < 2 ^ 31) :
    (2 ^ 31 + key) &&& (word - 1 - max_marker_bit) = 2 ^ 31 + (key - 2 ^ 30) := by
  have e1 : 2 ^ 31 + key = 2 ^ 31 ||| key := by
    have h := Nat.mul_add_lt_is_or h2 1
    rw [Nat.mul_one] at h
    exact h
  have e2 : 2 ^ 31 + (key - 2 ^ 30) = 2 ^ 31 ||| (key - 2 ^ 30) := by
    have h := Nat.mul_add_lt_is_or (show key - 2 ^ 30 < 2 ^ 31 by omega) 1
    rw [Nat.mul_one] at h
    exact h
  rw [e1, e2, Nat.and_comm, Nat.and_or_distrib_left, Nat.and_comm _ key,
    clear_marker key h1 h2]
  congr 1

theorem leaf_loops_deep (key fuel : Nat) (hv : valid_key 10 key) :
    lower_loop (fuel + 1) key = some key ∧ upper_loop (fuel + 1) key = some key ∧
    lower_loop (fuel + 1) (key ||| leaf_bit) = some (2 ^ 31 + key) ∧
    upper_loop (fuel + 1) (key ||| leaf_bit) = some (2 ^ 31 + key) := by
  obtain ⟨-, h1, h2⟩ := hv
  have h10 : (8 : Nat) ^ 10 = 2 ^ 30 := by norm_num
  have hm : (2 ^ 31 + key) &&& max_marker_bit ≠ 0 := by
    rw [marker_test]
    omega
  rw [or_leaf_bit key (by omega)]
  refine ⟨?_, ?_, ?_, ?_⟩
  · rw [lower_loop, if_pos (marker_set key (by omega) (by omega))]
  · rw [upper_loop, if_pos (marker_set key (by omega) (by omega))]
  · rw [lower_loop, if_pos hm]
  · rw [upper_loop, if_pos hm]

/-- C40: for a key of a depth `L < 10` the two bound loops return the same values with
the leaf bit set as without it, because the first shift drops the bit. For a key of the
depth 10 they do not: without the leaf bit both bounds are the code `key - 2^30` of the
cell, below `2^30`, and with the leaf bit set both are `2^31` plus that code: the leaf
bit is part of the bound. -/
theorem leaf_bit_enters_deep_bounds :
    (∀ L key p cb ce fuel, valid_key L key → L < 10 →
      ((⟨key, p, cb, ce⟩ : box_data).set_leaf true).get_mc_lower_bound fuel =
          (⟨key, p, cb, ce⟩ : box_data).get_mc_lower_bound fuel ∧
        ((⟨key, p, cb, ce⟩ : box_data).set_leaf true).get_mc_upper_bound fuel =
          (⟨key, p, cb, ce⟩ : box_data).get_mc_upper_bound fuel) ∧
    (∀ key p cb ce fuel, valid_key 10 key →
      key - 2 ^ 30 < 2 ^ 30 ∧
      (⟨key, p, cb, ce⟩ : box_data).get_mc_lower_bound (fuel + 1) = some (key - 2 ^ 30) ∧
      (⟨key, p, cb, ce⟩ : box_data).get_mc_upper_bound (fuel + 1) = some (key - 2 ^ 30) ∧
      ((⟨key, p, cb, ce⟩ : box_data).set_leaf true).get_mc_lower_bound (fuel + 1) =
        some (2 ^ 31 + (key - 2 ^ 30)) ∧
      ((⟨key, p, cb, ce⟩ : box_data).set_leaf true).get_mc_upper_bound (fuel + 1) =
        some (2 ^ 31 + (key - 2 ^ 30))) ∧
    (⟨2 ^ 30, 0, 0, 1⟩ : box_data).get_mc_lower_bound 1 = some 0 ∧
    ((⟨2 ^ 30, 0, 0, 1⟩ : box_data).set_leaf true).get_mc_lower_bound 1 = some (2 ^ 31) := by
  refine ⟨?_, ?_, by decide, by decide⟩
  · intro L key p cb ce fuel hv hL
    obtain ⟨e1, e2⟩ := leaf_loops_shallow L key fuel hv hL
    simp only [box_data.set_leaf, if_true, box_data.get_mc_lower_bound,
      box_data.get_mc_upper_bound]
    rw [e1, e2]
    exact ⟨rfl, rfl⟩
  · intro key p cb ce fuel hv
    obtain ⟨e1, e2, e3, e4⟩ := leaf_loops_deep key fuel hv
    obtain ⟨-, h1, h2⟩ := hv
    have h10 : (8 : Nat) ^ 10 = 2 ^ 30 := by norm_num
    simp only [box_data.set_leaf, if_true, box_data.get_mc_lower_bound,
      box_data.get_mc_upper_bound]
    rw [e1, e2, e3, e4]
    simp only [Option.map_some']
    rw [clear_marker key (by omega) (by omega), leaf_mask_deep key (by omega) (by omega)]
    exact ⟨by omega, rfl, rfl, rfl, rfl⟩

/-! ## The depth of a tree -/

theorem frontier_sum_mid (f : box_data → Nat) (l1 l2 acc : List box_data) (b : box_data) :
    frontier_sum f l1.length (l1 ++ b :: l2) =
      ((l1.filter box_data.is_leaf).map f).sum + f b + (l2.map f).sum ∧
    frontier_sum f (l1.length + 1) (l1 ++ b :: l2 ++ acc) =
      ((l1.filter box_data.is_leaf).map f).sum + (if b.is_leaf then f b else 0)
        + (l2.map f).sum + (acc.map f).sum := by
  unfold frontier_sum
  constructor
  · rw [List.take_left' rfl, List.drop_left' rfl, List.map_cons, List.sum_cons]
    omega
  · have e : l1 ++ b :: l2 ++ acc = (l1 ++ [b]) ++ (l2 ++ acc) := by simp
    rw [e, List.take_left' (by simp), List.drop_left' (by simp), List.filter_append,
      List.map_append, List.sum_append, List.map_append, List.sum_append]
    by_cases hb : b.is_leaf = true
    · simp [hb]
      omega
    · simp [hb]
      omega

theorem split_at (boxes : List box_data) (k : Nat) (hk : k < boxes.length) :
    boxes = boxes.take k ++ boxes.getD k default :: boxes.drop (k + 1) ∧
    (boxes.take k).length = k ∧
    ∀ B, boxes.set k B = boxes.take k ++ B :: boxes.drop (k + 1) := by
  refine ⟨?_, by simp; omega, ?_⟩
  · rw [List.getD_eq_getElem _ _ hk, ← List.drop_eq_getElem_cons hk, List.take_append_drop]
  · intro B
    rw [List.set_eq_take_append_cons_drop, if_pos hk]

theorem frontier_leaf_step (f : box_data → Nat) (boxes : List box_data) (k : Nat)
    (hk : k < boxes.length) (B : box_data) (hf : f B = f (boxes.getD k default))
    (hB : B.is_leaf = true) :
    frontier_sum f (k + 1) (boxes.set k B) = frontier_sum f k boxes := by
  obtain ⟨e1, e2, e3⟩ := split_at boxes k hk
  have h1 := (frontier_sum_mid f (boxes.take k) (boxes.drop (k + 1)) []
    (boxes.getD k default)).1
  have h2 := (frontier_sum_mid f (boxes.take k) (boxes.drop (k + 1)) [] B).2
  rw [e2, ← e1] at h1
  rw [e2, List.append_nil, ← e3 B, hB] at h2
  rw [h1, h2]
  simp [hf]

theorem frontier_split_step (f : box_data → Nat) (boxes acc : List box_data) (k : Nat)
    (hk : k < boxes.length) (B : box_data) (hB : B.is_leaf = false) :
    frontier_sum f (k + 1) (boxes.set k B ++ acc) + f (boxes.getD k default) =
      frontier_sum f k boxes + (acc.map f).sum := by
  obtain ⟨e1, e2, e3⟩ := split_at boxes k hk
  have h1 := (frontier_sum_mid f (boxes.take k) (boxes.drop (k + 1)) []
    (boxes.getD k default)).1
  have h2 := (frontier_sum_mid f (boxes.take k) (boxes.drop (k + 1)) acc B).2
  rw [e2, ← e1] at h1
  rw [e2, ← e3 B, hB] at h2
  rw [h1, h2]
  simp
  omega

theorem frontier_sum_end (f : box_data → Nat) (boxes : List box_data) :
    frontier_sum f boxes.length boxes = ((boxes.filter box_data.is_leaf).map f).sum := by
  unfold frontier_sum
  simp

theorem children_body_count_eq (mc_ : List Nat) (hs : sorted_mc mc_) (key_p L k b e : Nat)
    (hv : valid_key L key_p) (hL : L < 10) (hbe : b ≤ e) (he : e ≤ mc_.length)
    (hc : ∀ i, b ≤ i → i < e →
      lo_of L key_p ≤ mc_.getD i 0 ∧ mc_.getD i 0 ≤ hi_of L key_p) :
    body_count (children mc_ key_p L k b e) = e - b := by
  have h8 := body_count_octants mc_ hs key_p L k b e hv hL hbe he 8 (le_refl _)
  have c0 : cut mc_ key_p L b e 0 = b := by
    unfold cut
    rw [Nat.zero_mul, Nat.add_zero, lo_of_first_child L key_p hv hL]
    obtain ⟨s1, s2, s3, -⟩ := lower_bound_spec mc_ hs b e (lo_of L key_p) hbe he
    by_contra hne
    have hlt : b < lower_bound mc_ b e (lo_of L key_p) := by omega
    have h1 := s3 b (le_refl _) hlt
    have h2 := (hc b (le_refl _) (by omega)).1
    omega
  have c8 : cut mc_ key_p L b e 8 = e := by
    unfold cut
    have e1 := hi_of_child L key_p 7 hv hL
    rw [hi_of_last_child L key_p hv hL] at e1
    have e2 : lo_of (L + 1) (key_p * 8) + 8 * 8 ^ (9 - L) = hi_of L key_p + 1 := by
      rw [e1]
    rw [e2]
    obtain ⟨s1, s2, -, s4⟩ := lower_bound_spec mc_ hs b e (hi_of L key_p + 1) hbe he
    by_contra hne
    have hlt : lower_bound mc_ b e (hi_of L key_p + 1) < e := by omega
    have h1 := s4 _ (le_refl _) hlt
    have h2 := (hc _ s1 hlt).2
    omega
  rw [c0, c8] at h8
  unfold children
  omega

theorem sum_map_le_length_mul (f : box_data → Nat) (v : Nat) (l : List box_data)
    (h : ∀ c ∈ l, f c ≤ v) : (l.map f).sum ≤ l.length * v := by
  induction l with
  | nil => simp
  | cons a l ih =>
    have h1 := h a (List.mem_cons_self _ _)
    have h2 := ih (fun c hc => h c (List.mem_cons_of_mem _ hc))
    simp only [List.map_cons, List.sum_cons, List.length_cons]
    rw [Nat.add_mul]
    omega

theorem length_mul_le_sum_map (f : box_data → Nat) (v : Nat) (l : List box_data)
    (h : ∀ c ∈ l, v ≤ f c) : l.length * v ≤ (l.map f).sum := by
  induction l with
  | nil => simp
  | cons a l ih =>
    have h1 := h a (List.mem_cons_self _ _)
    have h2 := ih (fun c hc => h c (List.mem_cons_of_mem _ hc))
    simp only [List.map_cons, List.sum_cons, List.length_cons]
    rw [Nat.add_mul]
    omega

theorem children_volume (mc_ : List Nat) (hs : sorted_mc mc_) (key_p L k b e : Nat)
    (hv : valid_key L key_p) (hL : L < 10) (hbe : b ≤ e) (he : e ≤ mc_.length) :
    ((children mc_ key_p L k b e).map cell_volume).sum ≤ 8 ^ (10 - L) := by
  have hlen : (children mc_ key_p L k b e).length ≤ 8 := by
    unfold children
    have := List.length_filterMap_le (child_box mc_ key_p L k b e) (List.range 8)
    simpa using this
  have hvol : ∀ c ∈ children mc_ key_p L k b e, cell_volume c ≤ 8 ^ (9 - L) := by
    intro c hc
    have hl := valid_key_level _ _ (children_mem mc_ hs key_p L k b e hv hL hbe he c hc).2.1
    unfold cell_volume box_data.level
    rw [hl]
    have : 10 - (L + 1) = 9 - L := by omega
    rw [this]
  have h1 := sum_map_le_length_mul cell_volume _ _ hvol
  have h2 : (children mc_ key_p L k b e).length * 8 ^ (9 - L) ≤ 8 * 8 ^ (9 - L) :=
    Nat.mul_le_mul_right _ hlen
  have h3 : 8 * 8 ^ (9 - L) = 8 ^ (10 - L) := by
    have : 10 - L = (9 - L) + 1 := by omega
    rw [this, pow_succ, Nat.mul_comm]
  omega

/-- The visit of a box keeps the number of bodies on the frontier and does not raise the
volume of the frontier, when the codes are pairwise distinct. -/
theorem visit_frontier (mc_ : List Nat) (hs : sorted_mc mc_) (hd : strict_mc mc_)
    (N inner k : Nat) (hN : N ≤ mc_.length) (hf : 10 < inner) (boxes : List box_data)
    (offs : List Nat) (hinv : loop_inv mc_ N k (boxes, offs)) (hk : k < boxes.length)
    (st2 : List box_data × List Nat) (hv : visit_box inner mc_ k (boxes, offs) = some st2) :
    loop_inv mc_ N (k + 1) st2 ∧
    frontier_sum box_data.num_children (k + 1) st2.1 =
      frontier_sum box_data.num_children k boxes ∧
    frontier_sum cell_volume (k + 1) st2.1 ≤ frontier_sum cell_volume k boxes := by
  have hP := hinv.2.1 k le_rfl hk
  simp only at hP
  obtain ⟨p1, p2, p3, p4, p5⟩ := hP
  have hkey := valid_key_lt _ _ p1
  by_cases hn : (boxes.getD k default).num_children ≤ 1
  · obtain ⟨st3, e1, e2, -⟩ := visit_leaf_inv mc_ N inner k boxes offs hinv hk hn
    have hleaf := visit_box_leaf inner mc_ boxes offs k _ rfl
      (by simpa [box_data.num_children] using hn)
    rw [hv] at e1 hleaf
    simp only [Option.some.injEq] at e1 hleaf
    have hB : (⟨(boxes.getD k default).key_ ||| leaf_bit, (boxes.getD k default).parent_,
        (boxes.getD k default).child_begin_, (boxes.getD k default).child_end_⟩ :
        box_data).is_leaf = true := by
      simp only [box_data.is_leaf, decide_eq_true_eq]
      rw [leaf_test, or_leaf_bit _ hkey]
      omega
    refine ⟨by rw [e1]; exact e2, ?_, ?_⟩
    · rw [hleaf]
      exact frontier_leaf_step _ boxes k hk _ rfl hB
    · rw [hleaf]
      refine le_of_eq (frontier_leaf_step _ boxes k hk _ ?_ hB)
      unfold cell_volume box_data.level
      rw [key_level_leaf _ hkey]
  · have hn1 : 1 < (boxes.getD k default).num_children := by omega
    have hL := split_level_lt mc_ hd N k hN _ (hinv.2.1 k le_rfl hk) hn1
    obtain ⟨st3, e1, e2, -⟩ := visit_split_inv mc_ hs N inner k hN hf boxes offs hinv hk hn1 hL
    have hoff : offs.getLastD 0 < boxes.length := by
      have hLv := hinv.2.2.2
      simp only at hLv
      obtain ⟨_, _, _, h3, h4⟩ := hLv
      rw [getLastD_eq_getD offs]
      have := (h4 (offs.length - 1) (by omega)).1
      simpa using this
    have hsplit := visit_box_split inner mc_ boxes offs k _ _ rfl hk p1 hL hf hoff
      (by simpa [box_data.num_children] using hn1)
    rw [hv] at e1 hsplit
    simp only [Option.some.injEq] at e1 hsplit
    have hcnt := children_body_count_eq mc_ hs (boxes.getD k default).key_
      (boxes.getD k default).level k (boxes.getD k default).child_begin_
      (boxes.getD k default).child_end_ p1 hL p3 (by omega) p5
    have hvol := children_volume mc_ hs (boxes.getD k default).key_
      (boxes.getD k default).level k (boxes.getD k default).child_begin_
      (boxes.getD k default).child_end_ p1 hL p3 (by omega)
    generalize children mc_ (boxes.getD k default).key_ (boxes.getD k default).level k
      (boxes.getD k default).child_begin_ (boxes.getD k default).child_end_ = chs at *
    have hnl : (⟨(boxes.getD k default).key_, (boxes.getD k default).parent_, boxes.length,
        boxes.length + chs.length⟩ : box_data).is_leaf = false := is_leaf_false _ _ _ _ hkey
    have s1 := frontier_split_step box_data.num_children boxes chs k hk _ hnl
    have s2 := frontier_split_step cell_volume boxes chs k hk _ hnl
    have hst : st2.1 = boxes.set k ⟨(boxes.getD k default).key_,
        (boxes.getD k default).parent_, boxes.length, boxes.length + chs.length⟩ ++ chs := by
      rw [hsplit]
      rfl
    refine ⟨by rw [e1]; exact e2, ?_, ?_⟩
    · rw [hst]
      unfold body_count at hcnt
      rw [hcnt] at s1
      have : (boxes.getD k default).num_children =
          (boxes.getD k default).child_end_ - (boxes.getD k default).child_begin_ := rfl
      omega
    · rw [hst]
      have : cell_volume (boxes.getD k default) = 8 ^ (10 - (boxes.getD k default).level) := rfl
      omega

theorem box_loop_frontier (mc_ : List Nat) (hs : sorted_mc mc_) (hd : strict_mc mc_)
    (N : Nat) (hN : N ≤ mc_.length) (inner : Nat) (hf : 10 < inner) :
    ∀ (fuel k : Nat) (st st1 : List box_data × List Nat), loop_inv mc_ N k st →
      box_loop mc_ fuel inner k st = some st1 →
      frontier_sum box_data.num_children st1.1.length st1.1 =
        frontier_sum box_data.num_children k st.1 ∧
      frontier_sum cell_volume st1.1.length st1.1 ≤ frontier_sum cell_volume k st.1 := by
  intro fuel
  induction fuel with
  | zero =>
    intro k st st1 _ h
    simp [box_loop] at h
  | succ fuel ih =>
    intro k st st1 hinv h
    obtain ⟨boxes, offs⟩ := st
    by_cases hk : k = boxes.length
    · simp only [box_loop, if_pos hk, Option.some.injEq] at h
      subst h
      rw [← hk]
      exact ⟨rfl, le_refl _⟩
    · have hlt : k < boxes.length := by
        have := hinv.1
        simp only at this
        omega
      simp only [box_loop, if_neg hk] at h
      cases hv : visit_box inner mc_ k (boxes, offs) with
      | none => simp [hv] at h
      | some st2 =>
        rw [hv] at h
        simp only at h
        obtain ⟨i1, i2, i3⟩ := visit_frontier mc_ hs hd N inner k hN hf boxes offs hinv hlt
          st2 hv
        obtain ⟨j1, j2⟩ := ih (k + 1) st2 st1 i1 h
        exact ⟨by rw [j1, i2], le_trans j2 i3⟩

theorem key_level_le (key : Nat) : key_level key ≤ 10 := by
  have h : ∀ i, lookup.getD i 0 ≤ 10 := by
    intro i
    by_cases hi : i < 32
    · interval_cases i <;> decide
    · rw [List.getD_eq_default _ _ (by simp [lookup]; omega)]
      omega
  exact h _

/-- With pairwise distinct 30-bit codes the leaves of the tree hold all the bodies, one
each, in disjoint cells: there are at most `8 ^ D` bodies when no box is deeper than
`D = levels() - 1`. -/
theorem tree_depth_bound {α : Type} [Inhabited α] (contains : α → Bool) (code : α → Nat)
    (pts : List α) (h30 : ∀ p ∈ pts, code p < 2 ^ 30) (hd : (pts.map code).Nodup)
    (fuel : Nat) (t : Octree α) (h : construct_tree contains code pts fuel = .ok t) :
    pts.length ≤ 8 ^ (levels t - 1) ∧ levels t ≤ 11 := by
  obtain ⟨h0, hl, hle⟩ := levels_eq_last_level contains code pts h30 fuel t h
  have hD : (t.box_data_.getD (t.box_data_.length - 1) default).level ≤ 10 := key_level_le _
  refine ⟨?_, by omega⟩
  have hbig := construct_tree_mono contains code pts fuel 11 t h
  obtain ⟨hmc, -, -, offsets, hloop, hoff⟩ :=
    construct_tree_ok contains code pts (fuel + 11) t hbig
  have hlen : t.mc_.length = pts.length := by
    rw [hmc, List.length_map, sorted_codes_length]
  have hsorted : sorted_mc t.mc_ := by
    rw [hmc]
    exact sorted_codes_sorted code pts
  have hstrict : strict_mc t.mc_ := by
    rw [hmc]
    exact sorted_codes_strict code pts hd
  have hinit : loop_inv t.mc_ pts.length 0 ([⟨1, 0, 0, pts.length⟩], [0]) := by
    apply loop_inv_init
    rw [hmc]
    exact sorted_codes_lt code pts h30
  have hfin := box_loop_inv t.mc_ hsorted pts.length (by omega) (fuel + 11)
    (by omega) (fuel + 11) 0 _ _ hinit hloop
  obtain ⟨f1, f2⟩ := box_loop_frontier t.mc_ hsorted hstrict pts.length (by omega)
    (fuel + 11) (by omega) (fuel + 11) 0 _ _ hinit hloop
  simp only at f1 f2
  rw [frontier_sum_end] at f1 f2
  have hlev : (⟨1, 0, 0, pts.length⟩ : box_data).level = 0 := by
    show key_level 1 = 0
    decide
  have i1 : frontier_sum box_data.num_children 0 [⟨1, 0, 0, pts.length⟩] = pts.length := by
    simp [frontier_sum, box_data.num_children]
  have i2 : frontier_sum cell_volume 0 [⟨1, 0, 0, pts.length⟩] = 8 ^ 10 := by
    simp [frontier_sum, cell_volume, hlev]
  rw [i1] at f1
  rw [i2] at f2
  have hdone := hfin.2.2.1
  simp only at hdone
  have c1 : ((t.box_data_.filter box_data.is_leaf).map box_data.num_children).sum ≤
      (t.box_data_.filter box_data.is_leaf).length * 1 := by
    apply sum_map_le_length_mul
    intro c hc
    rw [List.mem_filter] at hc
    obtain ⟨i, hi, rfl⟩ := List.getElem_of_mem hc.1
    have := hdone i hi hi
    rw [List.getD_eq_getElem _ _ hi] at this
    exact (this hc.2).1
  have c2 : (t.box_data_.filter box_data.is_leaf).length *
      8 ^ (10 - (t.box_data_.getD (t.box_data_.length - 1) default).level) ≤
      ((t.box_data_.filter box_data.is_leaf).map cell_volume).sum := by
    apply length_mul_le_sum_map
    intro c hc
    rw [List.mem_filter] at hc
    obtain ⟨i, hi, rfl⟩ := List.getElem_of_mem hc.1
    have := hle i hi
    rw [List.getD_eq_getElem _ _ hi] at this
    unfold cell_volume
    exact Nat.pow_le_pow_right (by omega) (by omega)
  rw [hl, Nat.add_sub_cancel]
  generalize (t.box_data_.getD (t.box_data_.length - 1) default).level = D at *
  have hsplit : (8 : Nat) ^ 10 = 8 ^ D * 8 ^ (10 - D) := by
    rw [← pow_add]
    congr 1
    omega
  have hpos : 0 < 8 ^ (10 - D) := Nat.pow_pos (by omega)
  have hmul : pts.length * 8 ^ (10 - D) ≤ 8 ^ D * 8 ^ (10 - D) := by
    have : pts.length ≤ (t.box_data_.filter box_data.is_leaf).length := by omega
    calc pts.length * 8 ^ (10 - D)
        ≤ (t.box_data_.filter box_data.is_leaf).length * 8 ^ (10 - D) :=
          Nat.mul_le_mul_right _ this
      _ ≤ 8 ^ 10 := le_trans c2 f2
      _ = 8 ^ D * 8 ^ (10 - D) := hsplit
  exact Nat.le_of_mul_le_mul_right hmul hpos

theorem five_levels_of_thousand (n : Nat) (h : 1000 ≤ 8 ^ (n - 1)) : 5 ≤ n := by
  by_contra hn
  have h1 : n - 1 ≤ 3 := by omega
  have h2 : 8 ^ (n - 1) ≤ 8 ^ 3 := Nat.pow_le_pow_right (by omega) h1
  omega

/-- C32, as stated, fails: the 1000 points with the Morton codes `0, ..., 999`, a
cluster in one corner of the bounding box, give a tree with more than 4 levels. -/
theorem thousand_points_more_than_four_levels :
    (List.range 1000).length = 1000 ∧
    ∃ t, construct_tree (fun _ => true) (fun c : Nat => c) (List.range 1000) 10011 = .ok t ∧
      ¬ levels t ≤ 4 := by
  have h30 : ∀ p ∈ List.range 1000, (fun c : Nat => c) p < 2 ^ 30 := by
    intro p hp
    rw [List.mem_range] at hp
    show p < 2 ^ 30
    omega
  have hd : ((List.range 1000).map (fun c : Nat => c)).Nodup := by
    rw [List.map_id']
    exact List.nodup_range 1000
  obtain ⟨t, -, ht, -⟩ := construct_tree_total (fun _ => true) (fun c : Nat => c)
    (List.range 1000) (fun _ _ => rfl) h30 hd 10011 (by simp)
  refine ⟨by simp, t, ht, ?_⟩
  have hb := (tree_depth_bound (fun _ => true) (fun c : Nat => c) (List.range 1000) h30 hd
    10011 t ht).1
  rw [List.length_range] at hb
  have := five_levels_of_thousand _ hb
  omega

/-- C32, amended: on 1000 points inside the bounding box with pairwise distinct 30-bit
Morton codes `construct_tree` returns, and the tree has at least 5 and at most 11
levels: `levels()` is the number of levels, with `N` points there are at most
`8 ^ (levels() - 1)` leaves, and no key is deeper than the level 10. -/
theorem levels_between_five_and_eleven {α : Type} [Inhabited α] (contains : α → Bool)
    (code : α → Nat) (pts : List α) (hN : pts.length = 1000)
    (hc : ∀ p ∈ pts, contains p = true) (h30 : ∀ p ∈ pts, code p < 2 ^ 30)
    (hd : (pts.map code).Nodup) :
    (∀ fuel, 10 * pts.length + 11 ≤ fuel →
      ∃ t, construct_tree contains code pts fuel = .ok t) ∧
    ∀ fuel t, construct_tree contains code pts fuel = .ok t →
      pts.length ≤ 8 ^ (levels t - 1) ∧ 5 ≤ levels t ∧ levels t ≤ 11 := by
  refine ⟨?_, ?_⟩
  · intro fuel hf
    obtain ⟨t, -, ht, -⟩ := construct_tree_total contains code pts hc h30 hd fuel hf
    exact ⟨t, ht⟩
  · intro fuel t ht
    obtain ⟨b1, b2⟩ := tree_depth_bound contains code pts h30 hd fuel t ht
    refine ⟨b1, ?_, b2⟩
    rw [hN] at b1
    exact five_levels_of_thousand _ b1

/-- An instance: the points with the codes `0, ..., 999`. -/
theorem levels_between_five_and_eleven_witness :
    (List.range 1000).length = 1000 ∧
    (∀ p ∈ List.range 1000, (fun _ : Nat => true) p = true) ∧
    (∀ p ∈ List.range 1000, (fun c : Nat => c) p < 2 ^ 30) ∧
    ((List.range 1000).map (fun c : Nat => c)).Nodup ∧
    (∀ fuel, 10 * (List.range 1000).length + 11 ≤ fuel →
      ∃ t, construct_tree (fun _ => true) (fun c : Nat => c) (List.range 1000) fuel = .ok t) ∧
    ∀ fuel t, construct_tree (fun _ => true) (fun c : Nat => c) (List.range 1000) fuel = .ok t →
      (List.range 1000).length ≤ 8 ^ (levels t - 1) ∧ 5 ≤ levels t ∧ levels t ≤ 11 :=
  have h30 : ∀ p ∈ List.range 1000, (fun c : Nat => c) p < 2 ^ 30 := fun p hp => by
    rw [List.mem_range] at hp
    show p < 2 ^ 30
    omega
  have hd : ((List.range 1000).map (fun c : Nat => c)).Nodup := by
    rw [List.map_id']
    exact List.nodup_range 1000
  ⟨by simp, fun _ _ => rfl, h30, hd,
    levels_between_five_and_eleven (fun _ => true) (fun c : Nat => c) (List.range 1000)
      (by simp) (fun _ _ => rfl) h30 hd⟩

end Octree

namespace SphericalLaplaceKernel

/-! ## The two-sided form of the potential of `M2P` -/

theorem Icc_int_sum {A : Type} [AddCommMonoid A] (n : ℕ) (f : ℤ → A) :
    ∑ m ∈ Finset.Icc (-(n : ℤ)) n, f m =
      f 0 + ∑ t ∈ Finset.range n, (f ((t : ℤ) + 1) + f (-((t : ℤ) + 1))) := by
  induction n with
  | zero => simp
  | succ n ih =>
    have hI : Finset.Icc (-((n + 1 : ℕ) : ℤ)) ((n + 1 : ℕ) : ℤ) =
        insert (((n : ℤ) + 1)) (insert (-((n : ℤ) + 1)) (Finset.Icc (-(n : ℤ)) n)) := by
      ext t
      simp only [Finset.mem_Icc, Finset.mem_insert, Nat.cast_add, Nat.cast_one]
      omega
    rw [hI, Finset.sum_insert, Finset.sum_insert, ih, Finset.sum_range_succ]
    · abel
    · simp only [Finset.mem_Icc]
      omega
    · simp only [Finset.mem_insert, Finset.mem_Icc]
      omega

theorem re_add_conj (z w : ℂ) : (z * w + (starRingEnd ℂ) z * (starRingEnd ℂ) w).re =
    2 * (z * w).re := by
  rw [← map_mul, Complex.add_re, Complex.conj_re]
  ring

theorem two_sided_index (n t : ℕ) (ht : t ≤ n) :
    ((n : ℤ) * (n + 1) / 2 + (t : ℤ)).toNat = n * (n + 1) / 2 + t ∧
    ((n : ℤ) * (n + 1) / 2 - (-(t : ℤ))).toNat = n * (n + 1) / 2 + t ∧
    nm_index n (t : ℤ) = n * n + n + t ∧ nm_index n (-(t : ℤ)) = n * n + n - t := by
  have e : ((n : ℤ) * ((n : ℤ) + 1) / 2 + (t : ℤ)) = ((n * (n + 1) / 2 + t : ℕ) : ℤ) := by
    push_cast
    rfl
  refine ⟨by rw [e, Int.toNat_natCast], ?_, nm_index_natCast n t, ?_⟩
  · rw [sub_neg_eq_add, e, Int.toNat_natCast]
  · unfold nm_index
    have h2 : t ≤ n * n + n := by nlinarith
    have : ((n : ℤ) * n + n + -(t : ℤ)) = ((n * n + n - t : ℕ) : ℤ) := by
      push_cast [h2]
      ring
    rw [this, Int.toNat_natCast]

theorem M2P_potential_eq_two_sided (F : cmath ℝ ℂ) (hF : F.exact) (pref : ℕ → ℝ) (P : ℕ)
    (ρ α β : ℝ) (Y0 T0 M : ℕ → ℂ) :
    M2P_potential F M (evalLocal F pref P ρ α β Y0 T0).1 P =
      two_sided_potential F M (evalLocal F pref P ρ α β Y0 T0).1 P := by
  have hre : F.real = Complex.re := hF.2.2.2.2.2.2.2.2.1
  have hconj : F.conj = starRingEnd ℂ := hF.2.2.2.2.2.2.2.1
  unfold M2P_potential two_sided_potential
  rw [hre, Complex.re_sum]
  apply Finset.sum_congr rfl
  intro n hn
  rw [Finset.mem_range] at hn
  rw [Icc_int_sum, Complex.add_re, Complex.re_sum]
  have h0 : (M_two_sided F M n 0 * (evalLocal F pref P ρ α β Y0 T0).1 (nm_index n 0)).re =
      (M (n * (n + 1) / 2) * (evalLocal F pref P ρ α β Y0 T0).1 (n * n + n)).re := by
    have i0 := two_sided_index n 0 (Nat.zero_le _)
    simp only [Nat.cast_zero, add_zero] at i0
    unfold M_two_sided
    rw [if_neg (by omega), add_zero, i0.1, i0.2.2.1]
  have hI : Finset.Icc 1 n = Finset.Ico 1 (n + 1) := by
    ext t
    simp only [Finset.mem_Icc, Finset.mem_Ico]
    omega
  rw [h0, hI, Finset.sum_Ico_eq_sum_range, Nat.add_sub_cancel]
  refine congrArg _ ?_
  apply Finset.sum_congr rfl
  intro t ht
  rw [Finset.mem_range] at ht
  have hs := evalLocal_stored F hF pref P ρ α β Y0 T0 (t + 1) n (by omega) (by omega)
  obtain ⟨s1, s2, -⟩ := hs
  have i1 := two_sided_index n (t + 1) (by omega)
  have c1 : ((t : ℤ) + 1) = ((t + 1 : ℕ) : ℤ) := by push_cast; ring
  unfold M_two_sided
  rw [c1, if_neg (by omega), if_pos (by omega), i1.1, i1.2.1, i1.2.2.1, i1.2.2.2, s2, ← s1,
    hconj, re_add_conj, Nat.add_comm 1 t]

/-- C33: for every multipole `M` of the source cell, `M2P` adds to `TRG[0]` of every
target the sum over `n < P` of `Re(M[n,0] Y[n,0]) + 2 Σ_{m=1..n} Re(M[n,m] Y[n,m])`, and
this sum equals the real part of the two-sided sum over `n < P` and `-n ≤ m ≤ n` of
`Mt[n,m] * Ynm[n*n+n+m]` with `Mt[n,-m] = conj(M[n,m])` and `Ynm` the output of
`evalLocal` at `cart2sph(B.X - Cj.X - Xperiodic)`. -/
theorem M2P_potential_is_two_sided_sum (F : cmath ℝ ℂ) (hF : F.exact) (EPS : ℝ)
    (Xperiodic : vect ℝ) (prefactor : ℕ → ℝ) (P : ℕ) (Ci : List (Body ℝ)) (Cj : Cell ℝ ℂ) :
    (M2P F EPS Xperiodic prefactor P Ci Cj).map (fun B => B.TRG.v0) =
      Ci.map (fun B => B.TRG.v0 + M2P_potential F Cj.M
        (evalLocal F prefactor P (cart2sph F EPS ((B.X.sub Cj.X).sub Xperiodic)).1
          (cart2sph F EPS ((B.X.sub Cj.X).sub Xperiodic)).2.1
          (cart2sph F EPS ((B.X.sub Cj.X).sub Xperiodic)).2.2 (fun _ => 0) (fun _ => 0)).1 P) ∧
    ∀ (ρ α β : ℝ) (Y0 T0 : ℕ → ℂ),
      M2P_potential F Cj.M (evalLocal F prefactor P ρ α β Y0 T0).1 P =
        two_sided_potential F Cj.M (evalLocal F prefactor P ρ α β Y0 T0).1 P := by
  refine ⟨?_, fun ρ α β Y0 T0 =>
    M2P_potential_eq_two_sided F hF prefactor P ρ α β Y0 T0 Cj.M⟩
  rw [M2P_eq_map F hF, List.map_map]
  rfl

/-- An instance: the multipole `M[i] = 1`, a target at `(0, 0, 1)`, `P = 2` and
`EPS = 1e-6`. -/
theorem M2P_potential_is_two_sided_sum_witness :
    cmath.exact (⟨Real.sqrt, Real.cos, Real.sin, Real.arccos, Real.arctan, Real.pi,
        Complex.ofReal, starRingEnd ℂ, Complex.re, Complex.exp,
        fun (z : ℂ) (t : ℝ) => z ^ (t : ℂ), Complex.I⟩ : cmath ℝ ℂ) ∧
      ((M2P (⟨Real.sqrt, Real.cos, Real.sin, Real.arccos, Real.arctan, Real.pi,
          Complex.ofReal, starRingEnd ℂ, Complex.re, Complex.exp,
          fun (z : ℂ) (t : ℝ) => z ^ (t : ℂ), Complex.I⟩ : cmath ℝ ℂ)
        (1 / 1000000) ⟨0, 0, 0⟩ (fun _ => 1) 2 [⟨⟨0, 0, 1⟩, 0, ⟨0, 0, 0, 0⟩⟩]
        ⟨⟨0, 0, 0⟩, 0, 0, 0, fun _ => 1, fun _ => 0⟩).map (fun B => B.TRG.v0)).length = 1 :=
  ⟨⟨rfl, rfl, rfl, rfl, rfl, rfl, rfl, rfl, rfl, rfl, rfl, rfl⟩, by
    rw [(M2P_potential_is_two_sided_sum _
      ⟨rfl, rfl, rfl, rfl, rfl, rfl, rfl, rfl, rfl, rfl, rfl, rfl⟩ _ _ _ _ _ _).1]
    rfl⟩

end SphericalLaplaceKernel

namespace Dataset

open SphericalLaplaceKernel

/-! ## The potential seed of `initTarget` and the self pair of `P2P` -/

theorem sum_map_eraseIdx {A : Type} (f : A → ℝ) (l : List A) (i : ℕ) (hi : i < l.length) :
    (l.map f).sum = f (l.get ⟨i, hi⟩) + ((l.eraseIdx i).map f).sum := by
  induction l generalizing i with
  | nil => exact absurd hi (Nat.not_lt_zero _)
  | cons a rest ih =>
    cases i with
    | zero => rfl
    | succ i =>
      have hi' : i < rest.length := Nat.lt_of_succ_lt_succ hi
      rw [List.eraseIdx_cons_succ, List.map_cons, List.sum_cons, List.map_cons, List.sum_cons,
        ih i hi']
      simp only [List.get_eq_getElem, List.getElem_cons_succ]
      ring

theorem initTarget_seeded (EPS2 : ℝ) (hE : 0 < EPS2) (bodies : List (Body ℝ)) :
    initTarget Real.sqrt EPS2 bodies true =
      bodies.map (fun B => ⟨B.X, B.SRC, ⟨-B.SRC / Real.sqrt EPS2, 0, 0, 0⟩⟩) := by
  unfold initTarget
  apply List.map_congr_left
  intro B _
  simp [ne_of_gt hE]

theorem initTarget_cleared (EPS2 : ℝ) (bodies : List (Body ℝ)) (IeqJ : Bool)
    (h : EPS2 = 0 ∨ IeqJ = false) :
    initTarget Real.sqrt EPS2 bodies IeqJ =
      bodies.map (fun B => ⟨B.X, B.SRC, ⟨0, 0, 0, 0⟩⟩) := by
  unfold initTarget
  apply List.map_congr_left
  intro B _
  rcases h with h | h
  · simp [h]
  · subst h
    by_cases h0 : EPS2 = 0
    · simp [h0]
    · simp [h0]

theorem P2P_pair_fields (EPS2 : ℝ) (Xperiodic Xi : vect ℝ) (B : Body ℝ) (T : vec4 ℝ) :
    P2P_pair Real.sqrt EPS2 Xperiodic Xi ⟨B.X, B.SRC, T⟩ =
      P2P_pair Real.sqrt EPS2 Xperiodic Xi B := rfl

theorem self_pair_value (EPS2 : ℝ) (hE : 0 < EPS2) (B : Body ℝ) :
    (P2P_pair Real.sqrt EPS2 ⟨0, 0, 0⟩ B.X B).1 = B.SRC * Real.sqrt (1 / EPS2) ∧
      -B.SRC / Real.sqrt EPS2 = -(B.SRC * Real.sqrt (1 / EPS2)) := by
  have hn : SphericalLaplaceKernel.norm (((B.X.sub B.X).sub ⟨0, 0, 0⟩ : vect ℝ)) = 0 := by
    simp [SphericalLaplaceKernel.norm, vect.sub]
  have hne : EPS2 ≠ 0 := ne_of_gt hE
  constructor
  · simp only [P2P_pair, hn, zero_add, if_neg hne]
  · rw [one_div, Real.sqrt_inv]
    ring

theorem initTarget_P2P_sums (EPS2 : ℝ) (hE : 0 < EPS2) (bodies : List (Body ℝ)) :
    (P2P Real.sqrt EPS2 ⟨0, 0, 0⟩ (initTarget Real.sqrt EPS2 bodies true)
        (initTarget Real.sqrt EPS2 bodies true)).map (fun B => B.TRG.v0) =
      bodies.map (fun Bi => -Bi.SRC / Real.sqrt EPS2 +
        (bodies.map (pair_potential Real.sqrt EPS2 ⟨0, 0, 0⟩ Bi.X)).sum) := by
  rw [initTarget_seeded EPS2 hE]
  unfold P2P P2P_sums
  rw [List.map_map, List.map_map]
  apply List.map_congr_left
  intro Bi _
  simp only [Function.comp_apply]
  rw [P2P_sums_foldl]
  simp only [List.map_map, zero_add]
  congr 2
  apply List.map_congr_left
  intro B _
  exact (P2P_pair_eq EPS2 (le_of_lt hE) ⟨0, 0, 0⟩ Bi.X B).1

theorem initTarget_P2P_potential (EPS2 : ℝ) (hE : 0 < EPS2) (bodies : List (Body ℝ)) :
    (P2P Real.sqrt EPS2 ⟨0, 0, 0⟩ (initTarget Real.sqrt EPS2 bodies true)
        (initTarget Real.sqrt EPS2 bodies true)).map (fun B => B.TRG.v0) =
      (List.finRange bodies.length).map (fun i =>
        ((bodies.eraseIdx i.1).map
          (pair_potential Real.sqrt EPS2 ⟨0, 0, 0⟩ (bodies.get i).X)).sum) := by
  rw [initTarget_P2P_sums EPS2 hE]
  apply List.ext_get
  · simp
  · intro i h1 h2
    have hi : i < bodies.length := by simpa using h1
    simp only [List.get_eq_getElem, List.getElem_map, List.getElem_finRange]
    rw [sum_map_eraseIdx _ bodies i hi]
    have hs := self_pair_value EPS2 hE bodies[i]
    simp only [List.get_eq_getElem, Fin.cast_mk]
    rw [← (P2P_pair_eq EPS2 (le_of_lt hE) ⟨0, 0, 0⟩ bodies[i].X bodies[i]).1, hs.1, hs.2]
    ring

/-- C39: for `EPS2 > 0` and `IeqJ = true`, `initTarget` sets `TRG[0] = -SRC / sqrt(EPS2)`
and clears the force; this seed is the negative of the term `SRC * sqrt(1 / EPS2)` that
`P2P` with `Xperiodic = 0` adds for the pair of a body with itself, so that after
`initTarget` and `P2P` of a cell on itself `TRG[0]` of the body `i` is the sum of
`SRC_j / sqrt(R2_ij)` over the bodies `j ≠ i`. For `EPS2 = 0`, or `IeqJ = false`,
`initTarget` leaves `TRG = 0`. -/
theorem initTarget_cancels_self_pair (EPS2 : ℝ) (hE : 0 ≤ EPS2) (bodies : List (Body ℝ)) :
    (EPS2 ≠ 0 →
      initTarget Real.sqrt EPS2 bodies true =
          bodies.map (fun B => ⟨B.X, B.SRC, ⟨-B.SRC / Real.sqrt EPS2, 0, 0, 0⟩⟩) ∧
        (∀ B : Body ℝ,
          (P2P_pair Real.sqrt EPS2 ⟨0, 0, 0⟩ B.X B).1 = B.SRC * Real.sqrt (1 / EPS2) ∧
          -B.SRC / Real.sqrt EPS2 = -(P2P_pair Real.sqrt EPS2 ⟨0, 0, 0⟩ B.X B).1) ∧
        (P2P Real.sqrt EPS2 ⟨0, 0, 0⟩ (initTarget Real.sqrt EPS2 bodies true)
            (initTarget Real.sqrt EPS2 bodies true)).map (fun B => B.TRG.v0) =
          (List.finRange bodies.length).map (fun i =>
            ((bodies.eraseIdx i.1).map
              (pair_potential Real.sqrt EPS2 ⟨0, 0, 0⟩ (bodies.get i).X)).sum)) ∧
    (∀ IeqJ : Bool, EPS2 = 0 ∨ IeqJ = false →
      initTarget Real.sqrt EPS2 bodies IeqJ =
        bodies.map (fun B => ⟨B.X, B.SRC, ⟨0, 0, 0, 0⟩⟩)) := by
  refine ⟨fun hne => ?_, fun IeqJ h => initTarget_cleared EPS2 bodies IeqJ h⟩
  have hpos : 0 < EPS2 := lt_of_le_of_ne hE (Ne.symm hne)
  refine ⟨initTarget_seeded EPS2 hpos bodies, fun B => ?_,
    initTarget_P2P_potential EPS2 hpos bodies⟩
  have hs := self_pair_value EPS2 hpos B
  exact ⟨hs.1, by rw [hs.1, hs.2]⟩

/-- An instance: `EPS2 = 4` and two bodies of weight 5 and 7; the seeds are `-5/2` and
`-7/2`. -/
theorem initTarget_cancels_self_pair_witness :
    (0 : ℝ) ≤ 4 ∧ (4 : ℝ) ≠ 0 ∧
      initTarget Real.sqrt (4 : ℝ)
          [⟨⟨1, 2, 3⟩, 5, ⟨9, 9, 9, 9⟩⟩, ⟨⟨0, 0, 0⟩, 7, ⟨9, 9, 9, 9⟩⟩] true =
        [⟨⟨1, 2, 3⟩, 5, ⟨-5 / Real.sqrt 4, 0, 0, 0⟩⟩,
          ⟨⟨0, 0, 0⟩, 7, ⟨-7 / Real.sqrt 4, 0, 0, 0⟩⟩] :=
  ⟨by norm_num, by norm_num,
    ((initTarget_cancels_self_pair 4 (by norm_num)
      [⟨⟨1, 2, 3⟩, 5, ⟨9, 9, 9, 9⟩⟩, ⟨⟨0, 0, 0⟩, 7, ⟨9, 9, 9, 9⟩⟩]).1 (by norm_num)).1⟩

end Dataset

namespace SphericalLaplaceKernel

/-! ## The kernel `L2L` -/

theorem L2L_single_L {K C : Type} [LinearOrderedField K] [Field C] (F : cmath K C)
    (EPS : K) (T : tables K C) (P : ℕ) (Ci Cj : Cell K C) (j k : ℕ) (hk : k ≤ j)
    (hj : j < P) :
    (L2L F EPS T P Ci Cj).L (j * (j + 1) / 2 + k) =
      Ci.L (j * (j + 1) / 2 + k) + L2L_jk F T.Anm P Cj.L
        (evalMultipole F T.prefactor P (cart2sph F EPS (Ci.X.sub Cj.X)).1
          (cart2sph F EPS (Ci.X.sub Cj.X)).2.1 (cart2sph F EPS (Ci.X.sub Cj.X)).2.2
          (fun _ => 0) (fun _ => 0)).1 j k * F.ofReal EPS := by
  unfold L2L
  exact (triangle_loops P (fun j k => L2L_jk F T.Anm P Cj.L
        (evalMultipole F T.prefactor P (cart2sph F EPS (Ci.X.sub Cj.X)).1
          (cart2sph F EPS (Ci.X.sub Cj.X)).2.1 (cart2sph F EPS (Ci.X.sub Cj.X)).2.2
          (fun _ => 0) (fun _ => 0)).1 j k * F.ofReal EPS) Ci.L).1 j k hk hj

/-- For the highest degree `j = P - 1` the loops over `n` and `m` of `L2L` run the single
pass `n = j`, `m = k`. -/
theorem L2L_jk_top {K C : Type} [LinearOrderedField K] [Field C] (F : cmath K C)
    (Anm : ℕ → K) (L Ynm : ℕ → C) (j k : ℕ) (hk : k ≤ j) :
    L2L_jk F Anm (j + 1) L Ynm j k =
      L (j * (j + 1) / 2 + k) * F.pow F.I (((0 : ℤ)) : K) * Ynm 0
        * F.ofReal (Anm 0) * F.ofReal (Anm (j * j + j + k)) / F.ofReal (Anm (j * j + j + k)) := by
  unfold L2L_jk
  dsimp only
  rw [for_range_succ j j le_rfl, for_range_empty j j le_rfl]
  rw [for_int_empty ((j : ℤ) + k - j) (-1) (by omega), for_int_sum_if, zero_add,
    Finset.sum_eq_single (k : ℤ)]
  · have e1 : ((j : ℤ) - j) * ((j : ℤ) - j) + j - j + k - k = 0 := by ring
    have e2 : ((k : ℤ) - k - |(k : ℤ) - k|) = 0 := by simp
    have e3 : ((j : ℤ) * j + j + k).toNat = j * j + j + k := by
      have : ((j : ℤ) * j + j + k) = ((j * j + j + k : ℕ) : ℤ) := by push_cast; ring
      rw [this, Int.toNat_natCast]
    rw [if_pos (by simp), e1, e2, e3, triangle_toNat, Int.toNat_zero]
  · intro m hm hne
    rw [if_neg]
    intro h
    have : |m - (k : ℤ)| ≤ 0 := by linarith
    have := abs_nonpos_iff.mp this
    omega
  · intro h
    exfalso
    apply h
    simp only [Finset.mem_Icc]
    omega

theorem evalMultipole_zero_entry (F : cmath ℝ ℂ) (hF : F.exact) (EPS : ℝ) (P : ℕ)
    (hP : 1 ≤ P) (raw T : tables ℝ ℂ) (h : preCalculation F EPS P raw = some T)
    (ρ α β : ℝ) (Y0 T0 : ℕ → ℂ) :
    (evalMultipole F T.prefactor P ρ α β Y0 T0).1 0 = 1 := by
  have e := (evalMultipole_entry F hF T.prefactor P ρ α β Y0 T0 0 0 (by simp) (by omega)).1
  have hp := preCalculation_prefactor F hF EPS P raw T h 0 0 (le_refl 0) (by omega)
  simp only [Nat.cast_zero, mul_zero, add_zero, Int.toNat_zero, pow_zero, Int.natAbs_zero,
    Nat.sub_zero, one_mul, zero_mul, Complex.exp_zero, mul_one] at e
  simp only [mul_zero, add_zero] at hp
  rw [e, hp]
  simp [legendre]

theorem L2L_top_term (F : cmath ℝ ℂ) (hF : F.exact) (EPS : ℝ) (hE : 0 < EPS) (P : ℕ)
    (raw T : tables ℝ ℂ) (h : preCalculation F EPS P raw = some T) (j k : ℕ) (hk : k ≤ j)
    (hj : j < P) :
    T.Anm 0 = 1 / EPS ∧ T.Anm (j * j + j + k) ≠ 0 ∧
      T.Anm 0 * T.Anm (j * j + j + k) / T.Anm (j * j + j + k) * EPS = 1 ∧
      F.pow F.I (((0 : ℤ)) : ℝ) = 1 := by
  have hk' : |(k : ℤ)| ≤ (j : ℤ) := by
    rw [abs_of_nonneg (Int.natCast_nonneg k)]
    exact_mod_cast hk
  have h0 := preCalculation_Anm F hF EPS hE P raw T h 0 0 (by simp) (by omega)
  have h1 := preCalculation_Anm F hF EPS hE P raw T h j k hk' (by omega)
  rw [nm_index_natCast] at h1
  have h0' : T.Anm 0 = 1 / EPS := by
    have e : nm_index 0 0 = 0 := by decide
    rw [e, a_nm_zero_zero] at h0
    exact h0
  have hne : T.Anm (j * j + j + k) ≠ 0 := by
    rw [h1]
    exact div_ne_zero (a_nm_ne_zero j k) (ne_of_gt hE)
  refine ⟨h0', hne, ?_, ?_⟩
  · rw [h0', mul_div_assoc, div_self hne, mul_one, one_div, inv_mul_cancel₀ (ne_of_gt hE)]
  · rw [hF.2.2.2.2.2.2.2.2.2.2.1]
    simp

/-- C35: for `EPS > 0`, `P ≥ 1` and the tables of `preCalculation`, `L2L` adds to the
coefficient `L[j(j+1)/2+k]` of the child with `j = P - 1` and `0 ≤ k ≤ j` the coefficient
of the parent at the same index, for every position of the two cells: the loops run the
single pass `n = j`, `m = k`, whose harmonic is `Ynm[0] = 1`, whose power of `I` is 1 and
whose factors `Anm[0] * Anm[jk] / Anm[jk] * EPS` give 1. -/
theorem L2L_copies_top_degree (F : cmath ℝ ℂ) (hF : F.exact) (EPS : ℝ) (hE : 0 < EPS)
    (P : ℕ) (hP : 1 ≤ P) (raw : tables ℝ ℂ) (Ci Cj : Cell ℝ ℂ) (k : ℕ) (hk : k ≤ P - 1) :
    ∃ T, preCalculation F EPS P raw = some T ∧
      (L2L F EPS T P Ci Cj).L ((P - 1) * (P - 1 + 1) / 2 + k) =
        Ci.L ((P - 1) * (P - 1 + 1) / 2 + k) + Cj.L ((P - 1) * (P - 1 + 1) / 2 + k) ∧
      L2L_jk F T.Anm P Cj.L
          (evalMultipole F T.prefactor P (cart2sph F EPS (Ci.X.sub Cj.X)).1
            (cart2sph F EPS (Ci.X.sub Cj.X)).2.1 (cart2sph F EPS (Ci.X.sub Cj.X)).2.2
            (fun _ => 0) (fun _ => 0)).1 (P - 1) k =
        Cj.L ((P - 1) * (P - 1 + 1) / 2 + k) * F.pow F.I (((0 : ℤ)) : ℝ)
          * (evalMultipole F T.prefactor P (cart2sph F EPS (Ci.X.sub Cj.X)).1
            (cart2sph F EPS (Ci.X.sub Cj.X)).2.1 (cart2sph F EPS (Ci.X.sub Cj.X)).2.2
            (fun _ => 0) (fun _ => 0)).1 0
          * F.ofReal (T.Anm 0) * F.ofReal (T.Anm ((P - 1) * (P - 1) + (P - 1) + k))
          / F.ofReal (T.Anm ((P - 1) * (P - 1) + (P - 1) + k)) ∧
      (evalMultipole F T.prefactor P (cart2sph F EPS (Ci.X.sub Cj.X)).1
          (cart2sph F EPS (Ci.X.sub Cj.X)).2.1 (cart2sph F EPS (Ci.X.sub Cj.X)).2.2
          (fun _ => 0) (fun _ => 0)).1 0 = 1 ∧
      F.pow F.I (((0 : ℤ)) : ℝ) = 1 ∧
      T.Anm 0 * T.Anm ((P - 1) * (P - 1) + (P - 1) + k)
        / T.Anm ((P - 1) * (P - 1) + (P - 1) + k) * EPS = 1 := by
  obtain ⟨T, hT⟩ := preCalculation_some F EPS P (by omega) raw
  obtain ⟨j, rfl⟩ : ∃ j, P = j + 1 := ⟨P - 1, by omega⟩
  simp only [Nat.add_sub_cancel] at hk ⊢
  obtain ⟨a0, ane, acancel, hpow⟩ := L2L_top_term F hF EPS hE (j + 1) raw T hT j k hk
    (Nat.lt_succ_self j)
  have hY := evalMultipole_zero_entry F hF EPS (j + 1) hP raw T hT
    (cart2sph F EPS (Ci.X.sub Cj.X)).1 (cart2sph F EPS (Ci.X.sub Cj.X)).2.1
    (cart2sph F EPS (Ci.X.sub Cj.X)).2.2 (fun _ => 0) (fun _ => 0)
  have hjk := L2L_jk_top F T.Anm Cj.L
    (evalMultipole F T.prefactor (j + 1) (cart2sph F EPS (Ci.X.sub Cj.X)).1
      (cart2sph F EPS (Ci.X.sub Cj.X)).2.1 (cart2sph F EPS (Ci.X.sub Cj.X)).2.2
      (fun _ => 0) (fun _ => 0)).1 j k hk
  refine ⟨T, hT, ?_, hjk, hY, hpow, acancel⟩
  rw [L2L_single_L F EPS T (j + 1) Ci Cj j k hk (Nat.lt_succ_self j), hjk, hY, hpow,
    hF.2.2.2.2.2.2.1]
  have hne : ((T.Anm (j * j + j + k) : ℝ) : ℂ) ≠ 0 := by exact_mod_cast ane
  have hEne : ((EPS : ℝ) : ℂ) ≠ 0 := by exact_mod_cast (ne_of_gt hE)
  rw [a0]
  congr 1
  push_cast
  field_simp
  ring

/-- An instance: `P = 2`, `EPS = 1e-6`, the child at `(1, 2, 3)`, the parent at the origin
with the local coefficients `L[i] = 5`, and the coefficient `(j, k) = (1, 1)`. -/
theorem L2L_copies_top_degree_witness :
    cmath.exact (⟨Real.sqrt, Real.cos, Real.sin, Real.arccos, Real.arctan, Real.pi,
        Complex.ofReal, starRingEnd ℂ, Complex.re, Complex.exp,
        fun (z : ℂ) (t : ℝ) => z ^ (t : ℂ), Complex.I⟩ : cmath ℝ ℂ) ∧
      (0 : ℝ) < 1 / 1000000 ∧ 1 ≤ 2 ∧ 1 ≤ 2 - 1 ∧
      ∃ T, preCalculation (⟨Real.sqrt, Real.cos, Real.sin, Real.arccos, Real.arctan, Real.pi,
          Complex.ofReal, starRingEnd ℂ, Complex.re, Complex.exp,
          fun (z : ℂ) (t : ℝ) => z ^ (t : ℂ), Complex.I⟩ : cmath ℝ ℂ)
        (1 / 1000000) 2 ⟨fun _ => 0, fun _ => 0, fun _ => 0, fun _ => 0⟩ = some T ∧
      (L2L (⟨Real.sqrt, Real.cos, Real.sin, Real.arccos, Real.arctan, Real.pi,
          Complex.ofReal, starRingEnd ℂ, Complex.re, Complex.exp,
          fun (z : ℂ) (t : ℝ) => z ^ (t : ℂ), Complex.I⟩ : cmath ℝ ℂ) (1 / 1000000) T 2
        ⟨⟨1, 2, 3⟩, 0, 0, 0, fun _ => 0, fun _ => 7⟩
        ⟨⟨0, 0, 0⟩, 0, 0, 0, fun _ => 0, fun _ => 5⟩).L 2 = 7 + 5 := by
  refine ⟨⟨rfl, rfl, rfl, rfl, rfl, rfl, rfl, rfl, rfl, rfl, rfl, rfl⟩, by norm_num,
    by norm_num, by norm_num, ?_⟩
  obtain ⟨T, hT, h0, -⟩ := L2L_copies_top_degree
    (⟨Real.sqrt, Real.cos, Real.sin, Real.arccos, Real.arctan, Real.pi,
      Complex.ofReal, starRingEnd ℂ, Complex.re, Complex.exp,
      fun (z : ℂ) (t : ℝ) => z ^ (t : ℂ), Complex.I⟩ : cmath ℝ ℂ)
    ⟨rfl, rfl, rfl, rfl, rfl, rfl, rfl, rfl, rfl, rfl, rfl, rfl⟩ (1 / 1000000)
    (by norm_num) 2 (by norm_num) ⟨fun _ => 0, fun _ => 0, fun _ => 0, fun _ => 0⟩
    ⟨⟨1, 2, 3⟩, 0, 0, 0, fun _ => 0, fun _ => 7⟩
    ⟨⟨0, 0, 0⟩, 0, 0, 0, fun _ => 0, fun _ => 5⟩ 1 (by norm_num)
  exact ⟨T, hT, h0⟩

/-! ## The coefficient of degree 0 in the upward pass -/

theorem sum_map_ofReal {A : Type} (f : A → ℝ) (l : List A) :
    (l.map (fun a => ((f a : ℝ) : ℂ))).sum = (((l.map f).sum : ℝ) : ℂ) := by
  induction l with
  | nil => simp
  | cons a rest ih => simp [ih]

theorem P2M_monopole (F : cmath ℝ ℂ) (hF : F.exact) (EPS : ℝ) (P : ℕ) (hP : 1 ≤ P)
    (raw T : tables ℝ ℂ) (h : preCalculation F EPS P raw = some T) (Cj : Cell ℝ ℂ)
    (bodies : List (Body ℝ)) :
    (P2M F EPS T.prefactor P Cj bodies).M 0 =
      Cj.M 0 + (((bodies.map (fun B => B.SRC)).sum : ℝ) : ℂ) := by
  have h1 := (P2M_fold_M F hF EPS T.prefactor P Cj bodies
    ⟨0, fun _ => 0, fun _ => 0, Cj.M⟩).1 0 0 (le_refl 0) (by omega)
  have h' : (P2M F EPS T.prefactor P Cj bodies).M 0 = _ := h1
  rw [h']
  congr 1
  have e : ∀ B : Body ℝ, (B.SRC : ℂ) *
      (evalMultipole F T.prefactor P (cart2sph F EPS (B.X.sub Cj.X)).1
        (cart2sph F EPS (B.X.sub Cj.X)).2.1 (-(cart2sph F EPS (B.X.sub Cj.X)).2.2)
        (fun _ => 0) (fun _ => 0)).1 (0 * 0 + 0 + 0) = (B.SRC : ℂ) := by
    intro B
    have := evalMultipole_zero_entry F hF EPS P hP raw T h
      (cart2sph F EPS (B.X.sub Cj.X)).1 (cart2sph F EPS (B.X.sub Cj.X)).2.1
      (-(cart2sph F EPS (B.X.sub Cj.X)).2.2) (fun _ => 0) (fun _ => 0)
    simp only [mul_zero, add_zero] at this ⊢
    rw [this, mul_one]
  simp only [e]
  exact sum_map_ofReal (fun B : Body ℝ => B.SRC) bodies

theorem M2M_jk_zero (F : cmath ℝ ℂ) (hF : F.exact) (EPS : ℝ) (hE : 0 < EPS) (P : ℕ)
    (hP : 1 ≤ P) (raw T : tables ℝ ℂ) (h : preCalculation F EPS P raw = some T)
    (M Ynm : ℕ → ℂ) (hY : Ynm 0 = 1) :
    M2M_jk F T.Anm M Ynm 0 0 * F.ofReal EPS = (starRingEnd ℂ) (M 0) := by
  obtain ⟨a0, ane, acancel, -⟩ := L2L_top_term F hF EPS hE P raw T h 0 0 (le_refl 0)
    (by omega)
  simp only [mul_zero, add_zero] at ane acancel
  rw [M2M_jk_sum]
  have e1 : Finset.Icc (-(((0 : ℕ) : ℤ))) (min ((((0 : ℕ) : ℤ)) - 1) ((0 : ℕ) : ℤ)) = ∅ := by
    decide
  have e2 : Finset.Icc (((0 : ℕ) : ℤ)) ((0 : ℕ) : ℤ) = {0} := by decide
  rw [Finset.sum_range_one, e1, e2, Finset.sum_empty, zero_add, Finset.sum_singleton,
    if_pos (by simp)]
  have i1 : ((((0 : ℕ) : ℤ) - ((0 : ℕ) : ℤ)) * (((0 : ℕ) : ℤ) - ((0 : ℕ) : ℤ) + 1) / 2
      - ((0 : ℕ) : ℤ) + 0).toNat = 0 := by decide
  have i2 : ((((0 : ℕ) : ℤ)) * ((0 : ℕ) : ℤ) + ((0 : ℕ) : ℤ) + 0).toNat = 0 := by decide
  have i3 : ((((0 : ℕ) : ℤ) - ((0 : ℕ) : ℤ)) * (((0 : ℕ) : ℤ) - ((0 : ℕ) : ℤ))
      + ((0 : ℕ) : ℤ) - ((0 : ℕ) : ℤ) + ((0 : ℕ) : ℤ) - 0).toNat = 0 := by decide
  have i4 : ODDEVEN (((0 : ℕ) : ℤ) + ((0 : ℕ) : ℤ) + 0) = 1 := by decide
  rw [i1, i2, i3, i4, hY, hF.2.2.2.2.2.2.1, hF.2.2.2.2.2.2.2.1, mul_one, mul_assoc,
    ← Complex.ofReal_mul]
  simp only [mul_zero, add_zero, Int.cast_one, one_mul]
  rw [acancel, Complex.ofReal_one, mul_one]

theorem M2M_body_monopole (F : cmath ℝ ℂ) (hF : F.exact) (EPS : ℝ) (hE : 0 < EPS) (P : ℕ)
    (hP : 1 ≤ P) (raw T : tables ℝ ℂ) (h : preCalculation F EPS P raw = some T)
    (Ci : Cell ℝ ℂ) (s : M2M_state ℝ ℂ) (Cj : Cell ℝ ℂ) :
    (M2M_body F EPS T P Ci s Cj).M 0 = s.M 0 + (starRingEnd ℂ) (Cj.M 0) := by
  unfold M2M_body
  have ht := (triangle_loops P (fun j k => M2M_jk F T.Anm Cj.M
    (evalMultipole F T.prefactor P (cart2sph F EPS (Ci.X.sub Cj.X)).1
      (cart2sph F EPS (Ci.X.sub Cj.X)).2.1 (-(cart2sph F EPS (Ci.X.sub Cj.X)).2.2)
      s.Ynm s.YnmTheta).1 j k * F.ofReal EPS) s.M).1 0 0 (le_refl 0) (by omega)
  simp only [zero_mul, Nat.zero_div, add_zero] at ht
  dsimp only
  rw [ht, M2M_jk_zero F hF EPS hE P hP raw T h _ _
    (evalMultipole_zero_entry F hF EPS P hP raw T h _ _ _ _ _)]

theorem M2M_monopole (F : cmath ℝ ℂ) (hF : F.exact) (EPS : ℝ) (hE : 0 < EPS) (P : ℕ)
    (hP : 1 ≤ P) (raw T : tables ℝ ℂ) (h : preCalculation F EPS P raw = some T)
    (Ci : Cell ℝ ℂ) (children : List (Cell ℝ ℂ)) :
    (M2M F EPS T P Ci children).M 0 =
      Ci.M 0 + (children.map (fun Cj => (starRingEnd ℂ) (Cj.M 0))).sum := by
  unfold M2M
  dsimp only
  have : ∀ (s : M2M_state ℝ ℂ), (children.foldl (M2M_body F EPS T P Ci) s).M 0 =
      s.M 0 + (children.map (fun Cj => (starRingEnd ℂ) (Cj.M 0))).sum := by
    induction children with
    | nil => intro s; simp
    | cons Cj rest ih =>
      intro s
      rw [List.foldl_cons, ih, M2M_body_monopole F hF EPS hE P hP raw T h, List.map_cons,
        List.sum_cons, add_assoc]
  exact this ⟨Ci.RMAX, fun _ => 0, fun _ => 0, Ci.M⟩

theorem upward_monopoles (F : cmath ℝ ℂ) (hF : F.exact) (EPS : ℝ) (hE : 0 < EPS) (P : ℕ)
    (hP : 1 ≤ P) (raw T : tables ℝ ℂ) (h : preCalculation F EPS P raw = some T)
    (b : Boxes ℝ) :
    (upward F EPS T P b).1.map (fun c => c.M 0) =
        (subtree_weight b).1.map (fun w => ((w : ℝ) : ℂ)) ∧
      (upward F EPS T P b).2.map (fun c => c.M 0) =
        (subtree_weight b).2.map (fun w => ((w : ℝ) : ℂ)) := by
  induction b with
  | nil => exact ⟨rfl, rfl⟩
  | leaf X R RMAX RCRIT bodies siblings ih =>
    have hc := P2M_monopole F hF EPS P hP raw T h
      ⟨X, R, RMAX, RCRIT, fun _ => 0, fun _ => 0⟩ bodies
    simp only [zero_add] at hc
    simp only [upward, subtree_weight, List.map_cons, hc, ih.1, ih.2, and_self]
  | node X R RMAX RCRIT children siblings ihc ih =>
    have hc := M2M_monopole F hF EPS hE P hP raw T h
      ⟨X, R, RMAX, RCRIT, fun _ => 0, fun _ => 0⟩ (upward F EPS T P children).1
    have e : ((upward F EPS T P children).1.map (fun Cj => (starRingEnd ℂ) (Cj.M 0))) =
        (subtree_weight children).1.map (fun w => ((w : ℝ) : ℂ)) := by
      have := congrArg (List.map (starRingEnd ℂ)) ihc.1
      simp only [List.map_map] at this
      rw [show (fun Cj : Cell ℝ ℂ => (starRingEnd ℂ) (Cj.M 0)) =
        (starRingEnd ℂ) ∘ (fun c : Cell ℝ ℂ => c.M 0) from rfl, this]
      apply List.map_congr_left
      intro w _
      exact Complex.conj_ofReal w
    rw [e] at hc
    simp only [zero_add] at hc
    have hs := sum_map_ofReal (fun w : ℝ => w) (subtree_weight children).1
    simp only [List.map_id'] at hs
    rw [hs] at hc
    simp only [upward, subtree_weight, List.map_cons, List.map_append, hc, ih.1, ih.2, ihc.2,
      and_self]

/-- C34: for `EPS > 0`, `P ≥ 1` and the tables of `preCalculation`, `P2M` adds to `M[0]`
the sum of the weights `SRC` of the bodies of the cell, for every position of the bodies
and of the cell, and `M2M` adds to `M[0]` of the parent the conjugate of `M[0]` of every
child, for every position of the cells; so after the upward pass from zero expansions
the coefficient `M[0]` of every box is the total weight of the bodies in its subtree. -/
theorem monopole_carries_total_weight (F : cmath ℝ ℂ) (hF : F.exact) (EPS : ℝ)
    (hE : 0 < EPS) (P : ℕ) (hP : 1 ≤ P) (raw : tables ℝ ℂ) :
    ∃ T, preCalculation F EPS P raw = some T ∧
      (∀ (Cj : Cell ℝ ℂ) (bodies : List (Body ℝ)),
        (P2M F EPS T.prefactor P Cj bodies).M 0 =
          Cj.M 0 + (((bodies.map (fun B => B.SRC)).sum : ℝ) : ℂ)) ∧
      (∀ (Ci : Cell ℝ ℂ) (children : List (Cell ℝ ℂ)),
        (M2M F EPS T P Ci children).M 0 =
          Ci.M 0 + (children.map (fun Cj => (starRingEnd ℂ) (Cj.M 0))).sum) ∧
      (∀ b : Boxes ℝ,
        (upward F EPS T P b).2.map (fun c => c.M 0) =
          (subtree_weight b).2.map (fun w => ((w : ℝ) : ℂ))) := by
  obtain ⟨T, hT⟩ := preCalculation_some F EPS P (by omega) raw
  exact ⟨T, hT, fun Cj bodies => P2M_monopole F hF EPS P hP raw T hT Cj bodies,
    fun Ci children => M2M_monopole F hF EPS hE P hP raw T hT Ci children,
    fun b => (upward_monopoles F hF EPS hE P hP raw T hT b).2⟩

/-- An instance: `P = 2`, `EPS = 1e-6`, a box with two leaf boxes as children, the first
one with the bodies of weight 1 and 2, the second one with a body of weight 4. -/
theorem monopole_carries_total_weight_witness :
    cmath.exact (⟨Real.sqrt, Real.cos, Real.sin, Real.arccos, Real.arctan, Real.pi,
          Complex.ofReal, starRingEnd ℂ, Complex.re, Complex.exp,
          fun (z : ℂ) (t : ℝ) => z ^ (t : ℂ), Complex.I⟩ : cmath ℝ ℂ) ∧
      (0 : ℝ) < 1 / 1000000 ∧ 1 ≤ 2 ∧
      ∃ T, preCalculation (⟨Real.sqrt, Real.cos, Real.sin, Real.arccos, Real.arctan, Real.pi,
          Complex.ofReal, starRingEnd ℂ, Complex.re, Complex.exp,
          fun (z : ℂ) (t : ℝ) => z ^ (t : ℂ), Complex.I⟩ : cmath ℝ ℂ)
        (1 / 1000000) 2 ⟨fun _ => 0, fun _ => 0, fun _ => 0, fun _ => 0⟩ = some T ∧
      (upward (⟨Real.sqrt, Real.cos, Real.sin, Real.arccos, Real.arctan, Real.pi,
          Complex.ofReal, starRingEnd ℂ, Complex.re, Complex.exp,
          fun (z : ℂ) (t : ℝ) => z ^ (t : ℂ), Complex.I⟩ : cmath ℝ ℂ) (1 / 1000000) T 2
        (.node ⟨0, 0, 0⟩ 2 0 0
          (.leaf ⟨1, 1, 1⟩ 1 0 0
            [⟨⟨1, 2, 1⟩, 1, ⟨0, 0, 0, 0⟩⟩, ⟨⟨2, 1, 1⟩, 2, ⟨0, 0, 0, 0⟩⟩]
            (.leaf ⟨-1, -1, -1⟩ 1 0 0 [⟨⟨-1, -2, -1⟩, 4, ⟨0, 0, 0, 0⟩⟩] .nil))
          .nil)).2.map (fun c => c.M 0) = [7, 3, 4] := by
  refine ⟨⟨rfl, rfl, rfl, rfl, rfl, rfl, rfl, rfl, rfl, rfl, rfl, rfl⟩, by norm_num,
    by norm_num, ?_⟩
  obtain ⟨T, hT, -, -, h3⟩ := monopole_carries_total_weight
    (⟨Real.sqrt, Real.cos, Real.sin, Real.arccos, Real.arctan, Real.pi,
          Complex.ofReal, starRingEnd ℂ, Complex.re, Complex.exp,
          fun (z : ℂ) (t : ℝ) => z ^ (t : ℂ), Complex.I⟩ : cmath ℝ ℂ)
    ⟨rfl, rfl, rfl, rfl, rfl, rfl, rfl, rfl, rfl, rfl, rfl, rfl⟩ (1 / 1000000)
    (by norm_num) 2 (by norm_num) ⟨fun _ => 0, fun _ => 0, fun _ => 0, fun _ => 0⟩
  refine ⟨T, hT, ?_⟩
  rw [h3]
  simp [subtree_weight]
  norm_num

/-! ## The array accesses of the kernels -/

theorem for_range_preserves {σ : Type} (Inv : σ → Prop) (lo hi : ℕ) (body : ℕ → σ → σ)
    (h : ∀ i s, lo ≤ i → i < hi → Inv s → Inv (body i s)) (s : σ) (hs : Inv s) :
    Inv (for_range lo hi body s) := by
  rcases Nat.lt_or_ge hi lo with hlt | hge
  · rw [for_range_empty lo hi hlt.le]
    exact hs
  · exact for_range_induction (fun _ t => Inv t) lo hi hge body s hs
      (fun i t h1 h2 ht => h i t h1 h2 ht)

theorem for_int_preserves {σ : Type} (Inv : σ → Prop) (lo hi : ℤ) (body : ℤ → σ → σ)
    (h : ∀ i s, lo ≤ i → i ≤ hi → Inv s → Inv (body i s)) (s : σ) (hs : Inv s) :
    Inv (for_int lo hi body s) := by
  rcases lt_or_le hi lo with hlt | hge
  · rw [for_int_empty lo hi hlt]
    exact hs
  · obtain ⟨c, hc⟩ : ∃ c : ℕ, hi = lo + c - 1 := ⟨(hi + 1 - lo).toNat, by omega⟩
    subst hc
    exact for_int_induction (fun _ t => Inv t) lo c body s hs
      (fun i t h1 h2 ht => h i t h1 (by omega) ht)

theorem sq_index (N n m : ℤ) (h0 : 0 ≤ n) (hn : n < N) (h1 : -n ≤ m) (h2 : m ≤ n) :
    0 ≤ n * n + n + m ∧ n * n + n + m < N * N := by
  constructor
  · nlinarith
  · nlinarith

theorem tri_index (P d e : ℤ) (he0 : 0 ≤ e) (hed : e ≤ d) (hd : d < P) :
    0 ≤ d * (d + 1) / 2 + e ∧ d * (d + 1) / 2 + e < P * (P + 1) / 2 := by
  have h1 : 0 ≤ d * (d + 1) := by nlinarith
  have h2 : d * (d + 1) + 2 * (d + 1) ≤ P * (P + 1) := by nlinarith
  generalize d * (d + 1) = x at h1 h2 ⊢
  generalize P * (P + 1) = y at h2 ⊢
  omega

theorem evaluator_accesses_in_bounds (P N : ℕ) (hN : N ≤ 2 * P) :
    ∀ a ∈ for_range 0 N (fun m tr =>
      let npn : Int := m * m + 2 * m
      let nmn : Int := m * m
      let tr := tr ++ [(array_name.Ynm, npn), (.prefactor, npn), (.Ynm, nmn), (.YnmTheta, npn)]
      for_range (m + 1) N (fun n tr =>
        let npm : Int := n * n + n + m
        let nmm : Int := n * n + n - m
        tr ++ [(array_name.Ynm, npm), (.prefactor, npm), (.Ynm, nmm), (.YnmTheta, npm)]) tr) [],
      in_bounds P a := by
  refine for_range_preserves (fun tr => ∀ a ∈ tr, in_bounds P a) _ _ _ ?_ _ ?_
  · intro m tr _ hm htr
    refine for_range_preserves (fun tr => ∀ a ∈ tr, in_bounds P a) _ _ _ ?_ _ ?_
    · intro n tr' hn1 hn2 htr'
      rw [List.forall_mem_append]
      refine ⟨htr', ?_⟩
      have b1 := sq_index (2 * P) n m (by omega) (by omega) (by omega) (by omega)
      have b2 := sq_index (2 * P) n (-m) (by omega) (by omega) (by omega) (by omega)
      simp only [List.forall_mem_cons, List.not_mem_nil, false_imp_iff, implies_true,
        and_true, in_bounds, array_size]
      refine ⟨?_, ?_, ?_, ?_⟩ <;> constructor <;> linarith [b1.1, b1.2, b2.1, b2.2]
    · beta_reduce
      rw [List.forall_mem_append]
      refine ⟨htr, ?_⟩
      have b1 := sq_index (2 * P) m m (by omega) (by omega) (by omega) (by omega)
      have b2 := sq_index (2 * P) m (-m) (by omega) (by omega) (by omega) (by omega)
      simp only [List.forall_mem_cons, List.not_mem_nil, false_imp_iff, implies_true,
        and_true, in_bounds, array_size]
      refine ⟨?_, ?_, ?_, ?_⟩ <;> constructor <;> linarith [b1.1, b1.2, b2.1, b2.2]
  · intro a ha
    exact absurd ha (List.not_mem_nil a)

theorem evalMultipole_accesses_bounds (P : ℕ) :
    ∀ a ∈ evalMultipole_accesses P, in_bounds P a :=
  evaluator_accesses_in_bounds P P (by omega)

theorem evalLocal_accesses_bounds (P : ℕ) :
    ∀ a ∈ evalLocal_accesses P, in_bounds P a :=
  evaluator_accesses_in_bounds P (2 * P) (le_refl _)

theorem for_int_invariant {σ : Type} (Inv : ℤ → σ → Prop) (lo hi : ℤ) (h : lo ≤ hi + 1)
    (body : ℤ → σ → σ) (s : σ) (h0 : Inv lo s)
    (hstep : ∀ i t, lo ≤ i → i ≤ hi → Inv i t → Inv (i + 1) (body i t)) :
    Inv (hi + 1) (for_int lo hi body s) := by
  obtain ⟨c, hc⟩ : ∃ c : ℕ, hi = lo + c - 1 := ⟨(hi + 1 - lo).toNat, by omega⟩
  subst hc
  have := for_int_induction Inv lo c body s h0 (fun i t h1 h2 ht => hstep i t h1 (by omega) ht)
  have e : lo + (c : ℤ) - 1 + 1 = lo + c := by ring
  rw [e]
  exact this

theorem Cnm_index (P jk nm : ℤ) (h1 : 0 ≤ jk) (h2 : jk < P * P) (h3 : 0 ≤ nm)
    (h4 : nm < P * P) : 0 ≤ jk * P * P + nm ∧ jk * P * P + nm < P * P * P * P := by
  have hP : 0 ≤ P * P := mul_self_nonneg P
  constructor
  · nlinarith
  · have : (jk + 1) * (P * P) ≤ (P * P) * (P * P) :=
      mul_le_mul_of_nonneg_right (by omega) hP
    nlinarith

theorem Cnm_nm_accesses_bounds (P j : ℕ) (hj : j < P) (k : ℤ) (hk1 : -(j : ℤ) ≤ k)
    (hk2 : k ≤ j) (s : Cnm_jk_accesses) (hs : ∀ a ∈ s.tr, in_bounds P a)
    (hjk : s.jk = (j : ℤ) * j + j + k) (hjknm : s.jknm = ((j : ℤ) * j + j + k) * P * P) :
    (∀ a ∈ (for_range 0 P (fun n (t : Cnm_nm_accesses) =>
        for_int (-(n : ℤ)) n (fun m (t : Cnm_nm_accesses) =>
          (⟨t.tr ++ [(.Cnm, t.jknm), (.Anm, t.nm), (.Anm, s.jk),
              (.Anm, ((j : ℤ) + n) * (j + n) + j + n + m - k)],
            t.nm + 1, t.jknm + 1⟩ : Cnm_nm_accesses)) t) ⟨s.tr, 0, s.jknm⟩).tr,
        in_bounds P a) ∧
      (for_range 0 P (fun n (t : Cnm_nm_accesses) =>
        for_int (-(n : ℤ)) n (fun m (t : Cnm_nm_accesses) =>
          (⟨t.tr ++ [(.Cnm, t.jknm), (.Anm, t.nm), (.Anm, s.jk),
              (.Anm, ((j : ℤ) + n) * (j + n) + j + n + m - k)],
            t.nm + 1, t.jknm + 1⟩ : Cnm_nm_accesses)) t) ⟨s.tr, 0, s.jknm⟩).jknm =
        ((j : ℤ) * j + j + k + 1) * P * P := by
  have bjk := sq_index P j k (by omega) (by omega) hk1 hk2
  have hn := for_range_induction
    (fun n (t : Cnm_nm_accesses) => (∀ a ∈ t.tr, in_bounds P a) ∧
      t.nm = (n : ℤ) * n ∧ t.jknm = s.jknm + (n : ℤ) * n) 0 P (Nat.zero_le _)
    (fun n (t : Cnm_nm_accesses) =>
      for_int (-(n : ℤ)) n (fun m (t : Cnm_nm_accesses) =>
        (⟨t.tr ++ [(.Cnm, t.jknm), (.Anm, t.nm), (.Anm, s.jk),
            (.Anm, ((j : ℤ) + n) * (j + n) + j + n + m - k)],
          t.nm + 1, t.jknm + 1⟩ : Cnm_nm_accesses)) t) ⟨s.tr, 0, s.jknm⟩
    ⟨hs, by simp, by simp⟩
    (by
      intro n t _ hn ht
      have hm := for_int_invariant
        (fun m (t : Cnm_nm_accesses) => (∀ a ∈ t.tr, in_bounds P a) ∧
          t.nm = (n : ℤ) * n + n + m ∧ t.jknm = s.jknm + ((n : ℤ) * n + n + m))
        (-(n : ℤ)) n (by omega)
        (fun m (t : Cnm_nm_accesses) =>
          (⟨t.tr ++ [(.Cnm, t.jknm), (.Anm, t.nm), (.Anm, s.jk),
              (.Anm, ((j : ℤ) + n) * (j + n) + j + n + m - k)],
            t.nm + 1, t.jknm + 1⟩ : Cnm_nm_accesses)) t
        ⟨ht.1, by rw [ht.2.1]; ring, by rw [ht.2.2]; ring⟩
        (by
          intro m t' hm1 hm2 ht'
          have bnm := sq_index P n m (by omega) (by omega) hm1 hm2
          have bc := Cnm_index P ((j : ℤ) * j + j + k) ((n : ℤ) * n + n + m)
            bjk.1 bjk.2 bnm.1 bnm.2
          have bj := sq_index (2 * P) ((j : ℤ) + n) (m - k) (by omega) (by omega)
            (by omega) (by omega)
          refine ⟨?_, by simp only [ht'.2.1]; ring, by simp only [ht'.2.2]; ring⟩
          beta_reduce
          rw [List.forall_mem_append]
          refine ⟨ht'.1, ?_⟩
          simp only [List.forall_mem_cons, List.not_mem_nil, false_imp_iff,
            implies_true, and_true, in_bounds, array_size, ht'.2.1, ht'.2.2, hjk, hjknm]
          have hPP : (0 : ℤ) ≤ (P : ℤ) * P := mul_self_nonneg _
          refine ⟨?_, ?_, ?_, ?_⟩ <;> constructor <;>
            linarith [bnm.1, bnm.2, bc.1, bc.2, bj.1, bj.2, bjk.1, bjk.2])
      refine ⟨hm.1, ?_, ?_⟩
      · rw [hm.2.1]; push_cast; ring
      · rw [hm.2.2]; push_cast; ring)
  refine ⟨hn.1, ?_⟩
  rw [hn.2.2, hjknm]
  ring

theorem Cnm_jk_accesses_bounds (P : ℕ) (tr0 : List (array_name × ℤ))
    (h0 : ∀ a ∈ tr0, in_bounds P a) :
    ∀ a ∈ (for_range 0 P (fun j (s : Cnm_jk_accesses) =>
      for_int (-(j : ℤ)) j (fun k (s : Cnm_jk_accesses) =>
        (⟨(for_range 0 P (fun n (t : Cnm_nm_accesses) =>
          for_int (-(n : ℤ)) n (fun m (t : Cnm_nm_accesses) =>
            (⟨t.tr ++ [(.Cnm, t.jknm), (.Anm, t.nm), (.Anm, s.jk),
                (.Anm, ((j : ℤ) + n) * (j + n) + j + n + m - k)],
              t.nm + 1, t.jknm + 1⟩ : Cnm_nm_accesses)) t) ⟨s.tr, 0, s.jknm⟩).tr, s.jk + 1,
          (for_range 0 P (fun n (t : Cnm_nm_accesses) =>
          for_int (-(n : ℤ)) n (fun m (t : Cnm_nm_accesses) =>
            (⟨t.tr ++ [(.Cnm, t.jknm), (.Anm, t.nm), (.Anm, s.jk),
                (.Anm, ((j : ℤ) + n) * (j + n) + j + n + m - k)],
              t.nm + 1, t.jknm + 1⟩ : Cnm_nm_accesses)) t) ⟨s.tr, 0, s.jknm⟩).jknm⟩ :
          Cnm_jk_accesses)) s) ⟨tr0, 0, 0⟩).tr, in_bounds P a := by
  have houter := for_range_induction
    (fun j (s : Cnm_jk_accesses) => (∀ a ∈ s.tr, in_bounds P a) ∧ s.jk = (j : ℤ) * j ∧
      s.jknm = (j : ℤ) * j * P * P) 0 P (Nat.zero_le _)
    (fun j (s : Cnm_jk_accesses) =>
      for_int (-(j : ℤ)) j (fun k (s : Cnm_jk_accesses) =>
        (⟨(for_range 0 P (fun n (t : Cnm_nm_accesses) =>
          for_int (-(n : ℤ)) n (fun m (t : Cnm_nm_accesses) =>
            (⟨t.tr ++ [(.Cnm, t.jknm), (.Anm, t.nm), (.Anm, s.jk),
                (.Anm, ((j : ℤ) + n) * (j + n) + j + n + m - k)],
              t.nm + 1, t.jknm + 1⟩ : Cnm_nm_accesses)) t) ⟨s.tr, 0, s.jknm⟩).tr, s.jk + 1,
          (for_range 0 P (fun n (t : Cnm_nm_accesses) =>
          for_int (-(n : ℤ)) n (fun m (t : Cnm_nm_accesses) =>
            (⟨t.tr ++ [(.Cnm, t.jknm), (.Anm, t.nm), (.Anm, s.jk),
                (.Anm, ((j : ℤ) + n) * (j + n) + j + n + m - k)],
              t.nm + 1, t.jknm + 1⟩ : Cnm_nm_accesses)) t) ⟨s.tr, 0, s.jknm⟩).jknm⟩ :
          Cnm_jk_accesses)) s) ⟨tr0, 0, 0⟩
    ⟨h0, by simp, by simp⟩
    (by
      intro j s _ hj hs
      have hk := for_int_invariant
        (fun k (s : Cnm_jk_accesses) => (∀ a ∈ s.tr, in_bounds P a) ∧
          s.jk = (j : ℤ) * j + j + k ∧ s.jknm = ((j : ℤ) * j + j + k) * P * P)
        (-(j : ℤ)) j (by omega)
        (fun k (s : Cnm_jk_accesses) =>
        (⟨(for_range 0 P (fun n (t : Cnm_nm_accesses) =>
          for_int (-(n : ℤ)) n (fun m (t : Cnm_nm_accesses) =>
            (⟨t.tr ++ [(.Cnm, t.jknm), (.Anm, t.nm), (.Anm, s.jk),
                (.Anm, ((j : ℤ) + n) * (j + n) + j + n + m - k)],
              t.nm + 1, t.jknm + 1⟩ : Cnm_nm_accesses)) t) ⟨s.tr, 0, s.jknm⟩).tr, s.jk + 1,
          (for_range 0 P (fun n (t : Cnm_nm_accesses) =>
          for_int (-(n : ℤ)) n (fun m (t : Cnm_nm_accesses) =>
            (⟨t.tr ++ [(.Cnm, t.jknm), (.Anm, t.nm), (.Anm, s.jk),
                (.Anm, ((j : ℤ) + n) * (j + n) + j + n + m - k)],
              t.nm + 1, t.jknm + 1⟩ : Cnm_nm_accesses)) t) ⟨s.tr, 0, s.jknm⟩).jknm⟩ :
          Cnm_jk_accesses)) s
        ⟨hs.1, by rw [hs.2.1]; ring, by rw [hs.2.2]; ring⟩
        (by
          intro k s' hk1 hk2 hs'
          have hin := Cnm_nm_accesses_bounds P j hj k hk1 hk2 s' hs'.1 hs'.2.1 hs'.2.2
          refine ⟨hin.1, ?_, ?_⟩
          · simp only [hs'.2.1]
            ring
          · refine hin.2.trans ?_
            ring)
      refine ⟨hk.1, ?_, ?_⟩
      · rw [hk.2.1]; push_cast; ring
      · rw [hk.2.2]; push_cast; ring)
  exact houter.1

theorem preCalculation_accesses_bounds (P : ℕ) (hP : 1 ≤ P) :
    ∀ a ∈ preCalculation_accesses P, in_bounds P a := by
  unfold preCalculation_accesses
  dsimp only
  have h1 : ∀ a ∈ ([(array_name.factorial, 0)] : List (array_name × ℤ)), in_bounds P a := by
    simp only [List.forall_mem_cons, List.not_mem_nil, false_imp_iff, implies_true,
      and_true, in_bounds, array_size]
    omega
  have h2 := for_range_preserves (fun tr => ∀ a ∈ tr, in_bounds P a) 1 P
    (fun n tr => tr ++ [(array_name.factorial, (n : ℤ)), (.factorial, n - 1)])
    (by
      intro n tr hn1 hn2 htr
      beta_reduce
      rw [List.forall_mem_append]
      refine ⟨htr, ?_⟩
      simp only [List.forall_mem_cons, List.not_mem_nil, false_imp_iff, implies_true,
        and_true, in_bounds, array_size]
      omega) _ h1
  have h3 := for_range_preserves (fun tr => ∀ a ∈ tr, in_bounds P a) 0 (2 * P)
    (fun n tr => for_int (-(n : ℤ)) n (fun m tr =>
      tr ++ [(array_name.prefactor, (n : ℤ) * n + n + m), (.Anm, (n : ℤ) * n + n + m)]) tr)
    (by
      intro n tr _ hn htr
      refine for_int_preserves (fun tr => ∀ a ∈ tr, in_bounds P a) _ _ _ ?_ _ htr
      intro m tr' hm1 hm2 htr'
      beta_reduce
      rw [List.forall_mem_append]
      refine ⟨htr', ?_⟩
      have b1 := sq_index (2 * P) n m (by omega) (by omega) hm1 hm2
      simp only [List.forall_mem_cons, List.not_mem_nil, false_imp_iff, implies_true,
        and_true, in_bounds, array_size]
      refine ⟨?_, ?_⟩ <;> constructor <;> linarith [b1.1, b1.2]) _ h2
  exact Cnm_jk_accesses_bounds P _ h3

theorem array_size_M (P : ℕ) : array_size P .M = (P : ℤ) * (P + 1) / 2 := by
  simp [array_size, multipole_size]

theorem array_size_L (P : ℕ) : array_size P .L = (P : ℤ) * (P + 1) / 2 := by
  simp [array_size, local_size]

theorem M2M_accesses_bounds (P NCHILD : ℕ) :
    ∀ a ∈ M2M_accesses P NCHILD, in_bounds P a := by
  unfold M2M_accesses
  refine for_range_preserves (fun tr => ∀ a ∈ tr, in_bounds P a) _ _ _ ?_ _ (by simp)
  intro c tr _ _ htr
  dsimp only
  refine for_range_preserves (fun tr => ∀ a ∈ tr, in_bounds P a) _ _ _ ?_ _ ?_
  · intro j tr _ hj htr
    refine for_range_preserves (fun tr => ∀ a ∈ tr, in_bounds P a) _ _ _ ?_ _ htr
    intro k tr _ hk htr
    have bjk := sq_index (2 * P) j k (by omega) (by omega) (by omega) (by omega)
    rw [List.forall_mem_append]
    refine ⟨?_, ?_⟩
    · refine for_range_preserves (fun tr => ∀ a ∈ tr, in_bounds P a) _ _ _ ?_ _ htr
      intro n tr _ hn htr
      refine for_int_preserves (fun tr => ∀ a ∈ tr, in_bounds P a) _ _ _ ?_ _ ?_
      · intro m tr hm1 hm2 htr
        beta_reduce
        split_ifs with hg
        · rw [List.forall_mem_append]
          refine ⟨htr, ?_⟩
          have b1 := tri_index P ((j : ℤ) - n) (m - k) (by omega) (by omega) (by omega)
          have b2 := sq_index (2 * P) n m (by omega) (by omega) (by omega) (by omega)
          have b3 := sq_index (2 * P) ((j : ℤ) - n) (k - m) (by omega) (by omega) (by omega)
            (by omega)
          simp only [List.forall_mem_cons, List.not_mem_nil, false_imp_iff, implies_true,
            and_true, in_bounds, array_size, multipole_size, mul_zero, add_zero]
          refine ⟨⟨?_, ?_⟩, ⟨?_, ?_⟩, ⟨?_, ?_⟩, ⟨?_, ?_⟩, ⟨?_, ?_⟩⟩ <;>
            first
            | omega
            | linarith [b2.1, b2.2, b3.1, b3.2, bjk.1, bjk.2]
        · exact htr
      · refine for_int_preserves (fun tr => ∀ a ∈ tr, in_bounds P a) _ _ _ ?_ _ htr
        intro m tr hm1 hm2 htr
        have hm3 := le_min_iff.mp hm2
        split_ifs with hg
        · rw [List.forall_mem_append]
          refine ⟨htr, ?_⟩
          have b1 := tri_index P ((j : ℤ) - n) (k - m) (by omega) (by omega) (by omega)
          have b2 := sq_index (2 * P) n m (by omega) (by omega) (by omega) (by omega)
          have b3 := sq_index (2 * P) ((j : ℤ) - n) (k - m) (by omega) (by omega) (by omega)
            (by omega)
          simp only [List.forall_mem_cons, List.not_mem_nil, false_imp_iff, implies_true,
            and_true, in_bounds, array_size, multipole_size, mul_zero, add_zero]
          refine ⟨⟨?_, ?_⟩, ⟨?_, ?_⟩, ⟨?_, ?_⟩, ⟨?_, ?_⟩, ⟨?_, ?_⟩⟩ <;>
            first
            | omega
            | linarith [b2.1, b2.2, b3.1, b3.2, bjk.1, bjk.2]
        · exact htr
    · have b := tri_index P j k (by omega) (by omega) (by omega)
      simp only [List.forall_mem_cons, List.not_mem_nil, false_imp_iff, implies_true,
        and_true, in_bounds, array_size, multipole_size, mul_zero, add_zero]
      exact b
  · beta_reduce
    rw [List.forall_mem_append]
    exact ⟨htr, evalMultipole_accesses_bounds P⟩

theorem M2L_accesses_bounds (P : ℕ) : ∀ a ∈ M2L_accesses P, in_bounds P a := by
  unfold M2L_accesses
  dsimp only
  refine for_range_preserves (fun tr => ∀ a ∈ tr, in_bounds P a) _ _ _ ?_ _
    (evalLocal_accesses_bounds P)
  intro j tr _ hj htr
  refine for_range_preserves (fun tr => ∀ a ∈ tr, in_bounds P a) _ _ _ ?_ _ htr
  intro k tr _ hk htr
  have bjk := sq_index P j k (by omega) (by omega) (by omega) (by omega)
  rw [List.forall_mem_append]
  refine ⟨?_, ?_⟩
  · refine for_range_preserves (fun tr => ∀ a ∈ tr, in_bounds P a) _ _ _ ?_ _ htr
    intro n tr _ hn htr
    refine for_int_preserves (fun tr => ∀ a ∈ tr, in_bounds P a) _ _ _ ?_ _ ?_
    · intro m tr hm1 hm2 htr
      beta_reduce
      rw [List.forall_mem_append]
      refine ⟨htr, ?_⟩
      have b1 := tri_index P n m (by omega) (by omega) (by omega)
      have b2 := sq_index P n m (by omega) (by omega) (by omega) (by omega)
      have b3 := Cnm_index P ((j : ℤ) * j + j + k) ((n : ℤ) * n + n + m) bjk.1 bjk.2 b2.1 b2.2
      have b4 := sq_index (2 * P) ((j : ℤ) + n) (m - k) (by omega) (by omega) (by omega)
        (by omega)
      simp only [List.forall_mem_cons, List.not_mem_nil, false_imp_iff, implies_true,
        and_true, in_bounds, array_size, multipole_size, mul_zero, add_zero]
      refine ⟨⟨?_, ?_⟩, ⟨?_, ?_⟩, ⟨?_, ?_⟩⟩ <;>
        first
        | omega
        | linarith [b3.1, b3.2, b4.1, b4.2]
    · refine for_int_preserves (fun tr => ∀ a ∈ tr, in_bounds P a) _ _ _ ?_ _ htr
      intro m tr hm1 hm2 htr
      beta_reduce
      rw [List.forall_mem_append]
      refine ⟨htr, ?_⟩
      have b1 := tri_index P n (-m) (by omega) (by omega) (by omega)
      have b2 := sq_index P n m (by omega) (by omega) (by omega) (by omega)
      have b3 := Cnm_index P ((j : ℤ) * j + j + k) ((n : ℤ) * n + n + m) bjk.1 bjk.2 b2.1 b2.2
      have b4 := sq_index (2 * P) ((j : ℤ) + n) (m - k) (by omega) (by omega) (by omega)
        (by omega)
      simp only [List.forall_mem_cons, List.not_mem_nil, false_imp_iff, implies_true,
        and_true, in_bounds, array_size, multipole_size, mul_zero, add_zero]
      refine ⟨⟨?_, ?_⟩, ⟨?_, ?_⟩, ⟨?_, ?_⟩⟩ <;>
        first
        | omega
        | linarith [b3.1, b3.2, b4.1, b4.2]
  · have b := tri_index P j k (by omega) (by omega) (by omega)
    simp only [List.forall_mem_cons, List.not_mem_nil, false_imp_iff, implies_true,
      and_true, in_bounds, array_size, local_size, mul_zero, add_zero]
    exact b

theorem L2L_accesses_bounds (P : ℕ) : ∀ a ∈ L2L_accesses P, in_bounds P a := by
  unfold L2L_accesses
  dsimp only
  refine for_range_preserves (fun tr => ∀ a ∈ tr, in_bounds P a) _ _ _ ?_ _
    (evalMultipole_accesses_bounds P)
  intro j tr _ hj htr
  refine for_range_preserves (fun tr => ∀ a ∈ tr, in_bounds P a) _ _ _ ?_ _ htr
  intro k tr _ hk htr
  have bjk := sq_index (2 * P) j k (by omega) (by omega) (by omega) (by omega)
  rw [List.forall_mem_append]
  refine ⟨?_, ?_⟩
  · refine for_range_preserves (fun tr => ∀ a ∈ tr, in_bounds P a) _ _ _ ?_ _ htr
    intro n tr hn1 hn htr
    refine for_int_preserves (fun tr => ∀ a ∈ tr, in_bounds P a) _ _ _ ?_ _ ?_
    · intro m tr hm1 hm2 htr
      beta_reduce
      split_ifs with hg
      · rw [List.forall_mem_append]
        refine ⟨htr, ?_⟩
        have hg2 := abs_le.mp hg
        have b1 := tri_index P n m (by omega) (by omega) (by omega)
        have b2 := sq_index (2 * P) n m (by omega) (by omega) (by omega) (by omega)
        have b3 := sq_index (2 * P) ((n : ℤ) - j) (m - k) (by omega) (by omega) (by omega)
          (by omega)
        simp only [List.forall_mem_cons, List.not_mem_nil, false_imp_iff, implies_true,
          and_true, in_bounds, array_size, local_size, mul_zero, add_zero]
        refine ⟨⟨?_, ?_⟩, ⟨?_, ?_⟩, ⟨?_, ?_⟩, ⟨?_, ?_⟩, ⟨?_, ?_⟩⟩ <;>
          first
          | omega
          | linarith [b2.1, b2.2, b3.1, b3.2, bjk.1, bjk.2]
      · exact htr
    · refine for_int_preserves (fun tr => ∀ a ∈ tr, in_bounds P a) _ _ _ ?_ _ htr
      intro m tr hm1 hm2 htr
      beta_reduce
      rw [List.forall_mem_append]
      refine ⟨htr, ?_⟩
      have b1 := tri_index P n (-m) (by omega) (by omega) (by omega)
      have b2 := sq_index (2 * P) n (-m) (by omega) (by omega) (by omega) (by omega)
      have b3 := sq_index (2 * P) ((n : ℤ) - j) (m - k) (by omega) (by omega) (by omega)
        (by omega)
      simp only [List.forall_mem_cons, List.not_mem_nil, false_imp_iff, implies_true,
        and_true, in_bounds, array_size, local_size, mul_zero, add_zero]
      refine ⟨⟨?_, ?_⟩, ⟨?_, ?_⟩, ⟨?_, ?_⟩, ⟨?_, ?_⟩, ⟨?_, ?_⟩⟩ <;>
        first
        | omega
        | linarith [b2.1, b2.2, b3.1, b3.2, bjk.1, bjk.2]
  · have b := tri_index P j k (by omega) (by omega) (by omega)
    simp only [List.forall_mem_cons, List.not_mem_nil, false_imp_iff, implies_true,
      and_true, in_bounds, array_size, local_size, mul_zero, add_zero]
    exact b

/-- C38: for every `P ≥ 1`, every access `array[index]` of `preCalculation`,
`evalMultipole`, `evalLocal`, `M2M` (for every number of child cells), `M2L` and `L2L`
has its index inside the array: `factorial` in `[0, P)`, `prefactor`, `Anm`, `Ynm` and
`YnmTheta` in `[0, 4P²)`, `Cnm` in `[0, P⁴)`, and the coefficients `M` and `L` in
`[0, P(P+1)/2)`. For `P ≤ 215` every array has fewer than `2^31` elements, so that no
index leaves the range of an `int`. -/
theorem array_accesses_in_bounds (P : ℕ) (hP : 1 ≤ P) (NCHILD : ℕ) :
    ((∀ a ∈ preCalculation_accesses P, in_bounds P a) ∧
      (∀ a ∈ evalMultipole_accesses P, in_bounds P a) ∧
      (∀ a ∈ evalLocal_accesses P, in_bounds P a) ∧
      (∀ a ∈ M2M_accesses P NCHILD, in_bounds P a) ∧
      (∀ a ∈ M2L_accesses P, in_bounds P a) ∧
      (∀ a ∈ L2L_accesses P, in_bounds P a)) ∧
    (∀ i : ℤ,
      (in_bounds P (.factorial, i) ↔ 0 ≤ i ∧ i < P) ∧
      (in_bounds P (.prefactor, i) ↔ 0 ≤ i ∧ i < 4 * P * P) ∧
      (in_bounds P (.Anm, i) ↔ 0 ≤ i ∧ i < 4 * P * P) ∧
      (in_bounds P (.Ynm, i) ↔ 0 ≤ i ∧ i < 4 * P * P) ∧
      (in_bounds P (.YnmTheta, i) ↔ 0 ≤ i ∧ i < 4 * P * P) ∧
      (in_bounds P (.Cnm, i) ↔ 0 ≤ i ∧ i < (P : ℤ) * P * P * P) ∧
      (in_bounds P (.M, i) ↔ 0 ≤ i ∧ i < (P : ℤ) * (P + 1) / 2) ∧
      (in_bounds P (.L, i) ↔ 0 ≤ i ∧ i < (P : ℤ) * (P + 1) / 2)) ∧
    (P ≤ 215 → ∀ arr, array_size P arr < 2 ^ 31) := by
  refine ⟨⟨preCalculation_accesses_bounds P hP, evalMultipole_accesses_bounds P,
    evalLocal_accesses_bounds P, M2M_accesses_bounds P NCHILD, M2L_accesses_bounds P,
    L2L_accesses_bounds P⟩, ?_, ?_⟩
  · intro i
    simp only [in_bounds, array_size, multipole_size, local_size, mul_zero, add_zero,
      and_self]
  · intro h arr
    have h1 : (P : ℤ) ≤ 215 := by exact_mod_cast h
    have h0 : (0 : ℤ) ≤ P := Int.natCast_nonneg P
    have h2 : (P : ℤ) * P ≤ 215 * 215 := by nlinarith
    have h3 : (0 : ℤ) ≤ (P : ℤ) * P := mul_self_nonneg _
    have h4 : (P : ℤ) * P * ((P : ℤ) * P) ≤ (215 * 215) * (215 * 215) := by nlinarith
    cases arr <;>
      simp only [array_size, multipole_size, local_size, mul_zero, add_zero]
    · omega
    · linarith
    · linarith
    · nlinarith
    · linarith
    · linarith
    · have : (P : ℤ) * ((P : ℤ) + 1) ≤ 215 * 216 := by nlinarith
      omega
    · have : (P : ℤ) * ((P : ℤ) + 1) ≤ 215 * 216 := by nlinarith
      omega

/-- An instance: `P = 2`; `preCalculation` stores the last element `Cnm[15]`, and
`evalLocal` the last element `Ynm[15]`. -/
theorem array_accesses_in_bounds_witness :
    1 ≤ 2 ∧ (∀ a ∈ preCalculation_accesses 2, in_bounds 2 a) ∧
      (array_name.Cnm, (15 : ℤ)) ∈ preCalculation_accesses 2 ∧
      (array_name.Ynm, (15 : ℤ)) ∈ evalLocal_accesses 2 ∧
      ¬ in_bounds 2 (array_name.Cnm, (16 : ℤ)) :=
  ⟨by decide, (array_accesses_in_bounds 2 (by decide) 0).1.1, by decide, by decide,
    by decide⟩

/-! ## The guard `+ EPS` of `cart2sph` in the arithmetic of `real` -/

/-- Without rounding `cart2sph_rounded` is `cart2sph`. -/
theorem cart2sph_rounded_exact {K C : Type} [LinearOrderedField K] (F : cmath K C) (EPS : K)
    (dist : vect K) : cart2sph_rounded F (fun x => x) EPS dist = cart2sph F EPS dist := rfl

theorem round_to_zero (p : ℕ) : round_to p (0 : ℝ) = 0 := by
  unfold round_to
  rw [if_pos rfl]

theorem two_zpow_pos (k : ℤ) : (0 : ℝ) < (2 : ℝ) ^ k := zpow_pos (by norm_num) k

theorem round_to_two_zpow (p : ℕ) (hp : 1 ≤ p) (k : ℤ) :
    round_to p ((2 : ℝ) ^ k) = (2 : ℝ) ^ k := by
  have hpos := two_zpow_pos k
  have hlog : Int.log 2 |(2 : ℝ) ^ k| = k := by
    rw [abs_of_pos hpos]
    have := Int.log_zpow (R := ℝ) (b := 2) (by norm_num) k
    simpa using this
  unfold round_to
  rw [if_neg (ne_of_gt hpos), hlog]
  have e : (2 : ℝ) ^ k / (2 : ℝ) ^ (k - ((p : ℤ) - 1)) = ((2 ^ (p - 1) : ℕ) : ℝ) := by
    rw [← zpow_sub₀ (by norm_num : (2 : ℝ) ≠ 0)]
    have : k - (k - ((p : ℤ) - 1)) = ((p - 1 : ℕ) : ℤ) := by
      push_cast [hp]
      ring
    rw [this, zpow_natCast]
    push_cast
    rfl
  rw [e, round_natCast]
  push_cast
  have e2 : (2 : ℝ) ^ (p - 1) = (2 : ℝ) ^ (((p - 1 : ℕ) : ℤ)) := (zpow_natCast _ _).symm
  rw [e2, ← zpow_add₀ (by norm_num : (2 : ℝ) ≠ 0)]
  congr 1
  push_cast [hp]
  ring

/-- A positive number below half of the last place of `2 ^ k` is lost in the sum with
`2 ^ k`. -/
theorem round_to_absorbs (p : ℕ) (hp : 1 ≤ p) (k : ℤ) (ε : ℝ) (h0 : 0 < ε)
    (h1 : ε < (2 : ℝ) ^ (k - p)) : round_to p ((2 : ℝ) ^ k + ε) = (2 : ℝ) ^ k := by
  have hk := two_zpow_pos k
  have hle : (2 : ℝ) ^ (k - (p : ℤ)) ≤ (2 : ℝ) ^ k :=
    zpow_le_zpow_right₀ (by norm_num) (by omega)
  have hpos : 0 < (2 : ℝ) ^ k + ε := by linarith
  have hlog : Int.log 2 |(2 : ℝ) ^ k + ε| = k := by
    rw [abs_of_pos hpos]
    apply le_antisymm
    · have h : (2 : ℝ) ^ k + ε < ((2 : ℕ) : ℝ) ^ (k + 1) := by
        rw [zpow_add_one₀ (by norm_num)]
        push_cast
        linarith
      have := (Int.lt_zpow_iff_log_lt (R := ℝ) (b := 2) (by norm_num) hpos).mp h
      omega
    · apply (Int.zpow_le_iff_le_log (R := ℝ) (b := 2) (by norm_num) hpos).mp
      push_cast
      linarith
  unfold round_to
  rw [if_neg (ne_of_gt hpos), hlog]
  have hu := two_zpow_pos (k - ((p : ℤ) - 1))
  have e : ((2 : ℝ) ^ k + ε) / (2 : ℝ) ^ (k - ((p : ℤ) - 1)) =
      ((2 ^ (p - 1) : ℕ) : ℝ) + ε / (2 : ℝ) ^ (k - ((p : ℤ) - 1)) := by
    rw [add_div]
    congr 1
    rw [← zpow_sub₀ (by norm_num : (2 : ℝ) ≠ 0)]
    have : k - (k - ((p : ℤ) - 1)) = ((p - 1 : ℕ) : ℤ) := by
      push_cast [hp]
      ring
    rw [this, zpow_natCast]
    push_cast
    rfl
  have hsmall : ε / (2 : ℝ) ^ (k - ((p : ℤ) - 1)) < 1 / 2 := by
    rw [div_lt_iff₀ hu]
    have : (2 : ℝ) ^ (k - ((p : ℤ) - 1)) = 2 * (2 : ℝ) ^ (k - (p : ℤ)) := by
      have : k - ((p : ℤ) - 1) = (k - (p : ℤ)) + 1 := by ring
      rw [this, zpow_add_one₀ (by norm_num)]
      ring
    rw [this]
    linarith
  have hr : round (ε / (2 : ℝ) ^ (k - ((p : ℤ) - 1))) = 0 := by
    rw [round_eq_zero_iff]
    refine ⟨?_, hsmall⟩
    have : 0 < ε / (2 : ℝ) ^ (k - ((p : ℤ) - 1)) := div_pos h0 hu
    linarith
  rw [e, round_nat_add, hr]
  push_cast
  have e2 : (2 : ℝ) ^ (p - 1) = (2 : ℝ) ^ (((p - 1 : ℕ) : ℤ)) := (zpow_natCast _ _).symm
  rw [add_zero, e2, ← zpow_add₀ (by norm_num : (2 : ℝ) ≠ 0)]
  congr 1
  push_cast [hp]
  ring

theorem sdiv_zero {K : Type} [LinearOrderedField K] (a : K) : sdiv a 0 = none := by
  unfold sdiv
  rw [if_pos rfl]

theorem for_range_checked_first {σ : Type} (hi : ℕ) (h : 1 ≤ hi) (body : ℕ → σ → Option σ)
    (s : σ) (hb : body 0 s = none) : for_range_checked 0 hi body s = none := by
  unfold for_range_checked
  obtain ⟨n, rfl⟩ : ∃ n, hi = n + 1 := ⟨hi - 1, by omega⟩
  rw [Nat.sub_zero, List.range'_succ, List.foldlM_cons, hb]
  rfl

theorem sph2cart_checked_zero_sine {K C : Type} [LinearOrderedField K] (F : cmath K C)
    (r theta phi : K) (spherical : vect K) (h : F.sin theta = 0) :
    sph2cart_checked F r theta phi spherical = none := by
  unfold sph2cart_checked
  rw [h]
  by_cases hr : r = 0
  · rw [hr, sdiv_zero]
    rfl
  · simp only [sdiv_some _ _ hr, sdiv_zero, Option.bind_eq_bind, Option.some_bind,
      Option.none_bind]

theorem evalMultipole_checked_zero_sine {K C : Type} [LinearOrderedField K] [Field C]
    (F : cmath K C) (prefactor : ℕ → K) (P : ℕ) (hP : 1 ≤ P) (rho alpha beta : K)
    (Ynm YnmTheta : ℕ → C) (h : F.sin alpha = 0) :
    evalMultipole_checked F prefactor P rho alpha beta Ynm YnmTheta = none := by
  unfold evalMultipole_checked
  dsimp only
  rw [h, for_range_checked_first P hP]
  · rfl
  · unfold evalMultipole_m_checked
    simp only [sdiv_zero, Option.bind_eq_bind, Option.none_bind]

theorem evalLocal_checked_zero_sine {K C : Type} [LinearOrderedField K] [Field C]
    (F : cmath K C) (prefactor : ℕ → K) (P : ℕ) (hP : 1 ≤ P) (rho alpha beta : K)
    (Ynm YnmTheta : ℕ → C) (h : F.sin alpha = 0) :
    evalLocal_checked F prefactor P rho alpha beta Ynm YnmTheta = none := by
  unfold evalLocal_checked
  rw [h]
  by_cases hr : rho = 0
  · rw [hr, sdiv_zero]
    rfl
  · simp only [sdiv_some _ _ hr, Option.bind_eq_bind, Option.some_bind]
    rw [for_range_checked_first (2 * P) (by omega)]
    · rfl
    · unfold evalLocal_m_checked
      simp only [sdiv_zero, Option.bind_eq_bind, Option.none_bind]

theorem cart2sph_rounded_axis (F : cmath ℝ ℂ) (hF : F.exact) (p : ℕ) (hp : 1 ≤ p) (k : ℤ)
    (EPS : ℝ) (hE : 0 < EPS) (hk : EPS < (2 : ℝ) ^ (k - p)) :
    cart2sph_rounded F (round_to p) EPS ⟨0, 0, (2 : ℝ) ^ k⟩ = ((2 : ℝ) ^ k, 0, 0) := by
  obtain ⟨hsqrt, -, -, hacos, -⟩ := hF
  have hpos := two_zpow_pos k
  have hn : norm_rounded (round_to p) (⟨0, 0, (2 : ℝ) ^ k⟩ : vect ℝ) = (2 : ℝ) ^ (k + k) := by
    unfold norm_rounded
    simp only [mul_zero, round_to_zero, add_zero, zero_add]
    rw [← zpow_add₀ (by norm_num : (2 : ℝ) ≠ 0), round_to_two_zpow p hp,
      round_to_two_zpow p hp]
  have hs : Real.sqrt ((2 : ℝ) ^ (k + k)) = (2 : ℝ) ^ k := by
    rw [zpow_add₀ (by norm_num : (2 : ℝ) ≠ 0), Real.sqrt_mul_self hpos.le]
  have hq : (2 : ℝ) ^ k / (2 : ℝ) ^ k = 1 := div_self (ne_of_gt hpos)
  have h1 : round_to p (1 : ℝ) = 1 := by
    simpa using round_to_two_zpow p hp 0
  unfold cart2sph_rounded
  simp only [hn, hsqrt, hacos, hs, round_to_two_zpow p hp, round_to_absorbs p hp k EPS hE hk,
    hq, h1, Real.arccos_one, round_to_zero, abs_zero, add_zero, if_pos hE]

/-- C17: in the arithmetic of a binary floating-point type `real` with a significand of
`p` bits the guard `+ EPS` of `cart2sph` is lost for the vector `(0, 0, 2^k)` on the
z-axis whenever `0 < EPS < 2^(k-p)`: the sum `sqrt(norm) + EPS` rounds to `2^k`, and
`cart2sph` returns `r = 2^k`, `theta = acos(1) = 0` and `phi = 0`. The polar angle is
not positive, its sine is zero, and `sph2cart`, `evalMultipole` and `evalLocal` divide by
zero at it. Without rounding the same call returns a positive polar angle. -/
theorem cart2sph_guard_lost_in_rounding (F : cmath ℝ ℂ) (hF : F.exact) (p : ℕ)
    (hp : 1 ≤ p) (k : ℤ) (EPS : ℝ) (hE : 0 < EPS) (hk : EPS < (2 : ℝ) ^ (k - p)) :
    cart2sph_rounded F (round_to p) EPS ⟨0, 0, (2 : ℝ) ^ k⟩ = ((2 : ℝ) ^ k, 0, 0) ∧
    ¬ 0 < (cart2sph_rounded F (round_to p) EPS ⟨0, 0, (2 : ℝ) ^ k⟩).2.1 ∧
    F.sin (cart2sph_rounded F (round_to p) EPS ⟨0, 0, (2 : ℝ) ^ k⟩).2.1 = 0 ∧
    (∀ (φ : ℝ) (spherical : vect ℝ),
      sph2cart_checked F (cart2sph_rounded F (round_to p) EPS ⟨0, 0, (2 : ℝ) ^ k⟩).1
        (cart2sph_rounded F (round_to p) EPS ⟨0, 0, (2 : ℝ) ^ k⟩).2.1 φ spherical = none) ∧
    (∀ (prefactor : ℕ → ℝ) (P : ℕ) (β : ℝ) (Ynm YnmTheta : ℕ → ℂ), 1 ≤ P →
      evalMultipole_checked F prefactor P
          (cart2sph_rounded F (round_to p) EPS ⟨0, 0, (2 : ℝ) ^ k⟩).1
          (cart2sph_rounded F (round_to p) EPS ⟨0, 0, (2 : ℝ) ^ k⟩).2.1 β Ynm YnmTheta =
        none ∧
      evalLocal_checked F prefactor P
          (cart2sph_rounded F (round_to p) EPS ⟨0, 0, (2 : ℝ) ^ k⟩).1
          (cart2sph_rounded F (round_to p) EPS ⟨0, 0, (2 : ℝ) ^ k⟩).2.1 β Ynm YnmTheta =
        none) ∧
    cart2sph_rounded F (fun x => x) EPS ⟨0, 0, (2 : ℝ) ^ k⟩ =
      cart2sph F EPS ⟨0, 0, (2 : ℝ) ^ k⟩ ∧
    0 < (cart2sph F EPS ⟨0, 0, (2 : ℝ) ^ k⟩).2.1 := by
  have hc := cart2sph_rounded_axis F hF p hp k EPS hE hk
  have hs : F.sin 0 = 0 := by rw [hF.2.2.1, Real.sin_zero]
  rw [hc]
  refine ⟨rfl, lt_irrefl 0, hs, fun φ spherical => sph2cart_checked_zero_sine F _ _ φ _ hs,
    fun prefactor P β Ynm YnmTheta hP =>
      ⟨evalMultipole_checked_zero_sine F prefactor P hP _ _ β Ynm YnmTheta hs,
        evalLocal_checked_zero_sine F prefactor P hP _ _ β Ynm YnmTheta hs⟩,
    rfl, (cart2sph_range F hF EPS hE _).2.1⟩

/-- An instance: double precision, `p = 53`, the vector `(0, 0, 2^35)` and
`EPS = 1e-6`. -/
theorem cart2sph_guard_lost_in_rounding_witness :
    cmath.exact (⟨Real.sqrt, Real.cos, Real.sin, Real.arccos, Real.arctan, Real.pi,
        Complex.ofReal, starRingEnd ℂ, Complex.re, Complex.exp,
        fun (z : ℂ) (t : ℝ) => z ^ (t : ℂ), Complex.I⟩ : cmath ℝ ℂ) ∧
      1 ≤ 53 ∧ (0 : ℝ) < 1 / 1000000 ∧ (1 / 1000000 : ℝ) < (2 : ℝ) ^ ((35 : ℤ) - (53 : ℕ)) ∧
      cart2sph_rounded (⟨Real.sqrt, Real.cos, Real.sin, Real.arccos, Real.arctan, Real.pi,
        Complex.ofReal, starRingEnd ℂ, Complex.re, Complex.exp,
        fun (z : ℂ) (t : ℝ) => z ^ (t : ℂ), Complex.I⟩ : cmath ℝ ℂ)
        (round_to 53) (1 / 1000000) ⟨0, 0, (2 : ℝ) ^ (35 : ℤ)⟩ = ((2 : ℝ) ^ (35 : ℤ), 0, 0) := by
  have h : (1 / 1000000 : ℝ) < (2 : ℝ) ^ ((35 : ℤ) - (53 : ℕ)) := by
    have e : ((35 : ℤ) - (53 : ℕ)) = -18 := by norm_num
    rw [e, zpow_neg]
    norm_num
  exact ⟨⟨rfl, rfl, rfl, rfl, rfl, rfl, rfl, rfl, rfl, rfl, rfl, rfl⟩, by norm_num,
    by norm_num, h,
    (cart2sph_guard_lost_in_rounding _
      ⟨rfl, rfl, rfl, rfl, rfl, rfl, rfl, rfl, rfl, rfl, rfl, rfl⟩ 53 (by norm_num) 35
      (1 / 1000000) (by norm_num) h).1⟩

end SphericalLaplaceKernel

namespace Octree

/-! ## The value of `levels()` -/

/-- C31, as stated, fails: in the tree of two points with the Morton codes 0 and 1 the
boxes have the levels 0 to 10, and `levels()` returns 11: the value is not the maximum
level of a box, and it is the level of no box. -/
theorem levels_above_maximum_level :
    construct_tree (fun _ => true) (fun c : Nat => c) [0, 1] 20 = .ok tree_0_1 ∧
    levels tree_0_1 = 11 ∧
    (∀ b ∈ tree_0_1.box_data_, b.level ≤ 10) ∧
    (∃ b ∈ tree_0_1.box_data_, b.level = 10) ∧
    ∀ b ∈ tree_0_1.box_data_, levels tree_0_1 ≠ b.level :=
  ⟨construct_tree_0_1, rfl, by decide, by decide, by decide⟩

end Octree
